import Mathlib

/-!
# qt_graphics_editor: the shape document and its undo/redo engine

A shallow embedding of `src/drawingarea.cpp`, `src/shape.cpp`, `src/ellipse.cpp` and
`src/shapefactory.cpp`.

Modelling conventions

* A `Shape *` is a `Ptr` (a natural number); `0` is `nullptr`.  The objects live in
  `DrawingArea.heap`; `new` takes the next unused address (`nextPtr`), addresses are never
  handed out twice.  `delete p` appends `p` to the list `destroyed`.  A `delete` of a non-null
  pointer that is not the address of a live object (an indeterminate value, or an object
  destroyed before) is undefined behaviour in C++; such a call is entered in the list
  `undefinedDeletes` as well, and a state with an entry there is a state after undefined
  behaviour: what the compiled program does from there on is not determined by the source.
* `int`, `qsizetype` and the integer pixel coordinates delivered by `QMouseEvent::pos()` are
  `Int`; list sizes stay far below the machine range.
* `Operation op;` in the source leaves every field indeterminate.  Each function that declares
  such a local receives the indeterminate contents as an argument `u : Nat → Operation`
  (`u 0` for the first loop iteration, `u 1` for the second, ...), and only the fields the
  source assigns are overwritten.
* Indexing a `QList` outside its range is undefined behaviour; a function that can do so
  returns `Option` and yields `none` there.
* `update()` and `emit selectionChanged()` have no effect on the document state and are left out.
-/

/-- Address of a heap-allocated `Shape`; `0` is `nullptr`. -/
abbrev Ptr := Nat

/-- Enum `Shape::ShapeType` of `shape.h`. -/
inductive ShapeType where
  | Ellipse
  | Rectangle
  | Line
  | Polygon
  deriving DecidableEq, Repr

/-- Enum `DrawingArea::EditMode` of `drawingarea.h`. -/
inductive EditMode where
  | Draw
  | Select
  | Move
  | Resize
  deriving DecidableEq, Repr

/-- Enum `DrawingArea::OperationType` of `drawingarea.h`. -/
inductive OperationType where
  | AddShape
  | DeleteShape
  | ModifyShape
  | MoveShape
  | ResizeShape
  | LayerChange
  deriving DecidableEq, Repr

/-- The mouse buttons a `QMouseEvent` distinguishes for this widget. -/
inductive MouseButton where
  | LeftButton
  | RightButton
  | MiddleButton
  deriving DecidableEq, Repr

/-- The value of `QMouseEvent::modifiers()`: exactly Ctrl, nothing, or anything else. -/
inductive KeyboardModifiers where
  | NoModifier
  | ControlModifier
  | OtherModifiers
  deriving DecidableEq, Repr

/-- The keys `keyPressEvent` distinguishes. -/
inductive Key where
  | Key_Delete
  | Key_Escape
  | Key_Other
  deriving DecidableEq, Repr

/-- A `QPointF` with integer pixel coordinates. -/
structure QPointF where
  x : Int
  y : Int
  deriving DecidableEq, Repr

/-- A `QRectF`, stored as Qt stores it: corner `(xp, yp)`, width `w`, height `h`. -/
structure QRectF where
  xp : Int
  yp : Int
  w : Int
  h : Int
  deriving DecidableEq, Repr

/-- A `QColor`, as its RGB value. -/
abbrev QColor := Nat

/-- `Qt::black`. -/
def Qt.black : QColor := 0x000000

/-- `Qt::white`. -/
def Qt.white : QColor := 0xffffff

/-- The data members of class `Shape` (`shape.h`). -/
structure Shape where
  m_id : Int
  m_type : ShapeType
  m_color : QColor
  m_lineWidth : Int
  m_boundingRect : QRectF
  m_selected : Bool
  m_filled : Bool
  m_fillColor : QColor
  deriving DecidableEq, Repr

/-- Struct `DrawingArea::Operation` of `drawingarea.h`; it has no member initialisers. -/
structure Operation where
  type : OperationType
  shape : Ptr
  oldShape : Ptr
  oldIndex : Int
  newIndex : Int
  deriving DecidableEq, Repr

/-- The data members of class `DrawingArea` (`drawingarea.h`), followed by the process
memory the class works on: the heap of shapes, the allocation cursor, the static counter
`Shape::s_nextId`, the record of `delete` calls, and the record of those `delete` calls whose
behaviour is undefined. -/
structure DrawingArea where
  m_shapes : List Ptr
  m_currentShapeType : ShapeType
  m_editMode : EditMode
  m_currentColor : QColor
  m_currentLineWidth : Int
  m_currentFilled : Bool
  m_currentFillColor : QColor
  m_tempShape : Ptr
  m_startPoint : QPointF
  m_endPoint : QPointF
  m_isDrawing : Bool
  m_selectedShapes : List Ptr
  m_lastMousePos : QPointF
  m_isMoving : Bool
  m_isResizing : Bool
  m_resizeHandle : Int
  m_moveStartPositions : List (Ptr × Ptr)
  m_resizeStartShape : Ptr
  m_undoStack : List Operation
  m_redoStack : List Operation
  m_maxUndoSteps : Int
  heap : Ptr → Shape
  nextPtr : Ptr
  s_nextId : Int
  destroyed : List Ptr
  undefinedDeletes : List Ptr

/-! ## Qt containers and geometry -/

namespace QList

/-- `QList::indexOf`: index of the first occurrence, `-1` when absent. -/
def indexOf (l : List Ptr) (p : Ptr) : Int :=
  if p ∈ l then (l.indexOf p : Int) else -1

/-- `QList::operator[]`; `none` outside `[0, size)`. -/
def at? (l : List Ptr) (i : Int) : Option Ptr :=
  if 0 ≤ i then l[i.toNat]? else none

/-- `QList::swapItemsAt(i, j)`; `none` when an index is outside `[0, size)`. -/
def swapItemsAt (l : List Ptr) (i j : Int) : Option (List Ptr) :=
  match at? l i, at? l j with
  | some a, some b => some ((l.set i.toNat b).set j.toNat a)
  | _, _ => none

/-- `QList::move(from, to)`: the item at `from` ends at index `to`; `none` when an index is
outside `[0, size)`. -/
def move (l : List Ptr) (fromIdx toIdx : Int) : Option (List Ptr) :=
  match at? l fromIdx with
  | some a =>
    if 0 ≤ toIdx ∧ toIdx < l.length then
      some ((l.eraseIdx fromIdx.toNat).insertIdx toIdx.toNat a)
    else none
  | none => none

end QList

/-- `qBound(min, val, max)` of QtGlobal: `qMax(min, qMin(max, val))`. -/
def qBound (lo val hi : Int) : Int := max lo (min hi val)

namespace QRectF

/-- `QRectF(topLeft, bottomRight)`. -/
def ofPoints (p q : QPointF) : QRectF := ⟨p.x, p.y, q.x - p.x, q.y - p.y⟩

/-- `QRectF::normalized()`: a rectangle with non-negative width and height. -/
def normalized (r : QRectF) : QRectF :=
  let r1 : QRectF := if r.w < 0 then { r with xp := r.xp + r.w, w := -r.w } else r
  if r1.h < 0 then { r1 with yp := r1.yp + r1.h, h := -r1.h } else r1

/-- `QRectF::translate(offset)`. -/
def translate (r : QRectF) (o : QPointF) : QRectF := { r with xp := r.xp + o.x, yp := r.yp + o.y }

/-- `QRectF::setLeft`: moves the left edge, the right edge stays. -/
def setLeft (r : QRectF) (pos : Int) : QRectF := { r with xp := pos, w := r.w - (pos - r.xp) }

/-- `QRectF::setRight`: moves the right edge. -/
def setRight (r : QRectF) (pos : Int) : QRectF := { r with w := pos - r.xp }

/-- `QRectF::setTop`: moves the top edge, the bottom edge stays. -/
def setTop (r : QRectF) (pos : Int) : QRectF := { r with yp := pos, h := r.h - (pos - r.yp) }

/-- `QRectF::setBottom`: moves the bottom edge. -/
def setBottom (r : QRectF) (pos : Int) : QRectF := { r with h := pos - r.yp }

/-- `QRectF::setTopLeft`. -/
def setTopLeft (r : QRectF) (p : QPointF) : QRectF := (r.setLeft p.x).setTop p.y

/-- `QRectF::setTopRight`. -/
def setTopRight (r : QRectF) (p : QPointF) : QRectF := (r.setRight p.x).setTop p.y

/-- `QRectF::setBottomLeft`. -/
def setBottomLeft (r : QRectF) (p : QPointF) : QRectF := (r.setLeft p.x).setBottom p.y

/-- `QRectF::setBottomRight`. -/
def setBottomRight (r : QRectF) (p : QPointF) : QRectF := (r.setRight p.x).setBottom p.y

/-- `QRectF::topLeft()`. -/
def topLeft (r : QRectF) : QPointF := ⟨r.xp, r.yp⟩

/-- `QRectF::topRight()`. -/
def topRight (r : QRectF) : QPointF := ⟨r.xp + r.w, r.yp⟩

/-- `QRectF::bottomLeft()`. -/
def bottomLeft (r : QRectF) : QPointF := ⟨r.xp, r.yp + r.h⟩

/-- `QRectF::bottomRight()`. -/
def bottomRight (r : QRectF) : QPointF := ⟨r.xp + r.w, r.yp + r.h⟩

/-- `QRectF::moveCenter(p)`. Only used on the 8 x 8 handle rectangle, whose half extents
are whole numbers. -/
def moveCenter (r : QRectF) (p : QPointF) : QRectF := { r with xp := p.x - r.w / 2, yp := p.y - r.h / 2 }

/-- The local `l` of `QRectF::contains`: the smaller x edge. -/
def loX (r : QRectF) : Int := if r.w < 0 then r.xp + r.w else r.xp

/-- The local `r` of `QRectF::contains`: the larger x edge. -/
def hiX (r : QRectF) : Int := if r.w < 0 then r.xp else r.xp + r.w

/-- The local `t` of `QRectF::contains`: the smaller y edge. -/
def loY (r : QRectF) : Int := if r.h < 0 then r.yp + r.h else r.yp

/-- The local `b` of `QRectF::contains`: the larger y edge. -/
def hiY (r : QRectF) : Int := if r.h < 0 then r.yp else r.yp + r.h

/-- `QRectF::contains(point)`: edges included, an empty extent contains nothing. -/
def contains (r : QRectF) (p : QPointF) : Bool :=
  if r.loX = r.hiX then false
  else if p.x < r.loX ∨ p.x > r.hiX then false
  else if r.loY = r.hiY then false
  else if p.y < r.loY ∨ p.y > r.hiY then false
  else true

end QRectF

/-- The shift of the indeterminate `Operation` contents to the next loop iteration. -/
def nextUninit (u : Nat → Operation) : Nat → Operation := fun k => u (k + 1)

namespace DrawingArea

/-! ## Heap access -/

/-- Stores `s` at address `p`. -/
def store (d : DrawingArea) (p : Ptr) (s : Shape) : DrawingArea :=
  { d with heap := fun q => if q = p then s else d.heap q }

/-- The pointer `p` is the address of a live object: an object was allocated there and has
not been destroyed. -/
def isLive (d : DrawingArea) (p : Ptr) : Prop :=
  p ≠ 0 ∧ p < d.nextPtr ∧ p ∉ d.destroyed

instance (d : DrawingArea) (p : Ptr) : Decidable (d.isLive p) :=
  inferInstanceAs (Decidable (p ≠ 0 ∧ p < d.nextPtr ∧ p ∉ d.destroyed))

/-- The C++ expression `delete p`. Nothing happens for `nullptr`. For the address of a live
object the object is destroyed (`p` is entered in `destroyed`). For every other non-null
value, be it an indeterminate pointer or the address of an object destroyed before, the
behaviour is undefined: the call is entered in `destroyed` and in `undefinedDeletes`. -/
def deletePtr (p : Ptr) (d : DrawingArea) : DrawingArea :=
  if p = 0 then d
  else if d.isLive p then { d with destroyed := d.destroyed ++ [p] }
  else { d with
    destroyed := d.destroyed ++ [p],
    undefinedDeletes := d.undefinedDeletes ++ [p] }

/-- `Shape::Shape()` of `shape.cpp` run by `new`: the object takes the next id of the
static counter. Returns the new address. -/
def newShape (d : DrawingArea) : Ptr × DrawingArea :=
  let s : Shape :=
    { m_id := d.s_nextId, m_type := ShapeType.Ellipse, m_color := Qt.black, m_lineWidth := 2,
      m_boundingRect := ⟨0, 0, 0, 0⟩, m_selected := false, m_filled := false,
      m_fillColor := Qt.white }
  let p := d.nextPtr
  (p, { (d.store p s) with nextPtr := p + 1, s_nextId := d.s_nextId + 1 })

/-- `ShapeFactory::createShape(Shape::ShapeType)` of `shapefactory.cpp`. `Ellipse::Ellipse()`
sets the type tag; `Rectangle::Rectangle()` (its source file is not part of `src/`) is taken
to do the same with its own tag. -/
def createShape (t : ShapeType) (d : DrawingArea) : Ptr × DrawingArea :=
  match t with
  | ShapeType.Ellipse =>
    let (p, d1) := d.newShape
    (p, d1.store p { d1.heap p with m_type := ShapeType.Ellipse })
  | ShapeType.Rectangle =>
    let (p, d1) := d.newShape
    (p, d1.store p { d1.heap p with m_type := ShapeType.Rectangle })
  | _ => (0, d)

/-- `DrawingArea::cloneShape`. -/
def cloneShape (original : Ptr) (d : DrawingArea) : Ptr × DrawingArea :=
  if original = 0 then (0, d)
  else
    let o := d.heap original
    let (clone, d1) := d.createShape o.m_type
    if clone ≠ 0 then
      (clone, d1.store clone { d1.heap clone with
        m_color := o.m_color, m_lineWidth := o.m_lineWidth, m_filled := o.m_filled,
        m_fillColor := o.m_fillColor, m_boundingRect := o.m_boundingRect })
    else (clone, d1)

/-! ## History engine -/

/-- The clean-up the source repeats for every operation it drops (`addOperation`,
`setMaxUndoSteps`, `clearRedoStack`, `clearUndoRedoStacks`): the shape of a `DeleteShape`
operation is deleted when it is not in the live sequence, and a non-null `oldShape` is
deleted. The source assigns `oldShape` in `ModifyShape`, `MoveShape` and `ResizeShape`
operations only; for the other kinds the test and the `delete` run on the indeterminate value
the field was left with. -/
def dropOperation (op : Operation) (d : DrawingArea) : DrawingArea :=
  let d1 :=
    if op.type = OperationType.DeleteShape ∧ op.shape ≠ 0 ∧ op.shape ∉ d.m_shapes then
      d.deletePtr op.shape
    else d
  if op.oldShape ≠ 0 then d1.deletePtr op.oldShape else d1

/-- `DrawingArea::clearRedoStack`. -/
def clearRedoStack (d : DrawingArea) : DrawingArea :=
  { (d.m_redoStack.foldl (fun acc op => acc.dropOperation op) d) with m_redoStack := [] }

/-- `DrawingArea::clearUndoRedoStacks`. -/
def clearUndoRedoStacks (d : DrawingArea) : DrawingArea :=
  clearRedoStack
    { (d.m_undoStack.foldl (fun acc op => acc.dropOperation op) d) with m_undoStack := [] }

/-- `DrawingArea::addOperation`. -/
def addOperation (op : Operation) (d : DrawingArea) : DrawingArea :=
  let d1 := { d with m_undoStack := d.m_undoStack ++ [op] }
  let d2 :=
    if (d1.m_undoStack.length : Int) > d1.m_maxUndoSteps then
      match d1.m_undoStack with
      | [] => d1
      | oldOp :: rest => dropOperation oldOp { d1 with m_undoStack := rest }
    else d1
  d2.clearRedoStack

/-- The loop of `DrawingArea::setMaxUndoSteps`: `takeFirst` while the stack is too long. -/
def trimUndoStack : Nat → DrawingArea → DrawingArea
  | 0, d => d
  | fuel + 1, d =>
    if (d.m_undoStack.length : Int) > d.m_maxUndoSteps then
      match d.m_undoStack with
      | [] => d
      | oldOp :: rest => trimUndoStack fuel (dropOperation oldOp { d with m_undoStack := rest })
    else d

/-- `DrawingArea::setMaxUndoSteps`. Every pass of the loop removes one entry, so the stack
length is enough fuel. -/
def setMaxUndoSteps (steps : Int) (d : DrawingArea) : DrawingArea :=
  if steps > 0 then
    let d1 := { d with m_maxUndoSteps := steps }
    trimUndoStack d1.m_undoStack.length d1
  else d

/-- `DrawingArea::getMaxUndoSteps`. -/
def getMaxUndoSteps (d : DrawingArea) : Int := d.m_maxUndoSteps

/-- `DrawingArea::canUndo`. -/
def canUndo (d : DrawingArea) : Bool := !d.m_undoStack.isEmpty

/-- `DrawingArea::canRedo`. -/
def canRedo (d : DrawingArea) : Bool := !d.m_redoStack.isEmpty

/-- The `ModifyShape` case of `undo` and of `redo` (the same code in both): the colour, line
width, filled flag, fill colour and bounding rectangle are exchanged between the live shape
and the stored clone. -/
def swapProperties (op : Operation) (d : DrawingArea) : DrawingArea :=
  if op.shape ≠ 0 ∧ op.oldShape ≠ 0 then
    let live := d.heap op.shape
    let d1 := d.store op.shape { d.heap op.shape with
      m_color := (d.heap op.oldShape).m_color,
      m_lineWidth := (d.heap op.oldShape).m_lineWidth,
      m_filled := (d.heap op.oldShape).m_filled,
      m_fillColor := (d.heap op.oldShape).m_fillColor,
      m_boundingRect := (d.heap op.oldShape).m_boundingRect }
    d1.store op.oldShape { d1.heap op.oldShape with
      m_color := live.m_color, m_lineWidth := live.m_lineWidth, m_filled := live.m_filled,
      m_fillColor := live.m_fillColor, m_boundingRect := live.m_boundingRect }
  else d

/-- The insertion shared by the `DeleteShape` case of `undo` and the `AddShape` case of
`redo`: at `oldIndex` when it is inside the sequence, else at the end. -/
def reinsert (op : Operation) (d : DrawingArea) : DrawingArea :=
  if op.shape ≠ 0 then
    if op.oldIndex ≥ 0 ∧ op.oldIndex < d.m_shapes.length then
      { d with m_shapes := d.m_shapes.insertIdx op.oldIndex.toNat op.shape }
    else { d with m_shapes := d.m_shapes ++ [op.shape] }
  else d

/-- The removal shared by the `AddShape` case of `undo` and the `DeleteShape` case of
`redo`: `removeOne` when the shape is in the sequence; the object is not deleted. -/
def takeOut (op : Operation) (d : DrawingArea) : DrawingArea :=
  if op.shape ≠ 0 ∧ op.shape ∈ d.m_shapes then
    { d with m_shapes := d.m_shapes.erase op.shape }
  else d

/-- The `MoveShape` / `ResizeShape` / `LayerChange` case of `undo` (with `index = oldIndex`)
and of `redo` (with `index = newIndex`). -/
def replay (op : Operation) (index : Int) (d : DrawingArea) : Option DrawingArea :=
  if op.shape ≠ 0 then
    let currentIndex := QList.indexOf d.m_shapes op.shape
    if currentIndex ≠ -1 ∧ index ≠ -1 then
      let targetIndex := qBound 0 index d.m_shapes.length
      if currentIndex ≠ targetIndex then
        (QList.move d.m_shapes currentIndex targetIndex).map fun l => { d with m_shapes := l }
      else some d
    else some d
  else some d

/-- `DrawingArea::undo`. -/
def undo (d : DrawingArea) : Option DrawingArea :=
  match d.m_undoStack.getLast? with
  | none => some d
  | some op =>
    let d1 := { d with
      m_undoStack := d.m_undoStack.dropLast,
      m_redoStack := d.m_redoStack ++ [op],
      m_selectedShapes := [] }
    match op.type with
    | OperationType.AddShape => some (d1.takeOut op)
    | OperationType.DeleteShape => some (d1.reinsert op)
    | OperationType.ModifyShape => some (d1.swapProperties op)
    | OperationType.MoveShape => d1.replay op op.oldIndex
    | OperationType.ResizeShape => d1.replay op op.oldIndex
    | OperationType.LayerChange => d1.replay op op.oldIndex

/-- `DrawingArea::redo`. -/
def redo (d : DrawingArea) : Option DrawingArea :=
  match d.m_redoStack.getLast? with
  | none => some d
  | some op =>
    let d1 := { d with
      m_redoStack := d.m_redoStack.dropLast,
      m_undoStack := d.m_undoStack ++ [op],
      m_selectedShapes := [] }
    match op.type with
    | OperationType.AddShape => some (d1.reinsert op)
    | OperationType.DeleteShape => some (d1.takeOut op)
    | OperationType.ModifyShape => some (d1.swapProperties op)
    | OperationType.MoveShape => d1.replay op op.newIndex
    | OperationType.ResizeShape => d1.replay op op.newIndex
    | OperationType.LayerChange => d1.replay op op.newIndex

/-! ## Selection -/

/-- The loop `for (Shape *shape : list) shape->setSelected(v)`. -/
def setSelectedAll (v : Bool) (l : List Ptr) (d : DrawingArea) : DrawingArea :=
  l.foldl (fun acc p => acc.store p { acc.heap p with m_selected := v }) d

/-- `DrawingArea::clearSelection`. -/
def clearSelection (d : DrawingArea) : DrawingArea :=
  { (d.setSelectedAll false d.m_selectedShapes) with m_selectedShapes := [] }

/-- `DrawingArea::selectAll`. -/
def selectAll (d : DrawingArea) : DrawingArea :=
  let d1 := d.clearSelection
  let d2 := { d1 with m_selectedShapes := d1.m_shapes }
  d2.setSelectedAll true d2.m_selectedShapes

/-- The search of `DrawingArea::selectShapeAt` from the top of the z-order down: `l` is the
sequence reversed. `contains` is the virtual `Shape::contains` (a `QPainterPath` test for
`Ellipse`, and `rectangle.cpp` is not part of `src/`), supplied by the caller. -/
def findShapeAt (contains : Shape → QPointF → Bool) (pos : QPointF) (heap : Ptr → Shape) :
    List Ptr → Option Ptr
  | [] => none
  | shape :: rest =>
    if shape ≠ 0 ∧ contains (heap shape) pos = true then some shape
    else findShapeAt contains pos heap rest

/-- `DrawingArea::selectShapeAt`: the topmost shape containing `pos` is appended to the
selection (whether or not it is selected already). -/
def selectShapeAt (contains : Shape → QPointF → Bool) (pos : QPointF) (d : DrawingArea) :
    DrawingArea :=
  match findShapeAt contains pos d.heap d.m_shapes.reverse with
  | some shape => { d with m_selectedShapes := d.m_selectedShapes ++ [shape] }
  | none => d

/-- The loop of `DrawingArea::deleteSelectedShapes` over the selection. -/
def deleteLoop (u : Nat → Operation) : List Ptr → DrawingArea → DrawingArea
  | [], d => d
  | shape :: rest, d =>
    let op : Operation :=
      { u 0 with type := OperationType.DeleteShape, shape := shape,
                 oldIndex := QList.indexOf d.m_shapes shape }
    let d1 := d.addOperation op
    deleteLoop (nextUninit u) rest { d1 with m_shapes := d1.m_shapes.erase shape }

/-- `DrawingArea::deleteSelectedShapes`. -/
def deleteSelectedShapes (u : Nat → Operation) (d : DrawingArea) : DrawingArea :=
  { (deleteLoop u d.m_selectedShapes d) with m_selectedShapes := [] }

/-! ## Layer operations -/

/-- The list `indices` built by the four layer functions, before sorting. -/
def selectedIndices (d : DrawingArea) : List Int :=
  d.m_selectedShapes.map (QList.indexOf d.m_shapes)

/-- The `LayerChange` record the layer functions fill in. -/
def layerOp (u : Operation) (shape : Ptr) (oldIndex newIndex : Int) : Operation :=
  { u with type := OperationType.LayerChange, shape := shape, oldIndex := oldIndex,
           newIndex := newIndex }

/-- The loop of `DrawingArea::moveSelectedShapesUp` over the sorted indices. -/
def upLoop (u : Nat → Operation) : List Int → DrawingArea → Option DrawingArea
  | [], d => some d
  | index :: rest, d =>
    if index < (d.m_shapes.length : Int) - 1 then
      match QList.at? d.m_shapes index with
      | some shape =>
        let d1 := d.addOperation (layerOp (u 0) shape index (index + 1))
        match QList.swapItemsAt d1.m_shapes index (index + 1) with
        | some l => upLoop (nextUninit u) rest { d1 with m_shapes := l }
        | none => none
      | none => none
    else upLoop (nextUninit u) rest d

/-- `DrawingArea::moveSelectedShapesUp`. -/
def moveSelectedShapesUp (u : Nat → Operation) (d : DrawingArea) : Option DrawingArea :=
  if d.m_selectedShapes.isEmpty then some d
  else upLoop u (d.selectedIndices.insertionSort (fun a b => a ≥ b)) d

/-- The loop of `DrawingArea::moveSelectedShapesDown` over the sorted indices. -/
def downLoop (u : Nat → Operation) : List Int → DrawingArea → Option DrawingArea
  | [], d => some d
  | index :: rest, d =>
    if index > 0 then
      match QList.at? d.m_shapes index with
      | some shape =>
        let d1 := d.addOperation (layerOp (u 0) shape index (index - 1))
        match QList.swapItemsAt d1.m_shapes index (index - 1) with
        | some l => downLoop (nextUninit u) rest { d1 with m_shapes := l }
        | none => none
      | none => none
    else downLoop (nextUninit u) rest d

/-- `DrawingArea::moveSelectedShapesDown`. -/
def moveSelectedShapesDown (u : Nat → Operation) (d : DrawingArea) : Option DrawingArea :=
  if d.m_selectedShapes.isEmpty then some d
  else downLoop u (d.selectedIndices.insertionSort (fun a b => a ≤ b)) d

/-- The loop of `DrawingArea::moveSelectedShapesToTop`, with the local `topIndex`:
`takeAt(index)` followed by `append`. -/
def toTopLoop (u : Nat → Operation) : List Int → Int → DrawingArea → Option DrawingArea
  | [], _, d => some d
  | index :: rest, topIndex, d =>
    if index < topIndex then
      match QList.at? d.m_shapes index with
      | some shape =>
        let d1 := d.addOperation (layerOp (u 0) shape index topIndex)
        toTopLoop (nextUninit u) rest (topIndex - 1)
          { d1 with m_shapes := d1.m_shapes.eraseIdx index.toNat ++ [shape] }
      | none => none
    else toTopLoop (nextUninit u) rest topIndex d

/-- `DrawingArea::moveSelectedShapesToTop`. -/
def moveSelectedShapesToTop (u : Nat → Operation) (d : DrawingArea) : Option DrawingArea :=
  if d.m_selectedShapes.isEmpty then some d
  else
    toTopLoop u (d.selectedIndices.insertionSort (fun a b => a ≥ b))
      ((d.m_shapes.length : Int) - 1) d

/-- The loop of `DrawingArea::moveSelectedShapesToBottom`, with the local `bottomIndex`:
`takeAt(index)` followed by `insert(bottomIndex, shape)`. -/
def toBottomLoop (u : Nat → Operation) : List Int → Int → DrawingArea → Option DrawingArea
  | [], _, d => some d
  | index :: rest, bottomIndex, d =>
    if index > bottomIndex then
      match QList.at? d.m_shapes index with
      | some shape =>
        let d1 := d.addOperation (layerOp (u 0) shape index bottomIndex)
        toBottomLoop (nextUninit u) rest (bottomIndex + 1)
          { d1 with m_shapes :=
              (d1.m_shapes.eraseIdx index.toNat).insertIdx bottomIndex.toNat shape }
      | none => none
    else toBottomLoop (nextUninit u) rest bottomIndex d

/-- `DrawingArea::moveSelectedShapesToBottom`. -/
def moveSelectedShapesToBottom (u : Nat → Operation) (d : DrawingArea) : Option DrawingArea :=
  if d.m_selectedShapes.isEmpty then some d
  else toBottomLoop u (d.selectedIndices.insertionSort (fun a b => a ≤ b)) 0 d

/-! ## Style, move and resize -/

/-- The loop of `DrawingArea::updateSelectedShapeProperties` over the selection. -/
def updateLoop (u : Nat → Operation) : List Ptr → DrawingArea → DrawingArea
  | [], d => d
  | shape :: rest, d =>
    let (clone, d1) := d.cloneShape shape
    let op : Operation :=
      { u 0 with type := OperationType.ModifyShape, shape := shape, oldShape := clone,
                 oldIndex := QList.indexOf d1.m_shapes shape }
    let d2 := d1.addOperation op
    updateLoop (nextUninit u) rest
      (d2.store shape { d2.heap shape with
        m_color := d2.m_currentColor, m_lineWidth := d2.m_currentLineWidth,
        m_filled := d2.m_currentFilled, m_fillColor := d2.m_currentFillColor })

/-- `DrawingArea::updateSelectedShapeProperties`. -/
def updateSelectedShapeProperties (u : Nat → Operation) (d : DrawingArea) : DrawingArea :=
  updateLoop u d.m_selectedShapes d

/-- `DrawingArea::setCurrentColor`. -/
def setCurrentColor (color : QColor) (u : Nat → Operation) (d : DrawingArea) : DrawingArea :=
  updateSelectedShapeProperties u { d with m_currentColor := color }

/-- `DrawingArea::setCurrentLineWidth`. -/
def setCurrentLineWidth (width : Int) (u : Nat → Operation) (d : DrawingArea) : DrawingArea :=
  updateSelectedShapeProperties u { d with m_currentLineWidth := width }

/-- `DrawingArea::setCurrentFilled`. -/
def setCurrentFilled (filled : Bool) (u : Nat → Operation) (d : DrawingArea) : DrawingArea :=
  updateSelectedShapeProperties u { d with m_currentFilled := filled }

/-- `DrawingArea::setCurrentFillColor`. -/
def setCurrentFillColor (color : QColor) (u : Nat → Operation) (d : DrawingArea) :
    DrawingArea :=
  updateSelectedShapeProperties u { d with m_currentFillColor := color }

/-- `DrawingArea::setCurrentShapeType`. -/
def setCurrentShapeType (t : ShapeType) (d : DrawingArea) : DrawingArea :=
  { d with m_currentShapeType := t, m_editMode := EditMode.Draw }

/-- `DrawingArea::setEditMode`. -/
def setEditMode (mode : EditMode) (d : DrawingArea) : DrawingArea :=
  { d with m_editMode := mode }

/-- `DrawingArea::moveSelectedShapes`: `Shape::move(offset)` on every entry of the selection. -/
def moveSelectedShapes (offset : QPointF) (d : DrawingArea) : DrawingArea :=
  if d.m_selectedShapes.isEmpty then d
  else
    d.m_selectedShapes.foldl
      (fun acc p =>
        acc.store p { acc.heap p with m_boundingRect := (acc.heap p).m_boundingRect.translate offset })
      d

/-- The `switch (m_resizeHandle)` of `DrawingArea::resizeSelectedShape`: the rectangle with
the grabbed corner moved to `pos`; `none` is the `default: return`. -/
def moveCorner (handle : Int) (rect : QRectF) (pos : QPointF) : Option QRectF :=
  if handle = 0 then some (rect.setTopLeft pos)
  else if handle = 1 then some (rect.setTopRight pos)
  else if handle = 2 then some (rect.setBottomLeft pos)
  else if handle = 3 then some (rect.setBottomRight pos)
  else none

/-- `DrawingArea::resizeSelectedShape`. -/
def resizeSelectedShape (pos : QPointF) (d : DrawingArea) : DrawingArea :=
  if d.m_selectedShapes.length ≠ 1 ∨ d.m_resizeHandle = -1 then d
  else
    match d.m_selectedShapes.head? with
    | none => d
    | some shape =>
      if shape = 0 then d
      else
        match moveCorner d.m_resizeHandle (d.heap shape).m_boundingRect pos with
        | none => d
        | some rect =>
          let normalizedRect := rect.normalized
          if normalizedRect.w < 10 ∨ normalizedRect.h < 10 then d
          else d.store shape { d.heap shape with m_boundingRect := normalizedRect }

/-- `DrawingArea::getResizeHandle`, on the shape object itself. -/
def getResizeHandle (pos : QPointF) (shape : Ptr) (d : DrawingArea) : Int :=
  if shape = 0 then -1
  else
    let rect := (d.heap shape).m_boundingRect
    let handle : QRectF := ⟨-4, -4, 8, 8⟩
    if (handle.moveCenter rect.topLeft).contains pos = true then 0
    else if (handle.moveCenter rect.topRight).contains pos = true then 1
    else if (handle.moveCenter rect.bottomLeft).contains pos = true then 2
    else if (handle.moveCenter rect.bottomRight).contains pos = true then 3
    else -1

/-- `DrawingArea::updateTempShape`. -/
def updateTempShape (d : DrawingArea) : DrawingArea :=
  let d1 := { (d.deletePtr d.m_tempShape) with m_tempShape := 0 }
  let rect := (QRectF.ofPoints d1.m_startPoint d1.m_endPoint).normalized
  let (p, d2) := d1.createShape d1.m_currentShapeType
  let d3 := { d2 with m_tempShape := p }
  if p ≠ 0 then d3.store p { d3.heap p with m_boundingRect := rect } else d3

/-- `DrawingArea::clearAll`. -/
def clearAll (d : DrawingArea) : DrawingArea :=
  let d1 := d.clearUndoRedoStacks
  let d2 := d1.m_shapes.foldl (fun acc p => acc.deletePtr p) d1
  let d3 := { d2 with m_shapes := [], m_selectedShapes := [] }
  { (d3.deletePtr d3.m_tempShape) with m_tempShape := 0 }

/-! ## Event handlers -/

/-- `m_moveStartPositions[shape] = clone` on the `QHash`, kept as an association list: an
existing key gets the new value, a new key is added. (The iteration order of a `QHash` is
unspecified; the list order stands for it.) -/
def hashAssign (m : List (Ptr × Ptr)) (key value : Ptr) : List (Ptr × Ptr) :=
  if m.any (fun e => e.1 = key) then m.map (fun e => if e.1 = key then (key, value) else e)
  else m ++ [(key, value)]

/-- The loop of `mousePressEvent` (Move mode) that clones every selected shape into
`m_moveStartPositions`. -/
def recordMoveStart : List Ptr → DrawingArea → DrawingArea
  | [], d => d
  | shape :: rest, d =>
    let (clone, d1) := d.cloneShape shape
    recordMoveStart rest
      { d1 with m_moveStartPositions := hashAssign d1.m_moveStartPositions shape clone }

/-- The part of `mousePressEvent` (Resize mode) run on the single selected shape. -/
def beginResize (pos : QPointF) (d : DrawingArea) : DrawingArea :=
  match d.m_selectedShapes.head? with
  | none => d
  | some shape =>
    if shape ≠ 0 then
      let d1 := { d with m_resizeHandle := d.getResizeHandle pos shape }
      if d1.m_resizeHandle ≠ -1 then
        let (clone, d2) := { d1 with m_isResizing := true }.cloneShape shape
        { d2 with m_resizeStartShape := clone }
      else d1
    else d

/-- `DrawingArea::mousePressEvent`. -/
def mousePressEvent (contains : Shape → QPointF → Bool) (button : MouseButton)
    (modifiers : KeyboardModifiers) (pos : QPointF) (d : DrawingArea) : DrawingArea :=
  let d0 := { d with m_lastMousePos := pos }
  match d0.m_editMode with
  | EditMode.Draw =>
    if button = MouseButton.LeftButton then
      updateTempShape { d0 with m_isDrawing := true, m_startPoint := pos, m_endPoint := pos }
    else d0
  | EditMode.Select =>
    if button = MouseButton.LeftButton then
      let d1 := if modifiers ≠ KeyboardModifiers.ControlModifier then d0.clearSelection else d0
      d1.selectShapeAt contains pos
    else d0
  | EditMode.Move =>
    if button = MouseButton.LeftButton then
      let d1 := { d0 with m_isMoving := false, m_moveStartPositions := [] }
      if ¬ d1.m_selectedShapes.isEmpty then
        { (recordMoveStart d1.m_selectedShapes d1) with m_isMoving := true }
      else
        let d2 := d1.clearSelection.selectShapeAt contains pos
        if ¬ d2.m_selectedShapes.isEmpty then
          { (recordMoveStart d2.m_selectedShapes d2) with m_isMoving := true }
        else d2
    else d0
  | EditMode.Resize =>
    if button = MouseButton.LeftButton then
      let d1 := { d0 with m_isResizing := false, m_resizeHandle := -1, m_resizeStartShape := 0 }
      if ¬ d1.m_selectedShapes.isEmpty ∧ d1.m_selectedShapes.length = 1 then
        d1.beginResize pos
      else
        let d2 := d1.clearSelection.selectShapeAt contains pos
        if d2.m_selectedShapes.length = 1 then d2.beginResize pos else d2
    else d0

/-- `DrawingArea::mouseMoveEvent` (the cursor shape is not part of the document). -/
def mouseMoveEvent (pos : QPointF) (d : DrawingArea) : DrawingArea :=
  let delta : QPointF := ⟨pos.x - d.m_lastMousePos.x, pos.y - d.m_lastMousePos.y⟩
  let d0 := { d with m_lastMousePos := pos }
  match d0.m_editMode with
  | EditMode.Draw =>
    if d0.m_isDrawing = true then updateTempShape { d0 with m_endPoint := pos } else d0
  | EditMode.Select => d0
  | EditMode.Move =>
    if d0.m_isMoving = true ∧ ¬ d0.m_selectedShapes.isEmpty then d0.moveSelectedShapes delta
    else d0
  | EditMode.Resize =>
    if d0.m_isResizing = true ∧ d0.m_selectedShapes.length = 1 ∧ d0.m_resizeHandle ≠ -1 then
      match d0.m_selectedShapes.head? with
      | some shape => if shape ≠ 0 then d0.resizeSelectedShape pos else d0
      | none => d0
    else d0

/-- The loop of `mouseReleaseEvent` over `m_moveStartPositions`: one `MoveShape` operation
per entry, with `shape`, `oldShape` and `oldIndex` assigned. -/
def recordMoves (u : Nat → Operation) : List (Ptr × Ptr) → DrawingArea → DrawingArea
  | [], d => d
  | (shape, oldShape) :: rest, d =>
    if shape ≠ 0 ∧ oldShape ≠ 0 then
      let op : Operation :=
        { u 0 with type := OperationType.MoveShape, shape := shape, oldShape := oldShape,
                   oldIndex := QList.indexOf d.m_shapes shape }
      recordMoves (nextUninit u) rest (d.addOperation op)
    else recordMoves (nextUninit u) rest d

/-- The first block of `mouseReleaseEvent`: the end of a move gesture. -/
def endMoveGesture (u : Nat → Operation) (d : DrawingArea) : DrawingArea :=
  if d.m_isMoving = true ∧ ¬ d.m_moveStartPositions.isEmpty then
    { (recordMoves u d.m_moveStartPositions d) with m_moveStartPositions := [] }
  else d

/-- The second block of `mouseReleaseEvent`: the end of a resize gesture; the operation has
`shape` and `oldShape` assigned, both indices stay indeterminate. -/
def endResizeGesture (u : Operation) (d : DrawingArea) : DrawingArea :=
  if d.m_isResizing = true ∧ d.m_resizeStartShape ≠ 0 ∧ d.m_selectedShapes.length = 1 then
    match d.m_selectedShapes.head? with
    | some shape =>
      let d1 :=
        if shape ≠ 0 then
          d.addOperation { u with type := OperationType.ResizeShape, shape := shape,
                                  oldShape := d.m_resizeStartShape }
        else d
      { d1 with m_resizeStartShape := 0 }
    | none => d
  else d

/-- The accepted branch of the `Draw` case of `mouseReleaseEvent`: the temporary shape takes
the current style, is appended to the sequence, an `AddShape` operation with
`oldIndex = m_shapes.size() - 1` is recorded, and the shape becomes the selection. -/
def appendDrawnShape (u : Operation) (d : DrawingArea) : DrawingArea :=
  let t := d.m_tempShape
  let d1 := d.store t { d.heap t with
    m_color := d.m_currentColor, m_lineWidth := d.m_currentLineWidth,
    m_filled := d.m_currentFilled, m_fillColor := d.m_currentFillColor }
  let d2 := { d1 with m_shapes := d1.m_shapes ++ [t] }
  let op : Operation :=
    { u with type := OperationType.AddShape, shape := t,
             oldIndex := (d2.m_shapes.length : Int) - 1 }
  let d3 := (d2.addOperation op).clearSelection
  { d3 with m_selectedShapes := d3.m_selectedShapes ++ [t] }

/-- The `Draw` case of `mouseReleaseEvent`: the drawn shape is committed when its normalized
rectangle is wider and higher than 1, else it is deleted. -/
def commitDrawing (button : MouseButton) (u : Operation) (d : DrawingArea) : DrawingArea :=
  if d.m_isDrawing = true ∧ button = MouseButton.LeftButton then
    let d1 := { d with m_isDrawing := false }
    if d1.m_tempShape ≠ 0 then
      let rect := (QRectF.ofPoints d1.m_startPoint d1.m_endPoint).normalized
      if rect.w > 1 ∧ rect.h > 1 then { (d1.appendDrawnShape u) with m_tempShape := 0 }
      else { (d1.deletePtr d1.m_tempShape) with m_tempShape := 0 }
    else d1
  else d

/-- `DrawingArea::mouseReleaseEvent`. The `Operation` local of the draw case has the
indeterminate content `u 0`, that of the resize block `u 1`, those of the move loop `u 2`,
`u 3`, ... -/
def mouseReleaseEvent (button : MouseButton) (u : Nat → Operation) (d : DrawingArea) :
    DrawingArea :=
  let d1 := d.endMoveGesture (fun k => u (k + 2))
  let d2 := d1.endResizeGesture (u 1)
  let d3 := { d2 with m_isMoving := false, m_isResizing := false, m_resizeHandle := -1 }
  match d3.m_editMode with
  | EditMode.Draw => d3.commitDrawing button (u 0)
  | EditMode.Select => d3
  | EditMode.Move => { d3 with m_isMoving := false }
  | EditMode.Resize => { d3 with m_isResizing := false, m_resizeHandle := -1 }

/-- `DrawingArea::keyPressEvent`. -/
def keyPressEvent (key : Key) (u : Nat → Operation) (d : DrawingArea) : DrawingArea :=
  if key = Key.Key_Delete ∧ ¬ d.m_selectedShapes.isEmpty then d.deleteSelectedShapes u
  else if key = Key.Key_Escape then
    if d.m_isDrawing = true then
      { (d.deletePtr d.m_tempShape) with m_isDrawing := false, m_tempShape := 0 }
    else d.clearSelection
  else d

/-- The state after `DrawingArea::DrawingArea`: an empty document in Draw mode with the
default style and a history limit of 50. The constructor does not initialise
`m_resizeStartShape`; its indeterminate content is `r`. The heap cells are not yet in use,
`blank` is their content. -/
def init (r : Ptr) (blank : Shape) : DrawingArea :=
  { m_shapes := [], m_currentShapeType := ShapeType.Ellipse, m_editMode := EditMode.Draw,
    m_currentColor := Qt.black, m_currentLineWidth := 2, m_currentFilled := false,
    m_currentFillColor := Qt.white, m_tempShape := 0, m_startPoint := ⟨0, 0⟩,
    m_endPoint := ⟨0, 0⟩, m_isDrawing := false, m_selectedShapes := [],
    m_lastMousePos := ⟨0, 0⟩, m_isMoving := false, m_isResizing := false,
    m_resizeHandle := -1, m_moveStartPositions := [], m_resizeStartShape := r,
    m_undoStack := [], m_redoStack := [], m_maxUndoSteps := 50,
    heap := fun _ => blank, nextPtr := 1, s_nextId := 1, destroyed := [],
    undefinedDeletes := [] }

end DrawingArea

/-! ## The widget as a transition system -/

/-- The public slots and event handlers through which the window drives the widget. -/
inductive Call where
  | setCurrentShapeType (t : ShapeType)
  | setEditMode (mode : EditMode)
  | setCurrentColor (color : QColor) (u : Nat → Operation)
  | setCurrentLineWidth (width : Int) (u : Nat → Operation)
  | setCurrentFilled (filled : Bool) (u : Nat → Operation)
  | setCurrentFillColor (color : QColor) (u : Nat → Operation)
  | clearAll
  | selectAll
  | clearSelection
  | deleteSelectedShapes (u : Nat → Operation)
  | moveSelectedShapesUp (u : Nat → Operation)
  | moveSelectedShapesDown (u : Nat → Operation)
  | moveSelectedShapesToTop (u : Nat → Operation)
  | moveSelectedShapesToBottom (u : Nat → Operation)
  | undo
  | redo
  | setMaxUndoSteps (steps : Int)
  | mousePressEvent (button : MouseButton) (modifiers : KeyboardModifiers) (pos : QPointF)
  | mouseMoveEvent (pos : QPointF)
  | mouseReleaseEvent (button : MouseButton) (u : Nat → Operation)
  | keyPressEvent (key : Key) (u : Nat → Operation)

/-- Runs one call; `none` when the call indexes a list outside its range. -/
def Call.run (contains : Shape → QPointF → Bool) : Call → DrawingArea → Option DrawingArea
  | Call.setCurrentShapeType t, d => some (d.setCurrentShapeType t)
  | Call.setEditMode mode, d => some (d.setEditMode mode)
  | Call.setCurrentColor color u, d => some (d.setCurrentColor color u)
  | Call.setCurrentLineWidth width u, d => some (d.setCurrentLineWidth width u)
  | Call.setCurrentFilled filled u, d => some (d.setCurrentFilled filled u)
  | Call.setCurrentFillColor color u, d => some (d.setCurrentFillColor color u)
  | Call.clearAll, d => some d.clearAll
  | Call.selectAll, d => some d.selectAll
  | Call.clearSelection, d => some d.clearSelection
  | Call.deleteSelectedShapes u, d => some (d.deleteSelectedShapes u)
  | Call.moveSelectedShapesUp u, d => d.moveSelectedShapesUp u
  | Call.moveSelectedShapesDown u, d => d.moveSelectedShapesDown u
  | Call.moveSelectedShapesToTop u, d => d.moveSelectedShapesToTop u
  | Call.moveSelectedShapesToBottom u, d => d.moveSelectedShapesToBottom u
  | Call.undo, d => d.undo
  | Call.redo, d => d.redo
  | Call.setMaxUndoSteps steps, d => some (d.setMaxUndoSteps steps)
  | Call.mousePressEvent button modifiers pos, d =>
    some (d.mousePressEvent contains button modifiers pos)
  | Call.mouseMoveEvent pos, d => some (d.mouseMoveEvent pos)
  | Call.mouseReleaseEvent button u, d => some (d.mouseReleaseEvent button u)
  | Call.keyPressEvent key u, d => some (d.keyPressEvent key u)

/-- Runs a list of calls from left to right. -/
def runCalls (contains : Shape → QPointF → Bool) : List Call → DrawingArea → Option DrawingArea
  | [], d => some d
  | c :: rest, d =>
    match c.run contains d with
    | some d1 => runCalls contains rest d1
    | none => none

/-- The states the widget can be in: the constructed widget, and whatever a call leads to. -/
inductive Reachable (contains : Shape → QPointF → Bool) : DrawingArea → Prop where
  | init (r : Ptr) (blank : Shape) : Reachable contains (DrawingArea.init r blank)
  | step {d d1 : DrawingArea} (c : Call) :
      Reachable contains d → c.run contains d = some d1 → Reachable contains d1

/-! ## The text record of a shape: `Ellipse::save` and `Ellipse::load`

The Qt string functions are modelled on lists of characters. A coordinate is a whole number
in this model (`QRectF` above); `none` as a result of `toDouble`, `QColor.fromName` or `load`
stands for a value the model cannot hold (a fraction, a colour written otherwise than as
`#RRGGBB`), not for a failure of the code. Numbers stay far below the range of `double`. -/

/-- A `QString`, as its list of characters. -/
abbrev QString := List Char

namespace QString

/-- The value of a decimal digit. -/
def digitValue (c : Char) : Option Nat :=
  if '0' ≤ c ∧ c ≤ '9' then some (c.toNat - 48) else none

/-- The value of a hexadecimal digit, in either case. -/
def hexValue (c : Char) : Option Nat :=
  if '0' ≤ c ∧ c ≤ '9' then some (c.toNat - 48)
  else if 'a' ≤ c ∧ c ≤ 'f' then some (c.toNat - 87)
  else if 'A' ≤ c ∧ c ≤ 'F' then some (c.toNat - 55)
  else none

/-- The number written by a non-empty list of decimal digits. -/
def digitsValue (s : QString) : Option Nat :=
  if s = [] then none
  else s.foldl (fun acc c => match acc, digitValue c with
    | some n, some d => some (10 * n + d)
    | _, _ => none) (some 0)

/-- The place marker at the head of `s`, if there is one: `%` followed by one or two digits.
Returns the number of the marker and its length in characters. -/
def markerAt (s : QString) : Option (Nat × Nat) :=
  match s with
  | c0 :: c1 :: rest =>
    if c0 = '%' then
      match digitValue c1 with
      | some d1 =>
        match rest.head?.bind digitValue with
        | some d2 => some (10 * d1 + d2, 3)
        | none => some (d1, 2)
      | none => none
    else none
  | _ => none

/-- The lowest marker number that occurs in `s`. -/
def lowestMarker : QString → Option Nat
  | [] => none
  | c :: rest =>
    match markerAt (c :: rest), lowestMarker rest with
    | some (n, _), some m => some (min n m)
    | some (n, _), none => some n
    | none, r => r

/-- Replaces every marker with the number `n` by `a`; `skip` characters at the head belong
to a marker that has been replaced already. -/
def replaceMarker (n : Nat) (a : QString) : Nat → QString → QString
  | _, [] => []
  | skip + 1, _ :: rest => replaceMarker n a skip rest
  | 0, c :: rest =>
    match markerAt (c :: rest) with
    | some (m, len) =>
      if m = n then a ++ replaceMarker n a (len - 1) rest else c :: replaceMarker n a 0 rest
    | none => c :: replaceMarker n a 0 rest

/-- `QString::arg(const QString &a)`: every occurrence of the lowest-numbered place marker is
replaced by `a`; a string without a marker is returned as it is. -/
def arg (s a : QString) : QString :=
  match lowestMarker s with
  | some n => replaceMarker n a 0 s
  | none => s

/-- `QString::arg(int a)`: the argument in decimal digits, `-` before a negative number. -/
def number (n : Int) : QString :=
  if n < 0 then '-' :: Nat.toDigits 10 n.natAbs else Nat.toDigits 10 n.natAbs

/-- The digits after the decimal point with the trailing zeros removed. -/
def stripTrailingZeros (s : QString) : QString :=
  (s.reverse.dropWhile (fun c => c = '0')).reverse

/-- `QString::arg(double a)` with its default arguments `fieldWidth = 0`, `format = 'g'`,
`precision = -1`, for a whole number: format `'g'` with the default precision of 6
significant digits. A number below one million in absolute value is written with all its
digits. A larger one is rounded to 6 significant digits (a half is rounded up) and written
with an exponent of at least two digits, `d.ddddde+XX`, without trailing zeros in the
mantissa. -/
def numberG (v : Int) : QString :=
  let a := v.natAbs
  let sign : QString := if v < 0 then ['-'] else []
  if a < 1000000 then sign ++ Nat.toDigits 10 a
  else
    let e := (Nat.toDigits 10 a).length - 1
    let scale := 10 ^ (e - 5)
    let m := (a + scale / 2) / scale
    let m1 := if m ≥ 1000000 then m / 10 else m
    let e1 := if m ≥ 1000000 then e + 1 else e
    let ds := Nat.toDigits 10 m1
    let frac := stripTrailingZeros ds.tail
    let expDigits := if e1 < 10 then '0' :: Nat.toDigits 10 e1 else Nat.toDigits 10 e1
    sign ++ ds.take 1 ++ (if frac = [] then [] else '.' :: frac) ++ ['e', '+'] ++ expDigits

/-- `QString::split(sep)`, empty parts kept. -/
def split (sep : Char) : QString → List QString
  | [] => [[]]
  | c :: rest =>
    if c = sep then [] :: split sep rest
    else
      match split sep rest with
      | p :: ps => (c :: p) :: ps
      | [] => [[c]]

/-- White space as `QChar::isSpace` knows it in the ASCII range. -/
def isSpace (c : Char) : Bool := c = ' ' || (9 ≤ c.toNat && c.toNat ≤ 13)

/-- `QString::trimmed`. -/
def trimmed (s : QString) : QString :=
  ((s.dropWhile isSpace).reverse.dropWhile isSpace).reverse

/-- An optional sign at the head of `s`: whether it is `-`, and the rest. -/
def takeSign (s : QString) : Bool × QString :=
  match s with
  | c :: rest => if c = '-' then (true, rest) else if c = '+' then (false, rest) else (false, s)
  | [] => (false, [])

/-- `QString::toInt()`: the value of an optionally signed decimal numeral inside the range
of `int`, white space around it ignored; 0 when the conversion fails. -/
def toInt (s : QString) : Int :=
  let (neg, ds) := takeSign (trimmed s)
  match digitsValue ds with
  | some n =>
    let v : Int := if neg then -(n : Int) else (n : Int)
    if -2147483648 ≤ v ∧ v ≤ 2147483647 then v else 0
  | none => 0

/-- The exponent part of a floating-point numeral: nothing, or `e` / `E` with an optionally
signed decimal number. `none` when it is malformed. -/
def exponentValue (s : QString) : Option Int :=
  match s with
  | [] => some 0
  | c :: rest =>
    if c = 'e' ∨ c = 'E' then
      let (neg, ds) := takeSign rest
      (digitsValue ds).map fun n => if neg then -(n : Int) else (n : Int)
    else none

/-- `QString::toDouble()` for numerals that denote a whole number: sign, digits, an optional
fraction, an optional exponent, white space around it ignored. The result is `some 0` when
the conversion fails (Qt returns 0.0) and `none` when the numeral denotes a fraction. -/
def toDouble (s : QString) : Option Int :=
  let (neg, r0) := takeSign (trimmed s)
  let ip := r0.takeWhile (fun c => (digitValue c).isSome)
  let r1 := r0.dropWhile (fun c => (digitValue c).isSome)
  let fp := if r1.head? = some '.' then r1.tail.takeWhile (fun c => (digitValue c).isSome) else []
  let r2 := if r1.head? = some '.' then r1.tail.dropWhile (fun c => (digitValue c).isSome) else r1
  match digitsValue (ip ++ fp), exponentValue r2 with
  | some m, some ex =>
    let shift : Int := ex - (fp.length : Int)
    let sign : Int := if neg then -1 else 1
    if 0 ≤ shift then some (sign * (m * 10 ^ shift.toNat : Nat))
    else if m % 10 ^ (-shift).toNat = 0 then some (sign * (m / 10 ^ (-shift).toNat : Nat))
    else none
  | _, _ => some 0

end QString

/-- `QColor::name(QColor::HexRgb)`: `#` followed by the six lower-case hexadecimal digits of
the RGB value. -/
def QColor.name (c : QColor) : QString :=
  '#' :: [5, 4, 3, 2, 1, 0].map (fun i => Nat.digitChar (c / 16 ^ i % 16))

/-- `QColor(const QString &name)` for a name of the form `#RRGGBB`: the RGB value; 0, the RGB
value of an invalid colour, when one of the six characters is not a hexadecimal digit; `none`
for a name of any other form. -/
def QColor.fromName (s : QString) : Option QColor :=
  match s with
  | c :: ds =>
    if c = '#' ∧ ds.length = 6 then
      some ((ds.foldl (fun acc d => match acc, QString.hexValue d with
        | some n, some v => some (16 * n + v)
        | _, _ => none) (some 0)).getD 0)
    else none
  | [] => none

namespace Ellipse

/-- `Ellipse::save`: the format string with its nine place markers filled in one `arg` call
after the other. -/
def save (s : Shape) : QString :=
  let colorStr := QColor.name s.m_color
  let fillColorStr := QColor.name s.m_fillColor
  QString.arg (QString.arg (QString.arg (QString.arg (QString.arg (QString.arg (QString.arg
    (QString.arg (QString.arg "ellipse,%1,%2,%3,%4,%5,%6,%7,%8,%9".toList
      (QString.number s.m_id))
      (QString.numberG s.m_boundingRect.xp))
      (QString.numberG s.m_boundingRect.yp))
      (QString.numberG s.m_boundingRect.w))
      (QString.numberG s.m_boundingRect.h))
      colorStr)
      (QString.number s.m_lineWidth))
      (if s.m_filled then "true".toList else "false".toList))
      fillColorStr

/-- `Ellipse::load`: nothing happens unless the record has exactly 10 fields; the type tag
in field 0 is not read. -/
def load (data : QString) (s : Shape) : Option Shape :=
  let parts := QString.split ',' data
  if parts.length ≠ 10 then some s
  else
    match QString.toDouble (parts.getD 2 []), QString.toDouble (parts.getD 3 []),
      QString.toDouble (parts.getD 4 []), QString.toDouble (parts.getD 5 []),
      QColor.fromName (parts.getD 6 []), QColor.fromName (parts.getD 9 []) with
    | some x, some y, some w, some h, some color, some fillColor =>
      some { s with
        m_id := QString.toInt (parts.getD 1 []),
        m_boundingRect := ⟨x, y, w, h⟩,
        m_color := color,
        m_lineWidth := QString.toInt (parts.getD 7 []),
        m_filled := decide (parts.getD 8 [] = "true".toList),
        m_fillColor := fillColor }
    | _, _, _, _, _, _ => none

end Ellipse

/-! ## Auxiliary definitions used in the statements -/

namespace DrawingArea

/-- The undo stack after a push: the new entry is appended and, when the stack is then
longer than the limit, the oldest entry is removed. -/
def pushBounded (limit : Int) (stack : List Operation) (op : Operation) : List Operation :=
  if ((stack ++ [op]).length : Int) > limit then (stack ++ [op]).tail else stack ++ [op]

/-- The `LayerChange` operations `moveSelectedShapesToBottom` records when it moves the
shapes `moved` (in this order) of the sequence `shapes` to the slots `bottomIndex`,
`bottomIndex + 1`, ...: each with the index the shape had in `shapes` as `oldIndex` and its
slot as `newIndex`. -/
def bottomOps (u : Nat → Operation) (shapes : List Ptr) : List Ptr → Int → List Operation
  | [], _ => []
  | s :: rest, bottomIndex =>
    layerOp (u 0) s (QList.indexOf shapes s) bottomIndex ::
      bottomOps (nextUninit u) shapes rest (bottomIndex + 1)

/-- The call `addOperation(op)` made once for every entry of `ops`, in order. -/
def addOperations (ops : List Operation) (d : DrawingArea) : DrawingArea :=
  ops.foldl (fun acc op => acc.addOperation op) d

end DrawingArea

/-! ## Concrete inputs for the scenarios -/

/-- Modelled from the spec: the virtual `Shape::contains` (`Rectangle::contains` is in
`rectangle.cpp`, which is not part of `src/`, and `Ellipse::contains` goes through Qt's
`QPainterPath`). Spec 4.1: for Rectangle, axis-aligned containment; for Ellipse,
point-in-ellipse via the implicit quadratic form over the bounding box. The ellipse test
`((x - cx) / a)^2 + ((y - cy) / b)^2 <= 1` is written without division. -/
def hitTest (s : Shape) (p : QPointF) : Bool :=
  match s.m_type with
  | ShapeType.Rectangle => s.m_boundingRect.contains p
  | _ =>
    let r := s.m_boundingRect
    decide (r.w ≠ 0 ∧ r.h ≠ 0 ∧
      (2 * p.x - (2 * r.xp + r.w)) ^ 2 * r.h ^ 2 + (2 * p.y - (2 * r.yp + r.h)) ^ 2 * r.w ^ 2
        ≤ r.w ^ 2 * r.h ^ 2)

/-- One possible content of the indeterminate `Operation` locals: all fields zero. -/
def zeroUninit : Nat → Operation := fun _ => ⟨OperationType.AddShape, 0, 0, 0, 0⟩

/-- One possible content of unused heap cells. -/
def blankShape : Shape := ⟨0, ShapeType.Ellipse, 0, 0, ⟨0, 0, 0, 0⟩, false, false, 0⟩

/-- The freshly constructed widget used in the scenarios. -/
def startState : DrawingArea := DrawingArea.init 0 blankShape

/-- A draw gesture with the left button: press at `(x0, y0)`, drag to `(x1, y1)`, release. -/
def drawGesture (x0 y0 x1 y1 : Int) : List Call :=
  [Call.mousePressEvent MouseButton.LeftButton KeyboardModifiers.NoModifier ⟨x0, y0⟩,
   Call.mouseMoveEvent ⟨x1, y1⟩,
   Call.mouseReleaseEvent MouseButton.LeftButton zeroUninit]

/-- A left click at `(x, y)`, without modifier. -/
def click (x y : Int) : Call :=
  Call.mousePressEvent MouseButton.LeftButton KeyboardModifiers.NoModifier ⟨x, y⟩

/-- A left click at `(x, y)` with Ctrl held. -/
def ctrlClick (x y : Int) : Call :=
  Call.mousePressEvent MouseButton.LeftButton KeyboardModifiers.ControlModifier ⟨x, y⟩

/-- Four ellipses drawn side by side, at x = 0, 20, 40 and 60. With `startState` their
addresses are A = 2, B = 4, C = 6, D = 8 (the odd addresses are the rubber-band shapes the
press events created and the move events deleted). Then Select mode. -/
def fourShapes : List Call :=
  drawGesture 0 0 10 10 ++ drawGesture 20 0 30 10 ++ drawGesture 40 0 50 10 ++
    drawGesture 60 0 70 10 ++ [Call.setEditMode EditMode.Select]

/-- Three ellipses drawn side by side (A = 2, B = 4, C = 6), then Select mode. -/
def threeShapes : List Call :=
  drawGesture 0 0 10 10 ++ drawGesture 20 0 30 10 ++ drawGesture 40 0 50 10 ++
    [Call.setEditMode EditMode.Select]

/-- Three distinct operations, as pushed by three mutations. -/
def threeOps : List Operation :=
  [⟨OperationType.ModifyShape, 2, 3, 0, 0⟩, ⟨OperationType.LayerChange, 2, 0, 0, 1⟩,
   ⟨OperationType.DeleteShape, 2, 0, 1, 0⟩]

/-- The scenario of the bounded-history property: a rectangle drawn from (10,10) to (50,40),
the history limit set to 2, then three style changes on the (selected) rectangle. -/
def boundedHistoryScenario : List Call :=
  [Call.setCurrentShapeType ShapeType.Rectangle] ++ drawGesture 10 10 50 40 ++
    [Call.setMaxUndoSteps 2, Call.setCurrentColor 0xff0000 zeroUninit,
     Call.setCurrentLineWidth 3 zeroUninit, Call.setCurrentFilled true zeroUninit]

/-- The state the calls `cs` lead to from `startState` (`startState` itself should a call
fail). -/
def stateAfter (cs : List Call) : DrawingArea :=
  (runCalls hitTest cs startState).getD startState

/-- Three rectangles A, B, C (addresses 2, 4, 6) drawn side by side and the last one undone:
the sequence is `[A, B]` and the redo stack holds the `AddShape` operation of C. -/
def undoneDrawing : List Call :=
  [Call.setCurrentShapeType ShapeType.Rectangle] ++ drawGesture 0 0 10 10 ++
    drawGesture 20 0 30 10 ++ drawGesture 40 0 50 10 ++ [Call.undo]

/-- After `undoneDrawing`: A and B are selected by a click and a Ctrl-click. -/
def redoPendingSelected : DrawingArea :=
  stateAfter (undoneDrawing ++ [Call.setEditMode EditMode.Select, click 5 5, ctrlClick 25 5])

/-- After `undoneDrawing`: a new draw gesture is under way (pressed and dragged, not yet
released). -/
def redoPendingDrawing : DrawingArea :=
  stateAfter (undoneDrawing ++ [click 60 0, Call.mouseMoveEvent ⟨70, 10⟩])

/-- After `undoneDrawing`: a move gesture on A is under way. -/
def redoPendingMoving : DrawingArea :=
  stateAfter (undoneDrawing ++ [Call.setEditMode EditMode.Move, click 5 5,
    Call.mouseMoveEvent ⟨8, 8⟩])

/-- After `undoneDrawing`: a resize gesture on the top-left corner of A is under way (the
press at (2, 2) is inside A and inside the handle of that corner). -/
def redoPendingResizing : DrawingArea :=
  stateAfter (undoneDrawing ++ [Call.setEditMode EditMode.Resize, click 2 2])

/-- The scenario state of the move-to-top property: the sequence `[A, B, C]` (addresses 2,
4, 6) with B selected by a click. -/
def threeWithMiddleSelected : DrawingArea :=
  stateAfter (threeShapes ++ [click 25 5])

/-- The sequence `[A, B, C, D]` (addresses 2, 4, 6, 8) with D selected by a click and B added
by a Ctrl-click: the selection list is `[D, B]`. -/
def fourWithTwoSelected : DrawingArea :=
  stateAfter (fourShapes ++ [click 65 5, ctrlClick 25 5])

/-! ## Auxiliary definitions for the gesture and deletion properties -/

/-- The rectangle with the edges `left`, `top`, `right`, `bottom`. -/
def QRectF.ofEdges (left top right bottom : Int) : QRectF :=
  ⟨left, top, right - left, bottom - top⟩

/-- Follows the wording of the specification of `resizeSelectedShape`: the rectangle `r` with
the corner `handle` (0 top-left, 1 top-right, 2 bottom-left, 3 bottom-right) moved to `pos`;
the two edges that meet in the grabbed corner go through `pos`, the other two stay. -/
def cornerMovedTo (handle : Int) (r : QRectF) (pos : QPointF) : QRectF :=
  if handle = 0 then QRectF.ofEdges pos.x pos.y (r.xp + r.w) (r.yp + r.h)
  else if handle = 1 then QRectF.ofEdges r.xp pos.y pos.x (r.yp + r.h)
  else if handle = 2 then QRectF.ofEdges pos.x r.yp (r.xp + r.w) pos.y
  else QRectF.ofEdges r.xp r.yp pos.x pos.y

/-- One shape A drawn (address 2), then a second draw gesture under way that is one pixel
wide: pressed at (30, 30) and dragged to (31, 40). -/
def pendingTinyDrawing : DrawingArea :=
  stateAfter (drawGesture 0 0 10 10 ++ [click 30 30, Call.mouseMoveEvent ⟨31, 40⟩])

/-- One ellipse A drawn (address 2); the current style changed to red, width 3, filled with
green while nothing is selected; A selected again by a click; then a rectangle being drawn
from (30, 30) to (50, 40), not yet released. The rubber-band shape has the address 4. -/
def pendingDrawing : DrawingArea :=
  stateAfter (drawGesture 0 0 10 10 ++ [Call.clearSelection,
    Call.setCurrentColor 0xff0000 zeroUninit, Call.setCurrentLineWidth 3 zeroUninit,
    Call.setCurrentFilled true zeroUninit, Call.setCurrentFillColor 0x00ff00 zeroUninit,
    Call.setEditMode EditMode.Select, click 5 5,
    Call.setCurrentShapeType ShapeType.Rectangle,
    click 30 30, Call.mouseMoveEvent ⟨50, 40⟩])

namespace DrawingArea

/-- The `DeleteShape` record `deleteSelectedShapes` fills in. -/
def deleteOp (u : Operation) (shape : Ptr) (oldIndex : Int) : Operation :=
  { u with type := OperationType.DeleteShape, shape := shape, oldIndex := oldIndex }

/-- The `DeleteShape` operations `deleteSelectedShapes` records when it removes the shapes
`sel` (in this order) from the sequence `shapes`: each with the index the shape has in the
sequence from which the shapes before it have been removed already. -/
def deleteOps (u : Nat → Operation) : List Ptr → List Ptr → List Operation
  | [], _ => []
  | s :: rest, shapes =>
    deleteOp (u 0) s (QList.indexOf shapes s) ::
      deleteOps (nextUninit u) rest (shapes.erase s)

end DrawingArea

/-- The sequence `[A, B, C, D]` (addresses 2, 4, 6, 8) with C selected by a click and A added
by a Ctrl-click: the selection list is `[C, A]`. -/
def fourWithOuterSelected : DrawingArea :=
  stateAfter (fourShapes ++ [click 45 5, ctrlClick 5 5])

/-- The five values `cloneShape` copies from the original and the `ModifyShape` case of
`undo` / `redo` exchanges: colour, line width, filled flag, fill colour, bounding rectangle. -/
def Shape.properties (s : Shape) : QColor × Int × Bool × QColor × QRectF :=
  (s.m_color, s.m_lineWidth, s.m_filled, s.m_fillColor, s.m_boundingRect)

namespace DrawingArea

/-- The `ModifyShape` record `updateSelectedShapeProperties` fills in. -/
def modifyOp (u : Operation) (shape clone : Ptr) (oldIndex : Int) : Operation :=
  { u with type := OperationType.ModifyShape, shape := shape, oldShape := clone,
           oldIndex := oldIndex }

/-- The `ModifyShape` operations `updateSelectedShapeProperties` records for the selection
`sel` when the clones take the addresses `next`, `next + 1`, ... -/
def modifyOps (u : Nat → Operation) (shapes : List Ptr) : List Ptr → Ptr → List Operation
  | [], _ => []
  | s :: rest, next =>
    modifyOp (u 0) s next (QList.indexOf shapes s) ::
      modifyOps (nextUninit u) shapes rest (next + 1)

end DrawingArea

/-- One ellipse A drawn (address 2, black, width 2, not filled) and selected, then added to
the selection a second time by a Ctrl-click in Select mode: the selection list is `[A, A]`. -/
def oneShapeSelectedTwice : DrawingArea :=
  stateAfter (drawGesture 0 0 10 10 ++ [Call.setEditMode EditMode.Select, ctrlClick 5 5])

/-- The state in which `setCurrentColor(red)` calls `updateSelectedShapeProperties`:
`[A, B, C, D]` with the selection list `[C, A]` and the current colour red. -/
def fourWithOuterSelectedRed : DrawingArea :=
  { fourWithOuterSelected with m_currentColor := 0xff0000 }

/-- A default-constructed `Ellipse`, as `ShapeFactory::createShape(Shape::Ellipse)` returns it
in the freshly constructed widget: id 1, black, line width 2, empty rectangle, not filled. -/
def freshEllipse : Shape :=
  (startState.createShape ShapeType.Ellipse).2.heap (startState.createShape ShapeType.Ellipse).1

/-- An ellipse on the screen: id 7, red, line width 3, filled green, rectangle
(120, 80, 300, 200). -/
def screenEllipse : Shape :=
  ⟨7, ShapeType.Ellipse, 0xff0000, 3, ⟨120, 80, 300, 200⟩, false, true, 0x00ff00⟩

/-- The same ellipse with the x coordinate 1234567, a number with seven significant digits. -/
def wideEllipse : Shape :=
  { screenEllipse with m_boundingRect := ⟨1234567, 80, 300, 200⟩ }

/-! ## `ShapeFactory` on records and type names, `saveToFile` and `loadFromFile` -/

namespace Rectangle

/-- Modelled from the spec: `Rectangle::save` (`rectangle.cpp` is not part of `src/`).
Spec 4.1 and 6: `save()` gives a single-line record
`type,id,x,y,width,height,colorHex,lineWidth,filledBool,fillColorHex`, with `type` one of
"ellipse" and "rectangle". Taken to write the fields as `Ellipse::save` does, behind its own
tag. -/
def save (s : Shape) : QString :=
  QString.arg (QString.arg (QString.arg (QString.arg (QString.arg (QString.arg (QString.arg
    (QString.arg (QString.arg "rectangle,%1,%2,%3,%4,%5,%6,%7,%8,%9".toList
      (QString.number s.m_id))
      (QString.numberG s.m_boundingRect.xp))
      (QString.numberG s.m_boundingRect.yp))
      (QString.numberG s.m_boundingRect.w))
      (QString.numberG s.m_boundingRect.h))
      (QColor.name s.m_color))
      (QString.number s.m_lineWidth))
      (if s.m_filled then "true".toList else "false".toList))
      (QColor.name s.m_fillColor)

/-- Modelled from the spec: `Rectangle::load` (`rectangle.cpp` is not part of `src/`).
Spec 4.1: `load(record)` parses exactly that shape of record and leaves the shape unmodified
if the field count is not 10. Taken to read the record as `Ellipse::load` does. -/
def load (data : QString) (s : Shape) : Option Shape := Ellipse.load data s

end Rectangle

namespace ShapeFactory

/-- `ShapeFactory::createShape(const QString &data)`: the object is created from the tag in
field 0 (`new Ellipse()`, `new Rectangle()`, as in `createShape(Shape::ShapeType)`), then
`load(data)` runs on it. Returns the address of the shape, 0 for `nullptr`; `none` when
`load` has no result in the model. -/
def createShapeFromData (data : QString) (d : DrawingArea) : Option (Ptr × DrawingArea) :=
  let parts := QString.split ',' data
  if parts.isEmpty then some (0, d)
  else
    let typeStr := parts.getD 0 []
    if typeStr = "ellipse".toList then
      let (shape, d1) := d.createShape ShapeType.Ellipse
      (Ellipse.load data (d1.heap shape)).map fun s => (shape, d1.store shape s)
    else if typeStr = "rectangle".toList then
      let (shape, d1) := d.createShape ShapeType.Rectangle
      (Rectangle.load data (d1.heap shape)).map fun s => (shape, d1.store shape s)
    else some (0, d)

/-- `ShapeFactory::createShape(const QString &typeStr, const QRectF &rect)`.
`Ellipse::Ellipse(const QRectF &)` runs `Shape()`, `setType(Shape::Ellipse)` and
`setBoundingRect(rect)`; `Rectangle::Rectangle(const QRectF &)`, whose source file is not part
of `src/`, is taken to do the same with its own tag (rectangle.h: an object with the given
bounding rectangle). -/
def createShapeFromType (typeStr : QString) (rect : QRectF) (d : DrawingArea) :
    Ptr × DrawingArea :=
  if typeStr = "ellipse".toList ∨ typeStr = "Ellipse".toList then
    let (shape, d1) := d.newShape
    (shape, d1.store shape { d1.heap shape with
      m_type := ShapeType.Ellipse, m_boundingRect := rect })
  else if typeStr = "rectangle".toList ∨ typeStr = "Rectangle".toList then
    let (shape, d1) := d.newShape
    (shape, d1.store shape { d1.heap shape with
      m_type := ShapeType.Rectangle, m_boundingRect := rect })
  else (0, d)

end ShapeFactory

namespace DrawingArea

/-- The virtual call `shape->save()`. Only Ellipse and Rectangle objects exist; the two other
type tags have no class and give an empty record here. -/
def saveShape (s : Shape) : QString :=
  match s.m_type with
  | ShapeType.Ellipse => Ellipse.save s
  | ShapeType.Rectangle => Rectangle.save s
  | _ => []

/-- `DrawingArea::saveToFile` on a file that can be opened: the lines written, one per shape
of the sequence. -/
def saveToFile (d : DrawingArea) : List QString :=
  d.m_shapes.map fun shape => saveShape (d.heap shape)

/-- The loop of `DrawingArea::loadFromFile` over the lines of the file. -/
def loadLines : List QString → DrawingArea → Option DrawingArea
  | [], d => some d
  | l :: rest, d =>
    let line := QString.trimmed l
    if ¬ line.isEmpty then
      match ShapeFactory.createShapeFromData line d with
      | some (shape, d1) =>
        if shape ≠ 0 then loadLines rest { d1 with m_shapes := d1.m_shapes ++ [shape] }
        else loadLines rest d1
      | none => none
    else loadLines rest d

/-- `DrawingArea::loadFromFile` on a file that can be opened; `lines` is what
`QTextStream::readLine` returns, line by line. -/
def loadFromFile (lines : List QString) (d : DrawingArea) : Option DrawingArea :=
  loadLines lines d.clearAll

end DrawingArea

/-! ## Concrete inputs for the record, ownership and replay scenarios -/

/-- A first session of the program: two ellipses drawn side by side; they have the ids 2 and 4
(the ids 1 and 3 went to the rubber-band shapes of the two press events). -/
def twoEllipsesDrawn : DrawingArea :=
  stateAfter (drawGesture 0 0 10 10 ++ drawGesture 20 0 30 10)

/-- A second session: the freshly constructed widget loads the file the first session saved,
then a third ellipse is drawn. -/
def loadedThenDrawn : Option DrawingArea :=
  (DrawingArea.loadFromFile twoEllipsesDrawn.saveToFile startState).bind
    (runCalls hitTest (drawGesture 40 0 50 10))

/-- The ellipse A (address 2) is drawn and the drawing undone, then the ellipse B (address 4)
is drawn: the push of B's `AddShape` operation clears the redo stack, which held the
`AddShape` operation of A. -/
def undoneThenDrawn : DrawingArea :=
  stateAfter (drawGesture 0 0 10 10 ++ [Call.undo] ++ drawGesture 20 0 30 10)

/-- The ellipse A (address 2) is selected twice (drawn, then Ctrl-clicked in Select mode) and
deleted, which records two `DeleteShape` operations for it; then the document is cleared. -/
def deletedTwiceThenCleared : DrawingArea :=
  stateAfter (drawGesture 0 0 10 10 ++ [Call.setEditMode EditMode.Select, ctrlClick 5 5,
    Call.deleteSelectedShapes zeroUninit, Call.clearAll])

/-- Another possible content of the indeterminate `Operation` locals: both indices 7. -/
def staleUninit : Nat → Operation := fun _ => ⟨OperationType.AddShape, 0, 0, 7, 7⟩

/-- Two ellipses A and B (addresses 2 and 4) are drawn; B, still selected, is resized by its
top-left handle from (22, 2) to (15, -5). The `ResizeShape` operation recorded at the release
has its indices never assigned; they hold the indeterminate content 7. -/
def resizedWithStaleIndex : DrawingArea :=
  stateAfter (drawGesture 0 0 10 10 ++ drawGesture 20 0 30 10 ++
    [Call.setEditMode EditMode.Resize, click 22 2, Call.mouseMoveEvent ⟨15, -5⟩,
     Call.mouseReleaseEvent MouseButton.LeftButton staleUninit])

/-- As `resizedWithStaleIndex`, with the indeterminate content 0 for both indices. -/
def resizedWithZeroIndex : DrawingArea :=
  stateAfter (drawGesture 0 0 10 10 ++ drawGesture 20 0 30 10 ++
    [Call.setEditMode EditMode.Resize, click 22 2, Call.mouseMoveEvent ⟨15, -5⟩,
     Call.mouseReleaseEvent MouseButton.LeftButton zeroUninit])

/-- Two ellipses A and B (addresses 2 and 4) are drawn; B, still selected, is dragged in Move
mode from (25, 5) to (28, 9). The `MoveShape` operation recorded at the release has
`oldIndex = 1` assigned; `newIndex` holds the indeterminate content 7. -/
def movedWithStaleIndex : DrawingArea :=
  stateAfter (drawGesture 0 0 10 10 ++ drawGesture 20 0 30 10 ++
    [Call.setEditMode EditMode.Move, click 25 5, Call.mouseMoveEvent ⟨28, 9⟩,
     Call.mouseReleaseEvent MouseButton.LeftButton staleUninit])

namespace DrawingArea

/-- The `MoveShape` operations the loop of `mouseReleaseEvent` records for the entries `l` of
`m_moveStartPositions` while the sequence is `shapes`: one per entry with both pointers
non-null, with the index the shape has in `shapes` as `oldIndex`. -/
def moveOps (u : Nat → Operation) (shapes : List Ptr) : List (Ptr × Ptr) → List Operation
  | [] => []
  | (shape, oldShape) :: rest =>
    if shape ≠ 0 ∧ oldShape ≠ 0 then
      { u 0 with type := OperationType.MoveShape, shape := shape, oldShape := oldShape,
                 oldIndex := QList.indexOf shapes shape } ::
        moveOps (nextUninit u) shapes rest
    else moveOps (nextUninit u) shapes rest

end DrawingArea

/-- Three ellipses A, B, C (addresses 2, 4, 6); A is selected by a click and B by a
Ctrl-click, then in Move mode the two are dragged from (5, 5) to (8, 9): the state right
before the button is released. -/
def twoBeingMoved : DrawingArea :=
  stateAfter (threeShapes ++ [click 5 5, ctrlClick 25 5, Call.setEditMode EditMode.Move,
    click 5 5, Call.mouseMoveEvent ⟨8, 9⟩])

namespace DrawingArea

/-- The sequence after a series of take-and-insert steps. A step `(op, t)` is the step of a
layer function that recorded `op`: the shape `op.shape` stands at the index `op.oldIndex` and
is moved to the index `t`, different from `op.oldIndex`. `none` when an entry is no such
step. -/
def layerSteps : List Ptr → List (Operation × Nat) → Option (List Ptr)
  | l, [] => some l
  | l, (op, t) :: rest =>
    if op.type = OperationType.LayerChange ∧ 0 ≤ op.oldIndex ∧
        l[op.oldIndex.toNat]? = some op.shape ∧ t < l.length ∧ op.oldIndex.toNat ≠ t then
      layerSteps ((l.eraseIdx op.oldIndex.toNat).insertIdx t op.shape) rest
    else none

/-- The state `d1` is the state `d` after the steps `steps` of a layer function: the sequence
went through the steps, one operation per step was pushed with `addOperation`, in order, and
the heap, the selection and the history limit are those of `d`. -/
def LayerResult (d : DrawingArea) (steps : List (Operation × Nat)) (d1 : DrawingArea) : Prop :=
  layerSteps d.m_shapes steps = some d1.m_shapes ∧
  d1.m_undoStack = (d.addOperations (steps.map Prod.fst)).m_undoStack ∧
  d1.m_redoStack = (d.addOperations (steps.map Prod.fst)).m_redoStack ∧
  d1.m_maxUndoSteps = d.m_maxUndoSteps ∧ d1.heap = d.heap ∧
  d1.m_selectedShapes = d.m_selectedShapes

end DrawingArea

/-- A third possible content of the indeterminate `Operation` locals: `oldShape` holds the
stale value 99, the address of no object in the scenarios below. -/
def stalePointerUninit : Nat → Operation := fun _ => ⟨OperationType.AddShape, 0, 99, 0, 0⟩

/-- A draw gesture with the left button, the `Operation` local of the release holding the
indeterminate content `u`. -/
def drawGestureWith (u : Nat → Operation) (x0 y0 x1 y1 : Int) : List Call :=
  [Call.mousePressEvent MouseButton.LeftButton KeyboardModifiers.NoModifier ⟨x0, y0⟩,
   Call.mouseMoveEvent ⟨x1, y1⟩,
   Call.mouseReleaseEvent MouseButton.LeftButton u]

/-- The first steps of the scenario of the bounded-history property: a rectangle drawn from
(10,10) to (50,40), the history limit set to 2, and the colour of the (selected) rectangle
changed. The `AddShape` operation of the drawing has its `oldShape` never assigned; it holds
the stale value 99. -/
def staleRectangleLimitTwo : List Call :=
  [Call.setCurrentShapeType ShapeType.Rectangle] ++
    drawGestureWith stalePointerUninit 10 10 50 40 ++
    [Call.setMaxUndoSteps 2, Call.setCurrentColor 0xff0000 zeroUninit]

/-- An ellipse A is drawn and the drawing undone: the redo stack holds the `AddShape`
operation of A, whose `oldShape` was never assigned and holds the stale value 99. -/
def staleDrawingUndone : List Call :=
  drawGestureWith stalePointerUninit 0 0 10 10 ++ [Call.undo]

/-- Two ellipses A and B are drawn; the `AddShape` operation of A has the stale value 99 in
its `oldShape`, that of B the stale value 0. -/
def staleTwoDrawings : List Call :=
  drawGestureWith stalePointerUninit 0 0 10 10 ++ drawGesture 20 0 30 10

/-- One ellipse A is drawn; in Move mode the left button is pressed on A, which starts a move
gesture; the mode is switched to Draw while the button is held and a second press at
(30, 30) starts a draw gesture. The state right before the release. -/
def drawingWhileMoving : DrawingArea :=
  stateAfter (drawGesture 0 0 10 10 ++ [Call.setEditMode EditMode.Move, click 5 5,
    Call.setEditMode EditMode.Draw, click 30 30])

/-- One ellipse A is drawn and a click at (30, 30) in Draw mode leaves start and end point
at (30, 30); in Move mode the left button is pressed on A, which starts a move gesture, and
the mode is switched to Draw while the button is held. The state right before the
release. -/
def movingInDrawMode : DrawingArea :=
  stateAfter (drawGesture 0 0 10 10 ++ [click 30 30,
    Call.mouseReleaseEvent MouseButton.LeftButton zeroUninit,
    Call.setEditMode EditMode.Move, click 5 5, Call.setEditMode EditMode.Draw])

/-! ## Frame lemmas: which calls leave which part of the document alone -/

namespace DrawingArea

@[simp] theorem store_m_shapes (d : DrawingArea) (p : Ptr) (s : Shape) :
    (d.store p s).m_shapes = d.m_shapes := by
  rfl

@[simp] theorem store_m_selectedShapes (d : DrawingArea) (p : Ptr) (s : Shape) :
    (d.store p s).m_selectedShapes = d.m_selectedShapes := by
  rfl

@[simp] theorem store_m_undoStack (d : DrawingArea) (p : Ptr) (s : Shape) :
    (d.store p s).m_undoStack = d.m_undoStack := by
  rfl

@[simp] theorem store_m_redoStack (d : DrawingArea) (p : Ptr) (s : Shape) :
    (d.store p s).m_redoStack = d.m_redoStack := by
  rfl

@[simp] theorem store_m_maxUndoSteps (d : DrawingArea) (p : Ptr) (s : Shape) :
    (d.store p s).m_maxUndoSteps = d.m_maxUndoSteps := by
  rfl

@[simp] theorem deletePtr_m_shapes (d : DrawingArea) (p : Ptr) :
    (d.deletePtr p).m_shapes = d.m_shapes := by
  unfold deletePtr; split_ifs <;> rfl

@[simp] theorem deletePtr_m_selectedShapes (d : DrawingArea) (p : Ptr) :
    (d.deletePtr p).m_selectedShapes = d.m_selectedShapes := by
  unfold deletePtr; split_ifs <;> rfl

@[simp] theorem deletePtr_m_undoStack (d : DrawingArea) (p : Ptr) :
    (d.deletePtr p).m_undoStack = d.m_undoStack := by
  unfold deletePtr; split_ifs <;> rfl

@[simp] theorem deletePtr_m_redoStack (d : DrawingArea) (p : Ptr) :
    (d.deletePtr p).m_redoStack = d.m_redoStack := by
  unfold deletePtr; split_ifs <;> rfl

@[simp] theorem deletePtr_m_maxUndoSteps (d : DrawingArea) (p : Ptr) :
    (d.deletePtr p).m_maxUndoSteps = d.m_maxUndoSteps := by
  unfold deletePtr; split_ifs <;> rfl

@[simp] theorem newShape_m_shapes (d : DrawingArea) :
    d.newShape.2.m_shapes = d.m_shapes := by
  rfl

@[simp] theorem newShape_m_selectedShapes (d : DrawingArea) :
    d.newShape.2.m_selectedShapes = d.m_selectedShapes := by
  rfl

@[simp] theorem newShape_m_undoStack (d : DrawingArea) :
    d.newShape.2.m_undoStack = d.m_undoStack := by
  rfl

@[simp] theorem newShape_m_redoStack (d : DrawingArea) :
    d.newShape.2.m_redoStack = d.m_redoStack := by
  rfl

@[simp] theorem newShape_m_maxUndoSteps (d : DrawingArea) :
    d.newShape.2.m_maxUndoSteps = d.m_maxUndoSteps := by
  rfl

@[simp] theorem createShape_m_shapes (d : DrawingArea) (t : ShapeType) :
    (d.createShape t).2.m_shapes = d.m_shapes := by
  cases t <;> rfl

@[simp] theorem createShape_m_selectedShapes (d : DrawingArea) (t : ShapeType) :
    (d.createShape t).2.m_selectedShapes = d.m_selectedShapes := by
  cases t <;> rfl

@[simp] theorem createShape_m_undoStack (d : DrawingArea) (t : ShapeType) :
    (d.createShape t).2.m_undoStack = d.m_undoStack := by
  cases t <;> rfl

@[simp] theorem createShape_m_redoStack (d : DrawingArea) (t : ShapeType) :
    (d.createShape t).2.m_redoStack = d.m_redoStack := by
  cases t <;> rfl

@[simp] theorem createShape_m_maxUndoSteps (d : DrawingArea) (t : ShapeType) :
    (d.createShape t).2.m_maxUndoSteps = d.m_maxUndoSteps := by
  cases t <;> rfl

@[simp] theorem cloneShape_m_shapes (d : DrawingArea) (p : Ptr) :
    (d.cloneShape p).2.m_shapes = d.m_shapes := by
  unfold cloneShape
  by_cases h : p = 0
  · simp [h]
  · simp only [h, if_false]; split_ifs <;> simp

@[simp] theorem cloneShape_m_selectedShapes (d : DrawingArea) (p : Ptr) :
    (d.cloneShape p).2.m_selectedShapes = d.m_selectedShapes := by
  unfold cloneShape
  by_cases h : p = 0
  · simp [h]
  · simp only [h, if_false]; split_ifs <;> simp

@[simp] theorem cloneShape_m_undoStack (d : DrawingArea) (p : Ptr) :
    (d.cloneShape p).2.m_undoStack = d.m_undoStack := by
  unfold cloneShape
  by_cases h : p = 0
  · simp [h]
  · simp only [h, if_false]; split_ifs <;> simp

@[simp] theorem cloneShape_m_redoStack (d : DrawingArea) (p : Ptr) :
    (d.cloneShape p).2.m_redoStack = d.m_redoStack := by
  unfold cloneShape
  by_cases h : p = 0
  · simp [h]
  · simp only [h, if_false]; split_ifs <;> simp

@[simp] theorem cloneShape_m_maxUndoSteps (d : DrawingArea) (p : Ptr) :
    (d.cloneShape p).2.m_maxUndoSteps = d.m_maxUndoSteps := by
  unfold cloneShape
  by_cases h : p = 0
  · simp [h]
  · simp only [h, if_false]; split_ifs <;> simp

@[simp] theorem setSelectedAll_m_shapes (v : Bool) (l : List Ptr) (d : DrawingArea) :
    (d.setSelectedAll v l).m_shapes = d.m_shapes := by
  unfold setSelectedAll
  induction l generalizing d with
  | nil => rfl
  | cons p l ih => simp only [List.foldl_cons]; rw [ih]; rfl

@[simp] theorem setSelectedAll_m_selectedShapes (v : Bool) (l : List Ptr) (d : DrawingArea) :
    (d.setSelectedAll v l).m_selectedShapes = d.m_selectedShapes := by
  unfold setSelectedAll
  induction l generalizing d with
  | nil => rfl
  | cons p l ih => simp only [List.foldl_cons]; rw [ih]; rfl

@[simp] theorem setSelectedAll_m_undoStack (v : Bool) (l : List Ptr) (d : DrawingArea) :
    (d.setSelectedAll v l).m_undoStack = d.m_undoStack := by
  unfold setSelectedAll
  induction l generalizing d with
  | nil => rfl
  | cons p l ih => simp only [List.foldl_cons]; rw [ih]; rfl

@[simp] theorem setSelectedAll_m_redoStack (v : Bool) (l : List Ptr) (d : DrawingArea) :
    (d.setSelectedAll v l).m_redoStack = d.m_redoStack := by
  unfold setSelectedAll
  induction l generalizing d with
  | nil => rfl
  | cons p l ih => simp only [List.foldl_cons]; rw [ih]; rfl

@[simp] theorem setSelectedAll_m_maxUndoSteps (v : Bool) (l : List Ptr) (d : DrawingArea) :
    (d.setSelectedAll v l).m_maxUndoSteps = d.m_maxUndoSteps := by
  unfold setSelectedAll
  induction l generalizing d with
  | nil => rfl
  | cons p l ih => simp only [List.foldl_cons]; rw [ih]; rfl

@[simp] theorem dropOperation_m_shapes (d : DrawingArea) (op : Operation) :
    (d.dropOperation op).m_shapes = d.m_shapes := by
  unfold dropOperation; simp only []; split_ifs <;> simp

@[simp] theorem dropOperation_m_selectedShapes (d : DrawingArea) (op : Operation) :
    (d.dropOperation op).m_selectedShapes = d.m_selectedShapes := by
  unfold dropOperation; simp only []; split_ifs <;> simp

@[simp] theorem dropOperation_m_undoStack (d : DrawingArea) (op : Operation) :
    (d.dropOperation op).m_undoStack = d.m_undoStack := by
  unfold dropOperation; simp only []; split_ifs <;> simp

@[simp] theorem dropOperation_m_redoStack (d : DrawingArea) (op : Operation) :
    (d.dropOperation op).m_redoStack = d.m_redoStack := by
  unfold dropOperation; simp only []; split_ifs <;> simp

@[simp] theorem dropOperation_m_maxUndoSteps (d : DrawingArea) (op : Operation) :
    (d.dropOperation op).m_maxUndoSteps = d.m_maxUndoSteps := by
  unfold dropOperation; simp only []; split_ifs <;> simp

@[simp] theorem foldl_dropOperation_m_shapes (l : List Operation) (d : DrawingArea) :
    (l.foldl (fun acc op => acc.dropOperation op) d).m_shapes = d.m_shapes := by
  induction l generalizing d with
  | nil => rfl
  | cons op l ih => simp only [List.foldl_cons]; rw [ih]; simp

@[simp] theorem foldl_dropOperation_m_selectedShapes (l : List Operation) (d : DrawingArea) :
    (l.foldl (fun acc op => acc.dropOperation op) d).m_selectedShapes = d.m_selectedShapes := by
  induction l generalizing d with
  | nil => rfl
  | cons op l ih => simp only [List.foldl_cons]; rw [ih]; simp

@[simp] theorem foldl_dropOperation_m_undoStack (l : List Operation) (d : DrawingArea) :
    (l.foldl (fun acc op => acc.dropOperation op) d).m_undoStack = d.m_undoStack := by
  induction l generalizing d with
  | nil => rfl
  | cons op l ih => simp only [List.foldl_cons]; rw [ih]; simp

@[simp] theorem foldl_dropOperation_m_redoStack (l : List Operation) (d : DrawingArea) :
    (l.foldl (fun acc op => acc.dropOperation op) d).m_redoStack = d.m_redoStack := by
  induction l generalizing d with
  | nil => rfl
  | cons op l ih => simp only [List.foldl_cons]; rw [ih]; simp

@[simp] theorem foldl_dropOperation_m_maxUndoSteps (l : List Operation) (d : DrawingArea) :
    (l.foldl (fun acc op => acc.dropOperation op) d).m_maxUndoSteps = d.m_maxUndoSteps := by
  induction l generalizing d with
  | nil => rfl
  | cons op l ih => simp only [List.foldl_cons]; rw [ih]; simp

@[simp] theorem foldl_deletePtr_m_shapes (l : List Ptr) (d : DrawingArea) :
    (l.foldl (fun acc p => acc.deletePtr p) d).m_shapes = d.m_shapes := by
  induction l generalizing d with
  | nil => rfl
  | cons p l ih => simp only [List.foldl_cons]; rw [ih]; simp

@[simp] theorem foldl_deletePtr_m_selectedShapes (l : List Ptr) (d : DrawingArea) :
    (l.foldl (fun acc p => acc.deletePtr p) d).m_selectedShapes = d.m_selectedShapes := by
  induction l generalizing d with
  | nil => rfl
  | cons p l ih => simp only [List.foldl_cons]; rw [ih]; simp

@[simp] theorem foldl_deletePtr_m_undoStack (l : List Ptr) (d : DrawingArea) :
    (l.foldl (fun acc p => acc.deletePtr p) d).m_undoStack = d.m_undoStack := by
  induction l generalizing d with
  | nil => rfl
  | cons p l ih => simp only [List.foldl_cons]; rw [ih]; simp

@[simp] theorem foldl_deletePtr_m_redoStack (l : List Ptr) (d : DrawingArea) :
    (l.foldl (fun acc p => acc.deletePtr p) d).m_redoStack = d.m_redoStack := by
  induction l generalizing d with
  | nil => rfl
  | cons p l ih => simp only [List.foldl_cons]; rw [ih]; simp

@[simp] theorem foldl_deletePtr_m_maxUndoSteps (l : List Ptr) (d : DrawingArea) :
    (l.foldl (fun acc p => acc.deletePtr p) d).m_maxUndoSteps = d.m_maxUndoSteps := by
  induction l generalizing d with
  | nil => rfl
  | cons p l ih => simp only [List.foldl_cons]; rw [ih]; simp

end DrawingArea

namespace DrawingArea

@[simp] theorem clearRedoStack_m_shapes (d : DrawingArea) :
    d.clearRedoStack.m_shapes = d.m_shapes := by
  simp [clearRedoStack]

@[simp] theorem clearRedoStack_m_selectedShapes (d : DrawingArea) :
    d.clearRedoStack.m_selectedShapes = d.m_selectedShapes := by
  simp [clearRedoStack]

@[simp] theorem clearRedoStack_m_undoStack (d : DrawingArea) :
    d.clearRedoStack.m_undoStack = d.m_undoStack := by
  simp [clearRedoStack]

@[simp] theorem clearRedoStack_m_redoStack (d : DrawingArea) :
    d.clearRedoStack.m_redoStack = [] := by
  simp [clearRedoStack]

@[simp] theorem clearRedoStack_m_maxUndoSteps (d : DrawingArea) :
    d.clearRedoStack.m_maxUndoSteps = d.m_maxUndoSteps := by
  simp [clearRedoStack]

@[simp] theorem clearUndoRedoStacks_m_shapes (d : DrawingArea) :
    d.clearUndoRedoStacks.m_shapes = d.m_shapes := by
  simp [clearUndoRedoStacks]

@[simp] theorem clearUndoRedoStacks_m_selectedShapes (d : DrawingArea) :
    d.clearUndoRedoStacks.m_selectedShapes = d.m_selectedShapes := by
  simp [clearUndoRedoStacks]

@[simp] theorem clearUndoRedoStacks_m_undoStack (d : DrawingArea) :
    d.clearUndoRedoStacks.m_undoStack = [] := by
  simp [clearUndoRedoStacks]

@[simp] theorem clearUndoRedoStacks_m_redoStack (d : DrawingArea) :
    d.clearUndoRedoStacks.m_redoStack = [] := by
  simp [clearUndoRedoStacks]

@[simp] theorem clearUndoRedoStacks_m_maxUndoSteps (d : DrawingArea) :
    d.clearUndoRedoStacks.m_maxUndoSteps = d.m_maxUndoSteps := by
  simp [clearUndoRedoStacks]

@[simp] theorem addOperation_m_shapes (d : DrawingArea) (op : Operation) :
    (d.addOperation op).m_shapes = d.m_shapes := by
  unfold addOperation
  simp only [clearRedoStack_m_shapes]
  split_ifs
  · split <;> simp
  · rfl

@[simp] theorem addOperation_m_selectedShapes (d : DrawingArea) (op : Operation) :
    (d.addOperation op).m_selectedShapes = d.m_selectedShapes := by
  unfold addOperation
  simp only [clearRedoStack_m_selectedShapes]
  split_ifs
  · split <;> simp
  · rfl

@[simp] theorem addOperation_m_maxUndoSteps (d : DrawingArea) (op : Operation) :
    (d.addOperation op).m_maxUndoSteps = d.m_maxUndoSteps := by
  unfold addOperation
  simp only [clearRedoStack_m_maxUndoSteps]
  split_ifs
  · split <;> simp
  · rfl

@[simp] theorem addOperation_m_redoStack (d : DrawingArea) (op : Operation) :
    (d.addOperation op).m_redoStack = [] := by
  simp [addOperation]

theorem addOperation_m_undoStack (d : DrawingArea) (op : Operation) :
    (d.addOperation op).m_undoStack = pushBounded d.m_maxUndoSteps d.m_undoStack op := by
  unfold addOperation pushBounded
  simp only [clearRedoStack_m_undoStack]
  split_ifs with h
  · split
    · next h2 => simp at h2
    · next oldOp rest h2 => simp [h2]
  · rfl

theorem trimUndoStack_m_shapes (n : Nat) (d : DrawingArea) :
    (trimUndoStack n d).m_shapes = d.m_shapes := by
  induction n generalizing d with
  | zero => rfl
  | succ n ih =>
    unfold trimUndoStack
    split_ifs
    · split
      · rfl
      · rw [ih]; simp
    · rfl

theorem trimUndoStack_m_selectedShapes (n : Nat) (d : DrawingArea) :
    (trimUndoStack n d).m_selectedShapes = d.m_selectedShapes := by
  induction n generalizing d with
  | zero => rfl
  | succ n ih =>
    unfold trimUndoStack
    split_ifs
    · split
      · rfl
      · rw [ih]; simp
    · rfl

theorem trimUndoStack_m_redoStack (n : Nat) (d : DrawingArea) :
    (trimUndoStack n d).m_redoStack = d.m_redoStack := by
  induction n generalizing d with
  | zero => rfl
  | succ n ih =>
    unfold trimUndoStack
    split_ifs
    · split
      · rfl
      · rw [ih]; simp
    · rfl

@[simp] theorem setMaxUndoSteps_m_shapes (d : DrawingArea) (steps : Int) :
    (d.setMaxUndoSteps steps).m_shapes = d.m_shapes := by
  unfold setMaxUndoSteps; split_ifs
  · simp [trimUndoStack_m_shapes]
  · rfl

@[simp] theorem setMaxUndoSteps_m_selectedShapes (d : DrawingArea) (steps : Int) :
    (d.setMaxUndoSteps steps).m_selectedShapes = d.m_selectedShapes := by
  unfold setMaxUndoSteps; split_ifs
  · simp [trimUndoStack_m_selectedShapes]
  · rfl

@[simp] theorem setMaxUndoSteps_m_redoStack (d : DrawingArea) (steps : Int) :
    (d.setMaxUndoSteps steps).m_redoStack = d.m_redoStack := by
  unfold setMaxUndoSteps; split_ifs
  · simp [trimUndoStack_m_redoStack]
  · rfl

end DrawingArea

/-! ## The list operations of `QList` -/

namespace QList

theorem at?_eq_some {l : List Ptr} {i : Int} {a : Ptr} (h : at? l i = some a) :
    0 ≤ i ∧ i.toNat < l.length ∧ l[i.toNat]? = some a := by
  unfold at? at h
  split_ifs at h with h0
  refine ⟨h0, ?_, h⟩
  exact (List.getElem?_eq_some.mp h).1

theorem at?_of_lt {l : List Ptr} {i : Int} (h0 : 0 ≤ i) (h1 : i < l.length) :
    ∃ a, at? l i = some a ∧ l[i.toNat]? = some a := by
  have hlt : i.toNat < l.length := by omega
  refine ⟨l[i.toNat], ?_, ?_⟩
  · unfold at?; rw [if_pos h0]; exact List.getElem?_eq_getElem hlt
  · exact List.getElem?_eq_getElem hlt

theorem at?_mem {l : List Ptr} {i : Int} {a : Ptr} (h : at? l i = some a) : a ∈ l :=
  List.getElem?_mem (at?_eq_some h).2.2

theorem perm_cons_eraseIdx {l : List Ptr} {n : Nat} {a : Ptr} (h : l[n]? = some a) :
    l.Perm (a :: l.eraseIdx n) := by
  obtain ⟨hn, ha⟩ := List.getElem?_eq_some.mp h
  have h1 : l = l.take n ++ a :: l.drop (n + 1) := by
    conv_lhs => rw [← List.take_append_drop n l, List.drop_eq_getElem_cons hn, ha]
  rw [List.eraseIdx_eq_take_drop_succ]
  conv_lhs => rw [h1]
  exact List.perm_middle

theorem length_eraseIdx_of_getElem? {l : List Ptr} {n : Nat} {a : Ptr} (h : l[n]? = some a) :
    (l.eraseIdx n).length + 1 = l.length := by
  have := (perm_cons_eraseIdx h).length_eq
  simp at this
  omega

theorem swapItemsAt_perm {l l1 : List Ptr} {i j : Int} (h : swapItemsAt l i j = some l1) :
    l1.Perm l := by
  unfold swapItemsAt at h
  split at h
  · next a b ha hb =>
    injection h with h
    subst h
    obtain ⟨-, hi, hia⟩ := at?_eq_some ha
    obtain ⟨-, hj, hjb⟩ := at?_eq_some hb
    have ea : l[i.toNat] = a := by
      have := List.getElem?_eq_getElem hi; rw [this] at hia; exact Option.some.inj hia
    have eb : l[j.toNat] = b := by
      have := List.getElem?_eq_getElem hj; rw [this] at hjb; exact Option.some.inj hjb
    rw [List.perm_iff_count]
    intro x
    have hj1 : j.toNat < (l.set i.toNat b).length := by simpa using hj
    rw [List.count_set _ _ _ _ hj1, List.count_set _ _ _ _ hi]
    have hget : (l.set i.toNat b)[j.toNat] = b := by
      rw [List.getElem_set]
      split_ifs with hij
      · rfl
      · exact eb
    rw [hget, ea]
    have hca : (if (a == x) = true then 1 else 0) ≤ List.count x l := by
      split_ifs with hax
      · have : a = x := by simpa using hax
        subst this
        have : a ∈ l := ea ▸ List.getElem_mem hi
        exact List.count_pos_iff.mpr this
      · exact Nat.zero_le _
    omega
  · exact absurd h (by simp)

theorem swapItemsAt_of_lt {l : List Ptr} {i j : Int} (hi0 : 0 ≤ i) (hi : i < l.length)
    (hj0 : 0 ≤ j) (hj : j < l.length) : ∃ l1, swapItemsAt l i j = some l1 := by
  obtain ⟨a, ha, -⟩ := at?_of_lt hi0 hi
  obtain ⟨b, hb, -⟩ := at?_of_lt hj0 hj
  exact ⟨_, by unfold swapItemsAt; rw [ha, hb]⟩

theorem move_perm {l l1 : List Ptr} {i j : Int} (h : move l i j = some l1) : l1.Perm l := by
  unfold move at h
  split at h
  · next a ha =>
    split_ifs at h with hj
    injection h with h
    subst h
    obtain ⟨-, hi, hia⟩ := at?_eq_some ha
    have hlen := length_eraseIdx_of_getElem? hia
    have hj1 : j.toNat ≤ (l.eraseIdx i.toNat).length := by omega
    exact (List.perm_insertIdx a _ hj1).trans (perm_cons_eraseIdx hia).symm
  · exact absurd h (by simp)

theorem indexOf_nonneg_of_mem {l : List Ptr} {p : Ptr} (h : p ∈ l) :
    0 ≤ indexOf l p ∧ indexOf l p < l.length ∧ l[(indexOf l p).toNat]? = some p := by
  unfold indexOf
  rw [if_pos h]
  have hlt : List.indexOf p l < l.length := List.indexOf_lt_length.mpr h
  refine ⟨by omega, by omega, ?_⟩
  simp only [Int.toNat_ofNat]
  rw [List.getElem?_eq_getElem hlt]
  simp

theorem indexOf_lt_length (l : List Ptr) (p : Ptr) : indexOf l p < l.length := by
  unfold indexOf
  split_ifs with h
  · have hlt : List.indexOf p l < l.length := List.indexOf_lt_length.mpr h
    omega
  · omega

end QList

theorem qBound_of_mem_range {v hi : Int} (h0 : 0 ≤ v) (h1 : v ≤ hi) : qBound 0 v hi = v := by
  unfold qBound
  rw [min_eq_right h1, max_eq_right h0]

/-! ## The sequence and the selection under each call -/

namespace DrawingArea

@[simp] theorem clearSelection_m_shapes (d : DrawingArea) :
    d.clearSelection.m_shapes = d.m_shapes := by
  simp [clearSelection]

@[simp] theorem clearSelection_m_selectedShapes (d : DrawingArea) :
    d.clearSelection.m_selectedShapes = [] := by
  simp [clearSelection]

@[simp] theorem clearSelection_m_undoStack (d : DrawingArea) :
    d.clearSelection.m_undoStack = d.m_undoStack := by
  simp [clearSelection]

@[simp] theorem clearSelection_m_redoStack (d : DrawingArea) :
    d.clearSelection.m_redoStack = d.m_redoStack := by
  simp [clearSelection]

@[simp] theorem clearSelection_m_maxUndoSteps (d : DrawingArea) :
    d.clearSelection.m_maxUndoSteps = d.m_maxUndoSteps := by
  simp [clearSelection]

@[simp] theorem selectAll_m_shapes (d : DrawingArea) : d.selectAll.m_shapes = d.m_shapes := by
  simp [selectAll]

@[simp] theorem selectAll_m_selectedShapes (d : DrawingArea) :
    d.selectAll.m_selectedShapes = d.m_shapes := by
  simp [selectAll]

theorem findShapeAt_mem {contains : Shape → QPointF → Bool} {pos : QPointF}
    {heap : Ptr → Shape} {l : List Ptr} {s : Ptr}
    (h : findShapeAt contains pos heap l = some s) : s ∈ l := by
  induction l with
  | nil => simp [findShapeAt] at h
  | cons a l ih =>
    unfold findShapeAt at h
    split_ifs at h with hc
    · injection h with h; subst h; exact List.mem_cons_self _ _
    · exact List.mem_cons_of_mem _ (ih h)

@[simp] theorem selectShapeAt_m_shapes (contains : Shape → QPointF → Bool) (pos : QPointF)
    (d : DrawingArea) : (d.selectShapeAt contains pos).m_shapes = d.m_shapes := by
  unfold selectShapeAt; split <;> rfl

theorem selectShapeAt_m_selectedShapes (contains : Shape → QPointF → Bool) (pos : QPointF)
    (d : DrawingArea) :
    (d.selectShapeAt contains pos).m_selectedShapes = d.m_selectedShapes ∨
    ∃ s ∈ d.m_shapes, (d.selectShapeAt contains pos).m_selectedShapes = d.m_selectedShapes ++ [s] := by
  unfold selectShapeAt
  split
  · next s hs =>
    right
    exact ⟨s, List.mem_reverse.mp (findShapeAt_mem hs), rfl⟩
  · left; rfl

theorem deleteLoop_m_selectedShapes (u : Nat → Operation) (l : List Ptr) (d : DrawingArea) :
    (deleteLoop u l d).m_selectedShapes = d.m_selectedShapes := by
  induction l generalizing u d with
  | nil => rfl
  | cons s l ih => unfold deleteLoop; simp only []; rw [ih]; simp

@[simp] theorem deleteSelectedShapes_m_selectedShapes (u : Nat → Operation) (d : DrawingArea) :
    (d.deleteSelectedShapes u).m_selectedShapes = [] := by
  simp [deleteSelectedShapes]

theorem upLoop_frame (u : Nat → Operation) (l : List Int) (d d1 : DrawingArea)
    (h : upLoop u l d = some d1) :
    d1.m_selectedShapes = d.m_selectedShapes ∧ d1.m_shapes.Perm d.m_shapes := by
  induction l generalizing u d with
  | nil =>
    simp only [upLoop, Option.some.injEq] at h
    subst h; exact ⟨rfl, List.Perm.refl _⟩
  | cons i l ih =>
    unfold upLoop at h
    split_ifs at h with hi
    · split at h
      · next shape hs =>
        simp only [] at h
        split at h
        · next l1 hl1 =>
          obtain ⟨h1, h2⟩ := ih _ _ h
          simp only [addOperation_m_shapes] at hl1
          exact ⟨by simpa using h1, h2.trans (by simpa using QList.swapItemsAt_perm hl1)⟩
        · exact absurd h (by simp)
      · exact absurd h (by simp)
    · exact ih _ _ h

theorem downLoop_frame (u : Nat → Operation) (l : List Int) (d d1 : DrawingArea)
    (h : downLoop u l d = some d1) :
    d1.m_selectedShapes = d.m_selectedShapes ∧ d1.m_shapes.Perm d.m_shapes := by
  induction l generalizing u d with
  | nil =>
    simp only [downLoop, Option.some.injEq] at h
    subst h; exact ⟨rfl, List.Perm.refl _⟩
  | cons i l ih =>
    unfold downLoop at h
    split_ifs at h with hi
    · split at h
      · next shape hs =>
        simp only [] at h
        split at h
        · next l1 hl1 =>
          obtain ⟨h1, h2⟩ := ih _ _ h
          simp only [addOperation_m_shapes] at hl1
          exact ⟨by simpa using h1, h2.trans (by simpa using QList.swapItemsAt_perm hl1)⟩
        · exact absurd h (by simp)
      · exact absurd h (by simp)
    · exact ih _ _ h

theorem toTopLoop_frame (u : Nat → Operation) (l : List Int) (t : Int) (d d1 : DrawingArea)
    (h : toTopLoop u l t d = some d1) :
    d1.m_selectedShapes = d.m_selectedShapes ∧ d1.m_shapes.Perm d.m_shapes := by
  induction l generalizing u d t with
  | nil =>
    simp only [toTopLoop, Option.some.injEq] at h
    subst h; exact ⟨rfl, List.Perm.refl _⟩
  | cons i l ih =>
    unfold toTopLoop at h
    split_ifs at h with hi
    · split at h
      · next shape hs =>
        simp only [] at h
        obtain ⟨h1, h2⟩ := ih _ _ _ h
        refine ⟨by simpa using h1, h2.trans ?_⟩
        simp only [addOperation_m_shapes]
        have hp := QList.perm_cons_eraseIdx (QList.at?_eq_some hs).2.2
        exact (List.perm_append_singleton _ _).trans hp.symm
      · exact absurd h (by simp)
    · exact ih _ _ _ h

theorem toBottomLoop_frame (u : Nat → Operation) (l : List Int) (b : Int) (d d1 : DrawingArea)
    (h : toBottomLoop u l b d = some d1) :
    d1.m_selectedShapes = d.m_selectedShapes ∧ d1.m_shapes.Perm d.m_shapes := by
  induction l generalizing u d b with
  | nil =>
    simp only [toBottomLoop, Option.some.injEq] at h
    subst h; exact ⟨rfl, List.Perm.refl _⟩
  | cons i l ih =>
    unfold toBottomLoop at h
    split_ifs at h with hi
    · split at h
      · next shape hs =>
        simp only [] at h
        obtain ⟨h1, h2⟩ := ih _ _ _ h
        refine ⟨by simpa using h1, h2.trans ?_⟩
        simp only [addOperation_m_shapes]
        obtain ⟨h0, hlt, hget⟩ := QList.at?_eq_some hs
        have hp := QList.perm_cons_eraseIdx hget
        have hlen := QList.length_eraseIdx_of_getElem? hget
        have hb : b.toNat ≤ (d.m_shapes.eraseIdx i.toNat).length := by omega
        exact (List.perm_insertIdx shape _ hb).trans hp.symm
      · exact absurd h (by simp)
    · exact ih _ _ _ h

theorem layer_frame (u : Nat → Operation) (d d1 : DrawingArea)
    (h : d.moveSelectedShapesUp u = some d1 ∨ d.moveSelectedShapesDown u = some d1 ∨
      d.moveSelectedShapesToTop u = some d1 ∨ d.moveSelectedShapesToBottom u = some d1) :
    d1.m_selectedShapes = d.m_selectedShapes ∧ d1.m_shapes.Perm d.m_shapes := by
  have triv : ∀ e : DrawingArea, some d = some e →
      e.m_selectedShapes = d.m_selectedShapes ∧ e.m_shapes.Perm d.m_shapes := by
    intro e he; injection he with he; subst he; exact ⟨rfl, List.Perm.refl _⟩
  rcases h with h | h | h | h
  · unfold moveSelectedShapesUp at h
    split_ifs at h
    · exact triv _ h
    · exact upLoop_frame _ _ _ _ h
  · unfold moveSelectedShapesDown at h
    split_ifs at h
    · exact triv _ h
    · exact downLoop_frame _ _ _ _ h
  · unfold moveSelectedShapesToTop at h
    split_ifs at h
    · exact triv _ h
    · exact toTopLoop_frame _ _ _ _ _ h
  · unfold moveSelectedShapesToBottom at h
    split_ifs at h
    · exact triv _ h
    · exact toBottomLoop_frame _ _ _ _ _ h

end DrawingArea

namespace DrawingArea

theorem updateLoop_frame (u : Nat → Operation) (l : List Ptr) (d : DrawingArea) :
    (updateLoop u l d).m_shapes = d.m_shapes ∧
    (updateLoop u l d).m_selectedShapes = d.m_selectedShapes := by
  induction l generalizing u d with
  | nil => exact ⟨rfl, rfl⟩
  | cons s l ih =>
    unfold updateLoop
    simp only []
    obtain ⟨h1, h2⟩ := ih (nextUninit u)
      (((d.cloneShape s).2.addOperation
          { u 0 with type := OperationType.ModifyShape, shape := s,
                     oldShape := (d.cloneShape s).1,
                     oldIndex := QList.indexOf (d.cloneShape s).2.m_shapes s }).store s
        { ((d.cloneShape s).2.addOperation
            { u 0 with type := OperationType.ModifyShape, shape := s,
                       oldShape := (d.cloneShape s).1,
                       oldIndex := QList.indexOf (d.cloneShape s).2.m_shapes s }).heap s with
          m_color := _, m_lineWidth := _, m_filled := _, m_fillColor := _ })
    rw [h1, h2]
    simp

theorem updateSelectedShapeProperties_frame (u : Nat → Operation) (d : DrawingArea) :
    (d.updateSelectedShapeProperties u).m_shapes = d.m_shapes ∧
    (d.updateSelectedShapeProperties u).m_selectedShapes = d.m_selectedShapes :=
  updateLoop_frame u _ d

theorem foldl_store_frame (f : DrawingArea → Ptr → Shape) (l : List Ptr) (d : DrawingArea) :
    (l.foldl (fun acc p => acc.store p (f acc p)) d).m_shapes = d.m_shapes ∧
    (l.foldl (fun acc p => acc.store p (f acc p)) d).m_selectedShapes = d.m_selectedShapes := by
  induction l generalizing d with
  | nil => exact ⟨rfl, rfl⟩
  | cons p l ih =>
    simp only [List.foldl_cons]
    obtain ⟨h1, h2⟩ := ih (d.store p (f d p))
    rw [h1, h2]; simp

theorem moveSelectedShapes_frame (offset : QPointF) (d : DrawingArea) :
    (d.moveSelectedShapes offset).m_shapes = d.m_shapes ∧
    (d.moveSelectedShapes offset).m_selectedShapes = d.m_selectedShapes := by
  unfold moveSelectedShapes
  split_ifs
  · exact ⟨rfl, rfl⟩
  · exact foldl_store_frame
      (fun acc p => { acc.heap p with
        m_boundingRect := (acc.heap p).m_boundingRect.translate offset }) _ d

theorem resizeSelectedShape_frame (pos : QPointF) (d : DrawingArea) :
    (d.resizeSelectedShape pos).m_shapes = d.m_shapes ∧
    (d.resizeSelectedShape pos).m_selectedShapes = d.m_selectedShapes := by
  unfold resizeSelectedShape
  split_ifs
  · exact ⟨rfl, rfl⟩
  · split
    · exact ⟨rfl, rfl⟩
    · split_ifs
      · exact ⟨rfl, rfl⟩
      · split
        · exact ⟨rfl, rfl⟩
        · simp only []; split_ifs <;> exact ⟨rfl, rfl⟩

theorem updateTempShape_frame (d : DrawingArea) :
    d.updateTempShape.m_shapes = d.m_shapes ∧
    d.updateTempShape.m_selectedShapes = d.m_selectedShapes := by
  unfold updateTempShape
  simp only []
  split_ifs <;> simp

theorem recordMoveStart_frame (l : List Ptr) (d : DrawingArea) :
    (recordMoveStart l d).m_shapes = d.m_shapes ∧
    (recordMoveStart l d).m_selectedShapes = d.m_selectedShapes := by
  induction l generalizing d with
  | nil => exact ⟨rfl, rfl⟩
  | cons s l ih =>
    unfold recordMoveStart
    simp only []
    obtain ⟨h1, h2⟩ := ih
      { (d.cloneShape s).2 with
        m_moveStartPositions := hashAssign (d.cloneShape s).2.m_moveStartPositions s (d.cloneShape s).1 }
    rw [h1, h2]; simp

theorem beginResize_frame (pos : QPointF) (d : DrawingArea) :
    (d.beginResize pos).m_shapes = d.m_shapes ∧
    (d.beginResize pos).m_selectedShapes = d.m_selectedShapes := by
  unfold beginResize
  split
  · exact ⟨rfl, rfl⟩
  · split_ifs with h1
    · simp only []
      split_ifs
      · simp
      · exact ⟨rfl, rfl⟩
    · exact ⟨rfl, rfl⟩

theorem recordMoves_frame (u : Nat → Operation) (l : List (Ptr × Ptr)) (d : DrawingArea) :
    (recordMoves u l d).m_shapes = d.m_shapes ∧
    (recordMoves u l d).m_selectedShapes = d.m_selectedShapes := by
  induction l generalizing u d with
  | nil => exact ⟨rfl, rfl⟩
  | cons e l ih =>
    obtain ⟨s, o⟩ := e
    unfold recordMoves
    split_ifs
    · simp only []
      obtain ⟨h1, h2⟩ := ih (nextUninit u) (d.addOperation
        { u 0 with type := OperationType.MoveShape, shape := s, oldShape := o,
                   oldIndex := QList.indexOf d.m_shapes s })
      rw [h1, h2]; simp
    · exact ih _ _

theorem endMoveGesture_frame (u : Nat → Operation) (d : DrawingArea) :
    (d.endMoveGesture u).m_shapes = d.m_shapes ∧
    (d.endMoveGesture u).m_selectedShapes = d.m_selectedShapes := by
  unfold endMoveGesture
  split_ifs
  · simpa using recordMoves_frame u d.m_moveStartPositions d
  · exact ⟨rfl, rfl⟩

theorem endResizeGesture_frame (u : Operation) (d : DrawingArea) :
    (d.endResizeGesture u).m_shapes = d.m_shapes ∧
    (d.endResizeGesture u).m_selectedShapes = d.m_selectedShapes := by
  unfold endResizeGesture
  split_ifs
  · split
    · simp only []; split_ifs <;> simp
    · exact ⟨rfl, rfl⟩
  · exact ⟨rfl, rfl⟩

@[simp] theorem appendDrawnShape_m_shapes (u : Operation) (d : DrawingArea) :
    (d.appendDrawnShape u).m_shapes = d.m_shapes ++ [d.m_tempShape] := by
  simp [appendDrawnShape]

@[simp] theorem appendDrawnShape_m_selectedShapes (u : Operation) (d : DrawingArea) :
    (d.appendDrawnShape u).m_selectedShapes = [d.m_tempShape] := by
  simp [appendDrawnShape]

@[simp] theorem appendDrawnShape_m_redoStack (u : Operation) (d : DrawingArea) :
    (d.appendDrawnShape u).m_redoStack = [] := by
  simp [appendDrawnShape]

theorem commitDrawing_live (button : MouseButton) (u : Operation) (d : DrawingArea)
    (h : ∀ s ∈ d.m_selectedShapes, s ∈ d.m_shapes) :
    ∀ s ∈ (d.commitDrawing button u).m_selectedShapes, s ∈ (d.commitDrawing button u).m_shapes := by
  unfold commitDrawing
  split_ifs with h1
  · simp only []
    split_ifs with h2 h3
    · simp
    · simpa using h
    · simpa using h
  · exact h

theorem replay_eq {op : Operation} {i : Int} {e e1 : DrawingArea}
    (h : e.replay op i = some e1) :
    e1 = e ∨ ∃ l, QList.move e.m_shapes (QList.indexOf e.m_shapes op.shape)
      (qBound 0 i e.m_shapes.length) = some l ∧ e1 = { e with m_shapes := l } := by
  unfold replay at h
  simp only [] at h
  split_ifs at h with h1 h2 h3
  · right
    rw [Option.map_eq_some'] at h
    obtain ⟨l, hl, hl2⟩ := h
    exact ⟨l, hl, hl2.symm⟩
  all_goals (left; injection h with h; exact h.symm)

theorem replay_selection {op : Operation} {i : Int} {e e1 : DrawingArea}
    (h : e.replay op i = some e1) : e1.m_selectedShapes = e.m_selectedShapes := by
  rcases replay_eq h with h | ⟨l, -, h⟩ <;> subst h <;> rfl

theorem undo_selection {d d1 : DrawingArea} (h : d.undo = some d1) :
    d1 = d ∨ d1.m_selectedShapes = [] := by
  unfold undo at h
  split at h
  · left; injection h with h; exact h.symm
  · next op hop =>
    right
    simp only [] at h
    split at h
    · injection h with h; subst h; unfold takeOut; split_ifs <;> rfl
    · injection h with h; subst h; unfold reinsert; split_ifs <;> rfl
    · injection h with h; subst h; unfold swapProperties; split_ifs <;> rfl
    · exact replay_selection h
    · exact replay_selection h
    · exact replay_selection h

theorem redo_selection {d d1 : DrawingArea} (h : d.redo = some d1) :
    d1 = d ∨ d1.m_selectedShapes = [] := by
  unfold redo at h
  split at h
  · left; injection h with h; exact h.symm
  · next op hop =>
    right
    simp only [] at h
    split at h
    · injection h with h; subst h; unfold reinsert; split_ifs <;> rfl
    · injection h with h; subst h; unfold takeOut; split_ifs <;> rfl
    · injection h with h; subst h; unfold swapProperties; split_ifs <;> rfl
    · exact replay_selection h
    · exact replay_selection h
    · exact replay_selection h

@[simp] theorem clearAll_m_selectedShapes (d : DrawingArea) :
    d.clearAll.m_selectedShapes = [] := by
  simp [clearAll]

@[simp] theorem clearAll_m_shapes (d : DrawingArea) : d.clearAll.m_shapes = [] := by
  simp [clearAll]

end DrawingArea

/-! ## The selection stays inside the live sequence -/

namespace DrawingArea

theorem live_of_frame {d e : DrawingArea}
    (hf : e.m_shapes = d.m_shapes ∧ e.m_selectedShapes = d.m_selectedShapes)
    (h : ∀ s ∈ d.m_selectedShapes, s ∈ d.m_shapes) :
    ∀ s ∈ e.m_selectedShapes, s ∈ e.m_shapes := by
  rw [hf.1, hf.2]; exact h

theorem selectShapeAt_live (contains : Shape → QPointF → Bool) (pos : QPointF)
    (d : DrawingArea) (h : ∀ s ∈ d.m_selectedShapes, s ∈ d.m_shapes) :
    ∀ s ∈ (d.selectShapeAt contains pos).m_selectedShapes,
      s ∈ (d.selectShapeAt contains pos).m_shapes := by
  intro s hs
  rw [selectShapeAt_m_shapes]
  rcases selectShapeAt_m_selectedShapes contains pos d with h1 | ⟨t, ht, h1⟩
  · rw [h1] at hs; exact h s hs
  · rw [h1, List.mem_append] at hs
    rcases hs with hs | hs
    · exact h s hs
    · rw [List.mem_singleton] at hs; subst hs; exact ht

theorem clearSelection_live (d : DrawingArea) :
    ∀ s ∈ d.clearSelection.m_selectedShapes, s ∈ d.clearSelection.m_shapes := by
  simp

theorem mousePressEvent_live (contains : Shape → QPointF → Bool) (button : MouseButton)
    (modifiers : KeyboardModifiers) (pos : QPointF) (d : DrawingArea)
    (h : ∀ s ∈ d.m_selectedShapes, s ∈ d.m_shapes) :
    ∀ s ∈ (d.mousePressEvent contains button modifiers pos).m_selectedShapes,
      s ∈ (d.mousePressEvent contains button modifiers pos).m_shapes := by
  have hsel : ∀ e : DrawingArea, ∀ s ∈ (e.clearSelection.selectShapeAt contains pos).m_selectedShapes,
      s ∈ (e.clearSelection.selectShapeAt contains pos).m_shapes :=
    fun e => selectShapeAt_live _ _ _ (clearSelection_live e)
  unfold mousePressEvent
  simp only []
  repeat' split
  all_goals first
    | exact h
    | exact hsel _
    | exact live_of_frame (updateTempShape_frame _) h
    | exact selectShapeAt_live _ _ _ h
    | exact live_of_frame (beginResize_frame _ _) h
    | exact live_of_frame (beginResize_frame _ _) (hsel _)
    | exact live_of_frame (d := recordMoveStart _ _) ⟨rfl, rfl⟩
        (live_of_frame (recordMoveStart_frame _ _) h)
    | exact live_of_frame (d := recordMoveStart _ _) ⟨rfl, rfl⟩
        (live_of_frame (recordMoveStart_frame _ _) (hsel _))

theorem mouseMoveEvent_live (pos : QPointF) (d : DrawingArea)
    (h : ∀ s ∈ d.m_selectedShapes, s ∈ d.m_shapes) :
    ∀ s ∈ (d.mouseMoveEvent pos).m_selectedShapes, s ∈ (d.mouseMoveEvent pos).m_shapes := by
  unfold mouseMoveEvent
  simp only []
  split
  · split_ifs
    · exact live_of_frame (updateTempShape_frame _) h
    · exact h
  · exact h
  · split_ifs
    · exact live_of_frame (moveSelectedShapes_frame _ _) h
    · exact h
  · split_ifs
    · split
      · split_ifs
        · exact live_of_frame (resizeSelectedShape_frame _ _) h
        · exact h
      · exact h
    · exact h

theorem mouseReleaseEvent_live (button : MouseButton) (u : Nat → Operation) (d : DrawingArea)
    (h : ∀ s ∈ d.m_selectedShapes, s ∈ d.m_shapes) :
    ∀ s ∈ (d.mouseReleaseEvent button u).m_selectedShapes,
      s ∈ (d.mouseReleaseEvent button u).m_shapes := by
  have h1 := live_of_frame (endMoveGesture_frame (fun k => u (k + 2)) d) h
  have h2 := live_of_frame (endResizeGesture_frame (u 1) _) h1
  unfold mouseReleaseEvent
  simp only []
  split
  · exact commitDrawing_live _ _ _ h2
  · exact h2
  · exact h2
  · exact h2

theorem keyPressEvent_live (key : Key) (u : Nat → Operation) (d : DrawingArea)
    (h : ∀ s ∈ d.m_selectedShapes, s ∈ d.m_shapes) :
    ∀ s ∈ (d.keyPressEvent key u).m_selectedShapes, s ∈ (d.keyPressEvent key u).m_shapes := by
  unfold keyPressEvent
  split_ifs
  · simp
  · exact live_of_frame (d := d.deletePtr d.m_tempShape) ⟨rfl, rfl⟩
      (live_of_frame ⟨deletePtr_m_shapes _ _, deletePtr_m_selectedShapes _ _⟩ h)
  · simp
  · exact h

theorem run_live (contains : Shape → QPointF → Bool) (c : Call) (d d1 : DrawingArea)
    (hrun : c.run contains d = some d1) (h : ∀ s ∈ d.m_selectedShapes, s ∈ d.m_shapes) :
    ∀ s ∈ d1.m_selectedShapes, s ∈ d1.m_shapes := by
  have layer : ∀ u : Nat → Operation,
      (d.moveSelectedShapesUp u = some d1 ∨ d.moveSelectedShapesDown u = some d1 ∨
        d.moveSelectedShapesToTop u = some d1 ∨ d.moveSelectedShapesToBottom u = some d1) →
      ∀ s ∈ d1.m_selectedShapes, s ∈ d1.m_shapes := by
    intro u hu s hs
    obtain ⟨h1, h2⟩ := layer_frame u d d1 hu
    rw [h1] at hs
    exact h2.symm.subset (h s hs)
  have style : ∀ e : DrawingArea,
      e.m_shapes = d.m_shapes ∧ e.m_selectedShapes = d.m_selectedShapes →
      ∀ u s, s ∈ (e.updateSelectedShapeProperties u).m_selectedShapes →
        s ∈ (e.updateSelectedShapeProperties u).m_shapes := by
    intro e he u
    exact live_of_frame (updateSelectedShapeProperties_frame u e) (live_of_frame he h)
  cases c with
  | setCurrentShapeType t => injection hrun with hrun; subst hrun; exact h
  | setEditMode mode => injection hrun with hrun; subst hrun; exact h
  | setCurrentColor color u =>
    injection hrun with hrun; subst hrun; exact style { d with m_currentColor := color } ⟨rfl, rfl⟩ u
  | setCurrentLineWidth width u =>
    injection hrun with hrun; subst hrun; exact style { d with m_currentLineWidth := width } ⟨rfl, rfl⟩ u
  | setCurrentFilled filled u =>
    injection hrun with hrun; subst hrun; exact style { d with m_currentFilled := filled } ⟨rfl, rfl⟩ u
  | setCurrentFillColor color u =>
    injection hrun with hrun; subst hrun; exact style { d with m_currentFillColor := color } ⟨rfl, rfl⟩ u
  | clearAll => injection hrun with hrun; subst hrun; simp
  | selectAll => injection hrun with hrun; subst hrun; simp
  | clearSelection => injection hrun with hrun; subst hrun; simp
  | deleteSelectedShapes u => injection hrun with hrun; subst hrun; simp
  | moveSelectedShapesUp u => exact layer u (Or.inl hrun)
  | moveSelectedShapesDown u => exact layer u (Or.inr (Or.inl hrun))
  | moveSelectedShapesToTop u => exact layer u (Or.inr (Or.inr (Or.inl hrun)))
  | moveSelectedShapesToBottom u => exact layer u (Or.inr (Or.inr (Or.inr hrun)))
  | undo =>
    rcases undo_selection hrun with h1 | h1
    · subst h1; exact h
    · rw [h1]; simp
  | redo =>
    rcases redo_selection hrun with h1 | h1
    · subst h1; exact h
    · rw [h1]; simp
  | setMaxUndoSteps steps => injection hrun with hrun; subst hrun; simpa using h
  | mousePressEvent button modifiers pos =>
    injection hrun with hrun; subst hrun; exact mousePressEvent_live _ _ _ _ _ h
  | mouseMoveEvent pos => injection hrun with hrun; subst hrun; exact mouseMoveEvent_live _ _ h
  | mouseReleaseEvent button u =>
    injection hrun with hrun; subst hrun; exact mouseReleaseEvent_live _ _ _ h
  | keyPressEvent key u =>
    injection hrun with hrun; subst hrun; exact keyPressEvent_live _ _ _ h

end DrawingArea

theorem runCalls_reachable (contains : Shape → QPointF → Bool) (cs : List Call)
    (d d1 : DrawingArea) (hd : Reachable contains d) (h : runCalls contains cs d = some d1) :
    Reachable contains d1 := by
  induction cs generalizing d with
  | nil => simp only [runCalls, Option.some.injEq] at h; subst h; exact hd
  | cons c cs ih =>
    unfold runCalls at h
    split at h
    · next d2 h2 => exact ih d2 (Reachable.step c hd h2) h
    · exact absurd h (by simp)

theorem stateAfter_reachable (cs : List Call)
    (h : (runCalls hitTest cs startState).isSome = true) : Reachable hitTest (stateAfter cs) := by
  obtain ⟨d, hd⟩ := Option.isSome_iff_exists.mp h
  have : stateAfter cs = d := by unfold stateAfter; rw [hd]; rfl
  rw [this]
  exact runCalls_reachable _ _ _ _ (Reachable.init _ _) hd

/-! ## The bounded undo stack -/

namespace DrawingArea

theorem foldl_addOperation_m_maxUndoSteps (ops : List Operation) (d : DrawingArea) :
    (ops.foldl (fun acc op => acc.addOperation op) d).m_maxUndoSteps = d.m_maxUndoSteps := by
  induction ops generalizing d with
  | nil => rfl
  | cons op ops ih => simp only [List.foldl_cons]; rw [ih]; simp

theorem foldl_addOperation_m_redoStack (ops : List Operation) (d : DrawingArea)
    (h : ops ≠ []) : (ops.foldl (fun acc op => acc.addOperation op) d).m_redoStack = [] := by
  induction ops generalizing d with
  | nil => exact absurd rfl h
  | cons op ops ih =>
    simp only [List.foldl_cons]
    cases ops with
    | nil => simp
    | cons op2 ops => exact ih _ (by simp)

/-- Pushing `ops` on a stack that respects the limit `N` leaves the newest `N` entries of
the old stack followed by `ops`. -/
theorem foldl_addOperation_m_undoStack (ops : List Operation) (d : DrawingArea) (N : Nat)
    (hN : 1 ≤ N) (hmax : d.m_maxUndoSteps = N) (hle : d.m_undoStack.length ≤ N) :
    (ops.foldl (fun acc op => acc.addOperation op) d).m_undoStack =
      (d.m_undoStack ++ ops).drop (d.m_undoStack.length + ops.length - N) := by
  induction ops generalizing d with
  | nil =>
    have : d.m_undoStack.length + ([] : List Operation).length - N = 0 := by simp; omega
    rw [this]; simp
  | cons op ops ih =>
    simp only [List.foldl_cons]
    have hpush := addOperation_m_undoStack d op
    have hmax1 : (d.addOperation op).m_maxUndoSteps = N := by simpa using hmax
    by_cases hfull : d.m_undoStack.length = N
    · -- the stack is full: the oldest entry leaves
      have hne : d.m_undoStack ≠ [] := by
        intro h0; rw [h0] at hfull; simp at hfull; omega
      obtain ⟨o, rest, hor⟩ := List.exists_cons_of_ne_nil hne
      have h1 : (d.addOperation op).m_undoStack = rest ++ [op] := by
        rw [hpush, pushBounded, hmax, hor]
        have : ((((o :: rest) ++ [op]).length : Nat) : Int) > (N : Int) := by
          rw [hor] at hfull; simp at hfull ⊢; omega
        rw [if_pos this]; rfl
      have hlen1 : (d.addOperation op).m_undoStack.length = N := by
        rw [h1]; rw [hor] at hfull; simp at hfull ⊢; omega
      rw [ih _ hmax1 (by omega), h1, hor]
      have e1 : (rest ++ [op]).length + ops.length - N = ops.length := by
        rw [h1] at hlen1; omega
      have e2 : (o :: rest).length + (op :: ops).length - N = ops.length + 1 := by
        rw [hor] at hfull; simp at hfull ⊢; omega
      rw [e1, e2]
      simp
    · have hlt : d.m_undoStack.length < N := by omega
      have h1 : (d.addOperation op).m_undoStack = d.m_undoStack ++ [op] := by
        rw [hpush, pushBounded, hmax]
        have : ¬ ((((d.m_undoStack ++ [op]).length : Nat) : Int) > (N : Int)) := by
          simp; omega
        rw [if_neg this]
      rw [ih _ hmax1 (by rw [h1]; simp; omega), h1]
      have e1 : (d.m_undoStack ++ [op]).length + ops.length - N
          = d.m_undoStack.length + (op :: ops).length - N := by simp; omega
      rw [e1]; simp

/-- Moving entries between the two stacks: `undo` and `redo` neither add nor lose one. -/
theorem replay_stacks {op : Operation} {i : Int} {e e1 : DrawingArea}
    (h : e.replay op i = some e1) :
    e1.m_undoStack = e.m_undoStack ∧ e1.m_redoStack = e.m_redoStack ∧
      e1.m_maxUndoSteps = e.m_maxUndoSteps := by
  rcases replay_eq h with h | ⟨l, -, h⟩ <;> subst h <;> exact ⟨rfl, rfl, rfl⟩

theorem takeOut_stacks (op : Operation) (e : DrawingArea) :
    (e.takeOut op).m_undoStack = e.m_undoStack ∧ (e.takeOut op).m_redoStack = e.m_redoStack ∧
      (e.takeOut op).m_maxUndoSteps = e.m_maxUndoSteps := by
  unfold takeOut; split_ifs <;> exact ⟨rfl, rfl, rfl⟩

theorem reinsert_stacks (op : Operation) (e : DrawingArea) :
    (e.reinsert op).m_undoStack = e.m_undoStack ∧ (e.reinsert op).m_redoStack = e.m_redoStack ∧
      (e.reinsert op).m_maxUndoSteps = e.m_maxUndoSteps := by
  unfold reinsert; split_ifs <;> exact ⟨rfl, rfl, rfl⟩

theorem swapProperties_stacks (op : Operation) (e : DrawingArea) :
    (e.swapProperties op).m_undoStack = e.m_undoStack ∧
      (e.swapProperties op).m_redoStack = e.m_redoStack ∧
      (e.swapProperties op).m_maxUndoSteps = e.m_maxUndoSteps := by
  unfold swapProperties; split_ifs <;> exact ⟨rfl, rfl, rfl⟩

/-- The stack motion of `undo`: nothing on an empty undo stack, else the last undo entry
becomes the last redo entry. -/
theorem undo_stacks {d d1 : DrawingArea} (h : d.undo = some d1) :
    (d.m_undoStack = [] ∧ d1 = d) ∨
    ∃ op, d.m_undoStack = d1.m_undoStack ++ [op] ∧ d1.m_redoStack = d.m_redoStack ++ [op] ∧
      d1.m_maxUndoSteps = d.m_maxUndoSteps := by
  unfold undo at h
  split at h
  · next hnone =>
    left
    injection h with h
    exact ⟨List.getLast?_eq_none_iff.mp hnone, h.symm⟩
  · next op hop =>
    right
    refine ⟨op, ?_⟩
    have hlast : d.m_undoStack = d.m_undoStack.dropLast ++ [op] := by
      obtain ⟨ys, hys⟩ := List.getLast?_eq_some_iff.mp hop
      rw [hys]; simp
    simp only [] at h
    split at h
    · injection h with h; subst h
      obtain ⟨h1, h2, h3⟩ := takeOut_stacks op _
      rw [h1, h2, h3]; exact ⟨hlast, rfl, rfl⟩
    · injection h with h; subst h
      obtain ⟨h1, h2, h3⟩ := reinsert_stacks op _
      rw [h1, h2, h3]; exact ⟨hlast, rfl, rfl⟩
    · injection h with h; subst h
      obtain ⟨h1, h2, h3⟩ := swapProperties_stacks op _
      rw [h1, h2, h3]; exact ⟨hlast, rfl, rfl⟩
    all_goals
      obtain ⟨h1, h2, h3⟩ := replay_stacks h
      rw [h1, h2, h3]; exact ⟨hlast, rfl, rfl⟩

/-- The stack motion of `redo`, symmetric to `undo_stacks`. -/
theorem redo_stacks {d d1 : DrawingArea} (h : d.redo = some d1) :
    (d.m_redoStack = [] ∧ d1 = d) ∨
    ∃ op, d.m_redoStack = d1.m_redoStack ++ [op] ∧ d1.m_undoStack = d.m_undoStack ++ [op] ∧
      d1.m_maxUndoSteps = d.m_maxUndoSteps := by
  unfold redo at h
  split at h
  · next hnone =>
    left
    injection h with h
    exact ⟨List.getLast?_eq_none_iff.mp hnone, h.symm⟩
  · next op hop =>
    right
    refine ⟨op, ?_⟩
    have hlast : d.m_redoStack = d.m_redoStack.dropLast ++ [op] := by
      obtain ⟨ys, hys⟩ := List.getLast?_eq_some_iff.mp hop
      rw [hys]; simp
    simp only [] at h
    split at h
    · injection h with h; subst h
      obtain ⟨h1, h2, h3⟩ := reinsert_stacks op _
      rw [h1, h2, h3]; exact ⟨hlast, rfl, rfl⟩
    · injection h with h; subst h
      obtain ⟨h1, h2, h3⟩ := takeOut_stacks op _
      rw [h1, h2, h3]; exact ⟨hlast, rfl, rfl⟩
    · injection h with h; subst h
      obtain ⟨h1, h2, h3⟩ := swapProperties_stacks op _
      rw [h1, h2, h3]; exact ⟨hlast, rfl, rfl⟩
    all_goals
      obtain ⟨h1, h2, h3⟩ := replay_stacks h
      rw [h1, h2, h3]; exact ⟨hlast, rfl, rfl⟩

/-- Whatever `undo()` and `redo()` calls follow, every entry of either stack was in one of
the stacks before. -/
theorem undoRedo_no_new_entries (contains : Shape → QPointF → Bool) (cs : List Call)
    (hcs : ∀ c ∈ cs, c = Call.undo ∨ c = Call.redo) (d d1 : DrawingArea)
    (h : runCalls contains cs d = some d1) :
    ∀ op, op ∈ d1.m_undoStack ∨ op ∈ d1.m_redoStack → op ∈ d.m_undoStack ∨ op ∈ d.m_redoStack := by
  induction cs generalizing d with
  | nil => simp only [runCalls, Option.some.injEq] at h; subst h; exact fun _ h => h
  | cons c cs ih =>
    unfold runCalls at h
    split at h
    · next d2 h2 =>
      intro op hop
      have hmid := ih (fun c hc => hcs c (List.mem_cons_of_mem _ hc)) d2 h op hop
      rcases hcs c (List.mem_cons_self _ _) with hc | hc
      · subst hc
        rcases undo_stacks h2 with ⟨-, he⟩ | ⟨o, hu, hr, -⟩
        · subst he; exact hmid
        · rw [hu]; rw [hr] at hmid
          simp only [List.mem_append, List.mem_singleton] at hmid ⊢
          tauto
      · subst hc
        rcases redo_stacks h2 with ⟨-, he⟩ | ⟨o, hr, hu, -⟩
        · subst he; exact hmid
        · rw [hr]; rw [hu] at hmid
          simp only [List.mem_append, List.mem_singleton] at hmid ⊢
          tauto
    · exact absurd h (by simp)

end DrawingArea

/-! ## The redo stack after a recorded operation -/

namespace DrawingArea

theorem deleteLoop_m_redoStack (u : Nat → Operation) (l : List Ptr) (d : DrawingArea)
    (h : l ≠ []) : (deleteLoop u l d).m_redoStack = [] := by
  induction l generalizing u d with
  | nil => exact absurd rfl h
  | cons s l ih =>
    unfold deleteLoop
    simp only []
    cases l with
    | nil => simp [deleteLoop]
    | cons s2 l => exact ih _ _ (by simp)

theorem updateLoop_m_redoStack (u : Nat → Operation) (l : List Ptr) (d : DrawingArea)
    (h : l ≠ []) : (updateLoop u l d).m_redoStack = [] := by
  induction l generalizing u d with
  | nil => exact absurd rfl h
  | cons s l ih =>
    unfold updateLoop
    simp only []
    cases l with
    | nil => simp [updateLoop]
    | cons s2 l => exact ih _ _ (by simp)

theorem recordMoves_m_redoStack_or (u : Nat → Operation) (l : List (Ptr × Ptr))
    (d : DrawingArea) :
    (recordMoves u l d).m_redoStack = d.m_redoStack ∨ (recordMoves u l d).m_redoStack = [] := by
  induction l generalizing u d with
  | nil => left; rfl
  | cons e l ih =>
    obtain ⟨s, o⟩ := e
    unfold recordMoves
    split_ifs
    · simp only []
      rcases ih (nextUninit u) (d.addOperation
        { u 0 with type := OperationType.MoveShape, shape := s, oldShape := o,
                   oldIndex := QList.indexOf d.m_shapes s }) with h | h
      · right; rw [h]; simp
      · right; exact h
    · exact ih _ _

theorem recordMoves_m_redoStack (u : Nat → Operation) (l : List (Ptr × Ptr))
    (d : DrawingArea) (h : ∃ e ∈ l, e.1 ≠ 0 ∧ e.2 ≠ 0) :
    (recordMoves u l d).m_redoStack = [] := by
  induction l generalizing u d with
  | nil => obtain ⟨e, he, -⟩ := h; simp at he
  | cons e l ih =>
    obtain ⟨s, o⟩ := e
    unfold recordMoves
    split_ifs with hso
    · simp only []
      rcases recordMoves_m_redoStack_or (nextUninit u) l (d.addOperation
        { u 0 with type := OperationType.MoveShape, shape := s, oldShape := o,
                   oldIndex := QList.indexOf d.m_shapes s }) with h1 | h1
      · rw [h1]; simp
      · exact h1
    · apply ih
      obtain ⟨e, he, h1, h2⟩ := h
      rcases List.mem_cons.mp he with he | he
      · subst he; exact absurd ⟨h1, h2⟩ hso
      · exact ⟨e, he, h1, h2⟩

theorem endMoveGesture_m_redoStack_or (u : Nat → Operation) (d : DrawingArea) :
    (d.endMoveGesture u).m_redoStack = d.m_redoStack ∨ (d.endMoveGesture u).m_redoStack = [] := by
  unfold endMoveGesture
  split_ifs
  · exact recordMoves_m_redoStack_or u _ d
  · left; rfl

theorem endMoveGesture_m_redoStack (u : Nat → Operation) (d : DrawingArea)
    (hm : d.m_isMoving = true) (h : ∃ e ∈ d.m_moveStartPositions, e.1 ≠ 0 ∧ e.2 ≠ 0) :
    (d.endMoveGesture u).m_redoStack = [] := by
  unfold endMoveGesture
  have hne : ¬ d.m_moveStartPositions.isEmpty = true := by
    obtain ⟨e, he, -⟩ := h
    intro h0
    rw [List.isEmpty_iff] at h0
    rw [h0] at he; simp at he
  rw [if_pos ⟨hm, hne⟩]
  exact recordMoves_m_redoStack u _ d h

theorem endResizeGesture_m_redoStack_or (u : Operation) (d : DrawingArea) :
    (d.endResizeGesture u).m_redoStack = d.m_redoStack ∨
      (d.endResizeGesture u).m_redoStack = [] := by
  unfold endResizeGesture
  split_ifs
  · split
    · simp only []
      split_ifs
      · right; simp
      · left; rfl
    · left; rfl
  · left; rfl

theorem endResizeGesture_m_redoStack (u : Operation) (d : DrawingArea) (s : Ptr)
    (hr : d.m_isResizing = true) (hstart : d.m_resizeStartShape ≠ 0)
    (hsel : d.m_selectedShapes = [s]) (hs : s ≠ 0) :
    (d.endResizeGesture u).m_redoStack = [] := by
  unfold endResizeGesture
  rw [if_pos ⟨hr, hstart, by rw [hsel]; rfl⟩, hsel]
  simp [hs]

theorem commitDrawing_m_redoStack_or (button : MouseButton) (u : Operation) (d : DrawingArea) :
    (d.commitDrawing button u).m_redoStack = d.m_redoStack ∨
      (d.commitDrawing button u).m_redoStack = [] := by
  unfold commitDrawing
  split_ifs with h1
  · simp only []
    split_ifs
    · right; simp
    · left; simp
    · left; rfl
  · left; rfl

theorem commitDrawing_m_redoStack (u : Operation) (d : DrawingArea)
    (hd : d.m_isDrawing = true) (ht : d.m_tempShape ≠ 0)
    (hw : (QRectF.ofPoints d.m_startPoint d.m_endPoint).normalized.w > 1)
    (hh : (QRectF.ofPoints d.m_startPoint d.m_endPoint).normalized.h > 1) :
    (d.commitDrawing MouseButton.LeftButton u).m_redoStack = [] := by
  unfold commitDrawing
  rw [if_pos ⟨hd, rfl⟩]
  simp only []
  rw [if_pos ht, if_pos ⟨hw, hh⟩]
  simp

/-- The tail of `mouseReleaseEvent` after its first two blocks. -/
theorem mouseReleaseEvent_m_redoStack_or (button : MouseButton) (u : Nat → Operation)
    (d : DrawingArea) :
    (d.mouseReleaseEvent button u).m_redoStack =
        ((d.endMoveGesture (fun k => u (k + 2))).endResizeGesture (u 1)).m_redoStack ∨
      (d.mouseReleaseEvent button u).m_redoStack = [] := by
  unfold mouseReleaseEvent
  simp only []
  split
  · exact commitDrawing_m_redoStack_or _ _ _
  · left; rfl
  · left; rfl
  · left; rfl

end DrawingArea

/-! ## The layer loops: they run, and they clear the redo stack when they move a shape -/

namespace DrawingArea

theorem upLoop_m_redoStack_or (u : Nat → Operation) (l : List Int) (d d1 : DrawingArea)
    (h : upLoop u l d = some d1) :
    d1.m_redoStack = d.m_redoStack ∨ d1.m_redoStack = [] := by
  induction l generalizing u d with
  | nil => simp only [upLoop, Option.some.injEq] at h; subst h; left; rfl
  | cons i l ih =>
    unfold upLoop at h
    split_ifs at h with hi
    · split at h
      · simp only [] at h
        split at h
        · right
          rcases ih _ _ h with h1 | h1
          · rw [h1]; simp
          · exact h1
        · exact absurd h (by simp)
      · exact absurd h (by simp)
    · exact ih _ _ h

theorem upLoop_m_redoStack (u : Nat → Operation) (l : List Int) (d d1 : DrawingArea)
    (h : upLoop u l d = some d1) (he : ∃ i ∈ l, i < (d.m_shapes.length : Int) - 1) :
    d1.m_redoStack = [] := by
  induction l generalizing u d with
  | nil => obtain ⟨i, hi, -⟩ := he; simp at hi
  | cons i l ih =>
    unfold upLoop at h
    split_ifs at h with hi
    · split at h
      · simp only [] at h
        split at h
        · rcases upLoop_m_redoStack_or _ _ _ _ h with h1 | h1
          · rw [h1]; simp
          · exact h1
        · exact absurd h (by simp)
      · exact absurd h (by simp)
    · apply ih _ _ h
      obtain ⟨j, hj, hlt⟩ := he
      rcases List.mem_cons.mp hj with hj | hj
      · subst hj; exact absurd hlt hi
      · exact ⟨j, hj, hlt⟩

theorem upLoop_total (u : Nat → Operation) (l : List Int) (d : DrawingArea)
    (hl : ∀ i ∈ l, 0 ≤ i ∧ i < (d.m_shapes.length : Int)) : ∃ d1, upLoop u l d = some d1 := by
  induction l generalizing u d with
  | nil => exact ⟨d, rfl⟩
  | cons i l ih =>
    obtain ⟨h0, h1⟩ := hl i (List.mem_cons_self _ _)
    have hrest : ∀ j ∈ l, 0 ≤ j ∧ j < (d.m_shapes.length : Int) :=
      fun j hj => hl j (List.mem_cons_of_mem _ hj)
    unfold upLoop
    split_ifs with hi
    · obtain ⟨a, ha, -⟩ := QList.at?_of_lt h0 h1
      rw [ha]
      simp only []
      obtain ⟨l1, hl1⟩ := QList.swapItemsAt_of_lt (l := d.m_shapes) h0 h1
        (show 0 ≤ i + 1 by omega) (show i + 1 < d.m_shapes.length by omega)
      rw [addOperation_m_shapes, hl1]
      apply ih
      have hlen : l1.length = d.m_shapes.length := (QList.swapItemsAt_perm hl1).length_eq
      simp only [hlen]
      exact hrest
    · exact ih _ _ hrest

theorem downLoop_m_redoStack_or (u : Nat → Operation) (l : List Int) (d d1 : DrawingArea)
    (h : downLoop u l d = some d1) :
    d1.m_redoStack = d.m_redoStack ∨ d1.m_redoStack = [] := by
  induction l generalizing u d with
  | nil => simp only [downLoop, Option.some.injEq] at h; subst h; left; rfl
  | cons i l ih =>
    unfold downLoop at h
    split_ifs at h with hi
    · split at h
      · simp only [] at h
        split at h
        · right
          rcases ih _ _ h with h1 | h1
          · rw [h1]; simp
          · exact h1
        · exact absurd h (by simp)
      · exact absurd h (by simp)
    · exact ih _ _ h

theorem downLoop_m_redoStack (u : Nat → Operation) (l : List Int) (d d1 : DrawingArea)
    (h : downLoop u l d = some d1) (he : ∃ i ∈ l, i > 0) :
    d1.m_redoStack = [] := by
  induction l generalizing u d with
  | nil => obtain ⟨i, hi, -⟩ := he; simp at hi
  | cons i l ih =>
    unfold downLoop at h
    split_ifs at h with hi
    · split at h
      · simp only [] at h
        split at h
        · rcases downLoop_m_redoStack_or _ _ _ _ h with h1 | h1
          · rw [h1]; simp
          · exact h1
        · exact absurd h (by simp)
      · exact absurd h (by simp)
    · apply ih _ _ h
      obtain ⟨j, hj, hlt⟩ := he
      rcases List.mem_cons.mp hj with hj | hj
      · subst hj; exact absurd hlt hi
      · exact ⟨j, hj, hlt⟩

theorem downLoop_total (u : Nat → Operation) (l : List Int) (d : DrawingArea)
    (hl : ∀ i ∈ l, 0 ≤ i ∧ i < (d.m_shapes.length : Int)) :
    ∃ d1, downLoop u l d = some d1 := by
  induction l generalizing u d with
  | nil => exact ⟨d, rfl⟩
  | cons i l ih =>
    obtain ⟨h0, h1⟩ := hl i (List.mem_cons_self _ _)
    have hrest : ∀ j ∈ l, 0 ≤ j ∧ j < (d.m_shapes.length : Int) :=
      fun j hj => hl j (List.mem_cons_of_mem _ hj)
    unfold downLoop
    split_ifs with hi
    · obtain ⟨a, ha, -⟩ := QList.at?_of_lt h0 h1
      rw [ha]
      simp only []
      obtain ⟨l1, hl1⟩ := QList.swapItemsAt_of_lt (l := d.m_shapes) h0 h1
        (show 0 ≤ i - 1 by omega) (show i - 1 < d.m_shapes.length by omega)
      rw [addOperation_m_shapes, hl1]
      apply ih
      have hlen : l1.length = d.m_shapes.length := (QList.swapItemsAt_perm hl1).length_eq
      simp only [hlen]
      exact hrest
    · exact ih _ _ hrest

theorem toTopLoop_m_redoStack_or (u : Nat → Operation) (l : List Int) (t : Int)
    (d d1 : DrawingArea) (h : toTopLoop u l t d = some d1) :
    d1.m_redoStack = d.m_redoStack ∨ d1.m_redoStack = [] := by
  induction l generalizing u d t with
  | nil => simp only [toTopLoop, Option.some.injEq] at h; subst h; left; rfl
  | cons i l ih =>
    unfold toTopLoop at h
    split_ifs at h with hi
    · split at h
      · simp only [] at h
        right
        rcases ih _ _ _ h with h1 | h1
        · rw [h1]; simp
        · exact h1
      · exact absurd h (by simp)
    · exact ih _ _ _ h

theorem toTopLoop_m_redoStack (u : Nat → Operation) (l : List Int) (t : Int)
    (d d1 : DrawingArea) (h : toTopLoop u l t d = some d1) (he : ∃ i ∈ l, i < t) :
    d1.m_redoStack = [] := by
  induction l generalizing u d t with
  | nil => obtain ⟨i, hi, -⟩ := he; simp at hi
  | cons i l ih =>
    unfold toTopLoop at h
    split_ifs at h with hi
    · split at h
      · simp only [] at h
        rcases toTopLoop_m_redoStack_or _ _ _ _ _ h with h1 | h1
        · rw [h1]; simp
        · exact h1
      · exact absurd h (by simp)
    · apply ih _ _ _ h
      obtain ⟨j, hj, hlt⟩ := he
      rcases List.mem_cons.mp hj with hj | hj
      · subst hj; exact absurd hlt hi
      · exact ⟨j, hj, hlt⟩

theorem toTopLoop_total (u : Nat → Operation) (l : List Int) (t : Int) (d : DrawingArea)
    (hl : ∀ i ∈ l, 0 ≤ i ∧ i < (d.m_shapes.length : Int)) :
    ∃ d1, toTopLoop u l t d = some d1 := by
  induction l generalizing u d t with
  | nil => exact ⟨d, rfl⟩
  | cons i l ih =>
    obtain ⟨h0, h1⟩ := hl i (List.mem_cons_self _ _)
    have hrest : ∀ j ∈ l, 0 ≤ j ∧ j < (d.m_shapes.length : Int) :=
      fun j hj => hl j (List.mem_cons_of_mem _ hj)
    unfold toTopLoop
    split_ifs with hi
    · obtain ⟨a, ha, hget⟩ := QList.at?_of_lt h0 h1
      rw [ha]
      simp only []
      apply ih
      have hlen := QList.length_eraseIdx_of_getElem? hget
      simp only [addOperation_m_shapes, List.length_append, List.length_singleton, hlen]
      exact hrest
    · exact ih _ _ _ hrest

theorem toBottomLoop_m_redoStack_or (u : Nat → Operation) (l : List Int) (b : Int)
    (d d1 : DrawingArea) (h : toBottomLoop u l b d = some d1) :
    d1.m_redoStack = d.m_redoStack ∨ d1.m_redoStack = [] := by
  induction l generalizing u d b with
  | nil => simp only [toBottomLoop, Option.some.injEq] at h; subst h; left; rfl
  | cons i l ih =>
    unfold toBottomLoop at h
    split_ifs at h with hi
    · split at h
      · simp only [] at h
        right
        rcases ih _ _ _ h with h1 | h1
        · rw [h1]; simp
        · exact h1
      · exact absurd h (by simp)
    · exact ih _ _ _ h

theorem toBottomLoop_m_redoStack (u : Nat → Operation) (l : List Int) (b : Int)
    (d d1 : DrawingArea) (h : toBottomLoop u l b d = some d1) (he : ∃ i ∈ l, i > b) :
    d1.m_redoStack = [] := by
  induction l generalizing u d b with
  | nil => obtain ⟨i, hi, -⟩ := he; simp at hi
  | cons i l ih =>
    unfold toBottomLoop at h
    split_ifs at h with hi
    · split at h
      · simp only [] at h
        rcases toBottomLoop_m_redoStack_or _ _ _ _ _ h with h1 | h1
        · rw [h1]; simp
        · exact h1
      · exact absurd h (by simp)
    · apply ih _ _ _ h
      obtain ⟨j, hj, hlt⟩ := he
      rcases List.mem_cons.mp hj with hj | hj
      · subst hj; exact absurd hlt hi
      · exact ⟨j, hj, hlt⟩

theorem toBottomLoop_total (u : Nat → Operation) (l : List Int) (b : Int) (d : DrawingArea)
    (hl : ∀ i ∈ l, 0 ≤ i ∧ i < (d.m_shapes.length : Int)) :
    ∃ d1, toBottomLoop u l b d = some d1 := by
  induction l generalizing u d b with
  | nil => exact ⟨d, rfl⟩
  | cons i l ih =>
    obtain ⟨h0, h1⟩ := hl i (List.mem_cons_self _ _)
    have hrest : ∀ j ∈ l, 0 ≤ j ∧ j < (d.m_shapes.length : Int) :=
      fun j hj => hl j (List.mem_cons_of_mem _ hj)
    unfold toBottomLoop
    split_ifs with hi
    · obtain ⟨a, ha, hget⟩ := QList.at?_of_lt h0 h1
      rw [ha]
      simp only []
      apply ih
      have hlen := QList.length_eraseIdx_of_getElem? hget
      have hb : b.toNat ≤ (d.m_shapes.eraseIdx i.toNat).length := by omega
      simp only [addOperation_m_shapes, List.length_insertIdx _ _ hb, hlen]
      exact hrest
    · exact ih _ _ _ hrest

/-- The indices a layer function computes for a selection of live shapes are valid, in any
order. -/
theorem sorted_selectedIndices_valid (r : Int → Int → Prop) [DecidableRel r] (d : DrawingArea)
    (hlive : ∀ s ∈ d.m_selectedShapes, s ∈ d.m_shapes) :
    ∀ i ∈ d.selectedIndices.insertionSort r, 0 ≤ i ∧ i < (d.m_shapes.length : Int) := by
  intro i hi
  have hi1 : i ∈ d.selectedIndices := (List.perm_insertionSort r _).subset hi
  unfold selectedIndices at hi1
  obtain ⟨s, hs, rfl⟩ := List.mem_map.mp hi1
  obtain ⟨h0, h1, -⟩ := QList.indexOf_nonneg_of_mem (hlive s hs)
  exact ⟨h0, h1⟩

theorem mem_sorted_selectedIndices (r : Int → Int → Prop) [DecidableRel r] (d : DrawingArea)
    (s : Ptr) (hs : s ∈ d.m_selectedShapes) :
    QList.indexOf d.m_shapes s ∈ d.selectedIndices.insertionSort r :=
  (List.perm_insertionSort r _).symm.subset (List.mem_map.mpr ⟨s, hs, rfl⟩)

end DrawingArea

/-! ## What the history engine touches: the two stacks and the record of deletions -/

namespace DrawingArea

theorem deletePtr_eq (p : Ptr) (d : DrawingArea) :
    d.deletePtr p = { d with
      destroyed := (d.deletePtr p).destroyed,
      undefinedDeletes := (d.deletePtr p).undefinedDeletes } := by
  unfold deletePtr; split_ifs <;> rfl

theorem dropOperation_eq (op : Operation) (d : DrawingArea) :
    d.dropOperation op = { d with
      destroyed := (d.dropOperation op).destroyed,
      undefinedDeletes := (d.dropOperation op).undefinedDeletes } := by
  unfold dropOperation
  simp only []
  split_ifs
  · rw [deletePtr_eq op.oldShape, deletePtr_eq op.shape]
  · exact deletePtr_eq _ _
  · exact deletePtr_eq _ _
  · rfl

theorem foldl_dropOperation_eq (l : List Operation) (d : DrawingArea) :
    l.foldl (fun acc op => acc.dropOperation op) d =
      { d with destroyed := (l.foldl (fun acc op => acc.dropOperation op) d).destroyed,
               undefinedDeletes :=
                 (l.foldl (fun acc op => acc.dropOperation op) d).undefinedDeletes } := by
  induction l generalizing d with
  | nil => rfl
  | cons op l ih =>
    simp only [List.foldl_cons]
    rw [ih, dropOperation_eq op d]

theorem clearRedoStack_eq (d : DrawingArea) :
    d.clearRedoStack = { d with
      m_redoStack := [],
      destroyed := d.clearRedoStack.destroyed,
      undefinedDeletes := d.clearRedoStack.undefinedDeletes } := by
  unfold clearRedoStack
  rw [foldl_dropOperation_eq]

theorem addOperation_eq (op : Operation) (d : DrawingArea) :
    d.addOperation op =
      { d with m_undoStack := (d.addOperation op).m_undoStack, m_redoStack := [],
               destroyed := (d.addOperation op).destroyed,
               undefinedDeletes := (d.addOperation op).undefinedDeletes } := by
  unfold addOperation
  simp only []
  split_ifs
  · split
    · rw [clearRedoStack_eq]
    · rw [clearRedoStack_eq, dropOperation_eq]
  · rw [clearRedoStack_eq]

theorem recordMoves_eq (u : Nat → Operation) (l : List (Ptr × Ptr)) (d : DrawingArea) :
    recordMoves u l d =
      { d with m_undoStack := (recordMoves u l d).m_undoStack,
               m_redoStack := (recordMoves u l d).m_redoStack,
               destroyed := (recordMoves u l d).destroyed,
               undefinedDeletes := (recordMoves u l d).undefinedDeletes } := by
  induction l generalizing u d with
  | nil => rfl
  | cons e l ih =>
    obtain ⟨s, o⟩ := e
    unfold recordMoves
    split_ifs
    · simp only []
      rw [ih, addOperation_eq]
    · exact ih _ _

theorem endMoveGesture_eq (u : Nat → Operation) (d : DrawingArea) :
    d.endMoveGesture u =
      { d with m_undoStack := (d.endMoveGesture u).m_undoStack,
               m_redoStack := (d.endMoveGesture u).m_redoStack,
               destroyed := (d.endMoveGesture u).destroyed,
               undefinedDeletes := (d.endMoveGesture u).undefinedDeletes,
               m_moveStartPositions := (d.endMoveGesture u).m_moveStartPositions } := by
  unfold endMoveGesture
  split_ifs
  · rw [recordMoves_eq]
  · rfl

theorem endResizeGesture_eq (u : Operation) (d : DrawingArea) :
    d.endResizeGesture u =
      { d with m_undoStack := (d.endResizeGesture u).m_undoStack,
               m_redoStack := (d.endResizeGesture u).m_redoStack,
               destroyed := (d.endResizeGesture u).destroyed,
               undefinedDeletes := (d.endResizeGesture u).undefinedDeletes,
               m_resizeStartShape := (d.endResizeGesture u).m_resizeStartShape } := by
  unfold endResizeGesture
  split_ifs
  · split
    · simp only []
      split_ifs
      · rw [addOperation_eq]
      · rfl
    · rfl
  · rfl

end DrawingArea

namespace DrawingArea

theorem endMoveGesture_m_editMode (u : Nat → Operation) (d : DrawingArea) :
    (d.endMoveGesture u).m_editMode = d.m_editMode := by
  have h := congrArg DrawingArea.m_editMode (endMoveGesture_eq u d)
  exact h

theorem endMoveGesture_m_isDrawing (u : Nat → Operation) (d : DrawingArea) :
    (d.endMoveGesture u).m_isDrawing = d.m_isDrawing := by
  have h := congrArg DrawingArea.m_isDrawing (endMoveGesture_eq u d)
  exact h

theorem endMoveGesture_m_tempShape (u : Nat → Operation) (d : DrawingArea) :
    (d.endMoveGesture u).m_tempShape = d.m_tempShape := by
  have h := congrArg DrawingArea.m_tempShape (endMoveGesture_eq u d)
  exact h

theorem endMoveGesture_m_startPoint (u : Nat → Operation) (d : DrawingArea) :
    (d.endMoveGesture u).m_startPoint = d.m_startPoint := by
  have h := congrArg DrawingArea.m_startPoint (endMoveGesture_eq u d)
  exact h

theorem endMoveGesture_m_endPoint (u : Nat → Operation) (d : DrawingArea) :
    (d.endMoveGesture u).m_endPoint = d.m_endPoint := by
  have h := congrArg DrawingArea.m_endPoint (endMoveGesture_eq u d)
  exact h

theorem endMoveGesture_m_isResizing (u : Nat → Operation) (d : DrawingArea) :
    (d.endMoveGesture u).m_isResizing = d.m_isResizing := by
  have h := congrArg DrawingArea.m_isResizing (endMoveGesture_eq u d)
  exact h

theorem endMoveGesture_m_resizeStartShape (u : Nat → Operation) (d : DrawingArea) :
    (d.endMoveGesture u).m_resizeStartShape = d.m_resizeStartShape := by
  have h := congrArg DrawingArea.m_resizeStartShape (endMoveGesture_eq u d)
  exact h

theorem endMoveGesture_m_selectedShapes (u : Nat → Operation) (d : DrawingArea) :
    (d.endMoveGesture u).m_selectedShapes = d.m_selectedShapes := by
  have h := congrArg DrawingArea.m_selectedShapes (endMoveGesture_eq u d)
  exact h

theorem endMoveGesture_m_shapes (u : Nat → Operation) (d : DrawingArea) :
    (d.endMoveGesture u).m_shapes = d.m_shapes := by
  have h := congrArg DrawingArea.m_shapes (endMoveGesture_eq u d)
  exact h

theorem endMoveGesture_m_maxUndoSteps (u : Nat → Operation) (d : DrawingArea) :
    (d.endMoveGesture u).m_maxUndoSteps = d.m_maxUndoSteps := by
  have h := congrArg DrawingArea.m_maxUndoSteps (endMoveGesture_eq u d)
  exact h

theorem endResizeGesture_m_editMode (u : Operation) (d : DrawingArea) :
    (d.endResizeGesture u).m_editMode = d.m_editMode := by
  have h := congrArg DrawingArea.m_editMode (endResizeGesture_eq u d)
  exact h

theorem endResizeGesture_m_isDrawing (u : Operation) (d : DrawingArea) :
    (d.endResizeGesture u).m_isDrawing = d.m_isDrawing := by
  have h := congrArg DrawingArea.m_isDrawing (endResizeGesture_eq u d)
  exact h

theorem endResizeGesture_m_tempShape (u : Operation) (d : DrawingArea) :
    (d.endResizeGesture u).m_tempShape = d.m_tempShape := by
  have h := congrArg DrawingArea.m_tempShape (endResizeGesture_eq u d)
  exact h

theorem endResizeGesture_m_startPoint (u : Operation) (d : DrawingArea) :
    (d.endResizeGesture u).m_startPoint = d.m_startPoint := by
  have h := congrArg DrawingArea.m_startPoint (endResizeGesture_eq u d)
  exact h

theorem endResizeGesture_m_endPoint (u : Operation) (d : DrawingArea) :
    (d.endResizeGesture u).m_endPoint = d.m_endPoint := by
  have h := congrArg DrawingArea.m_endPoint (endResizeGesture_eq u d)
  exact h

theorem endResizeGesture_m_selectedShapes (u : Operation) (d : DrawingArea) :
    (d.endResizeGesture u).m_selectedShapes = d.m_selectedShapes := by
  have h := congrArg DrawingArea.m_selectedShapes (endResizeGesture_eq u d)
  exact h

theorem endResizeGesture_m_shapes (u : Operation) (d : DrawingArea) :
    (d.endResizeGesture u).m_shapes = d.m_shapes := by
  have h := congrArg DrawingArea.m_shapes (endResizeGesture_eq u d)
  exact h

theorem endResizeGesture_m_maxUndoSteps (u : Operation) (d : DrawingArea) :
    (d.endResizeGesture u).m_maxUndoSteps = d.m_maxUndoSteps := by
  have h := congrArg DrawingArea.m_maxUndoSteps (endResizeGesture_eq u d)
  exact h

/-- The two gesture blocks at the head of `mouseReleaseEvent` leave the drawing state alone. -/
theorem release_blocks_fields (u : Nat → Operation) (v : Operation) (d : DrawingArea) :
    ((d.endMoveGesture u).endResizeGesture v).m_editMode = d.m_editMode ∧
    ((d.endMoveGesture u).endResizeGesture v).m_isDrawing = d.m_isDrawing ∧
    ((d.endMoveGesture u).endResizeGesture v).m_tempShape = d.m_tempShape ∧
    ((d.endMoveGesture u).endResizeGesture v).m_startPoint = d.m_startPoint ∧
    ((d.endMoveGesture u).endResizeGesture v).m_endPoint = d.m_endPoint := by
  simp only [endResizeGesture_m_editMode, endResizeGesture_m_isDrawing,
    endResizeGesture_m_tempShape, endResizeGesture_m_startPoint, endResizeGesture_m_endPoint,
    endMoveGesture_m_editMode, endMoveGesture_m_isDrawing, endMoveGesture_m_tempShape,
    endMoveGesture_m_startPoint, endMoveGesture_m_endPoint, and_self]

theorem mouseReleaseEvent_draw (button : MouseButton) (u : Nat → Operation) (d : DrawingArea)
    (hmode : d.m_editMode = EditMode.Draw) :
    d.mouseReleaseEvent button u =
      commitDrawing button (u 0)
        { ((d.endMoveGesture (fun k => u (k + 2))).endResizeGesture (u 1)) with
          m_isMoving := false, m_isResizing := false, m_resizeHandle := -1 } := by
  have h := (release_blocks_fields (fun k => u (k + 2)) (u 1) d).1
  rw [hmode] at h
  unfold mouseReleaseEvent
  simp only [h]

end DrawingArea

/-! ## A sequence split at one of its shapes -/

namespace QList

theorem indexOf_split {A B : List Ptr} {s : Ptr} (h : s ∉ A) :
    indexOf (A ++ s :: B) s = (A.length : Int) := by
  unfold indexOf
  rw [if_pos (by simp)]
  rw [List.indexOf_append_of_not_mem h, List.indexOf_cons_self]
  simp

theorem getElem?_split (A B : List Ptr) (s : Ptr) : (A ++ s :: B)[A.length]? = some s := by
  rw [List.getElem?_append_right (Nat.le_refl _)]
  simp

theorem at?_split (A B : List Ptr) (s : Ptr) : at? (A ++ s :: B) (A.length : Int) = some s := by
  unfold at?
  rw [if_pos (by omega)]
  simp only [Int.toNat_ofNat]
  exact getElem?_split A B s

theorem eraseIdx_split (A B : List Ptr) (s : Ptr) : (A ++ s :: B).eraseIdx A.length = A ++ B := by
  rw [List.eraseIdx_append_of_length_le (Nat.le_refl _)]
  simp

theorem insertIdx_split (A B : List Ptr) (s : Ptr) :
    (A ++ B).insertIdx A.length s = A ++ s :: B := by
  induction A with
  | nil => simp
  | cons a A ih => simp [List.insertIdx_succ_cons, ih]

theorem split_of_getElem? {l : List Ptr} {i : Nat} {s : Ptr} (h : l[i]? = some s) :
    l = l.take i ++ s :: l.drop (i + 1) ∧ (l.take i).length = i := by
  obtain ⟨hi, hs⟩ := List.getElem?_eq_some.mp h
  refine ⟨?_, by simp; omega⟩
  conv_lhs => rw [← List.take_append_drop i l, List.drop_eq_getElem_cons hi, hs]

/-- `QList::move` on natural indices. -/
theorem move_natCast {l : List Ptr} {a b : Nat} {x : Ptr} (ha : l[a]? = some x)
    (hb : b < l.length) :
    move l (a : Int) (b : Int) = some ((l.eraseIdx a).insertIdx b x) := by
  have hat : at? l (a : Int) = some x := by
    unfold at?
    rw [if_pos (by omega)]
    simpa using ha
  unfold move
  rw [hat]
  simp only [Int.toNat_ofNat]
  rw [if_pos ⟨by omega, by omega⟩]

end QList

namespace DrawingArea

theorem replay_of_move (op : Operation) (idx : Int) (e : DrawingArea) (c t : Nat)
    (l1 : List Ptr) (hs : op.shape ≠ 0)
    (hc : QList.indexOf e.m_shapes op.shape = (c : Int)) (hidx : idx ≠ -1)
    (ht : qBound 0 idx e.m_shapes.length = (t : Int)) (hne : c ≠ t)
    (hm : QList.move e.m_shapes (c : Int) (t : Int) = some l1) :
    e.replay op idx = some { e with m_shapes := l1 } := by
  unfold replay
  simp only []
  rw [if_pos hs, hc, ht]
  rw [if_pos ⟨by omega, hidx⟩, if_pos (by omega), hm]
  rfl

theorem undo_of_getLast? {d : DrawingArea} {op : Operation}
    (h : d.m_undoStack.getLast? = some op) (ht : op.type = OperationType.LayerChange) :
    d.undo = replay op op.oldIndex { d with
      m_undoStack := d.m_undoStack.dropLast,
      m_redoStack := d.m_redoStack ++ [op],
      m_selectedShapes := [] } := by
  unfold undo
  rw [h]
  simp only [ht]

theorem redo_of_getLast? {d : DrawingArea} (op : Operation)
    (h : d.m_redoStack.getLast? = some op) (ht : op.type = OperationType.LayerChange) :
    d.redo = replay op op.newIndex { d with
      m_redoStack := d.m_redoStack.dropLast,
      m_undoStack := d.m_undoStack ++ [op],
      m_selectedShapes := [] } := by
  unfold redo
  rw [h]
  simp only [ht]

theorem pushBounded_getLast? (limit : Int) (stack : List Operation) (op : Operation)
    (h : 1 ≤ limit) : (pushBounded limit stack op).getLast? = some op := by
  unfold pushBounded
  split_ifs with hlen
  · cases stack with
    | nil => simp at hlen; omega
    | cons o rest => simp
  · simp

end DrawingArea

/-! ## `moveSelectedShapesToBottom` on a duplicate-free selection -/

namespace QList

theorem indexOf_append_right {A B : List Ptr} {y : Ptr} (hA : y ∉ A) (hB : y ∈ B) :
    indexOf (A ++ B) y = (A.length : Int) + indexOf B y := by
  unfold indexOf
  rw [if_pos (by simp [hB]), if_pos hB, List.indexOf_append_of_not_mem hA]
  push_cast
  rfl

theorem indexOf_cons_ne {x y : Ptr} {B : List Ptr} (hne : y ≠ x) (hB : y ∈ B) :
    indexOf (x :: B) y = 1 + indexOf B y := by
  have := indexOf_append_right (A := [x]) (B := B) (y := y) (by simpa using hne) hB
  simpa using this

end QList

namespace DrawingArea

theorem addOperations_nil (d : DrawingArea) : d.addOperations [] = d := rfl

theorem addOperations_cons (op : Operation) (ops : List Operation) (d : DrawingArea) :
    d.addOperations (op :: ops) = (d.addOperation op).addOperations ops := rfl

/-- The stacks after a series of pushes depend on the stacks and the limit only. -/
theorem addOperations_stacks_congr (ops : List Operation) (d e : DrawingArea)
    (h1 : d.m_undoStack = e.m_undoStack) (h2 : d.m_redoStack = e.m_redoStack)
    (h3 : d.m_maxUndoSteps = e.m_maxUndoSteps) :
    (d.addOperations ops).m_undoStack = (e.addOperations ops).m_undoStack ∧
    (d.addOperations ops).m_redoStack = (e.addOperations ops).m_redoStack := by
  induction ops generalizing d e with
  | nil => exact ⟨h1, h2⟩
  | cons op ops ih =>
    rw [addOperations_cons, addOperations_cons]
    apply ih
    · rw [addOperation_m_undoStack, addOperation_m_undoStack, h1, h3]
    · simp
    · simp [h3]

theorem toBottomLoop_split (p : Ptr → Bool) (l0 : List Ptr) :
    ∀ (B F M : List Ptr) (u : Nat → Operation) (d : DrawingArea),
      d.m_shapes = F ++ M ++ B → (F ++ M ++ B).Nodup → M ≠ [] →
      (∀ x ∈ B, QList.indexOf l0 x = QList.indexOf (F ++ M ++ B) x) →
      ∃ d1, toBottomLoop u ((B.filter p).map (QList.indexOf l0)) (F.length : Int) d = some d1 ∧
        d1.m_shapes = F ++ B.filter p ++ M ++ B.filter (fun x => !p x) ∧
        d1.m_undoStack =
          (d.addOperations (bottomOps u l0 (B.filter p) (F.length : Int))).m_undoStack ∧
        d1.m_redoStack =
          (d.addOperations (bottomOps u l0 (B.filter p) (F.length : Int))).m_redoStack := by
  intro B
  induction B with
  | nil =>
    intro F M u d hd _ _ _
    refine ⟨d, rfl, ?_, rfl, rfl⟩
    simpa using hd
  | cons x B ih =>
    intro F M u d hd hnd hM hidx
    have hnd1 : ((F ++ M) ++ x :: B).Nodup := hnd
    have hxFM : x ∉ F ++ M :=
      fun h => (List.nodup_append.mp hnd1).2.2 h (List.mem_cons_self _ _)
    have hxB : x ∉ B := (List.nodup_cons.mp (List.nodup_append.mp hnd1).2.1).1
    have hFM_B : ∀ y ∈ B, y ∉ F ++ M :=
      fun y hy h => (List.nodup_append.mp hnd1).2.2 h (List.mem_cons_of_mem _ hy)
    by_cases hp : p x = true
    · -- `x` is selected: it is taken out and inserted at the next bottom slot
      have hfilter : (x :: B).filter p = x :: B.filter p := by simp [hp]
      have hfilter2 : (x :: B).filter (fun y => !p y) = B.filter (fun y => !p y) := by simp [hp]
      have hix : QList.indexOf l0 x = ((F ++ M).length : Int) := by
        rw [hidx x (List.mem_cons_self _ _)]
        exact QList.indexOf_split hxFM
      have hMlen : 0 < M.length := List.length_pos.mpr hM
      have hFMlen : (F ++ M).length = F.length + M.length := List.length_append _ _
      have hat : QList.at? d.m_shapes ((F ++ M).length : Int) = some x := by
        rw [hd]; exact QList.at?_split (F ++ M) B x
      have hnew : (d.m_shapes.eraseIdx (F ++ M).length).insertIdx F.length x
          = (F ++ [x]) ++ M ++ B := by
        rw [hd, QList.eraseIdx_split, List.append_assoc, QList.insertIdx_split]
        simp
      obtain ⟨d1, hrun, hshapes, hundo, hredo⟩ := ih (F ++ [x]) M (nextUninit u)
        { d.addOperation (layerOp (u 0) x (QList.indexOf l0 x) (F.length : Int)) with
          m_shapes := (F ++ [x]) ++ M ++ B }
        rfl
        (by
          have hperm : ((F ++ [x]) ++ M ++ B).Perm (F ++ M ++ x :: B) := by
            simp only [List.append_assoc, List.singleton_append]
            exact (List.perm_append_left_iff F).mpr List.perm_middle.symm
          exact hperm.nodup_iff.mpr hnd)
        hM
        (by
          intro y hy
          rw [hidx y (List.mem_cons_of_mem _ hy)]
          have hyx : y ≠ x := fun h => hxB (h ▸ hy)
          have hyFM := hFM_B y hy
          have hyFxM : y ∉ (F ++ [x]) ++ M := by
            simp only [List.mem_append, List.mem_singleton, not_or] at hyFM ⊢
            exact ⟨⟨hyFM.1, hyx⟩, hyFM.2⟩
          rw [QList.indexOf_append_right hyFM (List.mem_cons_of_mem _ hy),
            QList.indexOf_cons_ne hyx hy, QList.indexOf_append_right hyFxM hy]
          simp only [List.length_append, List.length_singleton]
          push_cast
          omega)
      refine ⟨d1, ?_, ?_, ?_, ?_⟩
      · rw [hfilter, List.map_cons, hix]
        unfold toBottomLoop
        rw [if_pos (by rw [hFMlen]; push_cast; omega), hat]
        simp only [addOperation_m_shapes, Int.toNat_ofNat, hnew]
        rw [← hix]
        have hcast : ((F.length : Int) + 1) = ((F ++ [x]).length : Int) := by simp
        rw [hcast]
        exact hrun
      · rw [hshapes, hfilter, hfilter2]; simp
      · rw [hundo, hfilter]
        have hcast : ((F ++ [x]).length : Int) = (F.length : Int) + 1 := by simp
        rw [hcast]
        show _ = ((d.addOperation (layerOp (u 0) x (QList.indexOf l0 x) (F.length : Int))).addOperations
          (bottomOps (nextUninit u) l0 (B.filter p) ((F.length : Int) + 1))).m_undoStack
        exact (addOperations_stacks_congr _ _ _ (by rfl) (by rfl) (by rfl)).1
      · rw [hredo, hfilter]
        have hcast : ((F ++ [x]).length : Int) = (F.length : Int) + 1 := by simp
        rw [hcast]
        show _ = ((d.addOperation (layerOp (u 0) x (QList.indexOf l0 x) (F.length : Int))).addOperations
          (bottomOps (nextUninit u) l0 (B.filter p) ((F.length : Int) + 1))).m_redoStack
        exact (addOperations_stacks_congr _ _ _ (by rfl) (by rfl) (by rfl)).2
    · -- `x` is not selected: it stays, behind the shapes moved so far
      have hfilter : (x :: B).filter p = B.filter p := by simp [hp]
      have hfilter2 : (x :: B).filter (fun y => !p y) = x :: B.filter (fun y => !p y) := by
        simp [hp]
      have hassoc : F ++ (M ++ [x]) ++ B = F ++ M ++ x :: B := by simp
      obtain ⟨d1, hrun, hshapes, hundo, hredo⟩ := ih F (M ++ [x]) u d
        (by rw [hd, hassoc]) (by rw [hassoc]; exact hnd) (by simp)
        (by intro y hy; rw [hassoc]; exact hidx y (List.mem_cons_of_mem _ hy))
      refine ⟨d1, by rw [hfilter]; exact hrun, ?_, by rw [hfilter]; exact hundo,
        by rw [hfilter]; exact hredo⟩
      rw [hshapes, hfilter, hfilter2]; simp

end DrawingArea

namespace QList

/-- In a duplicate-free sequence, shapes further up have larger indices. -/
theorem pairwise_indexOf_lt (P : List Ptr) :
    ∀ l : List Ptr, (P ++ l).Nodup →
      l.Pairwise (fun a b => indexOf (P ++ l) a < indexOf (P ++ l) b) := by
  intro l
  induction l generalizing P with
  | nil => intro _; exact List.Pairwise.nil
  | cons a l ih =>
    intro hnd
    have haP : a ∉ P := fun h => (List.nodup_append.mp hnd).2.2 h (List.mem_cons_self _ _)
    have hassoc : (P ++ [a]) ++ l = P ++ a :: l := by simp
    refine List.Pairwise.cons ?_ ?_
    · intro b hb
      have hbPa : b ∉ P ++ [a] := by
        intro h
        rcases List.mem_append.mp h with h | h
        · exact (List.nodup_append.mp hnd).2.2 h (List.mem_cons_of_mem _ hb)
        · rw [List.mem_singleton] at h
          subst h
          exact (List.nodup_cons.mp (List.nodup_append.mp hnd).2.1).1 hb
      rw [indexOf_split haP, ← hassoc, indexOf_append_right hbPa hb]
      have h0 := indexOf_nonneg_of_mem hb
      simp only [List.length_append, List.length_singleton]
      push_cast
      omega
    · have := ih (P ++ [a]) (by rw [hassoc]; exact hnd)
      rw [hassoc] at this
      exact this

/-- The ascending sort of the indices of a duplicate-free selection of live shapes lists the
selected shapes in sequence order. -/
theorem sort_selected_indices (l sel : List Ptr) (hnd : l.Nodup) (hsel : sel.Nodup)
    (hlive : ∀ s ∈ sel, s ∈ l) :
    (sel.map (indexOf l)).insertionSort (fun a b => a ≤ b) =
      (l.filter (fun x => decide (x ∈ sel))).map (indexOf l) := by
  have hperm : sel.Perm (l.filter (fun x => decide (x ∈ sel))) := by
    rw [List.perm_ext_iff_of_nodup hsel (hnd.filter _)]
    intro a
    simp only [List.mem_filter, decide_eq_true_eq]
    exact ⟨fun h => ⟨hlive a h, h⟩, fun h => h.2⟩
  have hsorted : ((l.filter (fun x => decide (x ∈ sel))).map (indexOf l)).Sorted
      (fun a b => a ≤ b) := by
    have h1 := pairwise_indexOf_lt [] l (by simpa using hnd)
    simp only [List.nil_append] at h1
    have h2 := h1.sublist (List.filter_sublist l (p := fun x => decide (x ∈ sel)))
    rw [List.Sorted, List.pairwise_map]
    exact h2.imp (fun h => le_of_lt h)
  exact List.eq_of_perm_of_sorted
    ((List.perm_insertionSort _ _).trans (hperm.map _))
    (List.sorted_insertionSort _ _) hsorted

end QList

namespace DrawingArea

theorem bottomOps_map_shape (u : Nat → Operation) (l0 S : List Ptr) (b : Int) :
    (bottomOps u l0 S b).map (fun op => op.shape) = S := by
  induction S generalizing u b with
  | nil => rfl
  | cons s S ih => simp [bottomOps, layerOp, ih]

theorem bottomOps_mem (u : Nat → Operation) (l0 S : List Ptr) (b : Int) :
    ∀ op ∈ bottomOps u l0 S b,
      op.type = OperationType.LayerChange ∧ op.oldIndex = QList.indexOf l0 op.shape := by
  induction S generalizing u b with
  | nil => intro op hop; simp [bottomOps] at hop
  | cons s S ih =>
    intro op hop
    rw [bottomOps, List.mem_cons] at hop
    rcases hop with hop | hop
    · subst hop; exact ⟨rfl, rfl⟩
    · exact ih _ _ op hop

theorem bottomOps_getElem? (u : Nat → Operation) (l0 S : List Ptr) (b : Int) :
    ∀ (j : Nat) (op : Operation), (bottomOps u l0 S b)[j]? = some op →
      op.newIndex = b + (j : Int) ∧ S[j]? = some op.shape := by
  induction S generalizing u b with
  | nil => intro j op hop; simp [bottomOps] at hop
  | cons s S ih =>
    intro j op hop
    rw [bottomOps] at hop
    cases j with
    | zero =>
      simp only [List.getElem?_cons_zero, Option.some.injEq] at hop
      subst hop
      exact ⟨by simp [layerOp], by simp [layerOp]⟩
    | succ j =>
      simp only [List.getElem?_cons_succ] at hop
      obtain ⟨h1, h2⟩ := ih _ _ j op hop
      refine ⟨by rw [h1]; push_cast; omega, by simpa using h2⟩

end DrawingArea

namespace DrawingArea

/-- The loop of `moveSelectedShapesToBottom` on the sorted indices of a duplicate-free
selection: the selected shapes of the tail come to the front, in sequence order. -/
theorem toBottom_run (d : DrawingArea) (u : Nat → Operation) (h : Ptr) (T : List Ptr)
    (hl : d.m_shapes = h :: T) (hnd : d.m_shapes.Nodup) (hsel : d.m_selectedShapes.Nodup)
    (hlive : ∀ s ∈ d.m_selectedShapes, s ∈ d.m_shapes) (hne : d.m_selectedShapes ≠ []) :
    ∃ d1 v, d.moveSelectedShapesToBottom u = some d1 ∧
      d1.m_shapes = T.filter (fun x => decide (x ∈ d.m_selectedShapes)) ++ [h] ++
        T.filter (fun x => !decide (x ∈ d.m_selectedShapes)) ∧
      d1.m_undoStack = (d.addOperations (bottomOps v d.m_shapes
        (T.filter (fun x => decide (x ∈ d.m_selectedShapes))) 0)).m_undoStack ∧
      d1.m_redoStack = (d.addOperations (bottomOps v d.m_shapes
        (T.filter (fun x => decide (x ∈ d.m_selectedShapes))) 0)).m_redoStack := by
  have hempty : ¬ d.m_selectedShapes.isEmpty = true := fun h0 => hne (List.isEmpty_iff.mp h0)
  have hloop : ∀ v : Nat → Operation, ∃ d1,
      toBottomLoop v ((T.filter (fun x => decide (x ∈ d.m_selectedShapes))).map
        (QList.indexOf d.m_shapes)) 0 d = some d1 ∧
      d1.m_shapes = T.filter (fun x => decide (x ∈ d.m_selectedShapes)) ++ [h] ++
        T.filter (fun x => !decide (x ∈ d.m_selectedShapes)) ∧
      d1.m_undoStack = (d.addOperations (bottomOps v d.m_shapes
        (T.filter (fun x => decide (x ∈ d.m_selectedShapes))) 0)).m_undoStack ∧
      d1.m_redoStack = (d.addOperations (bottomOps v d.m_shapes
        (T.filter (fun x => decide (x ∈ d.m_selectedShapes))) 0)).m_redoStack := by
    intro v
    have := toBottomLoop_split (fun x => decide (x ∈ d.m_selectedShapes)) d.m_shapes T [] [h]
      v d (by simpa using hl) (by rw [hl] at hnd; simpa using hnd) (by simp)
      (by intro x _; rw [hl]; rfl)
    simpa using this
  unfold moveSelectedShapesToBottom selectedIndices
  rw [if_neg hempty, QList.sort_selected_indices _ _ hnd hsel hlive]
  by_cases hp : h ∈ d.m_selectedShapes
  · -- the bottom shape is selected: its index 0 is skipped
    obtain ⟨d1, hrun, hrest⟩ := hloop (nextUninit u)
    refine ⟨d1, nextUninit u, ?_, hrest⟩
    have hfilter : d.m_shapes.filter (fun x => decide (x ∈ d.m_selectedShapes)) =
        h :: T.filter (fun x => decide (x ∈ d.m_selectedShapes)) := by
      rw [hl]; simp [hp]
    have h0 : QList.indexOf d.m_shapes h = 0 := by
      rw [hl]; exact QList.indexOf_split (A := []) (by simp)
    rw [hfilter, List.map_cons, h0]
    unfold toBottomLoop
    rw [if_neg (by omega)]
    exact hrun
  · obtain ⟨d1, hrun, hrest⟩ := hloop u
    refine ⟨d1, u, ?_, hrest⟩
    have hfilter : d.m_shapes.filter (fun x => decide (x ∈ d.m_selectedShapes)) =
        T.filter (fun x => decide (x ∈ d.m_selectedShapes)) := by
      rw [hl]; simp [hp]
    rw [hfilter]
    exact hrun

end DrawingArea

/-! ## `setMaxUndoSteps`, and when `undo` / `redo` complete -/

namespace DrawingArea

theorem trimUndoStack_m_maxUndoSteps (n : Nat) (d : DrawingArea) :
    (trimUndoStack n d).m_maxUndoSteps = d.m_maxUndoSteps := by
  induction n generalizing d with
  | zero => rfl
  | succ n ih =>
    unfold trimUndoStack
    split_ifs
    · split
      · rfl
      · rw [ih]; simp
    · rfl

/-- With enough fuel the loop of `setMaxUndoSteps` leaves the newest entries, as many as the
limit allows. -/
theorem trimUndoStack_m_undoStack (n : Nat) (d : DrawingArea) (N : Nat)
    (hN : d.m_maxUndoSteps = N) (hn : d.m_undoStack.length ≤ n) :
    (trimUndoStack n d).m_undoStack = d.m_undoStack.drop (d.m_undoStack.length - N) := by
  induction n generalizing d with
  | zero =>
    have h0 : d.m_undoStack = [] := List.length_eq_zero.mp (by omega)
    simp [trimUndoStack, h0]
  | succ n ih =>
    unfold trimUndoStack
    split_ifs with hlen
    · split
      · next h0 => simp [h0]
      · next oldOp rest hor =>
        rw [ih _ (by simpa using hN) (by rw [hor] at hn; simpa using hn)]
        rw [hN, hor] at hlen
        have hlt : N < rest.length + 1 := by
          simp only [List.length_cons] at hlen
          omega
        have e : rest.length + 1 - N = (rest.length - N) + 1 := by omega
        simp only [dropOperation_m_undoStack]
        rw [hor, List.length_cons, e, List.drop_succ_cons]
    · rw [hN] at hlen
      have hle : d.m_undoStack.length ≤ N := by
        have : ¬ ((d.m_undoStack.length : Int) > (N : Int)) := hlen
        omega
      have e : d.m_undoStack.length - N = 0 := by omega
      rw [e, List.drop_zero]

/-- The one case in which `replay` has no result: the shape is in the sequence and the
recorded index is not below the length, so that `qBound(0, index, size())` is `size()` and
`QList::move` is called outside its range. -/
theorem replay_eq_none_iff (op : Operation) (idx : Int) (e : DrawingArea) :
    e.replay op idx = none ↔
      op.shape ≠ 0 ∧ op.shape ∈ e.m_shapes ∧ (e.m_shapes.length : Int) ≤ idx := by
  have hidx := QList.indexOf_lt_length e.m_shapes op.shape
  constructor
  · intro h
    unfold replay at h
    simp only [] at h
    split_ifs at h with h1 h2 h3
    rw [Option.map_eq_none'] at h
    have hmem : op.shape ∈ e.m_shapes := by
      by_contra hn
      exact h2.1 (by unfold QList.indexOf; rw [if_neg hn])
    have h0 := (QList.indexOf_nonneg_of_mem hmem).1
    have hat := QList.at?_of_lt h0 hidx
    obtain ⟨a, ha, -⟩ := hat
    unfold QList.move at h
    rw [ha] at h
    simp only [] at h
    split_ifs at h with h4
    refine ⟨h1, hmem, ?_⟩
    unfold qBound at h4
    have hlen : 0 < e.m_shapes.length := List.length_pos_of_mem hmem
    by_contra hlt
    apply h4
    constructor
    · exact le_max_left _ _
    · rw [max_lt_iff]
      constructor
      · omega
      · rw [min_lt_iff]; right; omega
  · rintro ⟨h1, hmem, hge⟩
    have h0 := (QList.indexOf_nonneg_of_mem hmem).1
    have hlen : 0 < e.m_shapes.length := List.length_pos_of_mem hmem
    have ht : qBound 0 idx e.m_shapes.length = (e.m_shapes.length : Int) := by
      unfold qBound
      rw [min_eq_left hge, max_eq_right (by omega)]
    unfold replay
    simp only []
    rw [if_pos h1, ht, if_pos ⟨by omega, by omega⟩, if_pos (by omega)]
    rw [Option.map_eq_none']
    unfold QList.move
    split
    · rw [if_neg (by omega)]
    · rfl

theorem undo_of_append {d : DrawingArea} {rest : List Operation} {op : Operation}
    (h : d.m_undoStack = rest ++ [op]) :
    d.undo =
      match op.type with
      | OperationType.AddShape =>
        some (takeOut op { d with m_undoStack := rest, m_redoStack := d.m_redoStack ++ [op],
                                  m_selectedShapes := [] })
      | OperationType.DeleteShape =>
        some (reinsert op { d with m_undoStack := rest, m_redoStack := d.m_redoStack ++ [op],
                                   m_selectedShapes := [] })
      | OperationType.ModifyShape =>
        some (swapProperties op { d with m_undoStack := rest,
                                         m_redoStack := d.m_redoStack ++ [op],
                                         m_selectedShapes := [] })
      | _ =>
        replay op op.oldIndex { d with m_undoStack := rest, m_redoStack := d.m_redoStack ++ [op],
                                       m_selectedShapes := [] } := by
  have hl : (rest ++ [op]).getLast? = some op := by simp
  unfold undo
  rw [h, hl]
  simp only [List.dropLast_concat]
  cases op.type <;> rfl

theorem redo_of_append {d : DrawingArea} {rest : List Operation} {op : Operation}
    (h : d.m_redoStack = rest ++ [op]) :
    d.redo =
      match op.type with
      | OperationType.AddShape =>
        some (reinsert op { d with m_redoStack := rest, m_undoStack := d.m_undoStack ++ [op],
                                   m_selectedShapes := [] })
      | OperationType.DeleteShape =>
        some (takeOut op { d with m_redoStack := rest, m_undoStack := d.m_undoStack ++ [op],
                                  m_selectedShapes := [] })
      | OperationType.ModifyShape =>
        some (swapProperties op { d with m_redoStack := rest,
                                         m_undoStack := d.m_undoStack ++ [op],
                                         m_selectedShapes := [] })
      | _ =>
        replay op op.newIndex { d with m_redoStack := rest, m_undoStack := d.m_undoStack ++ [op],
                                       m_selectedShapes := [] } := by
  have hl : (rest ++ [op]).getLast? = some op := by simp
  unfold redo
  rw [h, hl]
  simp only [List.dropLast_concat]
  cases op.type <;> rfl

end DrawingArea

/-! ## The property swap of a `ModifyShape` operation -/

namespace DrawingArea

/-- The heap after the swap: the clone takes the five values of the live shape, the live
shape those of the clone, every other object is as before. -/
theorem swapProperties_heap (op : Operation) (e : DrawingArea) (hs : op.shape ≠ 0)
    (ho : op.oldShape ≠ 0) :
    (e.swapProperties op).heap = fun q =>
      if q = op.oldShape then
        { e.heap op.oldShape with
          m_color := (e.heap op.shape).m_color, m_lineWidth := (e.heap op.shape).m_lineWidth,
          m_filled := (e.heap op.shape).m_filled, m_fillColor := (e.heap op.shape).m_fillColor,
          m_boundingRect := (e.heap op.shape).m_boundingRect }
      else if q = op.shape then
        { e.heap op.shape with
          m_color := (e.heap op.oldShape).m_color,
          m_lineWidth := (e.heap op.oldShape).m_lineWidth,
          m_filled := (e.heap op.oldShape).m_filled,
          m_fillColor := (e.heap op.oldShape).m_fillColor,
          m_boundingRect := (e.heap op.oldShape).m_boundingRect }
      else e.heap q := by
  unfold swapProperties
  rw [if_pos ⟨hs, ho⟩]
  funext q
  simp only [store]
  by_cases h1 : q = op.oldShape
  · rw [if_pos h1, if_pos h1]
    by_cases h2 : op.oldShape = op.shape
    · rw [if_pos h2, h2]
    · rw [if_neg h2]
  · rw [if_neg h1, if_neg h1]

theorem swapProperties_eq (op : Operation) (e : DrawingArea) :
    e.swapProperties op = { e with heap := (e.swapProperties op).heap } := by
  unfold swapProperties
  split_ifs <;> rfl

theorem swapProperties_heap_congr (op : Operation) (e e1 : DrawingArea) (h : e.heap = e1.heap) :
    (e.swapProperties op).heap = (e1.swapProperties op).heap := by
  unfold swapProperties
  split_ifs
  · simp only [store, h]
  · exact h

/-- Swapping twice gives the heap back. -/
theorem swapProperties_twice (op : Operation) (e : DrawingArea) :
    ((e.swapProperties op).swapProperties op).heap = e.heap := by
  by_cases h : op.shape ≠ 0 ∧ op.oldShape ≠ 0
  · rw [swapProperties_heap op _ h.1 h.2, swapProperties_heap op e h.1 h.2]
    funext q
    by_cases h1 : q = op.oldShape
    · subst h1
      by_cases h2 : op.oldShape = op.shape
      · simp [h2]
      · simp [h2, Ne.symm h2]
    · by_cases h2 : q = op.shape
      · subst h2
        simp [h1, Ne.symm h1]
      · simp [h1, h2]
  · unfold swapProperties
    rw [if_neg h]
    simp only []
    rw [if_neg h]

end DrawingArea

/-! ## The `Draw` case of `mouseReleaseEvent` -/

namespace DrawingArea

/-- The two gesture blocks at the head of `mouseReleaseEvent` touch the two stacks, the
record of deletions, the table of start positions and the resize snapshot only. -/
theorem release_blocks_eq (u : Nat → Operation) (v : Operation) (d : DrawingArea) :
    ∃ us rs ds uds ms r, (d.endMoveGesture u).endResizeGesture v =
      { d with m_undoStack := us, m_redoStack := rs, destroyed := ds,
               undefinedDeletes := uds, m_moveStartPositions := ms,
               m_resizeStartShape := r } := by
  have h1 := endResizeGesture_eq v (d.endMoveGesture u)
  have h2 := endMoveGesture_eq u d
  generalize d.endMoveGesture u = e at h1 h2 ⊢
  generalize e.endResizeGesture v = f at h1 ⊢
  refine ⟨f.m_undoStack, f.m_redoStack, f.destroyed, f.undefinedDeletes,
    e.m_moveStartPositions, f.m_resizeStartShape, ?_⟩
  rw [h1, h2]

/-- Without a move and without a resize gesture in progress the two blocks do nothing. -/
theorem release_blocks_idle (u : Nat → Operation) (v : Operation) (d : DrawingArea)
    (hm : d.m_isMoving = false) (hr : d.m_isResizing = false) :
    (d.endMoveGesture u).endResizeGesture v = d := by
  have h1 : d.endMoveGesture u = d := by
    unfold endMoveGesture
    rw [if_neg (by simp [hm])]
  rw [h1]
  unfold endResizeGesture
  rw [if_neg (by simp [hr])]

/-- `setSelected` changes the selected flag of an object and nothing else. -/
theorem setSelectedAll_heap (v : Bool) (l : List Ptr) (d : DrawingArea) (p : Ptr) :
    ∃ b, (d.setSelectedAll v l).heap p = { d.heap p with m_selected := b } := by
  induction l generalizing d with
  | nil => exact ⟨(d.heap p).m_selected, rfl⟩
  | cons q l ih =>
    obtain ⟨b, hb⟩ := ih (d.store q { d.heap q with m_selected := v })
    refine ⟨b, ?_⟩
    unfold setSelectedAll at hb ⊢
    simp only [List.foldl_cons]
    rw [hb]
    simp only [store]
    split_ifs with h
    · rw [h]
    · rfl

theorem clearSelection_heap (d : DrawingArea) (p : Ptr) :
    ∃ b, d.clearSelection.heap p = { d.heap p with m_selected := b } := by
  unfold clearSelection
  exact setSelectedAll_heap false d.m_selectedShapes d p

theorem addOperation_heap (d : DrawingArea) (op : Operation) :
    (d.addOperation op).heap = d.heap := by
  rw [addOperation_eq]

/-- What the accepted branch of the `Draw` case leaves behind. -/
theorem appendDrawnShape_spec (u : Operation) (d : DrawingArea) (hN : 1 ≤ d.m_maxUndoSteps) :
    (d.appendDrawnShape u).m_shapes = d.m_shapes ++ [d.m_tempShape] ∧
    (d.appendDrawnShape u).m_selectedShapes = [d.m_tempShape] ∧
    (d.appendDrawnShape u).m_redoStack = [] ∧
    (d.appendDrawnShape u).m_undoStack.getLast? =
      some { u with type := OperationType.AddShape, shape := d.m_tempShape,
                    oldIndex := (d.m_shapes.length : Int) } ∧
    ((d.appendDrawnShape u).heap d.m_tempShape).m_color = d.m_currentColor ∧
    ((d.appendDrawnShape u).heap d.m_tempShape).m_lineWidth = d.m_currentLineWidth ∧
    ((d.appendDrawnShape u).heap d.m_tempShape).m_filled = d.m_currentFilled ∧
    ((d.appendDrawnShape u).heap d.m_tempShape).m_fillColor = d.m_currentFillColor := by
  have hheap : ∀ p, ∃ b, (d.appendDrawnShape u).heap p =
      { (d.store d.m_tempShape { d.heap d.m_tempShape with
          m_color := d.m_currentColor, m_lineWidth := d.m_currentLineWidth,
          m_filled := d.m_currentFilled, m_fillColor := d.m_currentFillColor }).heap p with
        m_selected := b } := by
    intro p
    unfold appendDrawnShape
    simp only []
    obtain ⟨b, hb⟩ := clearSelection_heap
      (({ (d.store d.m_tempShape { d.heap d.m_tempShape with
          m_color := d.m_currentColor, m_lineWidth := d.m_currentLineWidth,
          m_filled := d.m_currentFilled, m_fillColor := d.m_currentFillColor }) with
        m_shapes := d.m_shapes ++ [d.m_tempShape] } : DrawingArea).addOperation
        { u with type := OperationType.AddShape, shape := d.m_tempShape,
                 oldIndex := ((d.m_shapes ++ [d.m_tempShape]).length : Int) - 1 }) p
    refine ⟨b, ?_⟩
    rw [addOperation_heap] at hb
    exact hb
  refine ⟨by simp, by simp [appendDrawnShape], by simp, ?_, ?_, ?_, ?_, ?_⟩
  · unfold appendDrawnShape
    simp only [clearSelection_m_undoStack]
    rw [addOperation_m_undoStack]
    have := pushBounded_getLast? d.m_maxUndoSteps d.m_undoStack
      { u with type := OperationType.AddShape, shape := d.m_tempShape,
               oldIndex := (d.m_shapes.length : Int) } hN
    simpa using this
  all_goals (obtain ⟨b, hb⟩ := hheap d.m_tempShape; rw [hb]; simp [store])

end DrawingArea

/-! ## `deleteSelectedShapes` and the undo of its operations -/

theorem runCalls_append (contains : Shape → QPointF → Bool) (cs cs2 : List Call)
    (d d1 : DrawingArea) (h : runCalls contains cs d = some d1) :
    runCalls contains (cs ++ cs2) d = runCalls contains cs2 d1 := by
  induction cs generalizing d with
  | nil =>
    simp only [runCalls, Option.some.injEq] at h
    subst h; rfl
  | cons c cs ih =>
    have hstep : ∀ l, runCalls contains (c :: l) d =
        match c.run contains d with
        | some d1 => runCalls contains l d1
        | none => none := fun l => rfl
    rw [List.cons_append, hstep]
    rw [hstep] at h
    cases hc : c.run contains d with
    | none => rw [hc] at h; simp at h
    | some d2 => rw [hc] at h; exact ih d2 h

namespace DrawingArea

/-- Removing the entries of a duplicate-free list one by one is filtering them out. -/
theorem foldl_erase_eq_filter (sel : List Ptr) (l : List Ptr) (hnd : l.Nodup) :
    sel.foldl (fun acc s => acc.erase s) l = l.filter (fun x => decide (x ∉ sel)) := by
  induction sel generalizing l with
  | nil => simp
  | cons s rest ih =>
    simp only [List.foldl_cons]
    rw [ih _ (hnd.erase s), hnd.erase_eq_filter, List.filter_filter]
    apply List.filter_congr
    intro x _
    simp only [List.mem_cons, not_or, Bool.decide_and, decide_not, bne_iff_ne, ne_eq]
    by_cases h1 : x = s <;> by_cases h2 : x ∈ rest <;> simp [h1, h2]

theorem deleteLoop_m_maxUndoSteps (u : Nat → Operation) (sel : List Ptr) (d : DrawingArea) :
    (deleteLoop u sel d).m_maxUndoSteps = d.m_maxUndoSteps := by
  induction sel generalizing u d with
  | nil => rfl
  | cons s rest ih =>
    unfold deleteLoop
    simp only []
    rw [ih]
    simp

/-- The loop of `deleteSelectedShapes`: the selected shapes are removed one by one, and the
operations `deleteOps` are pushed. -/
theorem deleteLoop_run (u : Nat → Operation) (sel : List Ptr) (d : DrawingArea) :
    (deleteLoop u sel d).m_shapes = sel.foldl (fun acc s => acc.erase s) d.m_shapes ∧
    (deleteLoop u sel d).m_undoStack =
      (d.addOperations (deleteOps u sel d.m_shapes)).m_undoStack ∧
    (deleteLoop u sel d).m_redoStack =
      (d.addOperations (deleteOps u sel d.m_shapes)).m_redoStack := by
  induction sel generalizing u d with
  | nil => exact ⟨rfl, rfl, rfl⟩
  | cons s rest ih =>
    unfold deleteLoop
    simp only []
    obtain ⟨h1, h2, h3⟩ := ih (nextUninit u)
      { (d.addOperation (deleteOp (u 0) s (QList.indexOf d.m_shapes s))) with
        m_shapes :=
          (d.addOperation (deleteOp (u 0) s (QList.indexOf d.m_shapes s))).m_shapes.erase s }
    unfold deleteOp at h1 h2 h3
    rw [h1, h2, h3]
    simp only [addOperation_m_shapes, List.foldl_cons]
    refine ⟨trivial, ?_, ?_⟩
    · exact (addOperations_stacks_congr _ _ _ (by rfl) (by rfl) (by rfl)).1
    · exact (addOperations_stacks_congr _ _ _ (by rfl) (by rfl) (by rfl)).2

theorem deleteOps_length (u : Nat → Operation) (sel l : List Ptr) :
    (deleteOps u sel l).length = sel.length := by
  induction sel generalizing u l with
  | nil => rfl
  | cons s rest ih => simp [deleteOps, ih]

theorem deleteOps_map_shape (u : Nat → Operation) (sel l : List Ptr) :
    (deleteOps u sel l).map (fun op => op.shape) = sel := by
  induction sel generalizing u l with
  | nil => rfl
  | cons s rest ih => simp [deleteOps, deleteOp, ih]

/-- The `j`-th operation is a `DeleteShape` record with the index its shape has in the
sequence from which the first `j` selected shapes have been removed. -/
theorem deleteOps_getElem? (u : Nat → Operation) (sel l : List Ptr) (j : Nat) (op : Operation)
    (h : (deleteOps u sel l)[j]? = some op) :
    op.type = OperationType.DeleteShape ∧
    op.oldIndex = QList.indexOf ((sel.take j).foldl (fun acc s => acc.erase s) l) op.shape := by
  induction sel generalizing u l j with
  | nil => simp [deleteOps] at h
  | cons s rest ih =>
    cases j with
    | zero =>
      simp only [deleteOps, List.getElem?_cons_zero, Option.some.injEq] at h
      subst h
      exact ⟨rfl, rfl⟩
    | succ j =>
      simp only [deleteOps, List.getElem?_cons_succ] at h
      exact ih _ _ _ h

/-- Pushing no more operations than the limit allows leaves all of them on the stack, behind
whatever was the top part of the stack before. -/
theorem addOperations_suffix (ops : List Operation) (d : DrawingArea)
    (pre suf : List Operation) (h : d.m_undoStack = pre ++ suf)
    (hlen : ((suf.length + ops.length : Nat) : Int) ≤ d.m_maxUndoSteps) :
    ∃ pre1, (d.addOperations ops).m_undoStack = pre1 ++ suf ++ ops := by
  induction ops generalizing d pre suf with
  | nil => exact ⟨pre, by simpa using h⟩
  | cons op ops ih =>
    rw [addOperations_cons]
    have hpush := addOperation_m_undoStack d op
    have hmax : (d.addOperation op).m_maxUndoSteps = d.m_maxUndoSteps := by simp
    have hstep : ∃ pre2, (d.addOperation op).m_undoStack = pre2 ++ (suf ++ [op]) := by
      rw [hpush, h]
      unfold pushBounded
      split_ifs with hfull
      · cases pre with
        | nil =>
          exfalso
          simp only [List.nil_append, List.length_append, List.length_singleton,
            List.length_cons, List.length_nil] at hfull hlen
          omega
        | cons p pre2 => exact ⟨pre2, by simp⟩
      · exact ⟨pre, by simp⟩
    obtain ⟨pre2, hpre2⟩ := hstep
    obtain ⟨pre1, hpre1⟩ := ih (d.addOperation op) pre2 (suf ++ [op]) hpre2
      (by rw [hmax]; simp only [List.length_append, List.length_singleton, List.length_cons,
            List.length_nil] at hlen ⊢; omega)
    exact ⟨pre1, by rw [hpre1]; simp⟩

/-- Putting a shape back at the index it had restores the sequence. -/
theorem reinsert_restores (op : Operation) (e : DrawingArea) (l : List Ptr) (hnd : l.Nodup)
    (hmem : op.shape ∈ l) (hs : op.shape ≠ 0) (hidx : op.oldIndex = QList.indexOf l op.shape)
    (he : e.m_shapes = l.erase op.shape) : (e.reinsert op).m_shapes = l := by
  obtain ⟨A, B, hl⟩ := List.append_of_mem hmem
  have hA : op.shape ∉ A := by
    intro hin
    rw [hl] at hnd
    have := (List.nodup_append.mp hnd).2.2
    exact this hin (List.mem_cons_self _ _)
  have herase : l.erase op.shape = A ++ B := by
    rw [hl, List.erase_append_right _ hA, List.erase_cons_head]
  have hi : op.oldIndex = (A.length : Int) := by
    rw [hidx, hl]; exact QList.indexOf_split hA
  unfold reinsert
  rw [if_pos hs, he, herase, hi]
  split_ifs with hlt
  · simp only [Int.toNat_ofNat]
    rw [QList.insertIdx_split, hl]
  · have hB : B = [] := by
      apply List.eq_nil_of_length_eq_zero
      simp only [List.length_append] at hlt
      by_contra hne
      apply hlt
      constructor <;> omega
    rw [hl, hB]
    simp

theorem undo_delete_of_append {e : DrawingArea} {pre : List Operation} {op : Operation}
    (h : e.m_undoStack = pre ++ [op]) (ht : op.type = OperationType.DeleteShape) :
    e.undo = some (reinsert op { e with
      m_undoStack := pre, m_redoStack := e.m_redoStack ++ [op], m_selectedShapes := [] }) := by
  rw [undo_of_append h, ht]

theorem reinsert_eq (op : Operation) (e : DrawingArea) :
    e.reinsert op = { e with m_shapes := (e.reinsert op).m_shapes } := by
  unfold reinsert
  split_ifs <;> rfl

/-- Undoing the operations of a deletion, newest first, restores the sequence. -/
theorem undo_deleteOps (contains : Shape → QPointF → Bool) (sel : List Ptr) :
    ∀ (l : List Ptr) (u : Nat → Operation) (e : DrawingArea) (pre : List Operation),
      l.Nodup → sel.Nodup → (∀ s ∈ sel, s ∈ l ∧ s ≠ 0) →
      e.m_undoStack = pre ++ deleteOps u sel l →
      e.m_shapes = sel.foldl (fun acc s => acc.erase s) l →
      e.m_selectedShapes = [] →
      ∃ e1, runCalls contains (List.replicate sel.length Call.undo) e = some e1 ∧
        e1.m_shapes = l ∧ e1.m_undoStack = pre ∧ e1.m_selectedShapes = [] ∧
        e1.m_redoStack = e.m_redoStack ++ (deleteOps u sel l).reverse := by
  induction sel with
  | nil =>
    intro l u e pre _ _ _ hstack hshapes hsel
    exact ⟨e, rfl, hshapes, by simpa [deleteOps] using hstack, hsel, by simp [deleteOps]⟩
  | cons s rest ih =>
    intro l u e pre hnd hselnd hlive hstack hshapes hsel
    have hs := hlive s (List.mem_cons_self _ _)
    obtain ⟨e1, hrun, hsh1, hst1, hsel1, hredo1⟩ :=
      ih (l.erase s) (nextUninit u) e (pre ++ [deleteOp (u 0) s (QList.indexOf l s)])
        (hnd.erase s) (List.nodup_cons.mp hselnd).2
        (by
          intro x hx
          have hxs : x ≠ s := by
            rintro rfl
            exact (List.nodup_cons.mp hselnd).1 hx
          exact ⟨(List.mem_erase_of_ne hxs).mpr (hlive x (List.mem_cons_of_mem _ hx)).1,
            (hlive x (List.mem_cons_of_mem _ hx)).2⟩)
        (by rw [hstack]; simp [deleteOps])
        (by rw [hshapes]; rfl) hsel
    have hundo := undo_delete_of_append hst1 rfl
    have hfinal : (reinsert (deleteOp (u 0) s (QList.indexOf l s)) { e1 with
          m_undoStack := pre,
          m_redoStack := e1.m_redoStack ++ [deleteOp (u 0) s (QList.indexOf l s)],
          m_selectedShapes := [] }).m_shapes = l :=
      reinsert_restores _ _ l hnd hs.1 hs.2 rfl hsh1
    refine ⟨_, ?_, hfinal, ?_, ?_, ?_⟩
    · rw [List.length_cons, List.replicate_succ', runCalls_append contains _ _ e e1 hrun]
      unfold runCalls
      simp only [Call.run]
      rw [hundo]
      rfl
    · rw [reinsert_eq]
    · rw [reinsert_eq]
    · rw [reinsert_eq]
      simp only []
      rw [hredo1]
      simp [deleteOps]

end DrawingArea

/-! ## `updateSelectedShapeProperties` on a duplicate-free selection -/

namespace DrawingArea

/-- `cloneShape` on an Ellipse or a Rectangle: the clone is the next new object; it has the
type, colour, line width, filled flag, fill colour and bounding rectangle of the original and
an id of its own. -/
theorem cloneShape_eq (s : Ptr) (d : DrawingArea) (hs : s ≠ 0) (hnext : d.nextPtr ≠ 0)
    (hty : (d.heap s).m_type = ShapeType.Ellipse ∨ (d.heap s).m_type = ShapeType.Rectangle) :
    d.cloneShape s = (d.nextPtr, { d with
      heap := fun q => if q = d.nextPtr then
          { m_id := d.s_nextId, m_type := (d.heap s).m_type, m_color := (d.heap s).m_color,
            m_lineWidth := (d.heap s).m_lineWidth,
            m_boundingRect := (d.heap s).m_boundingRect, m_selected := false,
            m_filled := (d.heap s).m_filled, m_fillColor := (d.heap s).m_fillColor }
        else d.heap q,
      nextPtr := d.nextPtr + 1, s_nextId := d.s_nextId + 1 }) := by
  unfold cloneShape
  rw [if_neg hs]
  rcases hty with hty | hty <;>
  · simp only [hty, createShape, newShape, store]
    rw [if_pos hnext]
    congr 2
    funext q
    by_cases hq : q = d.nextPtr
    · simp [hq]
    · simp [hq]

/-- One pass of the loop of `updateSelectedShapeProperties`. -/
theorem updateLoop_cons (u : Nat → Operation) (s : Ptr) (rest : List Ptr) (d : DrawingArea)
    (hs : s ≠ 0) (hlt : s < d.nextPtr)
    (hty : (d.heap s).m_type = ShapeType.Ellipse ∨ (d.heap s).m_type = ShapeType.Rectangle) :
    ∃ e : DrawingArea, updateLoop u (s :: rest) d = updateLoop (nextUninit u) rest e ∧
      e.m_shapes = d.m_shapes ∧ e.m_selectedShapes = d.m_selectedShapes ∧
      e.m_undoStack =
        (d.addOperation (modifyOp (u 0) s d.nextPtr (QList.indexOf d.m_shapes s))).m_undoStack ∧
      e.m_redoStack =
        (d.addOperation (modifyOp (u 0) s d.nextPtr (QList.indexOf d.m_shapes s))).m_redoStack ∧
      e.m_maxUndoSteps = d.m_maxUndoSteps ∧
      e.m_currentColor = d.m_currentColor ∧ e.m_currentLineWidth = d.m_currentLineWidth ∧
      e.m_currentFilled = d.m_currentFilled ∧ e.m_currentFillColor = d.m_currentFillColor ∧
      e.nextPtr = d.nextPtr + 1 ∧
      e.heap = fun q =>
        if q = s then
          { d.heap s with m_color := d.m_currentColor, m_lineWidth := d.m_currentLineWidth,
                          m_filled := d.m_currentFilled, m_fillColor := d.m_currentFillColor }
        else if q = d.nextPtr then
          { m_id := d.s_nextId, m_type := (d.heap s).m_type, m_color := (d.heap s).m_color,
            m_lineWidth := (d.heap s).m_lineWidth,
            m_boundingRect := (d.heap s).m_boundingRect, m_selected := false,
            m_filled := (d.heap s).m_filled, m_fillColor := (d.heap s).m_fillColor }
        else d.heap q := by
  have hclone := cloneShape_eq s d hs (Nat.not_eq_zero_of_lt hlt) hty
  obtain ⟨dc, hdc⟩ : ∃ dc : DrawingArea, dc = { d with
      heap := fun q => if q = d.nextPtr then
          { m_id := d.s_nextId, m_type := (d.heap s).m_type, m_color := (d.heap s).m_color,
            m_lineWidth := (d.heap s).m_lineWidth,
            m_boundingRect := (d.heap s).m_boundingRect, m_selected := false,
            m_filled := (d.heap s).m_filled, m_fillColor := (d.heap s).m_fillColor }
        else d.heap q,
      nextPtr := d.nextPtr + 1, s_nextId := d.s_nextId + 1 } := ⟨_, rfl⟩
  rw [← hdc] at hclone
  obtain ⟨op, hop⟩ : ∃ op : Operation,
      op = modifyOp (u 0) s d.nextPtr (QList.indexOf d.m_shapes s) := ⟨_, rfl⟩
  rw [← hop]
  have hst := addOperations_stacks_congr [op] dc d (by rw [hdc]) (by rw [hdc]) (by rw [hdc])
  simp only [addOperations, List.foldl_cons, List.foldl_nil] at hst
  have hadd := addOperation_eq op dc
  refine ⟨(dc.addOperation op).store s { (dc.addOperation op).heap s with
      m_color := (dc.addOperation op).m_currentColor,
      m_lineWidth := (dc.addOperation op).m_currentLineWidth,
      m_filled := (dc.addOperation op).m_currentFilled,
      m_fillColor := (dc.addOperation op).m_currentFillColor }, ?_, ?_, ?_, ?_, ?_, ?_, ?_, ?_,
      ?_, ?_, ?_, ?_⟩
  · conv_lhs => unfold updateLoop
    simp only [hclone]
    rw [hop, hdc]
    rfl
  · simp [hdc]
  · simp [hdc]
  · simp only [store_m_undoStack]
    exact hst.1
  · simp only [store_m_redoStack]
    exact hst.2
  · simp [hdc]
  · rw [hadd, hdc]; rfl
  · rw [hadd, hdc]; rfl
  · rw [hadd, hdc]; rfl
  · rw [hadd, hdc]; rfl
  · rw [hadd, hdc]; rfl
  · rw [hadd, hdc]
    funext q
    simp only [store]
    by_cases h1 : q = s
    · subst h1
      have h2 : q ≠ d.nextPtr := Nat.ne_of_lt hlt
      simp [h2]
    · simp [h1]

theorem modifyOps_length (u : Nat → Operation) (l sel : List Ptr) (n : Ptr) :
    (modifyOps u l sel n).length = sel.length := by
  induction sel generalizing u n with
  | nil => rfl
  | cons s rest ih => simp [modifyOps, ih]

theorem modifyOps_getElem? (u : Nat → Operation) (l sel : List Ptr) (n : Ptr) (j : Nat)
    (op : Operation) (h : (modifyOps u l sel n)[j]? = some op) :
    op.type = OperationType.ModifyShape ∧ sel[j]? = some op.shape ∧ op.oldShape = n + j ∧
      op.oldIndex = QList.indexOf l op.shape := by
  induction sel generalizing u n j with
  | nil => simp [modifyOps] at h
  | cons s rest ih =>
    cases j with
    | zero =>
      simp only [modifyOps, List.getElem?_cons_zero, Option.some.injEq] at h
      subst h
      exact ⟨rfl, by simp [modifyOp], rfl, rfl⟩
    | succ j =>
      simp only [modifyOps, List.getElem?_cons_succ] at h
      obtain ⟨h1, h2, h3, h4⟩ := ih _ _ _ h
      refine ⟨h1, by simpa using h2, ?_, h4⟩
      rw [h3]
      exact Nat.add_right_comm n 1 j

/-- The loop of `updateSelectedShapeProperties` on a duplicate-free selection of Ellipse and
Rectangle objects: the `j`-th clone is the new object `nextPtr + j` and holds the properties
the `j`-th selected shape had; every selected shape takes the current style; nothing else
changes. -/
theorem updateLoop_run (sel : List Ptr) :
    ∀ (u : Nat → Operation) (d : DrawingArea), sel.Nodup →
      (∀ s ∈ sel, s ≠ 0 ∧ s < d.nextPtr ∧
        ((d.heap s).m_type = ShapeType.Ellipse ∨ (d.heap s).m_type = ShapeType.Rectangle)) →
      (updateLoop u sel d).m_undoStack =
        (d.addOperations (modifyOps u d.m_shapes sel d.nextPtr)).m_undoStack ∧
      (updateLoop u sel d).m_redoStack =
        (d.addOperations (modifyOps u d.m_shapes sel d.nextPtr)).m_redoStack ∧
      (updateLoop u sel d).nextPtr = d.nextPtr + sel.length ∧
      (∀ (j : Nat) (s : Ptr), sel[j]? = some s →
        ((updateLoop u sel d).heap (d.nextPtr + j)).properties = (d.heap s).properties) ∧
      (∀ s ∈ sel, (updateLoop u sel d).heap s =
        { d.heap s with m_color := d.m_currentColor, m_lineWidth := d.m_currentLineWidth,
                        m_filled := d.m_currentFilled, m_fillColor := d.m_currentFillColor }) ∧
      (∀ p, p ∉ sel → p < d.nextPtr → (updateLoop u sel d).heap p = d.heap p) := by
  induction sel with
  | nil =>
    intro u d _ _
    exact ⟨rfl, rfl, rfl, fun j s h => by simp at h, fun s h => by simp at h,
      fun p _ _ => rfl⟩
  | cons s rest ih =>
    intro u d hnd hlive
    obtain ⟨hs0, hslt, hsty⟩ := hlive s (List.mem_cons_self _ _)
    obtain ⟨hsrest, hrestnd⟩ := List.nodup_cons.mp hnd
    obtain ⟨e, hrun, he1, -, he3, he4, he5, he6, he7, he8, he9, he10, he11⟩ :=
      updateLoop_cons u s rest d hs0 hslt hsty
    have hrest : ∀ r ∈ rest, r ≠ s ∧ r ≠ d.nextPtr ∧ r < d.nextPtr := by
      intro r hr
      obtain ⟨-, hrlt, -⟩ := hlive r (List.mem_cons_of_mem _ hr)
      exact ⟨fun h => hsrest (h ▸ hr), Nat.ne_of_lt hrlt, hrlt⟩
    have hheap_rest : ∀ r ∈ rest, e.heap r = d.heap r := by
      intro r hr
      obtain ⟨h1, h2, -⟩ := hrest r hr
      rw [he11]
      simp [h1, h2]
    have hnext_notin : d.nextPtr ∉ rest := fun h => (hrest _ h).2.1 rfl
    obtain ⟨i1, i2, i3, i4, i5, i6⟩ := ih (nextUninit u) e hrestnd (by
      intro r hr
      obtain ⟨hr0, hrlt, hrty⟩ := hlive r (List.mem_cons_of_mem _ hr)
      refine ⟨hr0, ?_, ?_⟩
      · rw [he10]; exact Nat.lt_succ_of_lt hrlt
      · rw [hheap_rest r hr]; exact hrty)
    rw [hrun]
    refine ⟨?_, ?_, ?_, ?_, ?_, ?_⟩
    · rw [i1, he1, he10]
      exact (addOperations_stacks_congr _ _ _ he3 he4 (by rw [he5]; simp)).1
    · rw [i2, he1, he10]
      exact (addOperations_stacks_congr _ _ _ he3 he4 (by rw [he5]; simp)).2
    · rw [i3, he10, List.length_cons]
      exact Nat.add_right_comm _ _ _ ▸ (Nat.add_assoc _ _ _).symm ▸ rfl
    · intro j x hx
      cases j with
      | zero =>
        simp only [List.getElem?_cons_zero, Option.some.injEq] at hx
        subst hx
        rw [Nat.add_zero, i6 d.nextPtr hnext_notin (by rw [he10]; exact Nat.lt_succ_self _),
          he11]
        have hne : d.nextPtr ≠ s := (Nat.ne_of_lt hslt).symm
        simp [hne, Shape.properties]
      | succ j =>
        simp only [List.getElem?_cons_succ] at hx
        have := i4 j x hx
        rw [he10, hheap_rest x (List.getElem?_mem hx)] at this
        rw [← this]
        congr 2
        exact (Nat.add_right_comm _ _ _).symm ▸ (Nat.add_assoc _ _ _).symm ▸ rfl
    · intro x hx
      rcases List.mem_cons.mp hx with hxs | hxr
      · subst hxs
        rw [i6 x hsrest (by rw [he10]; exact Nat.lt_succ_of_lt hslt), he11]
        simp
      · rw [i5 x hxr, hheap_rest x hxr, he6, he7, he8, he9]
    · intro p hp hplt
      have hps : p ≠ s := fun h => hp (h ▸ List.mem_cons_self _ _)
      have hpr : p ∉ rest := fun h => hp (List.mem_cons_of_mem _ h)
      rw [i6 p hpr (by rw [he10]; exact Nat.lt_succ_of_lt hplt), he11]
      simp [hps, Nat.ne_of_lt hplt]

end DrawingArea

/-! ## The target index of a replay -/

/-- The target index of a replay is never negative and never beyond the length. -/
theorem qBound_mem_closed_range (idx : Int) (len : Nat) :
    0 ≤ qBound 0 idx len ∧ qBound 0 idx len ≤ len := by
  unfold qBound
  refine ⟨le_max_left _ _, max_le (Int.ofNat_nonneg len) (min_le_left _ _)⟩

/-- For a recorded index at or beyond the length the target index is the length itself. -/
theorem qBound_eq_length_of_le (idx : Int) (len : Nat) (h : (len : Int) ≤ idx) :
    qBound 0 idx len = len := by
  unfold qBound
  rw [min_eq_left h, max_eq_right (Int.ofNat_nonneg len)]

/-- For a recorded index below the length of a non-empty sequence the target index is a
position of the sequence. -/
theorem qBound_lt_length_of_lt (idx : Int) (len : Nat) (h : idx < len) (hpos : 0 < len) :
    0 ≤ qBound 0 idx len ∧ qBound 0 idx len < len := by
  unfold qBound
  refine ⟨le_max_left _ _, max_lt (by exact_mod_cast hpos) ?_⟩
  rw [min_eq_right (le_of_lt h)]
  exact h

/-! ## `moveSelectedShapes` -/

namespace DrawingArea

/-- A loop of stores changes the heap only. -/
theorem foldl_store_eq (f : DrawingArea → Ptr → Shape) (l : List Ptr) (d : DrawingArea) :
    l.foldl (fun acc p => acc.store p (f acc p)) d =
      { d with heap := (l.foldl (fun acc p => acc.store p (f acc p)) d).heap } := by
  induction l generalizing d with
  | nil => rfl
  | cons p l ih =>
    simp only [List.foldl_cons]
    rw [ih (d.store p (f d p))]
    rfl

/-- The loop of `moveSelectedShapes` over a duplicate-free list translates every listed
object once and leaves the others. -/
theorem foldl_translate_heap (offset : QPointF) (l : List Ptr) (d : DrawingArea)
    (hl : l.Nodup) (p : Ptr) :
    (l.foldl (fun acc q => acc.store q { acc.heap q with
        m_boundingRect := (acc.heap q).m_boundingRect.translate offset }) d).heap p =
      if p ∈ l then
        { d.heap p with m_boundingRect := (d.heap p).m_boundingRect.translate offset }
      else d.heap p := by
  induction l generalizing d with
  | nil => simp
  | cons q l ih =>
    simp only [List.foldl_cons]
    rw [ih _ (List.nodup_cons.mp hl).2]
    have hq : q ∉ l := (List.nodup_cons.mp hl).1
    by_cases hpq : p = q
    · subst hpq
      rw [if_neg hq, if_pos (List.mem_cons_self _ _)]
      simp [store]
    · have hs : (d.store q { d.heap q with
          m_boundingRect := (d.heap q).m_boundingRect.translate offset }).heap p = d.heap p := by
        simp [store, hpq]
      rw [hs]
      by_cases hp : p ∈ l
      · rw [if_pos hp, if_pos (List.mem_cons_of_mem _ hp)]
      · rw [if_neg hp, if_neg (by simp [hpq, hp])]

/-- Everything except the heap is left as it was by `moveSelectedShapes`. -/
theorem moveSelectedShapes_eq (offset : QPointF) (d : DrawingArea) :
    d.moveSelectedShapes offset = { d with heap := (d.moveSelectedShapes offset).heap } := by
  unfold moveSelectedShapes
  split_ifs
  · rfl
  · exact foldl_store_eq (fun acc p => { acc.heap p with
      m_boundingRect := (acc.heap p).m_boundingRect.translate offset }) _ d

end DrawingArea

/-! ## Undo and redo of `MoveShape` and `ResizeShape` operations -/

namespace QList

theorem filter_ne_insertIdx (a : Ptr) (l : List Ptr) (n : Nat) :
    ((l.insertIdx n a).filter fun x => decide (x ≠ a)) = l.filter fun x => decide (x ≠ a) := by
  induction l generalizing n with
  | nil =>
    cases n with
    | zero => simp
    | succ n => simp
  | cons b l ih =>
    cases n with
    | zero => simp
    | succ n =>
      rw [List.insertIdx_succ_cons, List.filter_cons, List.filter_cons, ih]

theorem filter_ne_eraseIdx {a : Ptr} {l : List Ptr} {n : Nat} (h : l[n]? = some a) :
    ((l.eraseIdx n).filter fun x => decide (x ≠ a)) = l.filter fun x => decide (x ≠ a) := by
  obtain ⟨hl, hlen⟩ := split_of_getElem? h
  generalize l.take n = A at hl hlen
  generalize l.drop (n + 1) = B at hl
  subst hl
  subst hlen
  rw [eraseIdx_split]
  simp

/-- A reorder by `move` leaves the order of all the other entries. -/
theorem move_filter_ne {l l1 : List Ptr} {i j : Int} {a : Ptr} (h : move l i j = some l1)
    (ha : at? l i = some a) :
    (l1.filter fun x => decide (x ≠ a)) = l.filter fun x => decide (x ≠ a) := by
  unfold move at h
  rw [ha] at h
  simp only [] at h
  split_ifs at h with hj
  injection h with h
  subst h
  obtain ⟨-, -, hia⟩ := at?_eq_some ha
  rw [filter_ne_insertIdx, filter_ne_eraseIdx hia]

end QList

namespace DrawingArea

/-- A replay changes nothing but the sequence, and in the sequence nothing but the position of
the shape of the operation. -/
theorem replay_document {op : Operation} {i : Int} {e e1 : DrawingArea}
    (h : e.replay op i = some e1) :
    e1 = { e with m_shapes := e1.m_shapes } ∧ e1.m_shapes.Perm e.m_shapes ∧
    (e1.m_shapes.filter fun x => decide (x ≠ op.shape)) =
      e.m_shapes.filter fun x => decide (x ≠ op.shape) := by
  rcases replay_eq h with h1 | ⟨l, hl, h1⟩
  · subst h1
    exact ⟨rfl, List.Perm.refl _, rfl⟩
  · subst h1
    refine ⟨rfl, QList.move_perm hl, ?_⟩
    have hmem : op.shape ∈ e.m_shapes := by
      by_contra hn
      have hidx : QList.indexOf e.m_shapes op.shape = -1 := by
        unfold QList.indexOf
        rw [if_neg hn]
      rw [hidx] at hl
      unfold QList.move QList.at? at hl
      simp at hl
    obtain ⟨h0, hlt, hget⟩ := QList.indexOf_nonneg_of_mem hmem
    have hat : QList.at? e.m_shapes (QList.indexOf e.m_shapes op.shape) = some op.shape := by
      unfold QList.at?
      rw [if_pos h0]
      exact hget
    exact QList.move_filter_ne hl hat

/-- A replay to the index the shape already has changes nothing. -/
theorem replay_at_current_index (op : Operation) (e : DrawingArea) :
    e.replay op (QList.indexOf e.m_shapes op.shape) = some e := by
  unfold replay
  simp only []
  split_ifs with h1 h2 h3
  · exfalso
    apply h3
    have hmem : op.shape ∈ e.m_shapes := by
      by_contra hn
      exact h2.1 (by unfold QList.indexOf; rw [if_neg hn])
    obtain ⟨h0, hlt, -⟩ := QList.indexOf_nonneg_of_mem hmem
    exact (qBound_of_mem_range h0 (le_of_lt hlt)).symm
  · rfl
  · rfl
  · rfl

theorem addOperation_document (op : Operation) (d : DrawingArea) :
    (d.addOperation op).m_shapes = d.m_shapes ∧ (d.addOperation op).heap = d.heap ∧
    (d.addOperation op).m_redoStack = [] := by
  rw [addOperation_eq]
  exact ⟨rfl, rfl, rfl⟩

theorem addOperations_document (ops : List Operation) (d : DrawingArea) :
    (d.addOperations ops).m_shapes = d.m_shapes ∧ (d.addOperations ops).heap = d.heap ∧
    (d.addOperations ops).m_maxUndoSteps = d.m_maxUndoSteps := by
  induction ops generalizing d with
  | nil => exact ⟨rfl, rfl, rfl⟩
  | cons op ops ih =>
    rw [addOperations_cons]
    obtain ⟨h1, h2, h3⟩ := ih (d.addOperation op)
    rw [h1, h2, h3]
    exact ⟨(addOperation_document op d).1, (addOperation_document op d).2.1, by simp⟩

theorem addOperations_append (ops ops2 : List Operation) (d : DrawingArea) :
    d.addOperations (ops ++ ops2) = (d.addOperations ops).addOperations ops2 := by
  unfold addOperations
  rw [List.foldl_append]

theorem addOperations_m_redoStack (ops : List Operation) (d : DrawingArea) (h : ops ≠ []) :
    (d.addOperations ops).m_redoStack = [] := by
  obtain ⟨ops0, op, rfl⟩ : ∃ ops0 op, ops = ops0 ++ [op] := by
    rcases List.eq_nil_or_concat ops with h1 | ⟨ops0, op, h1⟩
    · exact absurd h1 h
    · exact ⟨ops0, op, by simpa using h1⟩
  rw [addOperations_append, addOperations_cons, addOperations_nil]
  exact (addOperation_document op _).2.2

/-- The loop of `mouseReleaseEvent` pushes the operations `moveOps`. -/
theorem recordMoves_run (u : Nat → Operation) (l : List (Ptr × Ptr)) (d : DrawingArea) :
    recordMoves u l d = d.addOperations (moveOps u d.m_shapes l) := by
  induction l generalizing u d with
  | nil => rfl
  | cons e l ih =>
    obtain ⟨s, o⟩ := e
    unfold recordMoves moveOps
    split_ifs with h
    · simp only []
      rw [addOperations_cons, ih, (addOperation_document _ d).1]
    · exact ih _ _

theorem moveOps_spec (u : Nat → Operation) (shapes : List Ptr) (l : List (Ptr × Ptr)) :
    ∀ op ∈ moveOps u shapes l, op.type = OperationType.MoveShape ∧
      op.oldIndex = QList.indexOf shapes op.shape ∧
      (op.shape, op.oldShape) ∈ l := by
  induction l generalizing u with
  | nil => intro op h; simp [moveOps] at h
  | cons e l ih =>
    obtain ⟨s, o⟩ := e
    intro op h
    unfold moveOps at h
    split_ifs at h with hc
    · rcases List.mem_cons.mp h with h1 | h1
      · subst h1
        exact ⟨rfl, rfl, List.mem_cons_self _ _⟩
      · obtain ⟨h2, h3, h4⟩ := ih _ op h1
        exact ⟨h2, h3, List.mem_cons_of_mem _ h4⟩
    · obtain ⟨h2, h3, h4⟩ := ih _ op h
      exact ⟨h2, h3, List.mem_cons_of_mem _ h4⟩

/-- Undoing `j` operations that each record the index their shape has: the calls complete,
the entries go from the undo stack to the redo stack, the sequence and the heap stay. -/
theorem undo_at_current_index (contains : Shape → QPointF → Bool) (j : Nat) :
    ∀ (ops : List Operation) (e : DrawingArea) (pre : List Operation),
      e.m_undoStack = pre ++ ops →
      (∀ op ∈ ops, (op.type = OperationType.MoveShape ∨ op.type = OperationType.ResizeShape ∨
          op.type = OperationType.LayerChange) ∧
        op.oldIndex = QList.indexOf e.m_shapes op.shape) →
      j ≤ ops.length →
      ∃ e1, runCalls contains (List.replicate j Call.undo) e = some e1 ∧
        e1.m_shapes = e.m_shapes ∧ e1.heap = e.heap ∧
        e1.m_undoStack = pre ++ ops.take (ops.length - j) ∧
        e1.m_redoStack = e.m_redoStack ++ (ops.drop (ops.length - j)).reverse := by
  induction j with
  | zero =>
    intro ops e pre hst _ _
    exact ⟨e, rfl, rfl, rfl, by simpa using hst, by simp⟩
  | succ j ih =>
    intro ops e pre hst hops hj
    obtain ⟨ops0, op, rfl⟩ : ∃ ops0 op, ops = ops0 ++ [op] := by
      rcases List.eq_nil_or_concat ops with h1 | ⟨ops0, op, h1⟩
      · rw [h1] at hj
        simp at hj
      · exact ⟨ops0, op, by simpa using h1⟩
    have hop := hops op (by simp)
    have hst1 : e.m_undoStack = (pre ++ ops0) ++ [op] := by
      rw [hst, List.append_assoc]
    obtain ⟨e2, he2⟩ : ∃ e2, ({ e with
        m_undoStack := pre ++ ops0,
        m_redoStack := e.m_redoStack ++ [op],
        m_selectedShapes := [] } : DrawingArea) = e2 :=
      ⟨_, rfl⟩
    have hundo : e.undo = some e2 := by
      rw [undo_of_append hst1, he2]
      have hre : e2.replay op op.oldIndex = some e2 := by
        have hsh : e2.m_shapes = e.m_shapes := by rw [← he2]
        rw [hop.2, ← hsh]
        exact replay_at_current_index op e2
      rcases hop.1 with ht | ht | ht <;> rw [ht] <;> exact hre
    have hlen : (ops0 ++ [op]).length = ops0.length + 1 := by simp
    obtain ⟨e1, hrun, h1, h2, h3, h4⟩ := ih ops0 e2 (pre) (by rw [← he2])
      (by
        intro o ho
        have := hops o (by simp [ho])
        refine ⟨this.1, ?_⟩
        rw [this.2, ← he2])
      (by omega)
    refine ⟨e1, ?_, ?_, ?_, ?_, ?_⟩
    · rw [List.replicate_succ]
      have hstep : ∀ l, runCalls contains (Call.undo :: l) e =
          match e.undo with
          | some d1 => runCalls contains l d1
          | none => none := fun l => rfl
      rw [hstep, hundo]
      exact hrun
    · rw [h1, ← he2]
    · rw [h2, ← he2]
    · rw [h3, hlen]
      have : ops0.length + 1 - (j + 1) = ops0.length - j := by omega
      rw [this, List.take_append_of_le_length (by omega)]
    · rw [h4, hlen]
      have : ops0.length + 1 - (j + 1) = ops0.length - j := by omega
      rw [this, List.drop_append_of_le_length (by omega), ← he2]
      simp

end DrawingArea

namespace DrawingArea

theorem endMoveGesture_run (u : Nat → Operation) (d : DrawingArea) (hm : d.m_isMoving = true) :
    (d.endMoveGesture u).m_undoStack =
      (d.addOperations (moveOps u d.m_shapes d.m_moveStartPositions)).m_undoStack ∧
    (d.endMoveGesture u).m_redoStack =
      (d.addOperations (moveOps u d.m_shapes d.m_moveStartPositions)).m_redoStack := by
  unfold endMoveGesture
  split_ifs with h
  · rw [recordMoves_run]
    exact ⟨rfl, rfl⟩
  · have he : d.m_moveStartPositions = [] := by
      by_contra hne
      apply h
      refine ⟨hm, ?_⟩
      rw [List.isEmpty_iff]
      exact hne
    rw [he]
    exact ⟨rfl, rfl⟩

/-- The release that ends a move gesture pushes the operations `moveOps` and leaves the
sequence and the heap. -/
theorem release_of_move_gesture (button : MouseButton) (u : Nat → Operation) (d : DrawingArea)
    (hmode : d.m_editMode = EditMode.Move) (hm : d.m_isMoving = true)
    (hr : d.m_isResizing = false) :
    (d.mouseReleaseEvent button u).m_shapes = d.m_shapes ∧
    (d.mouseReleaseEvent button u).heap = d.heap ∧
    (d.mouseReleaseEvent button u).m_undoStack =
      (d.addOperations (moveOps (fun k => u (k + 2)) d.m_shapes
        d.m_moveStartPositions)).m_undoStack ∧
    (d.mouseReleaseEvent button u).m_redoStack =
      (d.addOperations (moveOps (fun k => u (k + 2)) d.m_shapes
        d.m_moveStartPositions)).m_redoStack := by
  have hE := endMoveGesture_eq (fun k => u (k + 2)) d
  obtain ⟨hu, hrd⟩ := endMoveGesture_run (fun k => u (k + 2)) d hm
  unfold mouseReleaseEvent
  simp only []
  generalize d.endMoveGesture (fun k => u (k + 2)) = E at hE hu hrd ⊢
  have hres : E.endResizeGesture (u 1) = E := by
    unfold endResizeGesture
    rw [if_neg]
    rw [hE]
    simp [hr]
  have hmode1 : E.m_editMode = EditMode.Move := by
    rw [hE]
    exact hmode
  rw [hres]
  simp only [hmode1]
  refine ⟨?_, ?_, hu, hrd⟩
  · show E.m_shapes = d.m_shapes
    rw [hE]
  · show E.heap = d.heap
    rw [hE]

end DrawingArea

/-! ## The steps of the layer functions -/

namespace QList

/-- The sequence around a take-and-insert step of the shape `s` from index `i` to index `t`. -/
theorem step_facts {l : List Ptr} {i t : Nat} {s : Ptr} (hnd : l.Nodup) (hs : l[i]? = some s)
    (ht : t < l.length) :
    ((l.eraseIdx i).insertIdx t s)[t]? = some s ∧
    indexOf ((l.eraseIdx i).insertIdx t s) s = (t : Int) ∧
    ((l.eraseIdx i).insertIdx t s).eraseIdx t = l.eraseIdx i ∧
    (l.eraseIdx i).insertIdx i s = l ∧
    ((l.eraseIdx i).insertIdx t s).length = l.length := by
  obtain ⟨hl, hlen⟩ := split_of_getElem? hs
  have hlen1 := length_eraseIdx_of_getElem? hs
  generalize l.take i = A at hl hlen
  generalize l.drop (i + 1) = B at hl
  subst hl
  subst hlen
  rw [eraseIdx_split] at hlen1 ⊢
  have hsA : s ∉ A ++ B := by
    have h1 := List.nodup_append.mp hnd
    have h2 := List.nodup_cons.mp h1.2.1
    intro h
    rcases List.mem_append.mp h with h | h
    · exact h1.2.2 h (List.mem_cons_self _ _)
    · exact h2.1 h
  have htL : t ≤ (A ++ B).length := by omega
  obtain ⟨C, D, hCD, hC⟩ : ∃ C D, A ++ B = C ++ D ∧ C.length = t :=
    ⟨(A ++ B).take t, (A ++ B).drop t, (List.take_append_drop _ _).symm,
      List.length_take_of_le htL⟩
  rw [hCD] at hsA ⊢
  subst hC
  rw [insertIdx_split]
  refine ⟨getElem?_split C D s, indexOf_split (fun h => hsA (List.mem_append_left _ h)),
    eraseIdx_split C D s, ?_, ?_⟩
  · rw [← hCD, insertIdx_split]
  · have := congrArg List.length hCD
    simp only [List.length_append, List.length_cons] at this ⊢
    omega

/-- Swapping two neighbours is taking one of them out and inserting it beyond the other. -/
theorem set_set_adjacent (l : List Ptr) (n : Nat) (x y : Ptr) (hx : l[n]? = some x)
    (hy : l[n + 1]? = some y) :
    (l.set n y).set (n + 1) x = (l.eraseIdx n).insertIdx (n + 1) x ∧
    (l.set (n + 1) x).set n y = (l.eraseIdx (n + 1)).insertIdx n y := by
  induction l generalizing n with
  | nil => simp at hx
  | cons a l ih =>
    cases n with
    | zero =>
      cases l with
      | nil => simp at hy
      | cons b l =>
        simp only [List.getElem?_cons_zero, Option.some.injEq, zero_add,
          List.getElem?_cons_succ] at hx hy
        subst hx
        subst hy
        exact ⟨rfl, rfl⟩
    | succ n =>
      simp only [List.getElem?_cons_succ] at hx hy
      obtain ⟨h1, h2⟩ := ih n hx hy
      constructor
      · simp only [List.set_cons_succ, List.eraseIdx_cons_succ, List.insertIdx_succ_cons,
          h1]
      · simp only [List.set_cons_succ, List.eraseIdx_cons_succ, List.insertIdx_succ_cons,
          h2]

theorem swapItemsAt_up {l : List Ptr} {i : Int} {x : Ptr} (h0 : 0 ≤ i)
    (hi : i + 1 < l.length) (hx : l[i.toNat]? = some x) :
    swapItemsAt l i (i + 1) = some ((l.eraseIdx i.toNat).insertIdx (i.toNat + 1) x) := by
  obtain ⟨y, hy, hy1⟩ := at?_of_lt (l := l) (show 0 ≤ i + 1 by omega) hi
  have hxa : at? l i = some x := by
    unfold at?
    rw [if_pos h0]
    exact hx
  have hn : (i + 1).toNat = i.toNat + 1 := by omega
  rw [hn] at hy1
  unfold swapItemsAt
  rw [hxa, hy]
  simp only []
  rw [hn, (set_set_adjacent l i.toNat x y hx hy1).1]

theorem swapItemsAt_down {l : List Ptr} {i : Int} {x : Ptr} (h0 : 0 < i)
    (hi : i < l.length) (hx : l[i.toNat]? = some x) :
    swapItemsAt l i (i - 1) = some ((l.eraseIdx i.toNat).insertIdx (i.toNat - 1) x) := by
  obtain ⟨y, hy, hy1⟩ := at?_of_lt (l := l) (show 0 ≤ i - 1 by omega) (by omega)
  have hxa : at? l i = some x := by
    unfold at?
    rw [if_pos (by omega)]
    exact hx
  obtain ⟨n, hn⟩ : ∃ n : Nat, (i - 1).toNat = n := ⟨_, rfl⟩
  have hn1 : i.toNat = n + 1 := by omega
  rw [hn] at hy1
  rw [hn1] at hx
  unfold swapItemsAt
  rw [hxa, hy]
  simp only []
  rw [hn, hn1, Nat.add_sub_cancel, (set_set_adjacent l n y x hy1 hx).2]

end QList

namespace DrawingArea

theorem layerResult_nil (d : DrawingArea) : LayerResult d [] d :=
  ⟨rfl, rfl, rfl, rfl, rfl, rfl⟩

/-- One more step in front of the steps of a layer function. -/
theorem layerResult_cons {d e d1 : DrawingArea} {op : Operation} {t : Nat}
    {steps : List (Operation × Nat)}
    (hop : op.type = OperationType.LayerChange) (h0 : 0 ≤ op.oldIndex)
    (hx : d.m_shapes[op.oldIndex.toNat]? = some op.shape) (ht : t < d.m_shapes.length)
    (hne : op.oldIndex.toNat ≠ t)
    (he : e = { d.addOperation op with
      m_shapes := (d.m_shapes.eraseIdx op.oldIndex.toNat).insertIdx t op.shape })
    (H : LayerResult e steps d1) : LayerResult d ((op, t) :: steps) d1 := by
  obtain ⟨h1, h2, h3, h4, h5, h6⟩ := H
  have hst := addOperations_stacks_congr (steps.map Prod.fst) e (d.addOperation op)
    (by rw [he]) (by rw [he]) (by rw [he])
  refine ⟨?_, ?_, ?_, ?_, ?_, ?_⟩
  · unfold layerSteps
    rw [if_pos ⟨hop, h0, hx, ht, hne⟩, ← h1, he]
  · rw [h2, List.map_cons, addOperations_cons]
    exact hst.1
  · rw [h3, List.map_cons, addOperations_cons]
    exact hst.2
  · rw [h4, he]
    simp
  · rw [h5, he]
    exact (addOperation_document op d).2.1
  · rw [h6, he, addOperation_eq]

theorem layerSteps_length {l l1 : List Ptr} {steps : List (Operation × Nat)}
    (h : layerSteps l steps = some l1) : l1.length = l.length ∧ l1.Perm l := by
  induction steps generalizing l with
  | nil =>
    simp only [layerSteps, Option.some.injEq] at h
    subst h
    exact ⟨rfl, List.Perm.refl _⟩
  | cons st steps ih =>
    obtain ⟨op, t⟩ := st
    unfold layerSteps at h
    split_ifs at h with hc
    obtain ⟨-, -, hx, ht, -⟩ := hc
    obtain ⟨h1, h2⟩ := ih h
    have hlen := QList.length_eraseIdx_of_getElem? hx
    have ht1 : t ≤ (l.eraseIdx op.oldIndex.toNat).length := by omega
    have hp : ((l.eraseIdx op.oldIndex.toNat).insertIdx t op.shape).Perm l :=
      (List.perm_insertIdx op.shape _ ht1).trans (QList.perm_cons_eraseIdx hx).symm
    refine ⟨?_, h2.trans hp⟩
    rw [h1, hp.length_eq]

end DrawingArea

/-! ## The four layer loops as series of steps -/

namespace DrawingArea

theorem length_step {l : List Ptr} {i t : Nat} {s : Ptr} (hs : l[i]? = some s)
    (ht : t < l.length) : ((l.eraseIdx i).insertIdx t s).length = l.length := by
  have hlen := QList.length_eraseIdx_of_getElem? hs
  rw [List.length_insertIdx _ _ (by omega)]
  exact hlen

/-- The loop of `moveSelectedShapesUp`: one step and one operation for every index below the
top index. -/
theorem upLoop_result (u : Nat → Operation) (l : List Int) (d : DrawingArea)
    (hl : ∀ i ∈ l, 0 ≤ i ∧ i < (d.m_shapes.length : Int)) :
    ∃ d1 steps, upLoop u l d = some d1 ∧ LayerResult d steps d1 ∧
      steps.length = (l.filter fun i => decide (i < (d.m_shapes.length : Int) - 1)).length ∧
      ∀ st ∈ steps, st.1.newIndex = st.1.oldIndex + 1 ∧ (st.2 : Int) = st.1.newIndex := by
  induction l generalizing u d with
  | nil => exact ⟨d, [], rfl, layerResult_nil d, rfl, by simp⟩
  | cons i l ih =>
    obtain ⟨h0, h1⟩ := hl i (List.mem_cons_self _ _)
    have hrest : ∀ j ∈ l, 0 ≤ j ∧ j < (d.m_shapes.length : Int) :=
      fun j hj => hl j (List.mem_cons_of_mem _ hj)
    unfold upLoop
    split_ifs with hi
    · obtain ⟨a, ha, hget⟩ := QList.at?_of_lt h0 h1
      rw [ha]
      simp only []
      rw [addOperation_m_shapes, QList.swapItemsAt_up h0 (by omega) hget]
      simp only []
      have hlen : ((d.m_shapes.eraseIdx i.toNat).insertIdx (i.toNat + 1) a).length =
          d.m_shapes.length := length_step hget (by omega)
      obtain ⟨d1, steps, hrun, hres, hcount, hsteps⟩ := ih (nextUninit u)
        { d.addOperation (layerOp (u 0) a i (i + 1)) with
          m_shapes := (d.m_shapes.eraseIdx i.toNat).insertIdx (i.toNat + 1) a }
        (by simp only [hlen]; exact hrest)
      refine ⟨d1, (layerOp (u 0) a i (i + 1), i.toNat + 1) :: steps, hrun, ?_, ?_, ?_⟩
      · have ht : i.toNat + 1 < d.m_shapes.length := by omega
        have hne : i.toNat ≠ i.toNat + 1 := by omega
        exact @layerResult_cons d _ d1 (layerOp (u 0) a i (i + 1)) (i.toNat + 1) steps rfl h0
          hget ht hne rfl hres
      · simp only [hlen] at hcount
        rw [List.length_cons, hcount, List.filter_cons_of_pos (by simpa using hi),
          List.length_cons]
      · intro st hst
        rcases List.mem_cons.mp hst with h | h
        · subst h
          refine ⟨rfl, ?_⟩
          show ((i.toNat + 1 : Nat) : Int) = i + 1
          omega
        · exact hsteps st h
    · obtain ⟨d1, steps, hrun, hres, hcount, hsteps⟩ := ih (nextUninit u) d hrest
      refine ⟨d1, steps, hrun, hres, ?_, hsteps⟩
      rw [hcount, List.filter_cons_of_neg (by simpa using hi)]

/-- The loop of `moveSelectedShapesDown`: one step and one operation for every index above
0. -/
theorem downLoop_result (u : Nat → Operation) (l : List Int) (d : DrawingArea)
    (hl : ∀ i ∈ l, 0 ≤ i ∧ i < (d.m_shapes.length : Int)) :
    ∃ d1 steps, downLoop u l d = some d1 ∧ LayerResult d steps d1 ∧
      steps.length = (l.filter fun i => decide (i > 0)).length ∧
      ∀ st ∈ steps, st.1.newIndex = st.1.oldIndex - 1 ∧ (st.2 : Int) = st.1.newIndex := by
  induction l generalizing u d with
  | nil => exact ⟨d, [], rfl, layerResult_nil d, rfl, by simp⟩
  | cons i l ih =>
    obtain ⟨h0, h1⟩ := hl i (List.mem_cons_self _ _)
    have hrest : ∀ j ∈ l, 0 ≤ j ∧ j < (d.m_shapes.length : Int) :=
      fun j hj => hl j (List.mem_cons_of_mem _ hj)
    unfold downLoop
    split_ifs with hi
    · obtain ⟨a, ha, hget⟩ := QList.at?_of_lt h0 h1
      rw [ha]
      simp only []
      rw [addOperation_m_shapes, QList.swapItemsAt_down (by omega) h1 hget]
      simp only []
      have hlen : ((d.m_shapes.eraseIdx i.toNat).insertIdx (i.toNat - 1) a).length =
          d.m_shapes.length := length_step hget (by omega)
      obtain ⟨d1, steps, hrun, hres, hcount, hsteps⟩ := ih (nextUninit u)
        { d.addOperation (layerOp (u 0) a i (i - 1)) with
          m_shapes := (d.m_shapes.eraseIdx i.toNat).insertIdx (i.toNat - 1) a }
        (by simp only [hlen]; exact hrest)
      refine ⟨d1, (layerOp (u 0) a i (i - 1), i.toNat - 1) :: steps, hrun, ?_, ?_, ?_⟩
      · have ht : i.toNat - 1 < d.m_shapes.length := by omega
        have hne : i.toNat ≠ i.toNat - 1 := by omega
        exact @layerResult_cons d _ d1 (layerOp (u 0) a i (i - 1)) (i.toNat - 1) steps rfl h0
          hget ht hne rfl hres
      · rw [List.length_cons, hcount, List.filter_cons_of_pos (by simpa using hi),
          List.length_cons]
      · intro st hst
        rcases List.mem_cons.mp hst with h | h
        · subst h
          refine ⟨rfl, ?_⟩
          show ((i.toNat - 1 : Nat) : Int) = i - 1
          omega
        · exact hsteps st h
    · obtain ⟨d1, steps, hrun, hres, hcount, hsteps⟩ := ih (nextUninit u) d hrest
      refine ⟨d1, steps, hrun, hres, ?_, hsteps⟩
      rw [hcount, List.filter_cons_of_neg (by simpa using hi)]

/-- The loop of `moveSelectedShapesToTop`: every executed pass takes its shape out and appends
it, and pushes one operation. -/
theorem toTopLoop_result (u : Nat → Operation) (l : List Int) (t : Int) (d : DrawingArea)
    (hl : ∀ i ∈ l, 0 ≤ i ∧ i < (d.m_shapes.length : Int))
    (ht : t ≤ (d.m_shapes.length : Int) - 1) :
    ∃ d1 steps, toTopLoop u l t d = some d1 ∧ LayerResult d steps d1 ∧
      steps.length ≤ l.length ∧
      ∀ st ∈ steps, st.2 + 1 = d.m_shapes.length ∧ st.1.newIndex ≤ (st.2 : Int) := by
  induction l generalizing u d t with
  | nil => exact ⟨d, [], rfl, layerResult_nil d, by simp, by simp⟩
  | cons i l ih =>
    obtain ⟨h0, h1⟩ := hl i (List.mem_cons_self _ _)
    have hrest : ∀ j ∈ l, 0 ≤ j ∧ j < (d.m_shapes.length : Int) :=
      fun j hj => hl j (List.mem_cons_of_mem _ hj)
    unfold toTopLoop
    split_ifs with hi
    · obtain ⟨a, ha, hget⟩ := QList.at?_of_lt h0 h1
      rw [ha]
      simp only []
      have hlenE := QList.length_eraseIdx_of_getElem? hget
      have happ : d.m_shapes.eraseIdx i.toNat ++ [a] =
          (d.m_shapes.eraseIdx i.toNat).insertIdx (d.m_shapes.length - 1) a := by
        have : d.m_shapes.length - 1 = (d.m_shapes.eraseIdx i.toNat).length := by omega
        rw [this, List.insertIdx_length_self]
      rw [addOperation_m_shapes, happ]
      have hlen : ((d.m_shapes.eraseIdx i.toNat).insertIdx (d.m_shapes.length - 1) a).length =
          d.m_shapes.length := length_step hget (by omega)
      obtain ⟨d1, steps, hrun, hres, hcount, hsteps⟩ := ih (nextUninit u) (t - 1)
        { d.addOperation (layerOp (u 0) a i t) with
          m_shapes := (d.m_shapes.eraseIdx i.toNat).insertIdx (d.m_shapes.length - 1) a }
        (by simp only [hlen]; exact hrest) (by simp only [hlen]; omega)
      refine ⟨d1, (layerOp (u 0) a i t, d.m_shapes.length - 1) :: steps, hrun, ?_, ?_, ?_⟩
      · have ht1 : d.m_shapes.length - 1 < d.m_shapes.length := by omega
        have hne : i.toNat ≠ d.m_shapes.length - 1 := by omega
        exact @layerResult_cons d _ d1 (layerOp (u 0) a i t) (d.m_shapes.length - 1) steps rfl
          h0 hget ht1 hne rfl hres
      · simp only [List.length_cons]
        omega
      · intro st hst
        rcases List.mem_cons.mp hst with h | h
        · subst h
          refine ⟨by show d.m_shapes.length - 1 + 1 = d.m_shapes.length; omega, ?_⟩
          show t ≤ ((d.m_shapes.length - 1 : Nat) : Int)
          omega
        · have := hsteps st h
          simp only [hlen] at this
          exact this
    · obtain ⟨d1, steps, hrun, hres, hcount, hsteps⟩ := ih (nextUninit u) t d hrest ht
      refine ⟨d1, steps, hrun, hres, ?_, hsteps⟩
      simp only [List.length_cons]
      omega

/-- The loop of `moveSelectedShapesToBottom`: every executed pass takes its shape out and
inserts it at the bottom index, and pushes one operation. -/
theorem toBottomLoop_result (u : Nat → Operation) (l : List Int) (b : Int) (d : DrawingArea)
    (hl : ∀ i ∈ l, 0 ≤ i ∧ i < (d.m_shapes.length : Int)) (hb : 0 ≤ b) :
    ∃ d1 steps, toBottomLoop u l b d = some d1 ∧ LayerResult d steps d1 ∧
      steps.length ≤ l.length ∧
      ∀ st ∈ steps, (st.2 : Int) = st.1.newIndex ∧ st.1.newIndex < st.1.oldIndex := by
  induction l generalizing u d b with
  | nil => exact ⟨d, [], rfl, layerResult_nil d, by simp, by simp⟩
  | cons i l ih =>
    obtain ⟨h0, h1⟩ := hl i (List.mem_cons_self _ _)
    have hrest : ∀ j ∈ l, 0 ≤ j ∧ j < (d.m_shapes.length : Int) :=
      fun j hj => hl j (List.mem_cons_of_mem _ hj)
    unfold toBottomLoop
    split_ifs with hi
    · obtain ⟨a, ha, hget⟩ := QList.at?_of_lt h0 h1
      rw [ha]
      simp only []
      rw [addOperation_m_shapes]
      have hlen : ((d.m_shapes.eraseIdx i.toNat).insertIdx b.toNat a).length =
          d.m_shapes.length := length_step hget (by omega)
      obtain ⟨d1, steps, hrun, hres, hcount, hsteps⟩ := ih (nextUninit u) (b + 1)
        { d.addOperation (layerOp (u 0) a i b) with
          m_shapes := (d.m_shapes.eraseIdx i.toNat).insertIdx b.toNat a }
        (by simp only [hlen]; exact hrest) (by omega)
      refine ⟨d1, (layerOp (u 0) a i b, b.toNat) :: steps, hrun, ?_, ?_, ?_⟩
      · have ht1 : b.toNat < d.m_shapes.length := by omega
        have hne : i.toNat ≠ b.toNat := by omega
        exact @layerResult_cons d _ d1 (layerOp (u 0) a i b) b.toNat steps rfl h0 hget ht1 hne
          rfl hres
      · simp only [List.length_cons]
        omega
      · intro st hst
        rcases List.mem_cons.mp hst with h | h
        · subst h
          refine ⟨?_, ?_⟩
          · show ((b.toNat : Nat) : Int) = b
            omega
          · show b < i
            omega
        · exact hsteps st h
    · obtain ⟨d1, steps, hrun, hres, hcount, hsteps⟩ := ih (nextUninit u) b d hrest hb
      refine ⟨d1, steps, hrun, hres, ?_, hsteps⟩
      simp only [List.length_cons]
      omega

end DrawingArea

/-! ## The layer calls and the undo of their operations -/

namespace DrawingArea

theorem step_perm {l : List Ptr} {i t : Nat} {s : Ptr} (hs : l[i]? = some s)
    (ht : t < l.length) : ((l.eraseIdx i).insertIdx t s).Perm l := by
  have hlen := QList.length_eraseIdx_of_getElem? hs
  have ht1 : t ≤ (l.eraseIdx i).length := by omega
  exact (List.perm_insertIdx s _ ht1).trans (QList.perm_cons_eraseIdx hs).symm

/-- Undoing the operations of the steps of a layer function, newest first, restores the
sequence. -/
theorem undo_layerSteps (contains : Shape → QPointF → Bool) (steps : List (Operation × Nat)) :
    ∀ (l l2 : List Ptr) (e : DrawingArea) (pre : List Operation),
      layerSteps l steps = some l2 → l.Nodup → (0 : Ptr) ∉ l → e.m_shapes = l2 →
      e.m_undoStack = pre ++ steps.map Prod.fst →
      ∃ e1, runCalls contains (List.replicate steps.length Call.undo) e = some e1 ∧
        e1.m_shapes = l ∧ e1.m_undoStack = pre ∧ e1.heap = e.heap ∧
        e1.m_redoStack = e.m_redoStack ++ (steps.map Prod.fst).reverse := by
  induction steps with
  | nil =>
    intro l l2 e pre h _ _ hsh hst
    simp only [layerSteps, Option.some.injEq] at h
    exact ⟨e, rfl, by rw [hsh, h], by simpa using hst, rfl, by simp⟩
  | cons st steps ih =>
    obtain ⟨op, t⟩ := st
    intro l l2 e pre h hnd hz hsh hst
    unfold layerSteps at h
    split_ifs at h with hc
    obtain ⟨hty, h0, hx, ht, hne⟩ := hc
    have hperm := step_perm hx ht
    obtain ⟨f1, f2, f3, f4, f5⟩ := QList.step_facts hnd hx ht
    obtain ⟨e1, hrun, hsh1, hst1, hheap1, hredo1⟩ :=
      ih ((l.eraseIdx op.oldIndex.toNat).insertIdx t op.shape) l2 e (pre ++ [op]) h
        (hperm.nodup_iff.mpr hnd) (fun hm => hz (hperm.subset hm)) hsh
        (by rw [hst]; simp)
    have hs0 : op.shape ≠ 0 := by
      intro h1
      apply hz
      rw [← h1]
      exact List.getElem?_mem hx
    have hilt : op.oldIndex.toNat < l.length := (List.getElem?_eq_some.mp hx).1
    obtain ⟨e2, he2⟩ : ∃ e2, ({ e1 with
        m_undoStack := pre,
        m_redoStack := e1.m_redoStack ++ [op],
        m_selectedShapes := [] } : DrawingArea) = e2 := ⟨_, rfl⟩
    have hsh2 : e2.m_shapes = (l.eraseIdx op.oldIndex.toNat).insertIdx t op.shape := by
      rw [← he2]
      exact hsh1
    have hundo : e1.undo = some { e2 with m_shapes := l } := by
      rw [undo_of_append hst1, hty]
      simp only []
      rw [he2]
      apply replay_of_move op op.oldIndex e2 t op.oldIndex.toNat l hs0
      · rw [hsh2]
        exact f2
      · omega
      · rw [qBound_of_mem_range h0 (by rw [hsh2, f5]; omega)]
        omega
      · exact fun h1 => hne h1.symm
      · rw [hsh2, QList.move_natCast f1 (by rw [f5]; exact hilt), f3, f4]
    refine ⟨{ e2 with m_shapes := l }, ?_, rfl, ?_, ?_, ?_⟩
    · rw [List.length_cons, List.replicate_succ', runCalls_append contains _ _ e e1 hrun]
      unfold runCalls
      simp only [Call.run]
      rw [hundo]
      rfl
    · rw [← he2]
    · rw [← he2]
      exact hheap1
    · rw [← he2]
      simp only []
      rw [hredo1]
      simp

/-- After a layer call whose operations all fit the history limit, as many calls of `undo()`
as operations were pushed restore the sequence. -/
theorem undo_of_layerResult (contains : Shape → QPointF → Bool) {d d1 : DrawingArea}
    {steps : List (Operation × Nat)} (H : LayerResult d steps d1) (hnd : d.m_shapes.Nodup)
    (hz : (0 : Ptr) ∉ d.m_shapes) (hmax : (steps.length : Int) ≤ d.m_maxUndoSteps) :
    ∃ pre d2, d1.m_undoStack = pre ++ steps.map Prod.fst ∧
      runCalls contains (List.replicate steps.length Call.undo) d1 = some d2 ∧
      d2.m_shapes = d.m_shapes ∧ d2.heap = d.heap ∧ d2.m_undoStack = pre := by
  obtain ⟨h1, h2, -, -, h5, -⟩ := H
  obtain ⟨pre, hpre⟩ := addOperations_suffix (steps.map Prod.fst) d d.m_undoStack [] (by simp)
    (by simpa using hmax)
  have hst : d1.m_undoStack = pre ++ steps.map Prod.fst := by
    rw [h2, hpre]
    simp
  obtain ⟨d2, hrun, hsh, hst2, hheap, -⟩ :=
    undo_layerSteps contains steps d.m_shapes d1.m_shapes d1 pre h1 hnd hz rfl hst
  exact ⟨pre, d2, hst, hrun, hsh, by rw [hheap, h5], hst2⟩

theorem moveSelectedShapesUp_result (u : Nat → Operation) (d : DrawingArea)
    (hlive : ∀ s ∈ d.m_selectedShapes, s ∈ d.m_shapes) :
    ∃ d1 steps, d.moveSelectedShapesUp u = some d1 ∧ LayerResult d steps d1 ∧
      steps.length = (d.m_selectedShapes.filter fun s =>
        decide (QList.indexOf d.m_shapes s < (d.m_shapes.length : Int) - 1)).length ∧
      ∀ st ∈ steps, st.1.newIndex = st.1.oldIndex + 1 ∧ (st.2 : Int) = st.1.newIndex := by
  unfold moveSelectedShapesUp
  split_ifs with he
  · refine ⟨d, [], rfl, layerResult_nil d, ?_, by simp⟩
    rw [List.isEmpty_iff] at he
    rw [he]
    rfl
  · obtain ⟨d1, steps, h1, h2, h3, h4⟩ := upLoop_result u _ d
      (sorted_selectedIndices_valid (fun a b => a ≥ b) d hlive)
    refine ⟨d1, steps, h1, h2, ?_, h4⟩
    rw [h3, ((List.perm_insertionSort _ _).filter _).length_eq]
    unfold selectedIndices
    rw [List.filter_map, List.length_map]
    rfl

theorem moveSelectedShapesDown_result (u : Nat → Operation) (d : DrawingArea)
    (hlive : ∀ s ∈ d.m_selectedShapes, s ∈ d.m_shapes) :
    ∃ d1 steps, d.moveSelectedShapesDown u = some d1 ∧ LayerResult d steps d1 ∧
      steps.length = (d.m_selectedShapes.filter fun s =>
        decide (QList.indexOf d.m_shapes s > 0)).length ∧
      ∀ st ∈ steps, st.1.newIndex = st.1.oldIndex - 1 ∧ (st.2 : Int) = st.1.newIndex := by
  unfold moveSelectedShapesDown
  split_ifs with he
  · refine ⟨d, [], rfl, layerResult_nil d, ?_, by simp⟩
    rw [List.isEmpty_iff] at he
    rw [he]
    rfl
  · obtain ⟨d1, steps, h1, h2, h3, h4⟩ := downLoop_result u _ d
      (sorted_selectedIndices_valid (fun a b => a ≤ b) d hlive)
    refine ⟨d1, steps, h1, h2, ?_, h4⟩
    rw [h3, ((List.perm_insertionSort _ _).filter _).length_eq]
    unfold selectedIndices
    rw [List.filter_map, List.length_map]
    rfl

theorem moveSelectedShapesToTop_result (u : Nat → Operation) (d : DrawingArea)
    (hlive : ∀ s ∈ d.m_selectedShapes, s ∈ d.m_shapes) :
    ∃ d1 steps, d.moveSelectedShapesToTop u = some d1 ∧ LayerResult d steps d1 ∧
      steps.length ≤ d.m_selectedShapes.length ∧
      ∀ st ∈ steps, st.2 + 1 = d.m_shapes.length ∧ st.1.newIndex ≤ (st.2 : Int) := by
  unfold moveSelectedShapesToTop
  split_ifs with he
  · exact ⟨d, [], rfl, layerResult_nil d, by simp, by simp⟩
  · obtain ⟨d1, steps, h1, h2, h3, h4⟩ := toTopLoop_result u _ ((d.m_shapes.length : Int) - 1) d
      (sorted_selectedIndices_valid (fun a b => a ≥ b) d hlive) (le_refl _)
    refine ⟨d1, steps, h1, h2, ?_, h4⟩
    rw [List.length_insertionSort] at h3
    unfold selectedIndices at h3
    rw [List.length_map] at h3
    exact h3

theorem moveSelectedShapesToBottom_result (u : Nat → Operation) (d : DrawingArea)
    (hlive : ∀ s ∈ d.m_selectedShapes, s ∈ d.m_shapes) :
    ∃ d1 steps, d.moveSelectedShapesToBottom u = some d1 ∧ LayerResult d steps d1 ∧
      steps.length ≤ d.m_selectedShapes.length ∧
      ∀ st ∈ steps, (st.2 : Int) = st.1.newIndex ∧ st.1.newIndex < st.1.oldIndex := by
  unfold moveSelectedShapesToBottom
  split_ifs with he
  · exact ⟨d, [], rfl, layerResult_nil d, by simp, by simp⟩
  · obtain ⟨d1, steps, h1, h2, h3, h4⟩ := toBottomLoop_result u _ 0 d
      (sorted_selectedIndices_valid (fun a b => a ≤ b) d hlive) (le_refl _)
    refine ⟨d1, steps, h1, h2, ?_, h4⟩
    rw [List.length_insertionSort] at h3
    unfold selectedIndices at h3
    rw [List.length_map] at h3
    exact h3

end DrawingArea

namespace DrawingArea

theorem layerSteps_type {l l1 : List Ptr} {steps : List (Operation × Nat)}
    (h : layerSteps l steps = some l1) :
    ∀ st ∈ steps, st.1.type = OperationType.LayerChange := by
  induction steps generalizing l with
  | nil => intro st hst; simp at hst
  | cons st0 steps ih =>
    obtain ⟨op, t⟩ := st0
    unfold layerSteps at h
    split_ifs at h with hc
    intro st hst
    rcases List.mem_cons.mp hst with h1 | h1
    · subst h1
      exact hc.1
    · exact ih h st h1

end DrawingArea

/-! ## Deletes of pointers that are no live objects -/

namespace DrawingArea

theorem deletePtr_undefinedDeletes_subset (p : Ptr) (d : DrawingArea) :
    ∀ x ∈ d.undefinedDeletes, x ∈ (d.deletePtr p).undefinedDeletes := by
  intro x hx
  unfold deletePtr
  split_ifs
  · exact hx
  · exact hx
  · exact List.mem_append_left _ hx

theorem deletePtr_not_isLive (p q : Ptr) (d : DrawingArea) (h : ¬ d.isLive q) :
    ¬ (d.deletePtr p).isLive q := by
  intro hq
  apply h
  unfold isLive at hq ⊢
  unfold deletePtr at hq
  split_ifs at hq
  · exact hq
  · exact ⟨hq.1, hq.2.1, fun hm => hq.2.2 (List.mem_append_left _ hm)⟩
  · exact ⟨hq.1, hq.2.1, fun hm => hq.2.2 (List.mem_append_left _ hm)⟩

/-- A `delete` of a non-null pointer that is no live object is entered in
`undefinedDeletes`. -/
theorem deletePtr_mem_undefinedDeletes (p : Ptr) (d : DrawingArea) (h0 : p ≠ 0)
    (h : ¬ d.isLive p) : p ∈ (d.deletePtr p).undefinedDeletes := by
  unfold deletePtr
  rw [if_neg h0, if_neg h]
  exact List.mem_append_right _ (List.mem_singleton_self p)

theorem dropOperation_undefinedDeletes_subset (op : Operation) (d : DrawingArea) :
    ∀ x ∈ d.undefinedDeletes, x ∈ (d.dropOperation op).undefinedDeletes := by
  intro x hx
  unfold dropOperation
  simp only []
  split_ifs
  · exact deletePtr_undefinedDeletes_subset _ _ x (deletePtr_undefinedDeletes_subset _ _ x hx)
  · exact deletePtr_undefinedDeletes_subset _ _ x hx
  · exact deletePtr_undefinedDeletes_subset _ _ x hx
  · exact hx

theorem dropOperation_not_isLive (op : Operation) (q : Ptr) (d : DrawingArea)
    (h : ¬ d.isLive q) : ¬ (d.dropOperation op).isLive q := by
  unfold dropOperation
  simp only []
  split_ifs
  · exact deletePtr_not_isLive _ _ _ (deletePtr_not_isLive _ _ _ h)
  · exact deletePtr_not_isLive _ _ _ h
  · exact deletePtr_not_isLive _ _ _ h
  · exact h

/-- Dropping an operation whose `oldShape` is non-null and no live object runs an undefined
`delete`, whatever the kind of the operation. -/
theorem dropOperation_mem_undefinedDeletes (op : Operation) (d : DrawingArea)
    (h0 : op.oldShape ≠ 0) (h : ¬ d.isLive op.oldShape) :
    op.oldShape ∈ (d.dropOperation op).undefinedDeletes := by
  unfold dropOperation
  simp only []
  rw [if_pos h0]
  split_ifs
  · exact deletePtr_mem_undefinedDeletes _ _ h0 (deletePtr_not_isLive _ _ _ h)
  · exact deletePtr_mem_undefinedDeletes _ _ h0 h

theorem foldl_dropOperation_undefinedDeletes_subset (l : List Operation) (d : DrawingArea) :
    ∀ x ∈ d.undefinedDeletes,
      x ∈ (l.foldl (fun acc op => acc.dropOperation op) d).undefinedDeletes := by
  induction l generalizing d with
  | nil => exact fun x hx => hx
  | cons op l ih =>
    intro x hx
    simp only [List.foldl_cons]
    exact ih _ x (dropOperation_undefinedDeletes_subset op d x hx)

theorem foldl_dropOperation_mem_undefinedDeletes (l : List Operation) (d : DrawingArea)
    (op : Operation) (hop : op ∈ l) (h0 : op.oldShape ≠ 0) (h : ¬ d.isLive op.oldShape) :
    op.oldShape ∈ (l.foldl (fun acc o => acc.dropOperation o) d).undefinedDeletes := by
  induction l generalizing d with
  | nil => simp at hop
  | cons o l ih =>
    simp only [List.foldl_cons]
    rcases List.mem_cons.mp hop with h1 | h1
    · subst h1
      exact foldl_dropOperation_undefinedDeletes_subset l _ _
        (dropOperation_mem_undefinedDeletes op d h0 h)
    · exact ih _ h1 (dropOperation_not_isLive o _ d h)

theorem clearRedoStack_undefinedDeletes_subset (d : DrawingArea) :
    ∀ x ∈ d.undefinedDeletes, x ∈ d.clearRedoStack.undefinedDeletes := by
  intro x hx
  unfold clearRedoStack
  exact foldl_dropOperation_undefinedDeletes_subset _ d x hx

/-- `clearRedoStack` on a redo stack that holds an operation whose `oldShape` is non-null and
no live object runs an undefined `delete`. -/
theorem clearRedoStack_mem_undefinedDeletes (d : DrawingArea) (op : Operation)
    (hop : op ∈ d.m_redoStack) (h0 : op.oldShape ≠ 0) (h : ¬ d.isLive op.oldShape) :
    op.oldShape ∈ d.clearRedoStack.undefinedDeletes := by
  unfold clearRedoStack
  exact foldl_dropOperation_mem_undefinedDeletes _ d op hop h0 h

/-- A push on a full undo stack whose oldest operation has an `oldShape` that is non-null
and no live object runs an undefined `delete`. -/
theorem addOperation_evicts_undefined (d : DrawingArea) (op old : Operation)
    (rest : List Operation) (hst : d.m_undoStack = old :: rest)
    (hfull : ((d.m_undoStack.length + 1 : Nat) : Int) > d.m_maxUndoSteps)
    (h0 : old.oldShape ≠ 0) (h : ¬ d.isLive old.oldShape) :
    old.oldShape ∈ (d.addOperation op).undefinedDeletes := by
  unfold addOperation
  simp only []
  rw [if_pos (by simpa using hfull), hst]
  apply clearRedoStack_undefinedDeletes_subset
  exact dropOperation_mem_undefinedDeletes old _ h0 h

/-- A push while the redo stack holds an operation whose `oldShape` is non-null and no live
object runs an undefined `delete`. -/
theorem addOperation_clears_undefined (d : DrawingArea) (op stale : Operation)
    (hop : stale ∈ d.m_redoStack) (h0 : stale.oldShape ≠ 0) (h : ¬ d.isLive stale.oldShape) :
    stale.oldShape ∈ (d.addOperation op).undefinedDeletes := by
  unfold addOperation
  simp only []
  split_ifs
  · split
    · exact clearRedoStack_mem_undefinedDeletes _ stale hop h0 h
    · next oldOp rest _ =>
      apply clearRedoStack_mem_undefinedDeletes _ stale
      · rw [dropOperation_eq]
        exact hop
      · exact h0
      · exact dropOperation_not_isLive oldOp _ _ h
  · exact clearRedoStack_mem_undefinedDeletes _ stale hop h0 h

theorem trimUndoStack_undefinedDeletes_subset (n : Nat) (d : DrawingArea) :
    ∀ x ∈ d.undefinedDeletes, x ∈ (trimUndoStack n d).undefinedDeletes := by
  induction n generalizing d with
  | zero => exact fun x hx => hx
  | succ n ih =>
    intro x hx
    unfold trimUndoStack
    split_ifs
    · split
      · exact hx
      · exact ih _ x (dropOperation_undefinedDeletes_subset _ _ x hx)
    · exact hx

/-- `setMaxUndoSteps(s)` with `1 <= s < len` on an undo stack whose oldest operation has an
`oldShape` that is non-null and no live object runs an undefined `delete`. -/
theorem setMaxUndoSteps_trims_undefined (d : DrawingArea) (s : Int) (old : Operation)
    (rest : List Operation) (hst : d.m_undoStack = old :: rest) (hs : 0 < s)
    (hlen : s < (d.m_undoStack.length : Int)) (h0 : old.oldShape ≠ 0)
    (h : ¬ d.isLive old.oldShape) :
    old.oldShape ∈ (d.setMaxUndoSteps s).undefinedDeletes := by
  unfold setMaxUndoSteps
  rw [if_pos hs]
  simp only [hst, List.length_cons]
  unfold trimUndoStack
  simp only [hst]
  rw [if_pos (by rw [hst] at hlen; simpa using hlen)]
  apply trimUndoStack_undefinedDeletes_subset
  exact dropOperation_mem_undefinedDeletes old _ h0 h

end DrawingArea

/-! # The claims -/

/-- C1 (undo/redo inverse law), evaluated where it fails. Shapes A, B, C, D (addresses 2, 4,
6, 8) are drawn, A and B are selected and `moveSelectedShapesToTop` is called: the sequence
is `[C, D, B, A]` and the undo stack holds six operations. Two `undo()` followed by two
`redo()` end in `[C, D, A, B]`, not in the sequence held before the first `undo()`. -/
theorem undo_redo_after_toTop_differs :
    (runCalls hitTest (fourShapes ++ [click 5 5, ctrlClick 25 5,
        Call.moveSelectedShapesToTop zeroUninit]) startState).map
      (fun d => (d.m_shapes, d.m_undoStack.length)) = some ([6, 8, 4, 2], 6) ∧
    (runCalls hitTest (fourShapes ++ [click 5 5, ctrlClick 25 5,
        Call.moveSelectedShapesToTop zeroUninit,
        Call.undo, Call.undo, Call.redo, Call.redo]) startState).map
      (fun d => d.m_shapes) = some [6, 8, 2, 4] := by
  constructor <;> decide

/-- C2 (bounded history), evaluated where it fails: two shapes are drawn, one `undo()`,
`setMaxUndoSteps(1)`, one `redo()`. The state is reachable and its undo stack holds 2
operations while `getMaxUndoSteps()` is 1. -/
theorem redo_exceeds_maxUndoSteps :
    ∃ d, Reachable hitTest d ∧ d.getMaxUndoSteps = 1 ∧ d.m_undoStack.length = 2 := by
  have h : (runCalls hitTest (drawGesture 0 0 10 10 ++ drawGesture 20 0 30 10 ++
      [Call.undo, Call.setMaxUndoSteps 1, Call.redo]) startState).map
      (fun d => (d.getMaxUndoSteps, d.m_undoStack.length)) = some (1, 2) := by decide
  obtain ⟨d, hd, hv⟩ := Option.map_eq_some'.mp h
  injection hv with h1 h2
  exact ⟨d, runCalls_reachable _ _ _ _ (Reachable.init _ _) hd, h1, h2⟩

/-- The two stacks as lists under bounded pushes. Starting from an empty undo stack with
limit `N >= 1`, after `N + m` calls of `addOperation` the list `m_undoStack` holds exactly
`N` entries, namely the last `N` pushed ones in push order, and `m_redoStack` is empty; when
the pushed operations are pairwise different, none of the oldest `m` is in either list, also
not after any further `undo()` and `redo()` calls. Scenario with the stale value 0 in every
indeterminate field: a rectangle is drawn from (10,10) to (50,40), the limit is set to 2 and
three style changes follow; the undo stack holds the last two `ModifyShape` operations. The
statement is about the lists only: it does not say that the `delete` calls made while
operations are dropped are defined. -/
theorem addOperation_keeps_newest :
    (∀ (d : DrawingArea) (ops : List Operation) (N m : Nat),
      1 ≤ N → d.getMaxUndoSteps = N → d.m_undoStack = [] → ops.length = N + m →
      (d.addOperations ops).m_undoStack.length = N ∧
      (d.addOperations ops).m_undoStack = ops.drop m ∧
      (d.addOperations ops).m_redoStack = [] ∧
      (ops.Nodup → ∀ op ∈ ops.take m,
        ∀ (contains : Shape → QPointF → Bool) (cs : List Call) (d2 : DrawingArea),
          (∀ c ∈ cs, c = Call.undo ∨ c = Call.redo) →
          runCalls contains cs (d.addOperations ops) = some d2 →
          op ∉ d2.m_undoStack ∧ op ∉ d2.m_redoStack)) ∧
    (runCalls hitTest boundedHistoryScenario startState).map
      (fun d => (d.canUndo, d.m_undoStack.map (fun op => op.type),
        d.m_redoStack.map (fun op => op.type))) =
      some (true, [OperationType.ModifyShape, OperationType.ModifyShape], []) := by
  refine ⟨?_, by decide⟩
  intro d ops N m hN hmax hempty hlen
  have hfold := DrawingArea.foldl_addOperation_m_undoStack ops d N hN hmax
    (by rw [hempty]; simp)
  have hundo : (d.addOperations ops).m_undoStack = ops.drop m := by
    unfold DrawingArea.addOperations
    rw [hfold, hempty]
    simp only [List.nil_append, List.length_nil, Nat.zero_add]
    congr 1
    omega
  have hredo : (d.addOperations ops).m_redoStack = [] := by
    apply DrawingArea.foldl_addOperation_m_redoStack
    intro h0; rw [h0] at hlen; simp at hlen; omega
  refine ⟨by rw [hundo]; simp; omega, hundo, hredo, ?_⟩
  intro hnd op hop contains cs d2 hcs hrun
  have hnot : op ∉ ops.drop m := by
    have hsplit : (ops.take m ++ ops.drop m).Nodup := by rw [List.take_append_drop]; exact hnd
    exact fun h => (List.disjoint_of_nodup_append hsplit) hop h
  have hsub := DrawingArea.undoRedo_no_new_entries contains cs hcs _ d2 hrun op
  rw [hundo, hredo] at hsub
  constructor
  · intro h
    rcases hsub (Or.inl h) with h1 | h1
    · exact hnot h1
    · simp at h1
  · intro h
    rcases hsub (Or.inr h) with h1 | h1
    · exact hnot h1
    · simp at h1

/-- Bounded pushes at a concrete input: limit 2, three distinct pushes on an empty stack. -/
theorem addOperation_keeps_newest_witness :
    (1 ≤ 2 ∧ (startState.setMaxUndoSteps 2).getMaxUndoSteps = (2 : Nat) ∧
      (startState.setMaxUndoSteps 2).m_undoStack = [] ∧ threeOps.length = 2 + 1) ∧
    (((startState.setMaxUndoSteps 2).addOperations threeOps).m_undoStack.length = 2 ∧
      ((startState.setMaxUndoSteps 2).addOperations threeOps).m_undoStack = threeOps.drop 1 ∧
      ((startState.setMaxUndoSteps 2).addOperations threeOps).m_redoStack = [] ∧
      (threeOps.Nodup → ∀ op ∈ threeOps.take 1,
        ∀ (contains : Shape → QPointF → Bool) (cs : List Call) (d2 : DrawingArea),
          (∀ c ∈ cs, c = Call.undo ∨ c = Call.redo) →
          runCalls contains cs ((startState.setMaxUndoSteps 2).addOperations threeOps) = some d2 →
          op ∉ d2.m_undoStack ∧ op ∉ d2.m_redoStack)) :=
  ⟨⟨by decide, by decide, by decide, by decide⟩,
    addOperation_keeps_newest.1 (startState.setMaxUndoSteps 2) threeOps 2 1
      (by decide) (by decide) (by decide) (by decide)⟩

/-- C3, evaluated. The scenario of the specification, with the `oldShape` of the `AddShape`
operation (a field the source never assigns for this kind) holding the stale value 99, the
address of no object: the allocation cursor ends at 6. A rectangle is drawn, the limit is set
to 2 and the colour is changed: the undo stack holds the `AddShape` operation and one
`ModifyShape` operation, and no `delete` was undefined so far. The line width is changed:
this third push evicts the `AddShape` operation, `addOperation` finds its `oldShape`
non-null and runs `delete` on it, which is undefined for the value 99. With the stale
value 0 (`boundedHistoryScenario`) the same calls delete the clones only. -/
theorem eviction_deletes_indeterminate_oldShape :
    ((stateAfter staleRectangleLimitTwo).m_undoStack =
        [⟨OperationType.AddShape, 2, 99, 0, 0⟩, ⟨OperationType.ModifyShape, 2, 3, 0, 0⟩] ∧
      (stateAfter staleRectangleLimitTwo).getMaxUndoSteps = 2 ∧
      (stateAfter staleRectangleLimitTwo).destroyed = [1] ∧
      (stateAfter staleRectangleLimitTwo).undefinedDeletes = [] ∧
      ¬ (stateAfter staleRectangleLimitTwo).isLive 99) ∧
    ((stateAfter (staleRectangleLimitTwo ++
          [Call.setCurrentLineWidth 3 zeroUninit])).m_undoStack =
        [⟨OperationType.ModifyShape, 2, 3, 0, 0⟩, ⟨OperationType.ModifyShape, 2, 4, 0, 0⟩] ∧
      (stateAfter (staleRectangleLimitTwo ++
          [Call.setCurrentLineWidth 3 zeroUninit])).destroyed = [1, 99] ∧
      (stateAfter (staleRectangleLimitTwo ++
          [Call.setCurrentLineWidth 3 zeroUninit])).undefinedDeletes = [99]) ∧
    ((stateAfter (staleRectangleLimitTwo ++ [Call.setCurrentLineWidth 3 zeroUninit,
          Call.setCurrentFilled true zeroUninit])).undefinedDeletes = [99] ∧
      (stateAfter (staleRectangleLimitTwo ++ [Call.setCurrentLineWidth 3 zeroUninit,
          Call.setCurrentFilled true zeroUninit])).nextPtr = 6) ∧
    ((stateAfter boundedHistoryScenario).destroyed = [1, 3] ∧
      (stateAfter boundedHistoryScenario).undefinedDeletes = []) := by
  refine ⟨⟨by decide, by decide, by decide, by decide, by decide⟩,
    ⟨by decide, by decide, by decide⟩, ⟨by decide, by decide⟩, ⟨by decide, by decide⟩⟩

/-- The redo stack as a list after a recording call. Whatever the list `m_redoStack` holds,
it is empty (and `canRedo()` is false) after `addOperation`, and so after every call that
records an operation (the statement is about the list only: it does not say that the
`delete` calls made while the entries are dropped are defined): the release
that commits a drawn shape, `deleteSelectedShapes` and a style update with a non-empty
selection, each of the four layer functions when a selected shape is below the top (Up,
ToTop) resp. above the bottom (Down, ToBottom), and the release that ends a move or a resize
gesture. The layer functions run to completion when the selection holds live shapes only. -/
theorem recorded_operation_clears_redo :
    (∀ (d : DrawingArea) (op : Operation),
      (d.addOperation op).m_redoStack = [] ∧ (d.addOperation op).canRedo = false) ∧
    (∀ (d : DrawingArea) (u : Nat → Operation),
      d.m_editMode = EditMode.Draw → d.m_isDrawing = true → d.m_tempShape ≠ 0 →
      (QRectF.ofPoints d.m_startPoint d.m_endPoint).normalized.w > 1 →
      (QRectF.ofPoints d.m_startPoint d.m_endPoint).normalized.h > 1 →
      (d.mouseReleaseEvent MouseButton.LeftButton u).m_redoStack = [] ∧
      (d.mouseReleaseEvent MouseButton.LeftButton u).canRedo = false) ∧
    (∀ (d : DrawingArea) (u : Nat → Operation), d.m_selectedShapes ≠ [] →
      ((d.deleteSelectedShapes u).m_redoStack = [] ∧ (d.deleteSelectedShapes u).canRedo = false) ∧
      ((d.updateSelectedShapeProperties u).m_redoStack = [] ∧
        (d.updateSelectedShapeProperties u).canRedo = false) ∧
      (∀ c w b, (d.setCurrentColor c u).m_redoStack = [] ∧
        (d.setCurrentLineWidth w u).m_redoStack = [] ∧
        (d.setCurrentFilled b u).m_redoStack = [] ∧
        (d.setCurrentFillColor c u).m_redoStack = [])) ∧
    (∀ (d : DrawingArea) (u : Nat → Operation),
      (∀ s ∈ d.m_selectedShapes, s ∈ d.m_shapes) →
      (∃ s ∈ d.m_selectedShapes, QList.indexOf d.m_shapes s < (d.m_shapes.length : Int) - 1) →
      (∃ d1, d.moveSelectedShapesUp u = some d1 ∧ d1.m_redoStack = [] ∧ d1.canRedo = false) ∧
      (∃ d1, d.moveSelectedShapesToTop u = some d1 ∧ d1.m_redoStack = [] ∧ d1.canRedo = false)) ∧
    (∀ (d : DrawingArea) (u : Nat → Operation),
      (∀ s ∈ d.m_selectedShapes, s ∈ d.m_shapes) →
      (∃ s ∈ d.m_selectedShapes, QList.indexOf d.m_shapes s > 0) →
      (∃ d1, d.moveSelectedShapesDown u = some d1 ∧ d1.m_redoStack = [] ∧ d1.canRedo = false) ∧
      (∃ d1, d.moveSelectedShapesToBottom u = some d1 ∧ d1.m_redoStack = [] ∧
        d1.canRedo = false)) ∧
    (∀ (d : DrawingArea) (button : MouseButton) (u : Nat → Operation),
      d.m_isMoving = true → (∃ e ∈ d.m_moveStartPositions, e.1 ≠ 0 ∧ e.2 ≠ 0) →
      (d.mouseReleaseEvent button u).m_redoStack = [] ∧
      (d.mouseReleaseEvent button u).canRedo = false) ∧
    (∀ (d : DrawingArea) (button : MouseButton) (u : Nat → Operation) (s : Ptr),
      d.m_isResizing = true → d.m_resizeStartShape ≠ 0 → d.m_selectedShapes = [s] → s ≠ 0 →
      (d.mouseReleaseEvent button u).m_redoStack = [] ∧
      (d.mouseReleaseEvent button u).canRedo = false) := by
  have can : ∀ e : DrawingArea, e.m_redoStack = [] →
      e.m_redoStack = [] ∧ e.canRedo = false := by
    intro e he; exact ⟨he, by simp [DrawingArea.canRedo, he]⟩
  have nonempty : ∀ e : DrawingArea, e.m_selectedShapes ≠ [] →
      ¬ e.m_selectedShapes.isEmpty = true := by
    intro e he h0; exact he (List.isEmpty_iff.mp h0)
  refine ⟨fun d op => can _ (by simp), ?_, ?_, ?_, ?_, ?_, ?_⟩
  · intro d u hmode hdraw htemp hw hh
    apply can
    obtain ⟨-, f2, f3, f4, f5⟩ := DrawingArea.release_blocks_fields (fun k => u (k + 2)) (u 1) d
    rw [DrawingArea.mouseReleaseEvent_draw _ _ _ hmode]
    apply DrawingArea.commitDrawing_m_redoStack
    · show ((d.endMoveGesture _).endResizeGesture _).m_isDrawing = true
      rw [f2]; exact hdraw
    · show ((d.endMoveGesture _).endResizeGesture _).m_tempShape ≠ 0
      rw [f3]; exact htemp
    · show (QRectF.ofPoints ((d.endMoveGesture _).endResizeGesture _).m_startPoint
        ((d.endMoveGesture _).endResizeGesture _).m_endPoint).normalized.w > 1
      rw [f4, f5]; exact hw
    · show (QRectF.ofPoints ((d.endMoveGesture _).endResizeGesture _).m_startPoint
        ((d.endMoveGesture _).endResizeGesture _).m_endPoint).normalized.h > 1
      rw [f4, f5]; exact hh
  · intro d u hsel
    have hupd : ∀ e : DrawingArea, e.m_selectedShapes = d.m_selectedShapes →
        (e.updateSelectedShapeProperties u).m_redoStack = [] := by
      intro e he
      exact DrawingArea.updateLoop_m_redoStack u _ e (by rw [he]; exact hsel)
    refine ⟨can _ ?_, can _ (hupd d rfl), fun c w b => ⟨hupd _ rfl, hupd _ rfl, hupd _ rfl, hupd _ rfl⟩⟩
    show (DrawingArea.deleteLoop u d.m_selectedShapes d).m_redoStack = []
    exact DrawingArea.deleteLoop_m_redoStack u _ d hsel
  · intro d u hlive ⟨s, hs, hlt⟩
    have hne : ¬ d.m_selectedShapes.isEmpty = true :=
      nonempty d (List.ne_nil_of_mem hs)
    constructor
    · obtain ⟨d1, h1⟩ := DrawingArea.upLoop_total u _ d
        (DrawingArea.sorted_selectedIndices_valid (fun a b => a ≥ b) d hlive)
      refine ⟨d1, by unfold DrawingArea.moveSelectedShapesUp; rw [if_neg hne]; exact h1, ?_⟩
      exact can _ (DrawingArea.upLoop_m_redoStack u _ d d1 h1
        ⟨_, DrawingArea.mem_sorted_selectedIndices _ d s hs, hlt⟩)
    · obtain ⟨d1, h1⟩ := DrawingArea.toTopLoop_total u _ ((d.m_shapes.length : Int) - 1) d
        (DrawingArea.sorted_selectedIndices_valid (fun a b => a ≥ b) d hlive)
      refine ⟨d1, by unfold DrawingArea.moveSelectedShapesToTop; rw [if_neg hne]; exact h1, ?_⟩
      exact can _ (DrawingArea.toTopLoop_m_redoStack u _ _ d d1 h1
        ⟨_, DrawingArea.mem_sorted_selectedIndices _ d s hs, hlt⟩)
  · intro d u hlive ⟨s, hs, hlt⟩
    have hne : ¬ d.m_selectedShapes.isEmpty = true :=
      nonempty d (List.ne_nil_of_mem hs)
    constructor
    · obtain ⟨d1, h1⟩ := DrawingArea.downLoop_total u _ d
        (DrawingArea.sorted_selectedIndices_valid (fun a b => a ≤ b) d hlive)
      refine ⟨d1, by unfold DrawingArea.moveSelectedShapesDown; rw [if_neg hne]; exact h1, ?_⟩
      exact can _ (DrawingArea.downLoop_m_redoStack u _ d d1 h1
        ⟨_, DrawingArea.mem_sorted_selectedIndices _ d s hs, hlt⟩)
    · obtain ⟨d1, h1⟩ := DrawingArea.toBottomLoop_total u _ 0 d
        (DrawingArea.sorted_selectedIndices_valid (fun a b => a ≤ b) d hlive)
      refine ⟨d1, by unfold DrawingArea.moveSelectedShapesToBottom; rw [if_neg hne]; exact h1, ?_⟩
      exact can _ (DrawingArea.toBottomLoop_m_redoStack u _ _ d d1 h1
        ⟨_, DrawingArea.mem_sorted_selectedIndices _ d s hs, hlt⟩)
  · intro d button u hmov hentry
    apply can
    have h1 := DrawingArea.endMoveGesture_m_redoStack (fun k => u (k + 2)) d hmov hentry
    rcases DrawingArea.mouseReleaseEvent_m_redoStack_or button u d with h | h
    · rw [h]
      rcases DrawingArea.endResizeGesture_m_redoStack_or (u 1)
        (d.endMoveGesture (fun k => u (k + 2))) with h2 | h2
      · rw [h2]; exact h1
      · exact h2
    · exact h
  · intro d button u s hres hstart hsel hs
    apply can
    have g1 := DrawingArea.endMoveGesture_m_isResizing (fun k => u (k + 2)) d
    have g2 := DrawingArea.endMoveGesture_m_resizeStartShape (fun k => u (k + 2)) d
    have g3 := DrawingArea.endMoveGesture_m_selectedShapes (fun k => u (k + 2)) d
    have h1 := DrawingArea.endResizeGesture_m_redoStack (u 1)
      (d.endMoveGesture (fun k => u (k + 2))) s (by rw [g1]; exact hres)
      (by rw [g2]; exact hstart) (by rw [g3]; exact hsel) hs
    rcases DrawingArea.mouseReleaseEvent_m_redoStack_or button u d with h | h
    · rw [h]; exact h1
    · exact h

/-- The emptied redo stack at concrete inputs: in each of four states with a pending redo entry
(a draw gesture about to be released, two selected shapes, a move gesture and a resize gesture
about to end) the recording call leaves the redo stack empty. -/
theorem recorded_operation_clears_redo_witness :
    (redoPendingDrawing.m_redoStack ≠ [] ∧
      (redoPendingDrawing.mouseReleaseEvent MouseButton.LeftButton zeroUninit).m_redoStack = []) ∧
    (redoPendingSelected.m_redoStack ≠ [] ∧
      (redoPendingSelected.deleteSelectedShapes zeroUninit).m_redoStack = [] ∧
      (redoPendingSelected.setCurrentColor 0xff0000 zeroUninit).m_redoStack = [] ∧
      (∃ d1, redoPendingSelected.moveSelectedShapesUp zeroUninit = some d1 ∧
        d1.m_redoStack = [] ∧ d1.canRedo = false) ∧
      (∃ d1, redoPendingSelected.moveSelectedShapesToBottom zeroUninit = some d1 ∧
        d1.m_redoStack = [] ∧ d1.canRedo = false)) ∧
    (redoPendingMoving.m_redoStack ≠ [] ∧
      (redoPendingMoving.mouseReleaseEvent MouseButton.LeftButton zeroUninit).m_redoStack = []) ∧
    (redoPendingResizing.m_redoStack ≠ [] ∧
      (redoPendingResizing.mouseReleaseEvent MouseButton.LeftButton zeroUninit).m_redoStack = []) :=
  ⟨⟨by decide,
      (recorded_operation_clears_redo.2.1 redoPendingDrawing zeroUninit
        (by decide) (by decide) (by decide) (by decide) (by decide)).1⟩,
    ⟨by decide,
      (recorded_operation_clears_redo.2.2.1 redoPendingSelected zeroUninit (by decide)).1.1,
      ((recorded_operation_clears_redo.2.2.1 redoPendingSelected zeroUninit
        (by decide)).2.2 0xff0000 0 false).1,
      (recorded_operation_clears_redo.2.2.2.1 redoPendingSelected zeroUninit
        (by decide) (by decide)).1,
      (recorded_operation_clears_redo.2.2.2.2.1 redoPendingSelected zeroUninit
        (by decide) (by decide)).2⟩,
    ⟨by decide,
      (recorded_operation_clears_redo.2.2.2.2.2.1 redoPendingMoving MouseButton.LeftButton
        zeroUninit (by decide) (by decide)).1⟩,
    ⟨by decide,
      (recorded_operation_clears_redo.2.2.2.2.2.2 redoPendingResizing MouseButton.LeftButton
        zeroUninit 2 (by decide) (by decide) (by decide) (by decide)).1⟩⟩

/-- C4, evaluated. An ellipse A is drawn and the drawing undone: the redo stack holds the
`AddShape` operation of A, whose `oldShape` the source never assigns; it holds the stale
value 99, the address of no object. A second ellipse is drawn: the push runs
`clearRedoStack`, which finds the `oldShape` of the dropped operation non-null and runs
`delete` on it, which is undefined for the value 99. The redo stack of the model is empty
afterwards. With the stale value 0 (`undoneThenDrawn`) nothing undefined happens. -/
theorem redo_clearing_deletes_indeterminate_oldShape :
    ((stateAfter staleDrawingUndone).m_redoStack = [⟨OperationType.AddShape, 2, 99, 0, 0⟩] ∧
      (stateAfter staleDrawingUndone).destroyed = [1] ∧
      (stateAfter staleDrawingUndone).undefinedDeletes = [] ∧
      ¬ (stateAfter staleDrawingUndone).isLive 99) ∧
    ((stateAfter (staleDrawingUndone ++ drawGesture 20 0 30 10)).m_redoStack = [] ∧
      (stateAfter (staleDrawingUndone ++ drawGesture 20 0 30 10)).destroyed = [1, 3, 99] ∧
      (stateAfter (staleDrawingUndone ++ drawGesture 20 0 30 10)).undefinedDeletes = [99] ∧
      (stateAfter (staleDrawingUndone ++ drawGesture 20 0 30 10)).nextPtr = 5) ∧
    (undoneThenDrawn.destroyed = [1, 3] ∧ undoneThenDrawn.undefinedDeletes = []) := by
  refine ⟨⟨by decide, by decide, by decide, by decide⟩,
    ⟨by decide, by decide, by decide, by decide⟩, ⟨by decide, by decide⟩⟩

/-- C6 (stable order in `moveSelectedShapesToTop`), evaluated where it fails. With the
sequence `[A, B, C, D]` (addresses 2, 4, 6, 8) and A and B selected, the call leaves
`[C, D, B, A]`: A was below B and is now above it. The two `LayerChange` operations it pushed
record `newIndex` 3 for B and 2 for A, while B ends at index 2 and A at index 3. -/
theorem toTop_reverses_moved_shapes :
    (runCalls hitTest (fourShapes ++ [click 5 5, ctrlClick 25 5]) startState).map
      (fun d => (d.m_shapes, d.m_selectedShapes)) = some ([2, 4, 6, 8], [2, 4]) ∧
    (runCalls hitTest (fourShapes ++ [click 5 5, ctrlClick 25 5,
        Call.moveSelectedShapesToTop zeroUninit]) startState).map
      (fun d => (d.m_shapes, d.m_undoStack.drop 4)) =
      some ([6, 8, 4, 2],
        [⟨OperationType.LayerChange, 4, 0, 1, 3⟩, ⟨OperationType.LayerChange, 2, 0, 0, 2⟩]) := by
  constructor <;> decide

/-- C8 (a shape never pushes past another selected shape), evaluated where it fails. With
the sequence `[A, B, C]` (addresses 2, 4, 6): B and C selected, `moveSelectedShapesUp` leaves
`[A, C, B]`; A and B selected, `moveSelectedShapesDown` leaves `[B, A, C]`. In both, the two
selected shapes have changed their relative order. -/
theorem up_down_swap_selected_at_boundary :
    (runCalls hitTest (threeShapes ++ [click 25 5, ctrlClick 45 5]) startState).map
      (fun d => (d.m_shapes, d.m_selectedShapes)) = some ([2, 4, 6], [4, 6]) ∧
    (runCalls hitTest (threeShapes ++ [click 25 5, ctrlClick 45 5,
        Call.moveSelectedShapesUp zeroUninit]) startState).map
      (fun d => d.m_shapes) = some [2, 6, 4] ∧
    (runCalls hitTest (threeShapes ++ [click 5 5, ctrlClick 25 5]) startState).map
      (fun d => (d.m_shapes, d.m_selectedShapes)) = some ([2, 4, 6], [2, 4]) ∧
    (runCalls hitTest (threeShapes ++ [click 5 5, ctrlClick 25 5,
        Call.moveSelectedShapesDown zeroUninit]) startState).map
      (fun d => d.m_shapes) = some [4, 2, 6] := by
  refine ⟨?_, ?_, ?_, ?_⟩ <;> decide

/-- C9 (no duplicate in the live sequence), evaluated where it fails. One shape A (address
2) is drawn, which selects it; a Ctrl-click on it in Select mode appends it to the selection
a second time; `deleteSelectedShapes` records two `DeleteShape` operations for it, and two
`undo()` calls insert it twice: the reachable state has the sequence `[A, A]`. -/
theorem undo_of_double_delete_duplicates_shape :
    ∃ d, Reachable hitTest d ∧ d.m_shapes = [2, 2] ∧ ¬ d.m_shapes.Nodup := by
  have h : (runCalls hitTest (drawGesture 0 0 10 10 ++ [Call.setEditMode EditMode.Select,
      ctrlClick 5 5, Call.deleteSelectedShapes zeroUninit, Call.undo, Call.undo])
      startState).map (fun d => d.m_shapes) = some [2, 2] := by decide
  obtain ⟨d, hd, hv⟩ := Option.map_eq_some'.mp h
  refine ⟨d, runCalls_reachable _ _ _ _ (Reachable.init _ _) hd, hv, ?_⟩
  rw [hv]; decide

/-- C10 (the selection is a subset of the live sequence). In every state the widget can
reach from its construction, by any of its public calls and event handlers, every entry of
`m_selectedShapes` is in `m_shapes`. -/
theorem selection_subset_of_sequence (contains : Shape → QPointF → Bool) (d : DrawingArea)
    (h : Reachable contains d) : ∀ s ∈ d.m_selectedShapes, s ∈ d.m_shapes := by
  induction h with
  | init r blank => intro s hs; simp [DrawingArea.init] at hs
  | step c _ hrun ih => exact DrawingArea.run_live contains c _ _ hrun ih

/-- C10 at a concrete reachable state, with A and B selected in the sequence `[A, B]`. -/
theorem selection_subset_of_sequence_witness :
    Reachable hitTest redoPendingSelected ∧
    redoPendingSelected.m_selectedShapes = [2, 4] ∧
    ∀ s ∈ redoPendingSelected.m_selectedShapes, s ∈ redoPendingSelected.m_shapes :=
  ⟨stateAfter_reachable _ (by decide), by decide,
    selection_subset_of_sequence hitTest redoPendingSelected
      (stateAfter_reachable _ (by decide))⟩

/-- C5 (single-shape move-to-top with undo and redo). In a sequence of distinct shapes with
the single selected shape `s` at index `i < len - 1`, `moveSelectedShapesToTop` makes exactly
one `addOperation` call, with the `LayerChange` operation for `s` that records `oldIndex = i`
and `newIndex = len - 1`, and leaves the sequence with `s` removed from index `i` and appended
at the end; the following `undo()` restores the original sequence and the following `redo()`
gives the moved sequence again. -/
theorem toTop_single_then_undo_redo (d : DrawingArea) (u : Nat → Operation) (s : Ptr) (i : Nat)
    (hnd : d.m_shapes.Nodup) (hs : d.m_shapes[i]? = some s) (hs0 : s ≠ 0)
    (hi : i + 1 < d.m_shapes.length) (hsel : d.m_selectedShapes = [s])
    (hmax : 1 ≤ d.m_maxUndoSteps) :
    ∃ d1 d2 d3,
      d.moveSelectedShapesToTop u = some d1 ∧
      d1 = { d.addOperation
              (DrawingArea.layerOp (u 0) s (i : Int) ((d.m_shapes.length : Int) - 1)) with
             m_shapes := d.m_shapes.eraseIdx i ++ [s] } ∧
      d1.m_undoStack.getLast? =
        some ⟨OperationType.LayerChange, s, (u 0).oldShape, i, (d.m_shapes.length : Int) - 1⟩ ∧
      d1.undo = some d2 ∧ d2.m_shapes = d.m_shapes ∧
      d2.redo = some d3 ∧ d3.m_shapes = d.m_shapes.eraseIdx i ++ [s] := by
  obtain ⟨hl, hA⟩ := QList.split_of_getElem? hs
  generalize hAdef : d.m_shapes.take i = A at hl hA
  generalize hBdef : d.m_shapes.drop (i + 1) = B at hl
  have hlen : d.m_shapes.length = A.length + B.length + 1 := by rw [hl]; simp; omega
  have hnd2 : (A ++ s :: B).Nodup := hl ▸ hnd
  have hsA : s ∉ A := fun h => (List.nodup_append.mp hnd2).2.2 h (List.mem_cons_self _ _)
  have hsB : s ∉ B := (List.nodup_cons.mp (List.nodup_append.mp hnd2).2.1).1
  have hsAB : s ∉ A ++ B := by simp [hsA, hsB]
  have hB : 0 < B.length := by omega
  have hABlen : (A ++ B).length = A.length + B.length := List.length_append _ _
  have herase : d.m_shapes.eraseIdx i = A ++ B := by
    rw [hl, ← hA]; exact QList.eraseIdx_split A B s
  have hidx : QList.indexOf d.m_shapes s = (i : Int) := by
    rw [hl, QList.indexOf_split hsA, hA]
  have hat : QList.at? d.m_shapes (i : Int) = some s := by
    rw [hl, ← hA]; exact QList.at?_split A B s
  -- the recorded operation
  generalize hop : DrawingArea.layerOp (u 0) s (i : Int) ((d.m_shapes.length : Int) - 1) = op
  have hop_type : op.type = OperationType.LayerChange := by rw [← hop]; rfl
  have hop_shape : op.shape = s := by rw [← hop]; rfl
  have hop_old : op.oldIndex = (i : Int) := by rw [← hop]; rfl
  have hop_new : op.newIndex = (d.m_shapes.length : Int) - 1 := by rw [← hop]; rfl
  -- the call itself
  have hcall : d.moveSelectedShapesToTop u =
      some { d.addOperation op with m_shapes := d.m_shapes.eraseIdx i ++ [s] } := by
    unfold DrawingArea.moveSelectedShapesToTop DrawingArea.selectedIndices
    rw [hsel]
    simp only [List.isEmpty_cons, Bool.false_eq_true, if_false, List.map_cons, List.map_nil,
      List.insertionSort, List.orderedInsert, hidx]
    unfold DrawingArea.toTopLoop
    rw [if_pos (by omega), hat]
    simp only [DrawingArea.addOperation_m_shapes, Int.toNat_ofNat, hop, DrawingArea.toTopLoop]
  have hlast : (d.addOperation op).m_undoStack.getLast? = some op := by
    rw [DrawingArea.addOperation_m_undoStack]
    exact DrawingArea.pushBounded_getLast? _ _ _ hmax
  -- undo
  generalize hd1 : ({ d.addOperation op with m_shapes := d.m_shapes.eraseIdx i ++ [s] } :
    DrawingArea) = d1 at hcall
  have hd1_shapes : d1.m_shapes = A ++ B ++ [s] := by rw [← hd1]; exact congrArg (· ++ [s]) herase
  have hd1_undo : d1.m_undoStack = (d.addOperation op).m_undoStack := by rw [← hd1]
  have hd1_redo : d1.m_redoStack = [] := by rw [← hd1]; exact DrawingArea.addOperation_m_redoStack d op
  have hlast1 : d1.m_undoStack.getLast? = some op := by rw [hd1_undo]; exact hlast
  generalize hd2 : ({ d1 with
      m_shapes := d.m_shapes,
      m_undoStack := d1.m_undoStack.dropLast,
      m_redoStack := [op],
      m_selectedShapes := [] } : DrawingArea) = d2
  have hundo : d1.undo = some d2 := by
    rw [DrawingArea.undo_of_getLast? hlast1 hop_type, hop_old]
    have hmove : QList.move (A ++ B ++ [s]) ((A ++ B).length : Int) (A.length : Int) =
        some (A ++ s :: B) := by
      rw [QList.move_natCast (QList.getElem?_split (A ++ B) [] s) (by simp)]
      rw [QList.eraseIdx_split, List.append_nil, QList.insertIdx_split]
    have := DrawingArea.replay_of_move op (i : Int)
      { d1 with
        m_undoStack := d1.m_undoStack.dropLast,
        m_redoStack := d1.m_redoStack ++ [op],
        m_selectedShapes := [] }
      (A ++ B).length A.length (A ++ s :: B)
      (by rw [hop_shape]; exact hs0)
      (by rw [hop_shape]; show QList.indexOf d1.m_shapes s = _
          rw [hd1_shapes]; exact QList.indexOf_split hsAB)
      (by omega)
      (by show qBound 0 (i : Int) (d1.m_shapes.length : Int) = _
          rw [hd1_shapes, ← hA]
          exact qBound_of_mem_range (by omega) (by simp; omega))
      (by omega)
      (by show QList.move d1.m_shapes _ _ = _
          rw [hd1_shapes]; exact hmove)
    rw [this, ← hd2]
    simp only [hd1_redo, List.nil_append, ← hl]
  -- redo
  generalize hd3 : ({ d2 with
      m_shapes := d.m_shapes.eraseIdx i ++ [s],
      m_undoStack := d2.m_undoStack ++ [op],
      m_redoStack := [],
      m_selectedShapes := [] } : DrawingArea) = d3
  have hd2_shapes : d2.m_shapes = A ++ s :: B := by rw [← hd2]; exact hl
  have hd2_redo : d2.m_redoStack = [op] := by rw [← hd2]
  have hredo : d2.redo = some d3 := by
    rw [DrawingArea.redo_of_getLast? op (by rw [hd2_redo]; rfl) hop_type, hop_new]
    have hmove : QList.move (A ++ s :: B) (A.length : Int) ((A ++ B).length : Int) =
        some (A ++ B ++ [s]) := by
      rw [QList.move_natCast (QList.getElem?_split A B s) (by simp)]
      rw [QList.eraseIdx_split, List.insertIdx_length_self]
    have := DrawingArea.replay_of_move op ((d.m_shapes.length : Int) - 1)
      { d2 with
        m_redoStack := d2.m_redoStack.dropLast,
        m_undoStack := d2.m_undoStack ++ [op],
        m_selectedShapes := [] }
      A.length (A ++ B).length (A ++ B ++ [s])
      (by rw [hop_shape]; exact hs0)
      (by rw [hop_shape]; show QList.indexOf d2.m_shapes s = _
          rw [hd2_shapes]; exact QList.indexOf_split hsA)
      (by omega)
      (by show qBound 0 ((d.m_shapes.length : Int) - 1) (d2.m_shapes.length : Int) = _
          rw [hd2_shapes, hlen, qBound_of_mem_range (by omega) (by simp)]
          rw [hABlen]; push_cast; omega)
      (by omega)
      (by show QList.move d2.m_shapes _ _ = _
          rw [hd2_shapes]; exact hmove)
    rw [this, ← hd3]
    simp only [hd2_redo, List.dropLast_single, herase]
  refine ⟨d1, d2, d3, hcall, rfl, ?_, hundo, ?_, hredo, ?_⟩
  · rw [hlast1, ← hop]; rfl
  · rw [← hd2]
  · rw [← hd3]

/-- C5 at the scenario of the specification: `[A, B, C]` with B selected becomes `[A, C, B]`,
`undo()` gives `[A, B, C]`, `redo()` gives `[A, C, B]`. -/
theorem toTop_single_then_undo_redo_witness :
    (threeWithMiddleSelected.m_shapes = [2, 4, 6] ∧
      threeWithMiddleSelected.m_selectedShapes = [4] ∧
      1 ≤ threeWithMiddleSelected.m_maxUndoSteps) ∧
    (∃ d1 d2 d3,
      threeWithMiddleSelected.moveSelectedShapesToTop zeroUninit = some d1 ∧
      d1 = { threeWithMiddleSelected.addOperation
              (DrawingArea.layerOp (zeroUninit 0) 4 ((1 : Nat) : Int)
                ((threeWithMiddleSelected.m_shapes.length : Int) - 1)) with
             m_shapes := threeWithMiddleSelected.m_shapes.eraseIdx 1 ++ [4] } ∧
      d1.m_undoStack.getLast? =
        some ⟨OperationType.LayerChange, 4, (zeroUninit 0).oldShape, ((1 : Nat) : Int),
          (threeWithMiddleSelected.m_shapes.length : Int) - 1⟩ ∧
      d1.undo = some d2 ∧ d2.m_shapes = threeWithMiddleSelected.m_shapes ∧
      d2.redo = some d3 ∧ d3.m_shapes = threeWithMiddleSelected.m_shapes.eraseIdx 1 ++ [4]) ∧
    threeWithMiddleSelected.m_shapes.eraseIdx 1 ++ [4] = [2, 6, 4] :=
  ⟨⟨by decide, by decide, by decide⟩,
    toTop_single_then_undo_redo threeWithMiddleSelected zeroUninit 4 1
      (by decide) (by decide) (by decide) (by decide) (by decide) (by decide),
    by decide⟩

/-- C7, evaluated: the selection list can hold a shape twice. With the sequence
`[A, B, C]` (addresses 2, 4, 6), C is selected by drawing it and a Ctrl-click adds it again;
`moveSelectedShapesToBottom` then moves C and after it B, which is not selected, and leaves
`[C, B, A]`. The moved shapes C and B are not in their original relative order: no sublist
`moved` of `[A, B, C]` makes `[C, B, A]` the list `moved` followed by the other shapes in
their original order. -/
theorem toBottom_duplicate_selection_reorders :
    (runCalls hitTest (threeShapes ++ [ctrlClick 45 5]) startState).map
      (fun d => (d.m_shapes, d.m_selectedShapes)) = some ([2, 4, 6], [6, 6]) ∧
    (runCalls hitTest (threeShapes ++ [ctrlClick 45 5,
        Call.moveSelectedShapesToBottom zeroUninit]) startState).map
      (fun d => (d.m_shapes, d.m_undoStack.drop 3)) =
      some ([6, 4, 2],
        [⟨OperationType.LayerChange, 6, 0, 2, 0⟩, ⟨OperationType.LayerChange, 4, 0, 2, 1⟩]) ∧
    ¬ ∃ moved : List Ptr, moved.Sublist [2, 4, 6] ∧
      ([6, 4, 2] : List Ptr) = moved ++ ([2, 4, 6] : List Ptr).filter (fun s => decide (s ∉ moved)) := by
  refine ⟨by decide, by decide, ?_⟩
  rintro ⟨moved, hsub, heq⟩
  have hmem : moved ∈ List.sublists [2, 4, 6] := List.mem_sublists.mpr hsub
  have hall : ∀ m ∈ List.sublists ([2, 4, 6] : List Ptr),
      ([6, 4, 2] : List Ptr) ≠ m ++ ([2, 4, 6] : List Ptr).filter (fun s => decide (s ∉ m)) := by
    decide
  exact hall moved hmem heq

/-- The stable move to the bottom on duplicate-free selections of live shapes (what C7
states, for the selections `selectShapeAt` would give with a membership test). For a
sequence of distinct shapes, `moveSelectedShapesToBottom` runs to completion and pushes the
operations `ops`, one
`LayerChange` per moved shape with the shape's original index as `oldIndex`. The moved shapes
are the selected shapes that are not at index 0, taken in sequence order; the `j`-th of them
records `newIndex = j` and is at index `j` afterwards; the resulting sequence is the moved
shapes followed by all other shapes in their original order. -/
theorem toBottom_moves_stably (d : DrawingArea) (u : Nat → Operation)
    (hnd : d.m_shapes.Nodup) (hsel : d.m_selectedShapes.Nodup)
    (hlive : ∀ s ∈ d.m_selectedShapes, s ∈ d.m_shapes) :
    ∃ d1 ops,
      d.moveSelectedShapesToBottom u = some d1 ∧
      d1.m_undoStack = (d.addOperations ops).m_undoStack ∧
      d1.m_redoStack = (d.addOperations ops).m_redoStack ∧
      (∀ op ∈ ops, op.type = OperationType.LayerChange ∧
        op.oldIndex = QList.indexOf d.m_shapes op.shape) ∧
      ops.map (fun op => op.shape) =
        d.m_shapes.tail.filter (fun s => decide (s ∈ d.m_selectedShapes)) ∧
      (ops.map (fun op => op.shape)).Sublist d.m_shapes ∧
      (∀ (j : Nat) (op : Operation), ops[j]? = some op →
        op.newIndex = (j : Int) ∧ d1.m_shapes[j]? = some op.shape) ∧
      d1.m_shapes = ops.map (fun op => op.shape) ++
        d.m_shapes.filter (fun s => decide (s ∉ ops.map (fun op => op.shape))) := by
  by_cases hne : d.m_selectedShapes = []
  · refine ⟨d, [], ?_, rfl, rfl, ?_, ?_, ?_, ?_, ?_⟩
    · unfold DrawingArea.moveSelectedShapesToBottom; rw [hne]; rfl
    · intro op hop; simp at hop
    · rw [hne]; simp
    · simp
    · intro j op hop; simp at hop
    · simp
  · obtain ⟨s0, hs0⟩ := List.exists_mem_of_ne_nil _ hne
    obtain ⟨h, T, hl⟩ := List.exists_cons_of_ne_nil (List.ne_nil_of_mem (hlive s0 hs0))
    obtain ⟨d1, v, hrun, hshapes, hundo, hredo⟩ :=
      DrawingArea.toBottom_run d u h T hl hnd hsel hlive hne
    have hmap := DrawingArea.bottomOps_map_shape v d.m_shapes
      (T.filter (fun x => decide (x ∈ d.m_selectedShapes))) 0
    have hhT : h ∉ T := by rw [hl] at hnd; exact (List.nodup_cons.mp hnd).1
    refine ⟨d1, _, hrun, hundo, hredo, DrawingArea.bottomOps_mem _ _ _ _, ?_, ?_, ?_, ?_⟩
    · rw [hmap, hl]; rfl
    · rw [hmap, hl]
      exact (List.filter_sublist T).trans (List.sublist_cons_self h T)
    · intro j op hop
      obtain ⟨h1, h2⟩ := DrawingArea.bottomOps_getElem? _ _ _ _ j op hop
      refine ⟨by rw [h1]; omega, ?_⟩
      have hj : j < (T.filter (fun x => decide (x ∈ d.m_selectedShapes))).length :=
        (List.getElem?_eq_some.mp h2).1
      rw [hshapes, List.append_assoc, List.getElem?_append_left hj]
      exact h2
    · rw [hmap, hshapes, hl]
      have hfh : h ∉ T.filter (fun x => decide (x ∈ d.m_selectedShapes)) :=
        fun hmem => hhT (List.mem_filter.mp hmem).1
      have hcongr : T.filter (fun s => decide
            (s ∉ T.filter (fun x => decide (x ∈ d.m_selectedShapes)))) =
          T.filter (fun x => !decide (x ∈ d.m_selectedShapes)) := by
        apply List.filter_congr
        intro x hx
        simp [List.mem_filter, hx]
      rw [List.filter_cons_of_pos (by simp [hhT]), hcongr]
      simp

/-- The stable move to the bottom at a concrete input: `[A, B, C, D]` with the selection list
`[D, B]`; the call leaves `[B, D, A, C]`. -/
theorem toBottom_moves_stably_witness :
    (fourWithTwoSelected.m_shapes.Nodup ∧ fourWithTwoSelected.m_selectedShapes.Nodup ∧
      (∀ s ∈ fourWithTwoSelected.m_selectedShapes, s ∈ fourWithTwoSelected.m_shapes) ∧
      fourWithTwoSelected.m_shapes = [2, 4, 6, 8] ∧
      fourWithTwoSelected.m_selectedShapes = [8, 4]) ∧
    (∃ d1 ops,
      fourWithTwoSelected.moveSelectedShapesToBottom zeroUninit = some d1 ∧
      d1.m_undoStack = (fourWithTwoSelected.addOperations ops).m_undoStack ∧
      d1.m_redoStack = (fourWithTwoSelected.addOperations ops).m_redoStack ∧
      (∀ op ∈ ops, op.type = OperationType.LayerChange ∧
        op.oldIndex = QList.indexOf fourWithTwoSelected.m_shapes op.shape) ∧
      ops.map (fun op => op.shape) =
        fourWithTwoSelected.m_shapes.tail.filter
          (fun s => decide (s ∈ fourWithTwoSelected.m_selectedShapes)) ∧
      (ops.map (fun op => op.shape)).Sublist fourWithTwoSelected.m_shapes ∧
      (∀ (j : Nat) (op : Operation), ops[j]? = some op →
        op.newIndex = (j : Int) ∧ d1.m_shapes[j]? = some op.shape) ∧
      d1.m_shapes = ops.map (fun op => op.shape) ++
        fourWithTwoSelected.m_shapes.filter
          (fun s => decide (s ∉ ops.map (fun op => op.shape)))) ∧
    (fourWithTwoSelected.moveSelectedShapesToBottom zeroUninit).map (fun d => d.m_shapes) =
      some [4, 8, 2, 6] :=
  ⟨⟨by decide, by decide, by decide, by decide, by decide⟩,
    toBottom_moves_stably fourWithTwoSelected zeroUninit (by decide) (by decide) (by decide),
    by decide⟩

/-- C11 (`deleteSelectedShapes`). For a sequence of distinct shapes and a duplicate-free
selection of `k` shapes of it, after `deleteSelectedShapes()` the sequence is the original
one without the selected shapes (the others in unchanged relative order), the selection is
empty, and the operations `ops` were pushed: `k` operations, the `j`-th of them a
`DeleteShape` operation for the `j`-th selected shape, recording the index `i` that shape had
in the sequence from which the selected shapes before it were already removed. -/
theorem deleteSelectedShapes_removes_selection (d : DrawingArea) (u : Nat → Operation)
    (hnd : d.m_shapes.Nodup) (hsel : d.m_selectedShapes.Nodup)
    (hlive : ∀ s ∈ d.m_selectedShapes, s ∈ d.m_shapes) :
    ∃ ops : List Operation,
      (d.deleteSelectedShapes u).m_shapes =
        d.m_shapes.filter (fun s => decide (s ∉ d.m_selectedShapes)) ∧
      (d.deleteSelectedShapes u).m_selectedShapes = [] ∧
      (d.deleteSelectedShapes u).m_undoStack = (d.addOperations ops).m_undoStack ∧
      (d.deleteSelectedShapes u).m_redoStack = (d.addOperations ops).m_redoStack ∧
      ops.length = d.m_selectedShapes.length ∧
      ops.map (fun op => op.shape) = d.m_selectedShapes ∧
      ∀ (j : Nat) (op : Operation), ops[j]? = some op →
        op.type = OperationType.DeleteShape ∧
        ∃ i : Nat, op.oldIndex = (i : Int) ∧
          (d.m_shapes.filter (fun s => decide (s ∉ d.m_selectedShapes.take j)))[i]? =
            some op.shape := by
  obtain ⟨h1, h2, h3⟩ := DrawingArea.deleteLoop_run u d.m_selectedShapes d
  refine ⟨DrawingArea.deleteOps u d.m_selectedShapes d.m_shapes, ?_, rfl, h2, h3,
    DrawingArea.deleteOps_length _ _ _, DrawingArea.deleteOps_map_shape _ _ _, ?_⟩
  · unfold DrawingArea.deleteSelectedShapes
    simp only []
    rw [h1, DrawingArea.foldl_erase_eq_filter _ _ hnd]
  · intro j op hop
    obtain ⟨hty, hidx⟩ := DrawingArea.deleteOps_getElem? _ _ _ j op hop
    rw [DrawingArea.foldl_erase_eq_filter _ _ hnd] at hidx
    refine ⟨hty, ?_⟩
    have hshape : d.m_selectedShapes[j]? = some op.shape := by
      have hm := DrawingArea.deleteOps_map_shape u d.m_selectedShapes d.m_shapes
      rw [← hm, List.getElem?_map, hop]
      rfl
    have hin : op.shape ∈ d.m_selectedShapes := List.getElem?_mem hshape
    have hnot : op.shape ∉ d.m_selectedShapes.take j := by
      obtain ⟨hsplit, -⟩ := QList.split_of_getElem? hshape
      rw [hsplit] at hsel
      intro hmem
      exact (List.nodup_append.mp hsel).2.2 hmem (List.mem_cons_self _ _)
    have hmem : op.shape ∈
        d.m_shapes.filter (fun s => decide (s ∉ d.m_selectedShapes.take j)) := by
      rw [List.mem_filter]
      exact ⟨hlive _ hin, by simpa using hnot⟩
    obtain ⟨h0, -, hget⟩ := QList.indexOf_nonneg_of_mem hmem
    refine ⟨(QList.indexOf
      (d.m_shapes.filter (fun s => decide (s ∉ d.m_selectedShapes.take j))) op.shape).toNat,
      ?_, hget⟩
    rw [hidx]
    omega

/-- C11 at a concrete input: `[A, B, C, D]` with the selection list `[C, A]`; the call leaves
`[B, D]` and pushes a `DeleteShape` operation for C with index 2 and one for A with index 0. -/
theorem deleteSelectedShapes_removes_selection_witness :
    (fourWithOuterSelected.m_shapes.Nodup ∧ fourWithOuterSelected.m_selectedShapes.Nodup ∧
      (∀ s ∈ fourWithOuterSelected.m_selectedShapes, s ∈ fourWithOuterSelected.m_shapes) ∧
      fourWithOuterSelected.m_shapes = [2, 4, 6, 8] ∧
      fourWithOuterSelected.m_selectedShapes = [6, 2]) ∧
    (∃ ops : List Operation,
      (fourWithOuterSelected.deleteSelectedShapes zeroUninit).m_shapes =
        fourWithOuterSelected.m_shapes.filter
          (fun s => decide (s ∉ fourWithOuterSelected.m_selectedShapes)) ∧
      (fourWithOuterSelected.deleteSelectedShapes zeroUninit).m_selectedShapes = [] ∧
      (fourWithOuterSelected.deleteSelectedShapes zeroUninit).m_undoStack =
        (fourWithOuterSelected.addOperations ops).m_undoStack ∧
      (fourWithOuterSelected.deleteSelectedShapes zeroUninit).m_redoStack =
        (fourWithOuterSelected.addOperations ops).m_redoStack ∧
      ops.length = fourWithOuterSelected.m_selectedShapes.length ∧
      ops.map (fun op => op.shape) = fourWithOuterSelected.m_selectedShapes ∧
      ∀ (j : Nat) (op : Operation), ops[j]? = some op →
        op.type = OperationType.DeleteShape ∧
        ∃ i : Nat, op.oldIndex = (i : Int) ∧
          (fourWithOuterSelected.m_shapes.filter
            (fun s => decide (s ∉ fourWithOuterSelected.m_selectedShapes.take j)))[i]? =
              some op.shape) ∧
    ((fourWithOuterSelected.deleteSelectedShapes zeroUninit).m_shapes = [4, 8] ∧
      (fourWithOuterSelected.deleteSelectedShapes zeroUninit).m_undoStack.drop 4 =
        [⟨OperationType.DeleteShape, 6, 0, 2, 0⟩, ⟨OperationType.DeleteShape, 2, 0, 0, 0⟩]) :=
  ⟨⟨by decide, by decide, by decide, by decide, by decide⟩,
    deleteSelectedShapes_removes_selection fourWithOuterSelected zeroUninit (by decide)
      (by decide) (by decide),
    ⟨by decide, by decide⟩⟩

/-- C12 (undo of a deletion restores the z-order). For a sequence of distinct shapes (no
null pointer among them) and a duplicate-free selection of `k` shapes of it with
`k <= getMaxUndoSteps()`, `deleteSelectedShapes()` followed by `k` calls of `undo()` runs to
completion and yields exactly the original sequence, every deleted shape back at its
original index; the selection is empty. -/
theorem delete_then_undo_restores_sequence (contains : Shape → QPointF → Bool)
    (d : DrawingArea) (u : Nat → Operation)
    (hnd : d.m_shapes.Nodup) (hnull : 0 ∉ d.m_shapes) (hsel : d.m_selectedShapes.Nodup)
    (hlive : ∀ s ∈ d.m_selectedShapes, s ∈ d.m_shapes)
    (hk : (d.m_selectedShapes.length : Int) ≤ d.getMaxUndoSteps) :
    ∃ d1, runCalls contains (List.replicate d.m_selectedShapes.length Call.undo)
        (d.deleteSelectedShapes u) = some d1 ∧
      d1.m_shapes = d.m_shapes ∧
      (∀ (i : Nat) (s : Ptr), d.m_shapes[i]? = some s → d1.m_shapes[i]? = some s) ∧
      d1.m_selectedShapes = [] := by
  obtain ⟨h1, h2, -⟩ := DrawingArea.deleteLoop_run u d.m_selectedShapes d
  obtain ⟨pre, hpre⟩ := DrawingArea.addOperations_suffix
    (DrawingArea.deleteOps u d.m_selectedShapes d.m_shapes) d d.m_undoStack [] (by simp)
    (by
      rw [DrawingArea.deleteOps_length]
      simpa [DrawingArea.getMaxUndoSteps] using hk)
  obtain ⟨d1, hrun, hshapes, -, hsel1, -⟩ :=
    DrawingArea.undo_deleteOps contains d.m_selectedShapes d.m_shapes u
      (d.deleteSelectedShapes u) pre hnd hsel
      (fun s hs => ⟨hlive s hs, fun h0 => hnull (h0 ▸ hlive s hs)⟩)
      (by
        unfold DrawingArea.deleteSelectedShapes
        simp only []
        rw [h2, hpre]
        simp)
      (by
        unfold DrawingArea.deleteSelectedShapes
        simp only []
        exact h1)
      rfl
  exact ⟨d1, hrun, hshapes, fun i s h => by rw [hshapes]; exact h, hsel1⟩

/-- C12 at a concrete input: `[A, B, C, D]` with the selection list `[C, A]`; the deletion
leaves `[B, D]` and two calls of `undo()` give `[A, B, C, D]` back. -/
theorem delete_then_undo_restores_sequence_witness :
    (fourWithOuterSelected.m_shapes = [2, 4, 6, 8] ∧
      fourWithOuterSelected.m_selectedShapes = [6, 2] ∧
      fourWithOuterSelected.getMaxUndoSteps = 50) ∧
    (∃ d1, runCalls hitTest (List.replicate fourWithOuterSelected.m_selectedShapes.length
        Call.undo) (fourWithOuterSelected.deleteSelectedShapes zeroUninit) = some d1 ∧
      d1.m_shapes = fourWithOuterSelected.m_shapes ∧
      (∀ (i : Nat) (s : Ptr), fourWithOuterSelected.m_shapes[i]? = some s →
        d1.m_shapes[i]? = some s) ∧
      d1.m_selectedShapes = []) ∧
    (runCalls hitTest [Call.undo, Call.undo]
        (fourWithOuterSelected.deleteSelectedShapes zeroUninit)).map
      (fun d => (d.m_shapes, d.m_selectedShapes)) = some ([2, 4, 6, 8], []) :=
  ⟨⟨by decide, by decide, by decide⟩,
    delete_then_undo_restores_sequence hitTest fourWithOuterSelected zeroUninit (by decide)
      (by decide) (by decide) (by decide) (by decide),
    by decide⟩

/-- C13 as stated, refuted: a release in Draw mode also ends a pending move gesture. In
`drawingWhileMoving` a draw gesture is in progress with start and end point (30, 30) while
the move gesture started on A before the mode switch is still pending. The release rejects
the drawing (the rubber-band shape 4 is deleted, sequence and selection stay) and pushes a
`MoveShape` operation for A: the undo stack is not unchanged. The same happens in
`movingInDrawMode`, where no drawing is in progress at the release. -/
theorem release_in_draw_mode_records_pending_move :
    (drawingWhileMoving.m_editMode = EditMode.Draw ∧ drawingWhileMoving.m_isDrawing = true ∧
      drawingWhileMoving.m_tempShape = 4 ∧
      (QRectF.ofPoints drawingWhileMoving.m_startPoint
        drawingWhileMoving.m_endPoint).normalized = ⟨30, 30, 0, 0⟩ ∧
      drawingWhileMoving.m_isMoving = true ∧
      drawingWhileMoving.m_undoStack = [⟨OperationType.AddShape, 2, 0, 0, 0⟩]) ∧
    ((drawingWhileMoving.mouseReleaseEvent MouseButton.LeftButton zeroUninit).m_shapes =
        drawingWhileMoving.m_shapes ∧
      (drawingWhileMoving.mouseReleaseEvent MouseButton.LeftButton zeroUninit).m_undoStack =
        [⟨OperationType.AddShape, 2, 0, 0, 0⟩, ⟨OperationType.MoveShape, 2, 3, 0, 0⟩] ∧
      (drawingWhileMoving.mouseReleaseEvent MouseButton.LeftButton zeroUninit).m_undoStack ≠
        drawingWhileMoving.m_undoStack ∧
      (drawingWhileMoving.mouseReleaseEvent MouseButton.LeftButton zeroUninit).destroyed =
        [1, 4]) ∧
    (movingInDrawMode.m_editMode = EditMode.Draw ∧ movingInDrawMode.m_isDrawing = false ∧
      (QRectF.ofPoints movingInDrawMode.m_startPoint
        movingInDrawMode.m_endPoint).normalized = ⟨30, 30, 0, 0⟩ ∧
      movingInDrawMode.m_isMoving = true ∧
      (movingInDrawMode.mouseReleaseEvent MouseButton.LeftButton zeroUninit).m_undoStack =
        [⟨OperationType.AddShape, 2, 0, 0, 0⟩, ⟨OperationType.MoveShape, 2, 4, 0, 0⟩] ∧
      (movingInDrawMode.mouseReleaseEvent MouseButton.LeftButton zeroUninit).m_undoStack ≠
        movingInDrawMode.m_undoStack) := by
  refine ⟨⟨by decide, by decide, by decide, by decide, by decide, by decide⟩,
    ⟨by decide, by decide, by decide, by decide⟩,
    ⟨by decide, by decide, by decide, by decide, by decide, by decide⟩⟩

/-- C13, amended (minimum-size rejection). A `mouseReleaseEvent` in Draw mode whose
normalized rectangle between start and end point is at most 1 wide or at most 1 high leaves
the shape sequence and the selection unchanged, and the `Draw` case of the handler records
nothing: the two stacks are those left by the two gesture blocks at the head of the handler.
With no move and no resize gesture in progress these blocks do nothing and the undo stack
and the redo stack are unchanged. -/
theorem small_drawing_is_rejected (d : DrawingArea) (button : MouseButton)
    (u : Nat → Operation) (hmode : d.m_editMode = EditMode.Draw)
    (hsmall : (QRectF.ofPoints d.m_startPoint d.m_endPoint).normalized.w ≤ 1 ∨
      (QRectF.ofPoints d.m_startPoint d.m_endPoint).normalized.h ≤ 1) :
    (d.mouseReleaseEvent button u).m_shapes = d.m_shapes ∧
    (d.mouseReleaseEvent button u).m_selectedShapes = d.m_selectedShapes ∧
    (d.mouseReleaseEvent button u).m_undoStack =
      ((d.endMoveGesture (fun k => u (k + 2))).endResizeGesture (u 1)).m_undoStack ∧
    (d.mouseReleaseEvent button u).m_redoStack =
      ((d.endMoveGesture (fun k => u (k + 2))).endResizeGesture (u 1)).m_redoStack ∧
    (d.m_isMoving = false → d.m_isResizing = false →
      (d.mouseReleaseEvent button u).m_undoStack = d.m_undoStack ∧
      (d.mouseReleaseEvent button u).m_redoStack = d.m_redoStack) := by
  have hcommit : ∀ e : DrawingArea, e.m_startPoint = d.m_startPoint →
      e.m_endPoint = d.m_endPoint →
      (e.commitDrawing button (u 0)).m_shapes = e.m_shapes ∧
      (e.commitDrawing button (u 0)).m_selectedShapes = e.m_selectedShapes ∧
      (e.commitDrawing button (u 0)).m_undoStack = e.m_undoStack ∧
      (e.commitDrawing button (u 0)).m_redoStack = e.m_redoStack := by
    intro e hs he
    unfold DrawingArea.commitDrawing
    split_ifs with h1
    · simp only []
      split_ifs with h2 h3
      · exfalso
        simp only [hs, he] at h3
        omega
      · simp
      · exact ⟨rfl, rfl, rfl, rfl⟩
    · exact ⟨rfl, rfl, rfl, rfl⟩
  obtain ⟨us, rs, ds, uds, ms, r, hB⟩ :=
    DrawingArea.release_blocks_eq (fun k => u (k + 2)) (u 1) d
  have hrun := DrawingArea.mouseReleaseEvent_draw button u d hmode
  have hmain :
      (d.mouseReleaseEvent button u).m_shapes = d.m_shapes ∧
      (d.mouseReleaseEvent button u).m_selectedShapes = d.m_selectedShapes ∧
      (d.mouseReleaseEvent button u).m_undoStack =
        ((d.endMoveGesture (fun k => u (k + 2))).endResizeGesture (u 1)).m_undoStack ∧
      (d.mouseReleaseEvent button u).m_redoStack =
        ((d.endMoveGesture (fun k => u (k + 2))).endResizeGesture (u 1)).m_redoStack := by
    rw [hrun, hB]
    exact hcommit _ rfl rfl
  refine ⟨hmain.1, hmain.2.1, hmain.2.2.1, hmain.2.2.2, ?_⟩
  intro hm hr
  have hidle := DrawingArea.release_blocks_idle (fun k => u (k + 2)) (u 1) d hm hr
  rw [hidle] at hmain
  exact ⟨hmain.2.2.1, hmain.2.2.2⟩

/-- C13 (amended) at a concrete input: with one shape drawn, a second gesture from (30, 30) to
(31, 40) is one pixel wide; the release leaves sequence, selection and both stacks as they
were. -/
theorem small_drawing_is_rejected_witness :
    (pendingTinyDrawing.m_editMode = EditMode.Draw ∧ pendingTinyDrawing.m_isDrawing = true ∧
      pendingTinyDrawing.m_tempShape = 4 ∧
      (QRectF.ofPoints pendingTinyDrawing.m_startPoint
        pendingTinyDrawing.m_endPoint).normalized = ⟨30, 30, 1, 10⟩ ∧
      pendingTinyDrawing.m_isMoving = false ∧ pendingTinyDrawing.m_isResizing = false) ∧
    ((pendingTinyDrawing.mouseReleaseEvent MouseButton.LeftButton zeroUninit).m_shapes =
        pendingTinyDrawing.m_shapes ∧
      (pendingTinyDrawing.mouseReleaseEvent MouseButton.LeftButton zeroUninit).m_selectedShapes =
        pendingTinyDrawing.m_selectedShapes) ∧
    ((pendingTinyDrawing.mouseReleaseEvent MouseButton.LeftButton zeroUninit).m_undoStack =
        pendingTinyDrawing.m_undoStack ∧
      (pendingTinyDrawing.mouseReleaseEvent MouseButton.LeftButton zeroUninit).m_redoStack =
        pendingTinyDrawing.m_redoStack) ∧
    ((pendingTinyDrawing.mouseReleaseEvent MouseButton.LeftButton zeroUninit).m_shapes = [2] ∧
      (pendingTinyDrawing.mouseReleaseEvent MouseButton.LeftButton zeroUninit).m_undoStack =
        [⟨OperationType.AddShape, 2, 0, 0, 0⟩] ∧
      (pendingTinyDrawing.mouseReleaseEvent MouseButton.LeftButton zeroUninit).destroyed.getLast?
        = some 4) :=
  ⟨⟨by decide, by decide, by decide, by decide, by decide, by decide⟩,
    ⟨(small_drawing_is_rejected pendingTinyDrawing MouseButton.LeftButton zeroUninit
        (by decide) (by decide)).1,
      (small_drawing_is_rejected pendingTinyDrawing MouseButton.LeftButton zeroUninit
        (by decide) (by decide)).2.1⟩,
    (small_drawing_is_rejected pendingTinyDrawing MouseButton.LeftButton zeroUninit
      (by decide) (by decide)).2.2.2.2 (by decide) (by decide),
    ⟨by decide, by decide, by decide⟩⟩

/-- C14 (shape commit). When a draw gesture ends (release of the left button in Draw mode
while drawing, the rubber-band shape `t` present) with a normalized rectangle more than 1
wide and more than 1 high, the new sequence is the old one followed by `t`; `t` carries the
current colour, line width, filled flag and fill colour; the last undo entry is an
`AddShape` operation for `t` whose recorded index is the old sequence length; the selection
is exactly `t`; the redo stack is empty. The history limit is at least 1, as it is in every
state of the widget (50 at construction, `setMaxUndoSteps` ignores values below 1). -/
theorem drawn_shape_is_appended (d : DrawingArea) (u : Nat → Operation)
    (hmode : d.m_editMode = EditMode.Draw) (hdraw : d.m_isDrawing = true)
    (htemp : d.m_tempShape ≠ 0)
    (hbig : 1 < (QRectF.ofPoints d.m_startPoint d.m_endPoint).normalized.w ∧
      1 < (QRectF.ofPoints d.m_startPoint d.m_endPoint).normalized.h)
    (hN : 1 ≤ d.getMaxUndoSteps) :
    (d.mouseReleaseEvent MouseButton.LeftButton u).m_shapes = d.m_shapes ++ [d.m_tempShape] ∧
    ((d.mouseReleaseEvent MouseButton.LeftButton u).heap d.m_tempShape).m_color =
      d.m_currentColor ∧
    ((d.mouseReleaseEvent MouseButton.LeftButton u).heap d.m_tempShape).m_lineWidth =
      d.m_currentLineWidth ∧
    ((d.mouseReleaseEvent MouseButton.LeftButton u).heap d.m_tempShape).m_filled =
      d.m_currentFilled ∧
    ((d.mouseReleaseEvent MouseButton.LeftButton u).heap d.m_tempShape).m_fillColor =
      d.m_currentFillColor ∧
    (∃ op, (d.mouseReleaseEvent MouseButton.LeftButton u).m_undoStack.getLast? = some op ∧
      op.type = OperationType.AddShape ∧ op.shape = d.m_tempShape ∧
      op.oldIndex = (d.m_shapes.length : Int)) ∧
    (d.mouseReleaseEvent MouseButton.LeftButton u).m_selectedShapes = [d.m_tempShape] ∧
    (d.mouseReleaseEvent MouseButton.LeftButton u).m_redoStack = [] := by
  obtain ⟨us, rs, ds, uds, ms, r, hB⟩ :=
    DrawingArea.release_blocks_eq (fun k => u (k + 2)) (u 1) d
  have hrun := DrawingArea.mouseReleaseEvent_draw MouseButton.LeftButton u d hmode
  rw [hB] at hrun
  obtain ⟨e, he⟩ : ∃ e : DrawingArea, { d with
      m_undoStack := us, m_redoStack := rs, destroyed := ds, undefinedDeletes := uds,
      m_moveStartPositions := ms,
      m_resizeStartShape := r, m_isMoving := false, m_isResizing := false,
      m_resizeHandle := -1, m_isDrawing := false } = e := ⟨_, rfl⟩
  have hcommit : d.mouseReleaseEvent MouseButton.LeftButton u =
      { (e.appendDrawnShape (u 0)) with m_tempShape := 0 } := by
    rw [hrun]
    unfold DrawingArea.commitDrawing
    simp only []
    rw [if_pos ⟨hdraw, trivial⟩, if_pos htemp, if_pos (by exact ⟨hbig.1, hbig.2⟩), ← he]
  have hspec := DrawingArea.appendDrawnShape_spec (u 0) e (by rw [← he]; exact hN)
  have e1 : e.m_shapes = d.m_shapes := by rw [← he]
  have e2 : e.m_tempShape = d.m_tempShape := by rw [← he]
  have e3 : e.m_currentColor = d.m_currentColor := by rw [← he]
  have e4 : e.m_currentLineWidth = d.m_currentLineWidth := by rw [← he]
  have e5 : e.m_currentFilled = d.m_currentFilled := by rw [← he]
  have e6 : e.m_currentFillColor = d.m_currentFillColor := by rw [← he]
  rw [e1, e2, e3, e4, e5, e6] at hspec
  obtain ⟨h1, h2, h3, h4, h5, h6, h7, h8⟩ := hspec
  rw [hcommit]
  exact ⟨h1, h5, h6, h7, h8, ⟨_, h4, rfl, rfl, rfl⟩, h2, h3⟩

/-- C14 at a concrete input: with the ellipse A in the sequence and selected, a rectangle is
drawn from (30, 30) to (50, 40) with the style red, width 3, filled green. -/
theorem drawn_shape_is_appended_witness :
    (pendingDrawing.m_editMode = EditMode.Draw ∧ pendingDrawing.m_isDrawing = true ∧
      pendingDrawing.m_tempShape = 4 ∧ pendingDrawing.m_shapes = [2] ∧
      pendingDrawing.m_selectedShapes = [2] ∧
      (QRectF.ofPoints pendingDrawing.m_startPoint pendingDrawing.m_endPoint).normalized =
        ⟨30, 30, 20, 10⟩ ∧
      pendingDrawing.getMaxUndoSteps = 50) ∧
    ((pendingDrawing.mouseReleaseEvent MouseButton.LeftButton zeroUninit).m_shapes =
        pendingDrawing.m_shapes ++ [pendingDrawing.m_tempShape] ∧
      ((pendingDrawing.mouseReleaseEvent MouseButton.LeftButton zeroUninit).heap
        pendingDrawing.m_tempShape).m_color = pendingDrawing.m_currentColor ∧
      ((pendingDrawing.mouseReleaseEvent MouseButton.LeftButton zeroUninit).heap
        pendingDrawing.m_tempShape).m_lineWidth = pendingDrawing.m_currentLineWidth ∧
      ((pendingDrawing.mouseReleaseEvent MouseButton.LeftButton zeroUninit).heap
        pendingDrawing.m_tempShape).m_filled = pendingDrawing.m_currentFilled ∧
      ((pendingDrawing.mouseReleaseEvent MouseButton.LeftButton zeroUninit).heap
        pendingDrawing.m_tempShape).m_fillColor = pendingDrawing.m_currentFillColor ∧
      (∃ op, (pendingDrawing.mouseReleaseEvent MouseButton.LeftButton
          zeroUninit).m_undoStack.getLast? = some op ∧
        op.type = OperationType.AddShape ∧ op.shape = pendingDrawing.m_tempShape ∧
        op.oldIndex = (pendingDrawing.m_shapes.length : Int)) ∧
      (pendingDrawing.mouseReleaseEvent MouseButton.LeftButton zeroUninit).m_selectedShapes =
        [pendingDrawing.m_tempShape] ∧
      (pendingDrawing.mouseReleaseEvent MouseButton.LeftButton zeroUninit).m_redoStack = []) ∧
    ((pendingDrawing.mouseReleaseEvent MouseButton.LeftButton zeroUninit).m_shapes = [2, 4] ∧
      (pendingDrawing.mouseReleaseEvent MouseButton.LeftButton zeroUninit).m_undoStack =
        [⟨OperationType.AddShape, 2, 0, 0, 0⟩, ⟨OperationType.AddShape, 4, 0, 1, 0⟩] ∧
      (pendingDrawing.mouseReleaseEvent MouseButton.LeftButton zeroUninit).heap 4 =
        ⟨4, ShapeType.Rectangle, 0xff0000, 3, ⟨30, 30, 20, 10⟩, false, true, 0x00ff00⟩) :=
  ⟨⟨by decide, by decide, by decide, by decide, by decide, by decide, by decide⟩,
    drawn_shape_is_appended pendingDrawing zeroUninit (by decide) (by decide) (by decide)
      (by decide) (by decide),
    ⟨by decide, by decide, by decide⟩⟩

/-- C15 (resize below 10 units is rejected). With exactly one shape `s` selected and the
active handle `h` in 0..3, let `R` be the bounding rectangle of `s` with corner `h` moved to
`pos`, normalized. When `R` is less than 10 wide or less than 10 high,
`resizeSelectedShape(pos)` changes nothing; otherwise the only change is that the bounding
rectangle of `s` becomes `R`. No operation is pushed in either case. When the selection size
is not 1 or no handle is active (`m_resizeHandle == -1`), nothing changes. -/
theorem resize_rejects_below_ten (d : DrawingArea) (pos : QPointF) :
    (∀ (s : Ptr) (h : Int), d.m_selectedShapes = [s] → s ≠ 0 → d.m_resizeHandle = h →
      0 ≤ h → h ≤ 3 →
      ((cornerMovedTo h (d.heap s).m_boundingRect pos).normalized.w < 10 ∨
        (cornerMovedTo h (d.heap s).m_boundingRect pos).normalized.h < 10 →
          d.resizeSelectedShape pos = d) ∧
      (¬ ((cornerMovedTo h (d.heap s).m_boundingRect pos).normalized.w < 10 ∨
        (cornerMovedTo h (d.heap s).m_boundingRect pos).normalized.h < 10) →
          d.resizeSelectedShape pos = d.store s { d.heap s with
            m_boundingRect := (cornerMovedTo h (d.heap s).m_boundingRect pos).normalized } ∧
          ((d.resizeSelectedShape pos).heap s).m_boundingRect =
            (cornerMovedTo h (d.heap s).m_boundingRect pos).normalized) ∧
      (d.resizeSelectedShape pos).m_undoStack = d.m_undoStack ∧
      (d.resizeSelectedShape pos).m_redoStack = d.m_redoStack) ∧
    (d.m_selectedShapes.length ≠ 1 ∨ d.m_resizeHandle = -1 → d.resizeSelectedShape pos = d) := by
  constructor
  · intro s h hsel hs hh h0 h3
    have hcorner : DrawingArea.moveCorner h (d.heap s).m_boundingRect pos =
        some (cornerMovedTo h (d.heap s).m_boundingRect pos) := by
      have hcases : h = 0 ∨ h = 1 ∨ h = 2 ∨ h = 3 := by omega
      rcases hcases with h | h | h | h <;> subst h <;>
        simp [DrawingArea.moveCorner, cornerMovedTo, QRectF.ofEdges, QRectF.setTopLeft,
          QRectF.setTopRight, QRectF.setBottomLeft, QRectF.setBottomRight, QRectF.setLeft,
          QRectF.setRight, QRectF.setTop, QRectF.setBottom] <;> omega
    have hrun : d.resizeSelectedShape pos =
        if (cornerMovedTo h (d.heap s).m_boundingRect pos).normalized.w < 10 ∨
            (cornerMovedTo h (d.heap s).m_boundingRect pos).normalized.h < 10 then d
        else d.store s { d.heap s with
          m_boundingRect := (cornerMovedTo h (d.heap s).m_boundingRect pos).normalized } := by
      unfold DrawingArea.resizeSelectedShape
      rw [if_neg (by rw [hsel, hh]; simp; omega), hsel]
      simp only [List.head?_cons]
      rw [if_neg hs, hh, hcorner]
    refine ⟨?_, ?_, ?_, ?_⟩
    · intro hsmall
      rw [hrun, if_pos hsmall]
    · intro hbig
      rw [hrun, if_neg hbig]
      refine ⟨rfl, ?_⟩
      simp [DrawingArea.store]
    · rw [hrun]; split_ifs <;> simp
    · rw [hrun]; split_ifs <;> simp
  · intro h
    unfold DrawingArea.resizeSelectedShape
    rw [if_pos h]

/-- C15 at a concrete input: the rectangle A = (0, 0, 10, 10) is held at its top-left handle.
Dragging the corner to (5, 5) would leave a 5 x 5 rectangle and is rejected; dragging it to
(-5, -5) gives the rectangle (-5, -5, 15, 15). -/
theorem resize_rejects_below_ten_witness :
    (redoPendingResizing.m_selectedShapes = [2] ∧ (2 : Ptr) ≠ 0 ∧
      redoPendingResizing.m_resizeHandle = 0 ∧
      (redoPendingResizing.heap 2).m_boundingRect = ⟨0, 0, 10, 10⟩ ∧
      (cornerMovedTo 0 (redoPendingResizing.heap 2).m_boundingRect ⟨5, 5⟩).normalized =
        ⟨5, 5, 5, 5⟩ ∧
      (cornerMovedTo 0 (redoPendingResizing.heap 2).m_boundingRect ⟨-5, -5⟩).normalized =
        ⟨-5, -5, 15, 15⟩) ∧
    redoPendingResizing.resizeSelectedShape ⟨5, 5⟩ = redoPendingResizing ∧
    ((redoPendingResizing.resizeSelectedShape ⟨-5, -5⟩).heap 2).m_boundingRect =
      (cornerMovedTo 0 (redoPendingResizing.heap 2).m_boundingRect ⟨-5, -5⟩).normalized ∧
    (redoPendingResizing.resizeSelectedShape ⟨-5, -5⟩).m_undoStack =
      redoPendingResizing.m_undoStack :=
  ⟨⟨by decide, by decide, by decide, by decide, by decide, by decide⟩,
    ((resize_rejects_below_ten redoPendingResizing ⟨5, 5⟩).1 2 0 (by decide) (by decide)
      (by decide) (by decide) (by decide)).1 (by decide),
    (((resize_rejects_below_ten redoPendingResizing ⟨-5, -5⟩).1 2 0 (by decide) (by decide)
      (by decide) (by decide) (by decide)).2.1 (by decide)).2,
    ((resize_rejects_below_ten redoPendingResizing ⟨-5, -5⟩).1 2 0 (by decide) (by decide)
      (by decide) (by decide) (by decide)).2.2.1⟩

/-- C16, evaluated: the selection list can hold a shape twice. The ellipse A
(address 2, black) is selected by drawing it and a Ctrl-click adds it again, the selection
list is `[A, A]`. `setCurrentColor(red)` then pushes two `ModifyShape` operations for A: the
first clone (address 3) is black, the second clone (address 4) was taken after the first
pass had restyled A and is red, not the colour A had before the call. One `undo()` leaves
A red; only the second brings back black. -/
theorem style_update_duplicate_selection_snapshots_new_state :
    (oneShapeSelectedTwice.m_shapes = [2] ∧ oneShapeSelectedTwice.m_selectedShapes = [2, 2] ∧
      (oneShapeSelectedTwice.heap 2).m_color = Qt.black) ∧
    ((oneShapeSelectedTwice.setCurrentColor 0xff0000 zeroUninit).m_undoStack.drop 1 =
        [⟨OperationType.ModifyShape, 2, 3, 0, 0⟩, ⟨OperationType.ModifyShape, 2, 4, 0, 0⟩] ∧
      ((oneShapeSelectedTwice.setCurrentColor 0xff0000 zeroUninit).heap 3).m_color = Qt.black ∧
      ((oneShapeSelectedTwice.setCurrentColor 0xff0000 zeroUninit).heap 4).m_color = 0xff0000 ∧
      ((oneShapeSelectedTwice.setCurrentColor 0xff0000 zeroUninit).heap 4).m_color ≠
        (oneShapeSelectedTwice.heap 2).m_color) ∧
    ((runCalls hitTest [Call.setCurrentColor 0xff0000 zeroUninit, Call.undo]
        oneShapeSelectedTwice).map (fun d => (d.heap 2).m_color) = some 0xff0000 ∧
      (runCalls hitTest [Call.setCurrentColor 0xff0000 zeroUninit, Call.undo, Call.undo]
        oneShapeSelectedTwice).map (fun d => (d.heap 2).m_color) = some Qt.black) := by
  refine ⟨⟨by decide, by decide, by decide⟩, ⟨by decide, by decide, by decide, by decide⟩,
    ⟨by decide, by decide⟩⟩

/-- The style update on duplicate-free selections (what C16 states, for the selections
`selectShapeAt` would give with a membership test). The selected shapes are existing
objects of
type Ellipse or Rectangle (non-null addresses below the allocation cursor), as all shapes of
the widget are. After `updateSelectedShapeProperties()` the operations `ops` were pushed, one
per selected shape in selection order; the `j`-th is a `ModifyShape` operation for the
`j`-th selected shape whose clone is a new object holding the colour, line width, filled
flag, fill colour and bounding rectangle that shape had before the call. Every selected shape
has the four current style values and is otherwise (bounding rectangle, id, type) as before;
every other existing object is unchanged; sequence and selection are unchanged. The four
setters are this function run after the assignment of the new current value. -/
theorem style_update_snapshots_then_applies (d : DrawingArea) (u : Nat → Operation)
    (hsel : d.m_selectedShapes.Nodup)
    (hlive : ∀ s ∈ d.m_selectedShapes, s ≠ 0 ∧ s < d.nextPtr ∧
      ((d.heap s).m_type = ShapeType.Ellipse ∨ (d.heap s).m_type = ShapeType.Rectangle)) :
    (∃ ops : List Operation,
      (d.updateSelectedShapeProperties u).m_undoStack = (d.addOperations ops).m_undoStack ∧
      (d.updateSelectedShapeProperties u).m_redoStack = (d.addOperations ops).m_redoStack ∧
      ops.length = d.m_selectedShapes.length ∧
      (∀ (j : Nat) (op : Operation), ops[j]? = some op →
        op.type = OperationType.ModifyShape ∧ d.m_selectedShapes[j]? = some op.shape ∧
        d.nextPtr ≤ op.oldShape ∧ op.oldShape ≠ 0 ∧
        ((d.updateSelectedShapeProperties u).heap op.oldShape).properties =
          (d.heap op.shape).properties)) ∧
    (∀ s ∈ d.m_selectedShapes,
      (d.updateSelectedShapeProperties u).heap s =
        { d.heap s with m_color := d.m_currentColor, m_lineWidth := d.m_currentLineWidth,
                        m_filled := d.m_currentFilled, m_fillColor := d.m_currentFillColor }) ∧
    (∀ p, p ∉ d.m_selectedShapes → p < d.nextPtr →
      (d.updateSelectedShapeProperties u).heap p = d.heap p) ∧
    (d.updateSelectedShapeProperties u).m_shapes = d.m_shapes ∧
    (d.updateSelectedShapeProperties u).m_selectedShapes = d.m_selectedShapes ∧
    (∀ (c : QColor), d.setCurrentColor c u =
      DrawingArea.updateSelectedShapeProperties u { d with m_currentColor := c }) ∧
    (∀ (w : Int), d.setCurrentLineWidth w u =
      DrawingArea.updateSelectedShapeProperties u { d with m_currentLineWidth := w }) ∧
    (∀ (f : Bool), d.setCurrentFilled f u =
      DrawingArea.updateSelectedShapeProperties u { d with m_currentFilled := f }) ∧
    (∀ (c : QColor), d.setCurrentFillColor c u =
      DrawingArea.updateSelectedShapeProperties u { d with m_currentFillColor := c }) := by
  obtain ⟨h1, h2, -, h4, h5, h6⟩ := DrawingArea.updateLoop_run d.m_selectedShapes u d hsel hlive
  obtain ⟨f1, f2⟩ := DrawingArea.updateSelectedShapeProperties_frame u d
  refine ⟨⟨DrawingArea.modifyOps u d.m_shapes d.m_selectedShapes d.nextPtr, h1, h2,
    DrawingArea.modifyOps_length _ _ _ _, ?_⟩, h5, h6, f1, f2, fun _ => rfl, fun _ => rfl,
    fun _ => rfl, fun _ => rfl⟩
  intro j op hop
  obtain ⟨g1, g2, g3, -⟩ := DrawingArea.modifyOps_getElem? _ _ _ _ j op hop
  have hpos : d.nextPtr ≠ 0 :=
    Nat.not_eq_zero_of_lt (hlive _ (List.getElem?_mem g2)).2.1
  refine ⟨g1, g2, by rw [g3]; exact Nat.le_add_right _ _, ?_, ?_⟩
  · rw [g3]
    intro h0
    exact hpos (Nat.eq_zero_of_add_eq_zero_right h0)
  · rw [g3]
    exact h4 j op.shape g2

/-- The style update at a concrete input: `[A, B, C, D]` (addresses 2, 4, 6, 8, all black) with
the selection list `[C, A]` and the current colour set to red. The clones are the new objects
9 and 10 and are black; C and A are red afterwards, B is black. -/
theorem style_update_snapshots_then_applies_witness :
    (fourWithOuterSelectedRed.m_selectedShapes = [6, 2] ∧
      fourWithOuterSelectedRed.m_selectedShapes.Nodup ∧
      (∀ s ∈ fourWithOuterSelectedRed.m_selectedShapes, s ≠ 0 ∧
        s < fourWithOuterSelectedRed.nextPtr ∧
        ((fourWithOuterSelectedRed.heap s).m_type = ShapeType.Ellipse ∨
          (fourWithOuterSelectedRed.heap s).m_type = ShapeType.Rectangle)) ∧
      fourWithOuterSelectedRed.nextPtr = 9) ∧
    (∃ ops : List Operation,
      (fourWithOuterSelectedRed.updateSelectedShapeProperties zeroUninit).m_undoStack =
        (fourWithOuterSelectedRed.addOperations ops).m_undoStack ∧
      (fourWithOuterSelectedRed.updateSelectedShapeProperties zeroUninit).m_redoStack =
        (fourWithOuterSelectedRed.addOperations ops).m_redoStack ∧
      ops.length = fourWithOuterSelectedRed.m_selectedShapes.length ∧
      (∀ (j : Nat) (op : Operation), ops[j]? = some op →
        op.type = OperationType.ModifyShape ∧
        fourWithOuterSelectedRed.m_selectedShapes[j]? = some op.shape ∧
        fourWithOuterSelectedRed.nextPtr ≤ op.oldShape ∧ op.oldShape ≠ 0 ∧
        ((fourWithOuterSelectedRed.updateSelectedShapeProperties zeroUninit).heap
          op.oldShape).properties = (fourWithOuterSelectedRed.heap op.shape).properties)) ∧
    (∀ s ∈ fourWithOuterSelectedRed.m_selectedShapes,
      (fourWithOuterSelectedRed.updateSelectedShapeProperties zeroUninit).heap s =
        { fourWithOuterSelectedRed.heap s with
          m_color := fourWithOuterSelectedRed.m_currentColor,
          m_lineWidth := fourWithOuterSelectedRed.m_currentLineWidth,
          m_filled := fourWithOuterSelectedRed.m_currentFilled,
          m_fillColor := fourWithOuterSelectedRed.m_currentFillColor }) ∧
    ((fourWithOuterSelected.setCurrentColor 0xff0000 zeroUninit).m_undoStack.drop 4 =
        [⟨OperationType.ModifyShape, 6, 9, 2, 0⟩, ⟨OperationType.ModifyShape, 2, 10, 0, 0⟩] ∧
      [2, 4, 6, 8, 9, 10].map (fun p =>
        ((fourWithOuterSelected.setCurrentColor 0xff0000 zeroUninit).heap p).m_color) =
        [0xff0000, 0, 0xff0000, 0, 0, 0]) :=
  ⟨⟨by decide, by decide, by decide, by decide⟩,
    (style_update_snapshots_then_applies fourWithOuterSelectedRed zeroUninit (by decide)
      (by decide)).1,
    (style_update_snapshots_then_applies fourWithOuterSelectedRed zeroUninit (by decide)
      (by decide)).2.1,
    ⟨by decide, by decide⟩⟩

/-- C17 (`ModifyShape` undo and redo). With a `ModifyShape` operation `op` (live shape and
clone both present) on top of the undo stack, `undo()` completes and leaves the live shape
with the colour, line width, filled flag, fill colour and bounding rectangle the clone had,
and the clone with the values the live shape had; the sequence is unchanged. An immediately
following `redo()` completes and gives every object, the live shape and the clone included,
the values it had before the `undo()`; sequence and both stacks are as before the `undo()`. -/
theorem modify_undo_swaps_redo_swaps_back (d : DrawingArea) (rest : List Operation)
    (op : Operation) (hstack : d.m_undoStack = rest ++ [op])
    (htype : op.type = OperationType.ModifyShape) (hs : op.shape ≠ 0) (ho : op.oldShape ≠ 0) :
    ∃ d1 d2, d.undo = some d1 ∧ d1.redo = some d2 ∧
      ((d1.heap op.shape).m_color = (d.heap op.oldShape).m_color ∧
        (d1.heap op.shape).m_lineWidth = (d.heap op.oldShape).m_lineWidth ∧
        (d1.heap op.shape).m_filled = (d.heap op.oldShape).m_filled ∧
        (d1.heap op.shape).m_fillColor = (d.heap op.oldShape).m_fillColor ∧
        (d1.heap op.shape).m_boundingRect = (d.heap op.oldShape).m_boundingRect) ∧
      ((d1.heap op.oldShape).m_color = (d.heap op.shape).m_color ∧
        (d1.heap op.oldShape).m_lineWidth = (d.heap op.shape).m_lineWidth ∧
        (d1.heap op.oldShape).m_filled = (d.heap op.shape).m_filled ∧
        (d1.heap op.oldShape).m_fillColor = (d.heap op.shape).m_fillColor ∧
        (d1.heap op.oldShape).m_boundingRect = (d.heap op.shape).m_boundingRect) ∧
      d1.m_shapes = d.m_shapes ∧
      d2.heap = d.heap ∧ d2.m_shapes = d.m_shapes ∧
      d2.m_undoStack = d.m_undoStack ∧ d2.m_redoStack = d.m_redoStack := by
  have hundo := DrawingArea.undo_of_append hstack
  rw [htype] at hundo
  simp only [] at hundo
  obtain ⟨e, he⟩ : ∃ e : DrawingArea, { d with
      m_undoStack := rest, m_redoStack := d.m_redoStack ++ [op],
      m_selectedShapes := [] } = e := ⟨_, rfl⟩
  rw [he] at hundo
  have heh : e.heap = d.heap := by rw [← he]
  have hes : e.m_shapes = d.m_shapes := by rw [← he]
  have heu : e.m_undoStack = rest := by rw [← he]
  have her : e.m_redoStack = d.m_redoStack ++ [op] := by rw [← he]
  have hredo := @DrawingArea.redo_of_append (e.swapProperties op) d.m_redoStack op
    (by rw [(DrawingArea.swapProperties_stacks _ _).2.1, her])
  rw [htype] at hredo
  simp only [] at hredo
  refine ⟨_, _, hundo, hredo, ?_, ?_, ?_, ?_, ?_, ?_, ?_⟩
  · rw [DrawingArea.swapProperties_heap op _ hs ho, heh]
    by_cases h : op.shape = op.oldShape
    · simp [h]
    · simp [h]
  · rw [DrawingArea.swapProperties_heap op _ hs ho, heh]
    simp
  · rw [DrawingArea.swapProperties_eq]
    exact hes
  · rw [← heh, ← DrawingArea.swapProperties_twice op e]
    exact DrawingArea.swapProperties_heap_congr op _ _ rfl
  · rw [DrawingArea.swapProperties_eq, DrawingArea.swapProperties_eq op e]
    exact hes
  · rw [DrawingArea.swapProperties_eq, DrawingArea.swapProperties_eq op e]
    simp only []
    rw [heu]
    exact hstack.symm
  · rw [DrawingArea.swapProperties_eq, DrawingArea.swapProperties_eq op e]

/-- C17 at a concrete input: the rectangle of the bounded-history scenario after its three
style changes; the last `ModifyShape` operation holds the clone at address 5, taken before
the rectangle was filled. -/
theorem modify_undo_swaps_redo_swaps_back_witness :
    ((stateAfter boundedHistoryScenario).m_undoStack =
        [⟨OperationType.ModifyShape, 2, 4, 0, 0⟩] ++ [⟨OperationType.ModifyShape, 2, 5, 0, 0⟩] ∧
      ((stateAfter boundedHistoryScenario).heap 2).m_filled = true ∧
      ((stateAfter boundedHistoryScenario).heap 5).m_filled = false) ∧
    ((stateAfter boundedHistoryScenario).undo.map (fun d => ((d.heap 2).m_filled,
        (d.heap 5).m_filled)) = some (false, true)) ∧
    (∃ d1 d2, (stateAfter boundedHistoryScenario).undo = some d1 ∧ d1.redo = some d2 ∧
      ((d1.heap 2).m_color = ((stateAfter boundedHistoryScenario).heap 5).m_color ∧
        (d1.heap 2).m_lineWidth = ((stateAfter boundedHistoryScenario).heap 5).m_lineWidth ∧
        (d1.heap 2).m_filled = ((stateAfter boundedHistoryScenario).heap 5).m_filled ∧
        (d1.heap 2).m_fillColor = ((stateAfter boundedHistoryScenario).heap 5).m_fillColor ∧
        (d1.heap 2).m_boundingRect =
          ((stateAfter boundedHistoryScenario).heap 5).m_boundingRect) ∧
      ((d1.heap 5).m_color = ((stateAfter boundedHistoryScenario).heap 2).m_color ∧
        (d1.heap 5).m_lineWidth = ((stateAfter boundedHistoryScenario).heap 2).m_lineWidth ∧
        (d1.heap 5).m_filled = ((stateAfter boundedHistoryScenario).heap 2).m_filled ∧
        (d1.heap 5).m_fillColor = ((stateAfter boundedHistoryScenario).heap 2).m_fillColor ∧
        (d1.heap 5).m_boundingRect =
          ((stateAfter boundedHistoryScenario).heap 2).m_boundingRect) ∧
      d1.m_shapes = (stateAfter boundedHistoryScenario).m_shapes ∧
      d2.heap = (stateAfter boundedHistoryScenario).heap ∧
      d2.m_shapes = (stateAfter boundedHistoryScenario).m_shapes ∧
      d2.m_undoStack = (stateAfter boundedHistoryScenario).m_undoStack ∧
      d2.m_redoStack = (stateAfter boundedHistoryScenario).m_redoStack) :=
  ⟨⟨by decide, by decide, by decide⟩, by decide,
    modify_undo_swaps_redo_swaps_back (stateAfter boundedHistoryScenario)
      [⟨OperationType.ModifyShape, 2, 4, 0, 0⟩] ⟨OperationType.ModifyShape, 2, 5, 0, 0⟩
      (by decide) rfl (by decide) (by decide)⟩

/-- The maximum history depth and the two stacks as lists. The constructed widget has the
maximum 50. A call `setMaxUndoSteps(s)` with `s <= 0` changes nothing at all. With `s >= 1`
the maximum becomes `s`, the list `m_undoStack` becomes its newest `min(len, s)` entries in
unchanged order (the list with its oldest `len - min(len, s)` entries dropped), and the redo
stack and the shape sequence are unchanged. The statement is about the lists only: it does
not say that the `delete` calls made while operations are dropped are defined. -/
theorem setMaxUndoSteps_keeps_newest :
    (∀ (r : Ptr) (blank : Shape), (DrawingArea.init r blank).getMaxUndoSteps = 50) ∧
    (∀ (d : DrawingArea) (s : Int), s ≤ 0 → d.setMaxUndoSteps s = d) ∧
    (∀ (d : DrawingArea) (s : Int), 1 ≤ s →
      (d.setMaxUndoSteps s).getMaxUndoSteps = s ∧
      (d.setMaxUndoSteps s).m_undoStack =
        d.m_undoStack.drop (d.m_undoStack.length - min d.m_undoStack.length s.toNat) ∧
      (d.setMaxUndoSteps s).m_undoStack.length = min d.m_undoStack.length s.toNat ∧
      (d.setMaxUndoSteps s).m_redoStack = d.m_redoStack ∧
      (d.setMaxUndoSteps s).m_shapes = d.m_shapes) := by
  refine ⟨fun _ _ => rfl, ?_, ?_⟩
  · intro d s hs
    unfold DrawingArea.setMaxUndoSteps
    rw [if_neg (by omega)]
  · intro d s hs
    have hundo : (d.setMaxUndoSteps s).m_undoStack =
        d.m_undoStack.drop (d.m_undoStack.length - s.toNat) := by
      unfold DrawingArea.setMaxUndoSteps
      rw [if_pos (by omega)]
      exact DrawingArea.trimUndoStack_m_undoStack _ _ s.toNat
        (by simp only []; omega) (Nat.le_refl _)
    have hmax : (d.setMaxUndoSteps s).getMaxUndoSteps = s := by
      unfold DrawingArea.setMaxUndoSteps DrawingArea.getMaxUndoSteps
      rw [if_pos (by omega)]
      simp only []
      rw [DrawingArea.trimUndoStack_m_maxUndoSteps]
    have e : d.m_undoStack.length - min d.m_undoStack.length s.toNat =
        d.m_undoStack.length - s.toNat := by omega
    refine ⟨hmax, by rw [e]; exact hundo, ?_, by simp, by simp⟩
    rw [hundo, List.length_drop]
    omega

/-- The history trim at a concrete input: a stack of three operations cut to the limit 2 keeps the last
two; the limit 0 is ignored. -/
theorem setMaxUndoSteps_keeps_newest_witness :
    ((0 : Int) ≤ 0 ∧ (1 : Int) ≤ 2 ∧ (startState.addOperations threeOps).m_undoStack = threeOps) ∧
    (startState.addOperations threeOps).setMaxUndoSteps 0 = startState.addOperations threeOps ∧
    (((startState.addOperations threeOps).setMaxUndoSteps 2).getMaxUndoSteps = 2 ∧
      ((startState.addOperations threeOps).setMaxUndoSteps 2).m_undoStack =
        (startState.addOperations threeOps).m_undoStack.drop
          ((startState.addOperations threeOps).m_undoStack.length -
            min (startState.addOperations threeOps).m_undoStack.length (2 : Int).toNat) ∧
      ((startState.addOperations threeOps).setMaxUndoSteps 2).m_undoStack.length =
        min (startState.addOperations threeOps).m_undoStack.length (2 : Int).toNat ∧
      ((startState.addOperations threeOps).setMaxUndoSteps 2).m_redoStack =
        (startState.addOperations threeOps).m_redoStack ∧
      ((startState.addOperations threeOps).setMaxUndoSteps 2).m_shapes =
        (startState.addOperations threeOps).m_shapes) ∧
    ((startState.addOperations threeOps).setMaxUndoSteps 2).m_undoStack = threeOps.drop 1 :=
  ⟨⟨by decide, by decide, by decide⟩,
    setMaxUndoSteps_keeps_newest.2.1 (startState.addOperations threeOps) 0 (by decide),
    setMaxUndoSteps_keeps_newest.2.2 (startState.addOperations threeOps) 2 (by decide),
    by decide⟩

/-- C18, evaluated. Two ellipses are drawn; the undo stack holds their two `AddShape`
operations, and the `oldShape` of the first, a field the source never assigns for this kind,
holds the stale value 99, the address of no object. `setMaxUndoSteps(1)` sets the maximum
to 1 and takes the first operation off the stack; the clean-up finds its `oldShape` non-null
and runs `delete` on it, which is undefined for the value 99. The undo stack of the model is
then the newest entry. With the stale value 0 (`twoEllipsesDrawn`) nothing undefined
happens. -/
theorem history_trim_deletes_indeterminate_oldShape :
    ((stateAfter staleTwoDrawings).m_undoStack =
        [⟨OperationType.AddShape, 2, 99, 0, 0⟩, ⟨OperationType.AddShape, 4, 0, 1, 0⟩] ∧
      (stateAfter staleTwoDrawings).destroyed = [1, 3] ∧
      (stateAfter staleTwoDrawings).undefinedDeletes = [] ∧
      ¬ (stateAfter staleTwoDrawings).isLive 99) ∧
    ((stateAfter (staleTwoDrawings ++ [Call.setMaxUndoSteps 1])).getMaxUndoSteps = 1 ∧
      (stateAfter (staleTwoDrawings ++ [Call.setMaxUndoSteps 1])).m_undoStack =
        [⟨OperationType.AddShape, 4, 0, 1, 0⟩] ∧
      (stateAfter (staleTwoDrawings ++ [Call.setMaxUndoSteps 1])).destroyed = [1, 3, 99] ∧
      (stateAfter (staleTwoDrawings ++ [Call.setMaxUndoSteps 1])).undefinedDeletes = [99] ∧
      (stateAfter (staleTwoDrawings ++ [Call.setMaxUndoSteps 1])).nextPtr = 5) ∧
    ((twoEllipsesDrawn.setMaxUndoSteps 1).destroyed = [1, 3] ∧
      (twoEllipsesDrawn.setMaxUndoSteps 1).undefinedDeletes = []) := by
  refine ⟨⟨by decide, by decide, by decide, by decide⟩,
    ⟨by decide, by decide, by decide, by decide, by decide⟩, ⟨by decide, by decide⟩⟩

/-- C19 (stack motion of `undo()` and `redo()`). On an empty undo stack `undo()` changes
nothing. On an undo stack `rest ++ [op]` every completed `undo()` leaves the undo stack
`rest`, the redo stack with the same `op` appended, and the selection empty; the call
completes unless `op` is a `MoveShape`, `ResizeShape` or `LayerChange` operation whose shape
is in the sequence and whose `oldIndex` is not below the sequence length (the source then
calls `QList::move` with the target index `size()`, outside the range of the list). `redo()`
is symmetric, with `newIndex`. A completed call leaves the sum of the two stack lengths
unchanged, and `canUndo()` / `canRedo()` are true exactly when the respective stack is not
empty. -/
theorem undo_redo_move_one_entry :
    (∀ d : DrawingArea, d.m_undoStack = [] → d.undo = some d) ∧
    (∀ (d : DrawingArea) (rest : List Operation) (op : Operation),
      d.m_undoStack = rest ++ [op] →
      (d.undo = none ↔
        (op.type = OperationType.MoveShape ∨ op.type = OperationType.ResizeShape ∨
          op.type = OperationType.LayerChange) ∧
        op.shape ≠ 0 ∧ op.shape ∈ d.m_shapes ∧ (d.m_shapes.length : Int) ≤ op.oldIndex) ∧
      (∀ d1, d.undo = some d1 →
        d1.m_undoStack = rest ∧ d1.m_redoStack = d.m_redoStack ++ [op] ∧
        d1.m_selectedShapes = [])) ∧
    (∀ d : DrawingArea, d.m_redoStack = [] → d.redo = some d) ∧
    (∀ (d : DrawingArea) (rest : List Operation) (op : Operation),
      d.m_redoStack = rest ++ [op] →
      (d.redo = none ↔
        (op.type = OperationType.MoveShape ∨ op.type = OperationType.ResizeShape ∨
          op.type = OperationType.LayerChange) ∧
        op.shape ≠ 0 ∧ op.shape ∈ d.m_shapes ∧ (d.m_shapes.length : Int) ≤ op.newIndex) ∧
      (∀ d1, d.redo = some d1 →
        d1.m_redoStack = rest ∧ d1.m_undoStack = d.m_undoStack ++ [op] ∧
        d1.m_selectedShapes = [])) ∧
    (∀ d d1 : DrawingArea, d.undo = some d1 ∨ d.redo = some d1 →
      d1.m_undoStack.length + d1.m_redoStack.length =
        d.m_undoStack.length + d.m_redoStack.length) ∧
    (∀ d : DrawingArea, (d.canUndo = true ↔ d.m_undoStack ≠ []) ∧
      (d.canRedo = true ↔ d.m_redoStack ≠ [])) := by
  refine ⟨?_, ?_, ?_, ?_, ?_, ?_⟩
  · intro d h
    unfold DrawingArea.undo
    rw [h]
    rfl
  · intro d rest op h
    constructor
    · rw [DrawingArea.undo_of_append h]
      cases hty : op.type <;>
        simp [DrawingArea.replay_eq_none_iff]
    · intro d1 h1
      have hsel : d1.m_selectedShapes = [] := by
        rcases DrawingArea.undo_selection h1 with he | he
        · rw [DrawingArea.undo_of_append h] at h1
          exfalso
          have hne : d1.m_undoStack = rest := by
            cases hty : op.type <;> rw [hty] at h1 <;> simp only [] at h1
            · injection h1 with h1; rw [← h1]; exact (DrawingArea.takeOut_stacks _ _).1
            · injection h1 with h1; rw [← h1]; exact (DrawingArea.reinsert_stacks _ _).1
            · injection h1 with h1; rw [← h1]; exact (DrawingArea.swapProperties_stacks _ _).1
            · exact (DrawingArea.replay_stacks h1).1
            · exact (DrawingArea.replay_stacks h1).1
            · exact (DrawingArea.replay_stacks h1).1
          rw [he, h] at hne
          simpa using congrArg List.length hne
        · exact he
      rcases DrawingArea.undo_stacks h1 with ⟨h0, -⟩ | ⟨o, hu, hr, -⟩
      · rw [h0] at h; simp at h
      · rw [h] at hu
        have hinj := List.append_inj' hu rfl
        have ho : op = o := by simpa using hinj.2
        subst ho
        exact ⟨hinj.1.symm, hr, hsel⟩
  · intro d h
    unfold DrawingArea.redo
    rw [h]
    rfl
  · intro d rest op h
    constructor
    · rw [DrawingArea.redo_of_append h]
      cases hty : op.type <;>
        simp [DrawingArea.replay_eq_none_iff]
    · intro d1 h1
      have hsel : d1.m_selectedShapes = [] := by
        rcases DrawingArea.redo_selection h1 with he | he
        · rw [DrawingArea.redo_of_append h] at h1
          exfalso
          have hne : d1.m_redoStack = rest := by
            cases hty : op.type <;> rw [hty] at h1 <;> simp only [] at h1
            · injection h1 with h1; rw [← h1]; exact (DrawingArea.reinsert_stacks _ _).2.1
            · injection h1 with h1; rw [← h1]; exact (DrawingArea.takeOut_stacks _ _).2.1
            · injection h1 with h1; rw [← h1]; exact (DrawingArea.swapProperties_stacks _ _).2.1
            · exact (DrawingArea.replay_stacks h1).2.1
            · exact (DrawingArea.replay_stacks h1).2.1
            · exact (DrawingArea.replay_stacks h1).2.1
          rw [he, h] at hne
          simpa using congrArg List.length hne
        · exact he
      rcases DrawingArea.redo_stacks h1 with ⟨h0, -⟩ | ⟨o, hr, hu, -⟩
      · rw [h0] at h; simp at h
      · rw [h] at hr
        have hinj := List.append_inj' hr rfl
        have ho : op = o := by simpa using hinj.2
        subst ho
        exact ⟨hinj.1.symm, hu, hsel⟩
  · intro d d1 h
    rcases h with h | h
    · rcases DrawingArea.undo_stacks h with ⟨-, he⟩ | ⟨o, hu, hr, -⟩
      · rw [he]
      · rw [hu, hr]; simp; omega
    · rcases DrawingArea.redo_stacks h with ⟨-, he⟩ | ⟨o, hr, hu, -⟩
      · rw [he]
      · rw [hu, hr]; simp; omega
  · intro d
    unfold DrawingArea.canUndo DrawingArea.canRedo
    constructor
    · cases h : d.m_undoStack <;> simp
    · cases h : d.m_redoStack <;> simp

/-- C19 at a concrete input: after one drawn shape the undo stack is the single `AddShape`
operation; `undo()` moves it to the redo stack and `redo()` moves it back. -/
theorem undo_redo_move_one_entry_witness :
    ((stateAfter (drawGesture 0 0 10 10)).m_undoStack =
        [] ++ [⟨OperationType.AddShape, 2, 0, 0, 0⟩] ∧
      (stateAfter (drawGesture 0 0 10 10)).m_redoStack = []) ∧
    ((stateAfter (drawGesture 0 0 10 10)).undo = none ↔
        (OperationType.AddShape = OperationType.MoveShape ∨
          OperationType.AddShape = OperationType.ResizeShape ∨
          OperationType.AddShape = OperationType.LayerChange) ∧
        (2 : Ptr) ≠ 0 ∧ 2 ∈ (stateAfter (drawGesture 0 0 10 10)).m_shapes ∧
        ((stateAfter (drawGesture 0 0 10 10)).m_shapes.length : Int) ≤ 0) ∧
    (∀ d1, (stateAfter (drawGesture 0 0 10 10)).undo = some d1 →
        d1.m_undoStack = [] ∧
        d1.m_redoStack = (stateAfter (drawGesture 0 0 10 10)).m_redoStack ++
          [⟨OperationType.AddShape, 2, 0, 0, 0⟩] ∧
        d1.m_selectedShapes = []) ∧
    ((stateAfter (drawGesture 0 0 10 10)).undo.map
        (fun d => (d.m_shapes, d.m_selectedShapes, d.m_undoStack, d.m_redoStack, d.canUndo,
          d.canRedo)) =
      some ([], [], [], [⟨OperationType.AddShape, 2, 0, 0, 0⟩], false, true)) ∧
    ((stateAfter (drawGesture 0 0 10 10 ++ [Call.undo, Call.redo])).m_undoStack =
        [⟨OperationType.AddShape, 2, 0, 0, 0⟩] ∧
      (stateAfter (drawGesture 0 0 10 10 ++ [Call.undo, Call.redo])).m_redoStack = []) :=
  ⟨⟨by decide, by decide⟩,
    (undo_redo_move_one_entry.2.1 (stateAfter (drawGesture 0 0 10 10)) []
      ⟨OperationType.AddShape, 2, 0, 0, 0⟩ (by decide)).1,
    (undo_redo_move_one_entry.2.1 (stateAfter (drawGesture 0 0 10 10)) []
      ⟨OperationType.AddShape, 2, 0, 0, 0⟩ (by decide)).2,
    rfl, by decide, by decide⟩

/-- C20, evaluated. `Ellipse::save` writes one line of 10 comma-separated fields in the
order type, id, x, y, width, height, colour, line width, filled flag, fill colour, and for
the ellipse with the rectangle (120, 80, 300, 200) a fresh ellipse loaded from the record has
the id, rectangle, colour, line width, filled flag and fill colour of the original. For the
ellipse with x = 1234567 the round trip fails: `arg(double)` writes 6 significant digits,
the record holds `1.23457e+06`, and the loaded ellipse has x = 1234570. -/
theorem save_load_loses_wide_coordinate :
    (Ellipse.save screenEllipse =
        "ellipse,7,120,80,300,200,#ff0000,3,true,#00ff00".toList ∧
      Ellipse.load (Ellipse.save screenEllipse) freshEllipse = some screenEllipse) ∧
    (Ellipse.save wideEllipse =
        "ellipse,7,1.23457e+06,80,300,200,#ff0000,3,true,#00ff00".toList ∧
      QString.split ',' (Ellipse.save wideEllipse) =
        ["ellipse".toList, "7".toList, "1.23457e+06".toList, "80".toList, "300".toList,
         "200".toList, "#ff0000".toList, "3".toList, "true".toList, "#00ff00".toList] ∧
      Ellipse.load (Ellipse.save wideEllipse) freshEllipse =
        some { wideEllipse with m_boundingRect := ⟨1234570, 80, 300, 200⟩ } ∧
      (Ellipse.load (Ellipse.save wideEllipse) freshEllipse).map
        (fun s => s.m_boundingRect.xp) ≠ some wideEllipse.m_boundingRect.xp) := by
  refine ⟨⟨by decide, by decide⟩, ⟨by decide, by decide, by decide, by decide⟩⟩

/-- C21 (`load` and the field count). When the split of the record on `,` does not give
exactly 10 fields, `load` leaves the shape as it is, every field included. When it gives
exactly 10 fields, the loaded shape has the id `toInt` of field 1, the rectangle with x, y,
width and height the values of fields 2 to 5, the colour named by field 6, the line width
`toInt` of field 7, the fill colour named by field 9, and the filled flag is true exactly when
field 8 is the string "true"; type and selected flag are not touched. (The values of fields
2 to 5 are whole numbers and the colours are written `#RRGGBB` in this model; `load` has a
result whenever the fields are of that kind.) -/
theorem load_checks_field_count (data : QString) (s : Shape) :
    ((QString.split ',' data).length ≠ 10 → Ellipse.load data s = some s) ∧
    ((QString.split ',' data).length = 10 →
      (∀ (x y w h : Int) (c fc : QColor),
        QString.toDouble ((QString.split ',' data).getD 2 []) = some x →
        QString.toDouble ((QString.split ',' data).getD 3 []) = some y →
        QString.toDouble ((QString.split ',' data).getD 4 []) = some w →
        QString.toDouble ((QString.split ',' data).getD 5 []) = some h →
        QColor.fromName ((QString.split ',' data).getD 6 []) = some c →
        QColor.fromName ((QString.split ',' data).getD 9 []) = some fc →
        Ellipse.load data s = some { s with
          m_id := QString.toInt ((QString.split ',' data).getD 1 []),
          m_boundingRect := ⟨x, y, w, h⟩,
          m_color := c,
          m_lineWidth := QString.toInt ((QString.split ',' data).getD 7 []),
          m_filled := decide ((QString.split ',' data).getD 8 [] = "true".toList),
          m_fillColor := fc }) ∧
      (∀ s1, Ellipse.load data s = some s1 →
        s1.m_id = QString.toInt ((QString.split ',' data).getD 1 []) ∧
        QString.toDouble ((QString.split ',' data).getD 2 []) = some s1.m_boundingRect.xp ∧
        QString.toDouble ((QString.split ',' data).getD 3 []) = some s1.m_boundingRect.yp ∧
        QString.toDouble ((QString.split ',' data).getD 4 []) = some s1.m_boundingRect.w ∧
        QString.toDouble ((QString.split ',' data).getD 5 []) = some s1.m_boundingRect.h ∧
        QColor.fromName ((QString.split ',' data).getD 6 []) = some s1.m_color ∧
        s1.m_lineWidth = QString.toInt ((QString.split ',' data).getD 7 []) ∧
        (s1.m_filled = true ↔ (QString.split ',' data).getD 8 [] = "true".toList) ∧
        QColor.fromName ((QString.split ',' data).getD 9 []) = some s1.m_fillColor ∧
        s1.m_type = s.m_type ∧ s1.m_selected = s.m_selected)) := by
  constructor
  · intro h
    unfold Ellipse.load
    simp only []
    rw [if_pos h]
  · intro h
    have hne : ¬ (QString.split ',' data).length ≠ 10 := by simp [h]
    constructor
    · intro x y w h1 c fc hx hy hw hh hc hfc
      unfold Ellipse.load
      simp only []
      rw [if_neg hne, hx, hy, hw, hh, hc, hfc]
    · intro s1 hs1
      unfold Ellipse.load at hs1
      simp only [] at hs1
      rw [if_neg hne] at hs1
      split at hs1
      · next x y w h1 c fc hx hy hw hh hc hfc =>
        injection hs1 with hs1
        subst hs1
        exact ⟨rfl, hx, hy, hw, hh, hc, rfl, by simp, hfc, rfl, rfl⟩
      · exact absurd hs1 (by simp)

/-- C21 at concrete inputs: the record "ellipse,1,2" has three fields and leaves a fresh
ellipse as it is; the record of ten fields below sets every field but the type. -/
theorem load_checks_field_count_witness :
    ((QString.split ',' "ellipse,1,2".toList).length ≠ 10 ∧
      (QString.split ',' "anything,7,120,80,300,200,#ff0000,3,true,#00ff00".toList).length
        = 10) ∧
    Ellipse.load "ellipse,1,2".toList freshEllipse = some freshEllipse ∧
    (∀ s1, Ellipse.load "anything,7,120,80,300,200,#ff0000,3,true,#00ff00".toList
        freshEllipse = some s1 →
      s1.m_id = QString.toInt ((QString.split ','
        "anything,7,120,80,300,200,#ff0000,3,true,#00ff00".toList).getD 1 []) ∧
      QString.toDouble ((QString.split ','
        "anything,7,120,80,300,200,#ff0000,3,true,#00ff00".toList).getD 2 []) =
          some s1.m_boundingRect.xp ∧
      QString.toDouble ((QString.split ','
        "anything,7,120,80,300,200,#ff0000,3,true,#00ff00".toList).getD 3 []) =
          some s1.m_boundingRect.yp ∧
      QString.toDouble ((QString.split ','
        "anything,7,120,80,300,200,#ff0000,3,true,#00ff00".toList).getD 4 []) =
          some s1.m_boundingRect.w ∧
      QString.toDouble ((QString.split ','
        "anything,7,120,80,300,200,#ff0000,3,true,#00ff00".toList).getD 5 []) =
          some s1.m_boundingRect.h ∧
      QColor.fromName ((QString.split ','
        "anything,7,120,80,300,200,#ff0000,3,true,#00ff00".toList).getD 6 []) =
          some s1.m_color ∧
      s1.m_lineWidth = QString.toInt ((QString.split ','
        "anything,7,120,80,300,200,#ff0000,3,true,#00ff00".toList).getD 7 []) ∧
      (s1.m_filled = true ↔ (QString.split ','
        "anything,7,120,80,300,200,#ff0000,3,true,#00ff00".toList).getD 8 [] =
          "true".toList) ∧
      QColor.fromName ((QString.split ','
        "anything,7,120,80,300,200,#ff0000,3,true,#00ff00".toList).getD 9 []) =
          some s1.m_fillColor ∧
      s1.m_type = freshEllipse.m_type ∧ s1.m_selected = freshEllipse.m_selected) ∧
    Ellipse.load "anything,7,120,80,300,200,#ff0000,3,true,#00ff00".toList freshEllipse =
      some screenEllipse ∧
    (Ellipse.load "ellipse,7,120,80,300,200,#ff0000,3,TRUE,#00ff00".toList freshEllipse).map
      (fun s => s.m_filled) = some false :=
  ⟨⟨by decide, by decide⟩,
    (load_checks_field_count "ellipse,1,2".toList freshEllipse).1 (by decide),
    ((load_checks_field_count "anything,7,120,80,300,200,#ff0000,3,true,#00ff00".toList
      freshEllipse).2 (by decide)).2,
    by decide, by decide⟩

/-- C22, evaluated. A record whose tag is neither "ellipse" nor "rectangle" gives no shape
(`nullptr`, address 0), whatever its field count. The record "ellipse,1,2" of three fields
gives a shape all the same: `createShape(record)` creates the ellipse from the tag and does
not see that `load` has rejected the record; the result is the default ellipse (id 1, empty
rectangle), and `loadFromFile` appends it to the sequence. -/
theorem createShape_keeps_shape_of_short_record :
    ((ShapeFactory.createShapeFromData "circle,1,2".toList startState).map (fun r => r.1) =
        some 0 ∧
      (ShapeFactory.createShapeFromData
        "circle,7,120,80,300,200,#ff0000,3,true,#00ff00".toList startState).map
          (fun r => r.1) = some 0 ∧
      (ShapeFactory.createShapeFromData [] startState).map (fun r => r.1) = some 0) ∧
    ((QString.split ',' "ellipse,1,2".toList).length = 3 ∧
      (ShapeFactory.createShapeFromData "ellipse,1,2".toList startState).map
        (fun r => (r.1, r.2.heap r.1)) =
        some (1, ⟨1, ShapeType.Ellipse, Qt.black, 2, ⟨0, 0, 0, 0⟩, false, false, Qt.white⟩) ∧
      (ShapeFactory.createShapeFromData "ellipse,1,2".toList startState).map
        (fun r => r.1) ≠ some 0) ∧
    ((DrawingArea.loadFromFile ["ellipse,1,2".toList] startState).map (fun d => d.m_shapes) =
        some [1] ∧
      (DrawingArea.loadFromFile ["circle,1,2".toList] startState).map (fun d => d.m_shapes) =
        some []) := by
  refine ⟨⟨by decide, by decide, by decide⟩, ⟨by decide, by decide, by decide⟩,
    ⟨by decide, by decide⟩⟩

/-- C23 as stated, refuted: the match is not case-insensitive. For the type strings
"ELLIPSE", "eLLipse" and "RECTANGLE" `createShape(typeString, rect)` returns no shape. -/
theorem createShape_rejects_other_letter_case :
    (ShapeFactory.createShapeFromType "ELLIPSE".toList ⟨1, 2, 30, 40⟩ startState).1 = 0 ∧
    (ShapeFactory.createShapeFromType "eLLipse".toList ⟨1, 2, 30, 40⟩ startState).1 = 0 ∧
    (ShapeFactory.createShapeFromType "RECTANGLE".toList ⟨1, 2, 30, 40⟩ startState).1 = 0 ∧
    (ShapeFactory.createShapeFromType "ELLIPSE".toList ⟨1, 2, 30, 40⟩ startState).2.nextPtr =
      startState.nextPtr := by
  refine ⟨by decide, by decide, by decide, by decide⟩

/-- C23, amended to the spellings the code compares with. For the type strings "ellipse" and
"Ellipse", `createShape(typeString, rect)` returns a new object (non-null) of type Ellipse
whose bounding rectangle is `rect`; for "rectangle" and "Rectangle" a new object of type
Rectangle with the bounding rectangle `rect`; for every other string it returns no shape and
changes nothing. -/
theorem createShape_matches_two_spellings (typeStr : QString) (rect : QRectF)
    (d : DrawingArea) (hnext : d.nextPtr ≠ 0) :
    (typeStr = "ellipse".toList ∨ typeStr = "Ellipse".toList →
      (ShapeFactory.createShapeFromType typeStr rect d).1 = d.nextPtr ∧
      (ShapeFactory.createShapeFromType typeStr rect d).1 ≠ 0 ∧
      ((ShapeFactory.createShapeFromType typeStr rect d).2.heap
        (ShapeFactory.createShapeFromType typeStr rect d).1).m_type = ShapeType.Ellipse ∧
      ((ShapeFactory.createShapeFromType typeStr rect d).2.heap
        (ShapeFactory.createShapeFromType typeStr rect d).1).m_boundingRect = rect) ∧
    (typeStr = "rectangle".toList ∨ typeStr = "Rectangle".toList →
      (ShapeFactory.createShapeFromType typeStr rect d).1 = d.nextPtr ∧
      (ShapeFactory.createShapeFromType typeStr rect d).1 ≠ 0 ∧
      ((ShapeFactory.createShapeFromType typeStr rect d).2.heap
        (ShapeFactory.createShapeFromType typeStr rect d).1).m_type = ShapeType.Rectangle ∧
      ((ShapeFactory.createShapeFromType typeStr rect d).2.heap
        (ShapeFactory.createShapeFromType typeStr rect d).1).m_boundingRect = rect) ∧
    (¬ (typeStr = "ellipse".toList ∨ typeStr = "Ellipse".toList) →
      ¬ (typeStr = "rectangle".toList ∨ typeStr = "Rectangle".toList) →
      ShapeFactory.createShapeFromType typeStr rect d = (0, d)) := by
  refine ⟨?_, ?_, ?_⟩
  · intro h
    unfold ShapeFactory.createShapeFromType
    rw [if_pos h]
    simp [DrawingArea.newShape, DrawingArea.store, hnext]
  · intro h
    have hne : ¬ (typeStr = "ellipse".toList ∨ typeStr = "Ellipse".toList) := by
      rcases h with h | h <;> subst h <;> decide
    unfold ShapeFactory.createShapeFromType
    rw [if_neg hne, if_pos h]
    simp [DrawingArea.newShape, DrawingArea.store, hnext]
  · intro h1 h2
    unfold ShapeFactory.createShapeFromType
    rw [if_neg h1, if_neg h2]

/-- C23 (amended) at concrete inputs: "Ellipse" and "rectangle" in the freshly constructed
widget, and the string "oval". -/
theorem createShape_matches_two_spellings_witness :
    (startState.nextPtr ≠ 0 ∧ ("Ellipse".toList = "ellipse".toList ∨
      "Ellipse".toList = "Ellipse".toList)) ∧
    ((ShapeFactory.createShapeFromType "Ellipse".toList ⟨1, 2, 30, 40⟩ startState).1 =
        startState.nextPtr ∧
      (ShapeFactory.createShapeFromType "Ellipse".toList ⟨1, 2, 30, 40⟩ startState).1 ≠ 0 ∧
      ((ShapeFactory.createShapeFromType "Ellipse".toList ⟨1, 2, 30, 40⟩ startState).2.heap
        (ShapeFactory.createShapeFromType "Ellipse".toList ⟨1, 2, 30, 40⟩
          startState).1).m_type = ShapeType.Ellipse ∧
      ((ShapeFactory.createShapeFromType "Ellipse".toList ⟨1, 2, 30, 40⟩ startState).2.heap
        (ShapeFactory.createShapeFromType "Ellipse".toList ⟨1, 2, 30, 40⟩
          startState).1).m_boundingRect = ⟨1, 2, 30, 40⟩) ∧
    ((ShapeFactory.createShapeFromType "rectangle".toList ⟨1, 2, 30, 40⟩ startState).2.heap 1 =
        ⟨1, ShapeType.Rectangle, Qt.black, 2, ⟨1, 2, 30, 40⟩, false, false, Qt.white⟩ ∧
      (ShapeFactory.createShapeFromType "oval".toList ⟨1, 2, 30, 40⟩ startState).1 = 0) :=
  ⟨⟨by decide, by decide⟩,
    (createShape_matches_two_spellings "Ellipse".toList ⟨1, 2, 30, 40⟩ startState
      (by decide)).1 (by decide),
    ⟨by decide, by decide⟩⟩

/-- C24, evaluated. Two ellipses are drawn and saved; they have the ids 2 and 4. A freshly
started program loads the file: the two objects are constructed with the ids 1 and 2, `load`
overwrites these with 2 and 4, and the counter `Shape::s_nextId` stands at 3. The next drawn
ellipse (press, one move event, release) takes the id 4 from the counter: the sequence then
holds two different shapes, at the addresses 2 and 4, with the same id 4. -/
theorem loaded_and_drawn_shape_share_id :
    twoEllipsesDrawn.saveToFile =
      ["ellipse,2,0,0,10,10,#000000,2,false,#ffffff".toList,
       "ellipse,4,20,0,10,10,#000000,2,false,#ffffff".toList] ∧
    (DrawingArea.loadFromFile twoEllipsesDrawn.saveToFile startState).map
      (fun d => (d.m_shapes, d.m_shapes.map (fun p => (d.heap p).m_id), d.s_nextId)) =
      some ([1, 2], [2, 4], 3) ∧
    loadedThenDrawn.map (fun d => (d.m_shapes, d.m_shapes.map (fun p => (d.heap p).m_id))) =
      some ([1, 2, 4], [2, 4, 4]) ∧
    loadedThenDrawn.map (fun d => decide ((2 : Ptr) ≠ 4 ∧ (d.heap 2).m_id = (d.heap 4).m_id))
      = some true := by
  refine ⟨by decide, by decide, by decide, by decide⟩

/-- C25, evaluated. The ellipse A (address 2) is drawn, the drawing is undone (A leaves the
sequence, its `AddShape` operation waits on the redo stack), and a second ellipse B is drawn.
The push for B drops the `AddShape` operation of A from the redo stack. A is then in no
sequence, no operation of either stack refers to it, no gesture holds it, and it is not
destroyed: the clean-up deletes the shape of a `DeleteShape` operation only. Destroyed so
far are the two rubber-band shapes 1 and 3. Second input: A is selected twice and deleted,
then the document is cleared; the two `DeleteShape` operations for A are both dropped and A
is destroyed twice. -/
theorem dropped_addShape_operation_leaks_shape :
    ((stateAfter (drawGesture 0 0 10 10 ++ [Call.undo])).m_shapes = [] ∧
      (stateAfter (drawGesture 0 0 10 10 ++ [Call.undo])).m_redoStack =
        [⟨OperationType.AddShape, 2, 0, 0, 0⟩]) ∧
    (undoneThenDrawn.m_shapes = [4] ∧
      undoneThenDrawn.m_undoStack = [⟨OperationType.AddShape, 4, 0, 0, 0⟩] ∧
      undoneThenDrawn.m_redoStack = [] ∧
      undoneThenDrawn.m_tempShape = 0 ∧ undoneThenDrawn.m_moveStartPositions = [] ∧
      undoneThenDrawn.destroyed = [1, 3] ∧
      (2 : Ptr) ∉ undoneThenDrawn.m_shapes ∧
      (∀ op ∈ undoneThenDrawn.m_undoStack ++ undoneThenDrawn.m_redoStack,
        op.shape ≠ 2 ∧ op.oldShape ≠ 2) ∧
      (2 : Ptr) ∉ undoneThenDrawn.destroyed) ∧
    (deletedTwiceThenCleared.m_shapes = [] ∧ deletedTwiceThenCleared.m_undoStack = [] ∧
      deletedTwiceThenCleared.destroyed = [1, 2, 2] ∧
      deletedTwiceThenCleared.destroyed.count 2 = 2) := by
  refine ⟨⟨by decide, by decide⟩,
    ⟨by decide, by decide, by decide, by decide, by decide, by decide, by decide, by decide,
      by decide⟩,
    ⟨by decide, by decide, by decide, by decide⟩⟩

/-- C26, evaluated. The target index of a replay is `qBound(0, index, m_shapes.size())`: a
negative recorded index gives 0, an index inside the sequence gives itself, and an index at
or beyond the length gives the length, which is no position of the sequence. First input:
two ellipses are drawn (sequence `[2, 4]`) and the second is resized; the `ResizeShape`
operation on the stack has the recorded index 7 in both fields, the target of `undo()` is 2
with a sequence of length 2, and the reorder `move(1, 2)` is outside the list: `undo()` has
no result. Second input: the second ellipse is dragged instead; `undo()` keeps the sequence
(its target is the recorded `oldIndex = 1`), and `redo()`, with the recorded `newIndex = 7`,
has no result either. -/
theorem replay_target_reaches_length :
    (qBound 0 (-5) (2 : Nat) = 0 ∧ qBound 0 1 (2 : Nat) = 1 ∧ qBound 0 2 (2 : Nat) = 2 ∧
      qBound 0 7 (2 : Nat) = 2) ∧
    (resizedWithStaleIndex.m_shapes = [2, 4] ∧
      resizedWithStaleIndex.m_undoStack.getLast? =
        some ⟨OperationType.ResizeShape, 4, 5, 7, 7⟩ ∧
      qBound 0 7 resizedWithStaleIndex.m_shapes.length = resizedWithStaleIndex.m_shapes.length ∧
      QList.move resizedWithStaleIndex.m_shapes 1 2 = none ∧
      resizedWithStaleIndex.undo = none) ∧
    (movedWithStaleIndex.m_shapes = [2, 4] ∧
      movedWithStaleIndex.m_undoStack.getLast? =
        some ⟨OperationType.MoveShape, 4, 5, 1, 7⟩ ∧
      movedWithStaleIndex.undo.map (fun d => d.m_shapes) = some [2, 4] ∧
      movedWithStaleIndex.undo.bind (fun d => d.redo) = none) := by
  refine ⟨⟨by decide, by decide, by decide, by decide⟩,
    ⟨by decide, by decide, by decide, by decide, ?_⟩,
    ⟨by decide, by decide, by decide, ?_⟩⟩
  · rfl
  · rfl

/-- C28, evaluated. One ellipse A (address 2, rectangle (0, 0, 10, 10)) is drawn and
added to the selection a second time by a Ctrl-click: the selection list is `[A, A]`.
`moveSelectedShapes((3, 4))` runs its loop twice on A, whose rectangle becomes
(6, 8, 10, 10), the previous one translated by twice the offset. The same happens through
the drag gesture in Move mode (press at (5, 5), move to (8, 9)). -/
theorem move_duplicate_selection_translates_twice :
    oneShapeSelectedTwice.m_selectedShapes = [2, 2] ∧
    (oneShapeSelectedTwice.heap 2).m_boundingRect = ⟨0, 0, 10, 10⟩ ∧
    ((oneShapeSelectedTwice.moveSelectedShapes ⟨3, 4⟩).heap 2).m_boundingRect =
      ⟨6, 8, 10, 10⟩ ∧
    ((stateAfter (drawGesture 0 0 10 10 ++ [Call.setEditMode EditMode.Select, ctrlClick 5 5,
        Call.setEditMode EditMode.Move, click 5 5, Call.mouseMoveEvent ⟨8, 9⟩])).heap
      2).m_boundingRect = ⟨6, 8, 10, 10⟩ ∧
    ¬ (∀ p ∈ oneShapeSelectedTwice.m_selectedShapes,
        ((oneShapeSelectedTwice.moveSelectedShapes ⟨3, 4⟩).heap p).m_boundingRect =
          (oneShapeSelectedTwice.heap p).m_boundingRect.translate ⟨3, 4⟩) := by
  refine ⟨by decide, by decide, by decide, by decide, ?_⟩
  intro h
  exact absurd (h 2 (by decide)) (by decide)

/-- The translation on duplicate-free selections (what C28 states, for the selections
`selectShapeAt` would give with a membership test). For every state whose selection list
holds no shape twice and every offset,
after `moveSelectedShapes(offset)` every selected object has its previous bounding rectangle
translated by exactly the offset (same width and height) and all its other fields as before,
every object that is not selected is unchanged, and the sequence, the selection, the undo
stack and the redo stack are unchanged. -/
theorem moveSelectedShapes_translates_each_once (offset : QPointF) (d : DrawingArea)
    (hsel : d.m_selectedShapes.Nodup) :
    (∀ p ∈ d.m_selectedShapes,
      (d.moveSelectedShapes offset).heap p =
        { d.heap p with
          m_boundingRect :=
            ⟨(d.heap p).m_boundingRect.xp + offset.x, (d.heap p).m_boundingRect.yp + offset.y,
             (d.heap p).m_boundingRect.w, (d.heap p).m_boundingRect.h⟩ }) ∧
    (∀ p, p ∉ d.m_selectedShapes → (d.moveSelectedShapes offset).heap p = d.heap p) ∧
    (d.moveSelectedShapes offset).m_shapes = d.m_shapes ∧
    (d.moveSelectedShapes offset).m_selectedShapes = d.m_selectedShapes ∧
    (d.moveSelectedShapes offset).m_undoStack = d.m_undoStack ∧
    (d.moveSelectedShapes offset).m_redoStack = d.m_redoStack := by
  have heap : ∀ p, (d.moveSelectedShapes offset).heap p =
      if p ∈ d.m_selectedShapes then
        { d.heap p with m_boundingRect := (d.heap p).m_boundingRect.translate offset }
      else d.heap p := by
    intro p
    unfold DrawingArea.moveSelectedShapes
    split_ifs with he hp hp
    · rw [List.isEmpty_iff] at he
      rw [he] at hp
      exact absurd hp (List.not_mem_nil p)
    · rfl
    · rw [DrawingArea.foldl_translate_heap offset _ d hsel p, if_pos hp]
    · rw [DrawingArea.foldl_translate_heap offset _ d hsel p, if_neg hp]
  refine ⟨fun p hp => ?_, fun p hp => ?_, ?_, ?_, ?_, ?_⟩
  · rw [heap p, if_pos hp]
    rfl
  · rw [heap p, if_neg hp]
  · rw [DrawingArea.moveSelectedShapes_eq offset d]
  · rw [DrawingArea.moveSelectedShapes_eq offset d]
  · rw [DrawingArea.moveSelectedShapes_eq offset d]
  · rw [DrawingArea.moveSelectedShapes_eq offset d]

/-- The translation at a concrete input: the sequence `[A, B, C, D]` with the selection list
`[D, B]` and the offset (3, 4). -/
theorem moveSelectedShapes_translates_each_once_witness :
    fourWithTwoSelected.m_selectedShapes.Nodup ∧
    fourWithTwoSelected.m_selectedShapes = [8, 4] ∧
    ((fourWithTwoSelected.moveSelectedShapes ⟨3, 4⟩).heap 8).m_boundingRect =
      ⟨63, 4, 10, 10⟩ ∧
    ((fourWithTwoSelected.moveSelectedShapes ⟨3, 4⟩).heap 4).m_boundingRect =
      ⟨23, 4, 10, 10⟩ ∧
    (fourWithTwoSelected.moveSelectedShapes ⟨3, 4⟩).heap 2 = fourWithTwoSelected.heap 2 ∧
    (fourWithTwoSelected.moveSelectedShapes ⟨3, 4⟩).m_shapes = [2, 4, 6, 8] := by
  have h := moveSelectedShapes_translates_each_once ⟨3, 4⟩ fourWithTwoSelected (by decide)
  refine ⟨by decide, by decide, ?_, ?_, ?_, ?_⟩
  · rw [h.1 8 (by decide)]
    decide
  · rw [h.1 4 (by decide)]
    decide
  · exact h.2.1 2 (by decide)
  · rw [h.2.2.1]
    decide

/-- C29 (undo inverts the layer calls). For every state whose sequence holds no shape twice
and no null pointer and whose selected shapes are in the sequence (the selection list may
even repeat a shape), each of `moveSelectedShapesUp`, `moveSelectedShapesDown`,
`moveSelectedShapesToTop` and `moveSelectedShapesToBottom` completes, pushes a list `ops` of
`LayerChange` operations and leaves a permutation of the sequence; and when the number `j`
of these operations is at most `getMaxUndoSteps()`, they are the newest `j` entries of the
undo stack, `j` calls of `undo()` complete, and the sequence is then exactly the sequence
that held before the call (the heap is unchanged throughout). -/
theorem layer_call_undone_restores_sequence (contains : Shape → QPointF → Bool)
    (u : Nat → Operation) (d : DrawingArea)
    (f : (Nat → Operation) → DrawingArea → Option DrawingArea)
    (hf : f = DrawingArea.moveSelectedShapesUp ∨ f = DrawingArea.moveSelectedShapesDown ∨
      f = DrawingArea.moveSelectedShapesToTop ∨ f = DrawingArea.moveSelectedShapesToBottom)
    (hnd : d.m_shapes.Nodup) (hz : (0 : Ptr) ∉ d.m_shapes)
    (hlive : ∀ s ∈ d.m_selectedShapes, s ∈ d.m_shapes) :
    ∃ d1 ops, f u d = some d1 ∧
      d1.m_undoStack = (d.addOperations ops).m_undoStack ∧
      d1.m_redoStack = (d.addOperations ops).m_redoStack ∧
      (∀ op ∈ ops, op.type = OperationType.LayerChange) ∧
      d1.m_shapes.Perm d.m_shapes ∧ d1.getMaxUndoSteps = d.getMaxUndoSteps ∧
      ((ops.length : Int) ≤ d.getMaxUndoSteps →
        ∃ pre d2, d1.m_undoStack = pre ++ ops ∧
          runCalls contains (List.replicate ops.length Call.undo) d1 = some d2 ∧
          d2.m_shapes = d.m_shapes ∧ d2.m_undoStack = pre ∧ ∀ p, d2.heap p = d.heap p) := by
  have key : ∀ d1 steps, DrawingArea.LayerResult d steps d1 →
      d1.m_undoStack = (d.addOperations (steps.map Prod.fst)).m_undoStack ∧
      d1.m_redoStack = (d.addOperations (steps.map Prod.fst)).m_redoStack ∧
      (∀ op ∈ steps.map Prod.fst, op.type = OperationType.LayerChange) ∧
      d1.m_shapes.Perm d.m_shapes ∧ d1.getMaxUndoSteps = d.getMaxUndoSteps ∧
      (((steps.map Prod.fst).length : Int) ≤ d.getMaxUndoSteps →
        ∃ pre d2, d1.m_undoStack = pre ++ steps.map Prod.fst ∧
          runCalls contains (List.replicate (steps.map Prod.fst).length Call.undo) d1 =
            some d2 ∧
          d2.m_shapes = d.m_shapes ∧ d2.m_undoStack = pre ∧ ∀ p, d2.heap p = d.heap p) := by
    intro d1 steps H
    refine ⟨H.2.1, H.2.2.1, ?_, (DrawingArea.layerSteps_length H.1).2, H.2.2.2.1, ?_⟩
    · intro op hop
      obtain ⟨st, hst, rfl⟩ := List.mem_map.mp hop
      exact DrawingArea.layerSteps_type H.1 st hst
    · intro hmax
      rw [List.length_map] at hmax ⊢
      obtain ⟨pre, d2, h1, h2, h3, h4, h5⟩ :=
        DrawingArea.undo_of_layerResult contains H hnd hz hmax
      exact ⟨pre, d2, h1, h2, h3, h5, fun p => by rw [h4]⟩
  rcases hf with hf | hf | hf | hf
  · obtain ⟨d1, steps, h1, h2, -⟩ := DrawingArea.moveSelectedShapesUp_result u d hlive
    exact ⟨d1, steps.map Prod.fst, by rw [hf]; exact h1, key d1 steps h2⟩
  · obtain ⟨d1, steps, h1, h2, -⟩ := DrawingArea.moveSelectedShapesDown_result u d hlive
    exact ⟨d1, steps.map Prod.fst, by rw [hf]; exact h1, key d1 steps h2⟩
  · obtain ⟨d1, steps, h1, h2, -⟩ := DrawingArea.moveSelectedShapesToTop_result u d hlive
    exact ⟨d1, steps.map Prod.fst, by rw [hf]; exact h1, key d1 steps h2⟩
  · obtain ⟨d1, steps, h1, h2, -⟩ := DrawingArea.moveSelectedShapesToBottom_result u d hlive
    exact ⟨d1, steps.map Prod.fst, by rw [hf]; exact h1, key d1 steps h2⟩

/-- C29, witness: the sequence `[A, B, C, D]` with the selection list `[C, A]` and
`moveSelectedShapesToTop`, which gives `[B, D, C, A]` with two operations. -/
theorem layer_call_undone_restores_sequence_witness :
    (fourWithOuterSelected.m_shapes = [2, 4, 6, 8] ∧
      fourWithOuterSelected.m_selectedShapes = [6, 2] ∧
      (fourWithOuterSelected.moveSelectedShapesToTop zeroUninit).map
        (fun d => (d.m_shapes, d.m_undoStack.drop 4)) =
        some ([4, 8, 6, 2], [⟨OperationType.LayerChange, 6, 0, 2, 3⟩,
          ⟨OperationType.LayerChange, 2, 0, 0, 2⟩])) ∧
    (∃ d1 ops, fourWithOuterSelected.moveSelectedShapesToTop zeroUninit = some d1 ∧
      d1.m_undoStack = (fourWithOuterSelected.addOperations ops).m_undoStack ∧
      ((ops.length : Int) ≤ fourWithOuterSelected.getMaxUndoSteps →
        ∃ pre d2, d1.m_undoStack = pre ++ ops ∧
          runCalls hitTest (List.replicate ops.length Call.undo) d1 = some d2 ∧
          d2.m_shapes = [2, 4, 6, 8])) ∧
    ((fourWithOuterSelected.moveSelectedShapesToTop zeroUninit).bind
      (runCalls hitTest [Call.undo, Call.undo])).map (fun d => d.m_shapes) =
        some [2, 4, 6, 8] := by
  refine ⟨⟨by decide, by decide, by decide⟩, ?_, by decide⟩
  obtain ⟨d1, ops, h1, h2, -, -, -, -, h7⟩ :=
    layer_call_undone_restores_sequence hitTest zeroUninit fourWithOuterSelected
      DrawingArea.moveSelectedShapesToTop (Or.inr (Or.inr (Or.inl rfl))) (by decide)
      (by decide) (by decide)
  refine ⟨d1, ops, h1, h2, fun hmax => ?_⟩
  obtain ⟨pre, d2, e1, e2, e3, -, -⟩ := h7 hmax
  refine ⟨pre, d2, e1, e2, ?_⟩
  rw [e3]
  decide

/-- C30 (undo and redo of a move or resize gesture). For every state whose undo stack ends in
a `MoveShape` or `ResizeShape` operation `op`, a completed `undo()` leaves every object of
the heap as it was (bounding rectangle, colour, line width, filled flag and fill colour
included, and the clone `op.oldShape` is not read); apart from the stack motion and the
cleared selection list only the sequence can differ, and it is a permutation of the former
one in which all entries other than `op.shape` keep their order. The call completes unless
`op.shape` is in the sequence and `op.oldIndex` is not below the sequence length. `redo()`
is the same with `op.newIndex`. Third part: at the release that ends a move gesture (Move
mode, `m_isMoving` set, no resize in progress) the operations `moveOps` are pushed, and for
every `j` up to their number and up to the history limit the newest `j` entries of the undo
stack are the newest `j` of them, `j` calls of `undo()` complete, and the sequence and the
heap are then as before the release. -/
theorem move_resize_undo_redo_keep_geometry :
    (∀ (d : DrawingArea) (rest : List Operation) (op : Operation),
      op.type = OperationType.MoveShape ∨ op.type = OperationType.ResizeShape →
      d.m_undoStack = rest ++ [op] →
      (d.undo = none ↔
        op.shape ≠ 0 ∧ op.shape ∈ d.m_shapes ∧ (d.m_shapes.length : Int) ≤ op.oldIndex) ∧
      (∀ d1, d.undo = some d1 →
        (∀ p, d1.heap p = d.heap p) ∧
        d1 = { d with
          m_shapes := d1.m_shapes,
          m_undoStack := rest,
          m_redoStack := d.m_redoStack ++ [op],
          m_selectedShapes := [] } ∧
        d1.m_shapes.Perm d.m_shapes ∧
        (d1.m_shapes.filter fun x => decide (x ≠ op.shape)) =
          d.m_shapes.filter fun x => decide (x ≠ op.shape))) ∧
    (∀ (d : DrawingArea) (rest : List Operation) (op : Operation),
      op.type = OperationType.MoveShape ∨ op.type = OperationType.ResizeShape →
      d.m_redoStack = rest ++ [op] →
      (d.redo = none ↔
        op.shape ≠ 0 ∧ op.shape ∈ d.m_shapes ∧ (d.m_shapes.length : Int) ≤ op.newIndex) ∧
      (∀ d1, d.redo = some d1 →
        (∀ p, d1.heap p = d.heap p) ∧
        d1 = { d with
          m_shapes := d1.m_shapes,
          m_redoStack := rest,
          m_undoStack := d.m_undoStack ++ [op],
          m_selectedShapes := [] } ∧
        d1.m_shapes.Perm d.m_shapes ∧
        (d1.m_shapes.filter fun x => decide (x ≠ op.shape)) =
          d.m_shapes.filter fun x => decide (x ≠ op.shape))) ∧
    (∀ (contains : Shape → QPointF → Bool) (d : DrawingArea) (button : MouseButton)
      (u : Nat → Operation) (j : Nat),
      d.m_editMode = EditMode.Move → d.m_isMoving = true → d.m_isResizing = false →
      j ≤ (DrawingArea.moveOps (fun k => u (k + 2)) d.m_shapes d.m_moveStartPositions).length →
      (j : Int) ≤ d.m_maxUndoSteps →
      (∀ op ∈ DrawingArea.moveOps (fun k => u (k + 2)) d.m_shapes d.m_moveStartPositions,
        op.type = OperationType.MoveShape ∧ (op.shape, op.oldShape) ∈ d.m_moveStartPositions) ∧
      ∃ pre d2,
        (d.mouseReleaseEvent button u).m_undoStack =
          pre ++ (DrawingArea.moveOps (fun k => u (k + 2)) d.m_shapes
            d.m_moveStartPositions).drop
              ((DrawingArea.moveOps (fun k => u (k + 2)) d.m_shapes
                d.m_moveStartPositions).length - j) ∧
        runCalls contains (List.replicate j Call.undo) (d.mouseReleaseEvent button u) =
          some d2 ∧
        d2.m_shapes = d.m_shapes ∧ (∀ p, d2.heap p = d.heap p) ∧ d2.m_undoStack = pre) := by
  refine ⟨?_, ?_, ?_⟩
  · intro d rest op hty hst
    have hundo : d.undo = DrawingArea.replay op op.oldIndex { d with
        m_undoStack := rest,
        m_redoStack := d.m_redoStack ++ [op],
        m_selectedShapes := [] } := by
      rw [DrawingArea.undo_of_append hst]
      rcases hty with ht | ht <;> rw [ht]
    constructor
    · rw [hundo, DrawingArea.replay_eq_none_iff]
    · intro d1 h1
      rw [hundo] at h1
      obtain ⟨he, hperm, hfil⟩ := DrawingArea.replay_document h1
      refine ⟨fun p => ?_, he, hperm, hfil⟩
      rw [he]
  · intro d rest op hty hst
    have hredo : d.redo = DrawingArea.replay op op.newIndex { d with
        m_redoStack := rest,
        m_undoStack := d.m_undoStack ++ [op],
        m_selectedShapes := [] } := by
      rw [DrawingArea.redo_of_append hst]
      rcases hty with ht | ht <;> rw [ht]
    constructor
    · rw [hredo, DrawingArea.replay_eq_none_iff]
    · intro d1 h1
      rw [hredo] at h1
      obtain ⟨he, hperm, hfil⟩ := DrawingArea.replay_document h1
      refine ⟨fun p => ?_, he, hperm, hfil⟩
      rw [he]
  · intro contains d button u j hmode hm hr hj hmax
    obtain ⟨ops, hops⟩ : ∃ ops,
        DrawingArea.moveOps (fun k => u (k + 2)) d.m_shapes d.m_moveStartPositions = ops :=
      ⟨_, rfl⟩
    have hspec := DrawingArea.moveOps_spec (fun k => u (k + 2)) d.m_shapes
      d.m_moveStartPositions
    obtain ⟨hsh, hheap, hus, -⟩ := DrawingArea.release_of_move_gesture button u d hmode hm hr
    rw [hops] at hspec hus hj ⊢
    refine ⟨fun op hop => ⟨(hspec op hop).1, (hspec op hop).2.2⟩, ?_⟩
    have hsplit : ops = ops.take (ops.length - j) ++ ops.drop (ops.length - j) :=
      (List.take_append_drop _ _).symm
    have hlenB : (ops.drop (ops.length - j)).length = j := by
      rw [List.length_drop]
      omega
    obtain ⟨pre, hpre⟩ := DrawingArea.addOperations_suffix (ops.drop (ops.length - j))
      (d.addOperations (ops.take (ops.length - j)))
      (d.addOperations (ops.take (ops.length - j))).m_undoStack [] (by simp)
      (by
        rw [(DrawingArea.addOperations_document _ d).2.2, List.length_nil, Nat.zero_add, hlenB]
        exact hmax)
    rw [← DrawingArea.addOperations_append, ← hsplit] at hpre
    have hst : (d.mouseReleaseEvent button u).m_undoStack =
        pre ++ ops.drop (ops.length - j) := by
      rw [hus, hpre]
      simp
    obtain ⟨d2, hrun, h1, h2, h3, -⟩ := DrawingArea.undo_at_current_index contains j
      (ops.drop (ops.length - j)) (d.mouseReleaseEvent button u) pre hst
      (by
        intro op hop
        have hmem : op ∈ ops := List.mem_of_mem_drop hop
        refine ⟨Or.inl (hspec op hmem).1, ?_⟩
        rw [hsh]
        exact (hspec op hmem).2.1)
      (by omega)
    refine ⟨pre, d2, hst, hrun, by rw [h1, hsh], fun p => by rw [h2, hheap], ?_⟩
    rw [h3, hlenB, Nat.sub_self, List.take_zero, List.append_nil]

/-- C30, witness: the drag of the two selected ellipses A and B in `twoBeingMoved`, released
and undone twice, and the `undo()` after the drag of `movedWithStaleIndex`. -/
theorem move_resize_undo_redo_keep_geometry_witness :
    (twoBeingMoved.m_editMode = EditMode.Move ∧ twoBeingMoved.m_isMoving = true ∧
      twoBeingMoved.m_isResizing = false ∧ ((2 : Nat) : Int) ≤ twoBeingMoved.m_maxUndoSteps ∧
      DrawingArea.moveOps (fun k => staleUninit (k + 2)) twoBeingMoved.m_shapes
          twoBeingMoved.m_moveStartPositions =
        [⟨OperationType.MoveShape, 2, 7, 0, 7⟩, ⟨OperationType.MoveShape, 4, 8, 1, 7⟩]) ∧
    (∃ pre d2,
      (twoBeingMoved.mouseReleaseEvent MouseButton.LeftButton staleUninit).m_undoStack =
        pre ++ [⟨OperationType.MoveShape, 2, 7, 0, 7⟩, ⟨OperationType.MoveShape, 4, 8, 1, 7⟩] ∧
      runCalls hitTest [Call.undo, Call.undo]
          (twoBeingMoved.mouseReleaseEvent MouseButton.LeftButton staleUninit) = some d2 ∧
      d2.m_shapes = [2, 4, 6] ∧ (d2.heap 2).m_boundingRect = ⟨3, 4, 10, 10⟩) ∧
    (∀ d1, movedWithStaleIndex.undo = some d1 →
      ∀ p, d1.heap p = movedWithStaleIndex.heap p) := by
  have h := move_resize_undo_redo_keep_geometry
  refine ⟨⟨by decide, by decide, by decide, by decide, by decide⟩, ?_, ?_⟩
  · obtain ⟨-, pre, d2, h1, h2, h3, h4, -⟩ :=
      h.2.2 hitTest twoBeingMoved MouseButton.LeftButton staleUninit 2 (by decide) (by decide)
        (by decide) (by decide) (by decide)
    refine ⟨pre, d2, h1, h2, ?_, ?_⟩
    · rw [h3]
      decide
    · rw [h4 2]
      decide
  · intro d1 h1
    exact ((h.1 movedWithStaleIndex
      [⟨OperationType.AddShape, 2, 0, 0, 0⟩, ⟨OperationType.AddShape, 4, 0, 1, 0⟩]
      ⟨OperationType.MoveShape, 4, 5, 1, 7⟩ (Or.inl rfl) (by decide)).2 d1 h1).1
